import Mathlib

/-!
# Object pool (pool.h): shallow embedding and verified properties

The embedding follows `src/src/pool.h` method by method.

* Addresses are natural numbers, a pointer is an `Option Nat` (`none` is `nullptr`).
* The memory a pool owns is a map from addresses to node storage; an address that
  maps to `none` is not allocated.
* Every operation that dereferences a pointer returns an `Option`: the result `none`
  stands for behaviour the C++ source leaves undefined (dereferencing `nullptr` or
  released storage, ending the lifetime of an object that is not alive, reading a bit
  of a `std::bitset<N>` at an index that is not below `N`), for a loop
  that is still running when its fuel is used up, and for an answer of `operator new`
  that names storage which is still allocated.
* `std::size_t` counters are natural numbers.  A decrement is written with truncated
  subtraction; the source decrements a counter only when it is positive in every
  state reached through the public interface (see `Reachable` and `reachable_inv`).
-/

namespace pool_impl

/-! ## Flags and template parameters -/

/-- The type `Pool_flags_t` of the flag word. -/
abbrev Pool_flags_t := Nat

/-- Flag `POOL_DTOR_OFF`, bit 0. -/
def POOL_DTOR_OFF : Pool_flags_t := 1 <<< 0
/-- Flag `POOL_FIXED_CAPACITY`, bit 1. -/
def POOL_FIXED_CAPACITY : Pool_flags_t := 1 <<< 1
/-- Flag `POOL_SELF_MOVE_GUARD`, bit 2. -/
def POOL_SELF_MOVE_GUARD : Pool_flags_t := 1 <<< 2
/-- Flag `POOL_CREATE_EXCEPTION`, bit 3. -/
def POOL_CREATE_EXCEPTION : Pool_flags_t := 1 <<< 3
/-- Flag `POOL_RESERVE_EXCEPTION`, bit 4. -/
def POOL_RESERVE_EXCEPTION : Pool_flags_t := 1 <<< 4

/-- The test `Flags & f` of the source, as a boolean. -/
def flag_set (Flags f : Pool_flags_t) : Bool := (Flags &&& f) != 0

/-- The seven pool classes of the source. -/
inductive Impl where
  | SPool_list
  | SPool_list_bitset
  | SPool_dlist
  | Pool_list
  | Pool_dlist
  | Pool_list_block
  | Pool_dlist_block
  deriving DecidableEq, Repr

/-- The class derives from `SPool_base` (slots held inline in `m_pool`). -/
def Impl.is_static : Impl → Bool
  | .SPool_list | .SPool_list_bitset | .SPool_dlist => true
  | _ => false

/-- The class uses `Pool_dlist_base` as its node-management algorithm
(the others use `Pool_list_base`). -/
def Impl.is_dlist : Impl → Bool
  | .SPool_dlist | .Pool_dlist | .Pool_dlist_block => true
  | _ => false

/-- The class uses `Pool_block_allocator` (the other dynamic classes use
`Pool_node_allocator`). -/
def Impl.is_block : Impl → Bool
  | .Pool_list_block | .Pool_dlist_block => true
  | _ => false

/-- The template arguments of a pool: the class, `N` and `Flags`. -/
structure Cfg where
  impl : Impl
  N : Nat
  Flags : Pool_flags_t

/-! ## Memory -/

/-- Storage of one `Node`.

For `Pool_dlist_base` the node is `struct { union { Node* next; dlist_head head; }; Data data; }`:
`next` is the first word (the member `next` and `head.next` share it), `prev` is
`head.prev` and `data` holds the element while its lifetime runs.  The sentinel
`m_used_nodes` is a `dlist_head` and is stored the same way with `data = none`.

For `Pool_list_base` the node is `union { Node* next; Data data; }`: `next` and `data`
share the storage, so constructing the element ends the validity of `next` (the
embedding then stores `next = none`), and `prev` is unused. -/
structure Node (T : Type) where
  next : Option Nat
  prev : Option Nat
  data : Option T

/-- The memory owned by a pool. -/
abbrev Mem (T : Type) := Nat → Option (Node T)

/-- A value-initialised node (`new Node()`, or a slot of `m_pool` before it is linked). -/
def Node.blank {T : Type} : Node T := { next := none, prev := none, data := none }

/-- Assignment `a->next = v`. -/
def store_next {T : Type} (m : Mem T) (a : Nat) (v : Option Nat) : Option (Mem T) :=
  (m a).map fun n => Function.update m a (some { n with next := v })

/-- Assignment `a->prev = v`. -/
def store_prev {T : Type} (m : Mem T) (a : Nat) (v : Option Nat) : Option (Mem T) :=
  (m a).map fun n => Function.update m a (some { n with prev := v })

/-- Begin (`some v`) or end (`none`) the lifetime of the element stored in the `data`
member of node `a`. -/
def store_data {T : Type} (m : Mem T) (a : Nat) (v : Option T) : Option (Mem T) :=
  (m a).map fun n => Function.update m a (some { n with data := v })

/-- Result of `new (std::nothrow) Node()` at address `a`: the storage must not be in use. -/
def alloc_node {T : Type} (m : Mem T) (a : Nat) : Option (Mem T) :=
  if (m a).isNone then some (Function.update m a (some Node.blank)) else none

/-- Effect of `delete` on the node at `a`. -/
def free_node {T : Type} (m : Mem T) (a : Nat) : Mem T := Function.update m a none

/-- The addresses of the array `nodes` of a block (or of `m_pool`) that starts at `b`. -/
def array_nodes (b N : Nat) : List Nat := List.range' b N

/-- Result of `new (std::nothrow) Block()` whose `nodes` array starts at `b`. -/
def alloc_block {T : Type} (m : Mem T) (b N : Nat) : Option (Mem T) :=
  (array_nodes b N).foldlM alloc_node m

/-- Effect of `delete block` for the block whose `nodes` array starts at `b`. -/
def free_block {T : Type} (m : Mem T) (b N : Nat) : Mem T :=
  (array_nodes b N).foldl free_node m

/-! ## Pool state -/

/-- The data members of a pool object together with the memory it owns.

* `m_size` (`Pool_base`), `m_capacity` (`DPool_base`; unused by static pools),
* `m_free_nodes` (`Pool_list_base`, `Pool_dlist_base`),
* `m_used_nodes` is the address of the sentinel `dlist_head m_used_nodes` of
  `Pool_dlist_base`; its two links are stored in `mem` at that address,
* `m_blocks` (`Pool_block_allocator`): the chain of blocks linked through `Block::next`,
  first block first, each block given by the address of `nodes[0]`,
* `m_used` (`SPool_list_bitset`): the bits of the `std::bitset<N>`; only the indices
  below `N` belong to the vector (`bitset_test` is the read through `operator[]`),
* static pools keep `m_pool[i]` at address `i`. -/
structure State (T : Type) where
  m_size : Nat
  m_capacity : Nat
  m_free_nodes : Option Nat
  m_used_nodes : Nat
  m_blocks : List Nat
  m_used : Nat → Bool
  mem : Mem T

/-! ## Pool_base, SPool_base, DPool_base: queries -/

/-- Method `Pool_base::size`. -/
def Pool_base.size {T : Type} (s : State T) : Nat := s.m_size

/-- Method `Pool_base::empty`. -/
def Pool_base.empty {T : Type} (s : State T) : Bool := Pool_base.size s == 0

/-- Method `capacity`: `SPool_base::capacity` returns `N`, `DPool_base::capacity`
returns `m_capacity`. -/
def capacity {T : Type} (c : Cfg) (s : State T) : Nat :=
  if c.impl.is_static then c.N else s.m_capacity

/-- Method `Pool_base::full`. -/
def Pool_base.full {T : Type} (c : Cfg) (s : State T) : Bool :=
  Pool_base.size s == capacity c s

/-! ## Free chain primitives

`Pool_list_base` and `Pool_dlist_base` define these four methods with the same text. -/

/-- Method `top_free_node`. -/
def top_free_node {T : Type} (s : State T) : Option Nat := s.m_free_nodes

/-- Method `reset_free_nodes`. -/
def reset_free_nodes {T : Type} (s : State T) : State T := { s with m_free_nodes := none }

/-- Method `pop_free_node`: `free_node = m_free_nodes; m_free_nodes = free_node->next`. -/
def pop_free_node {T : Type} (s : State T) : Option (State T) := do
  let free_node ← s.m_free_nodes
  let n ← s.mem free_node
  some { s with m_free_nodes := n.next }

/-- Method `add_to_free_nodes(Node*)`: `node->next = m_free_nodes; m_free_nodes = node`. -/
def add_to_free_nodes {T : Type} (s : State T) (node : Nat) : Option (State T) := do
  let m ← store_next s.mem node s.m_free_nodes
  some { s with mem := m, m_free_nodes := some node }

/-- Method `add_to_free_nodes(std::array<Node, N>&)`: every node of the array, in order. -/
def add_to_free_nodes_array {T : Type} (s : State T) (nodes : List Nat) : Option (State T) :=
  nodes.foldlM add_to_free_nodes s

/-! ## dlist_head -/

/-- Method `dlist_head::init`: `prev = next = this`. -/
def dlist_head.init {T : Type} (m : Mem T) (this : Nat) : Option (Mem T) := do
  let m ← store_next m this (some this)
  store_prev m this (some this)

/-- Method `dlist_head::empty`: `next == this`. -/
def dlist_head.empty {T : Type} (m : Mem T) (this : Nat) : Option Bool := do
  let n ← m this
  some (n.next == some this)

/-- Static method `dlist_head::insert`. -/
def dlist_head.insert {T : Type} (m : Mem T) (node prev next : Nat) : Option (Mem T) := do
  let m ← store_prev m next (some node)
  let m ← store_next m node (some next)
  let m ← store_prev m node (some prev)
  store_next m prev (some node)

/-- Method `dlist_head::push_back`: `insert(node, prev, this)`. -/
def dlist_head.push_back {T : Type} (m : Mem T) (this node : Nat) : Option (Mem T) := do
  let n ← m this
  let prev ← n.prev
  dlist_head.insert m node prev this

/-- Static method `dlist_head::del`: `next->prev = prev; prev->next = next`. -/
def dlist_head.del {T : Type} (m : Mem T) (prev next : Nat) : Option (Mem T) := do
  let m ← store_prev m next (some prev)
  store_next m prev (some next)

/-- Static method `dlist_head::del_node`: `del(node->prev, node->next)`. -/
def dlist_head.del_node {T : Type} (m : Mem T) (node : Nat) : Option (Mem T) := do
  let n ← m node
  let prev ← n.prev
  let next ← n.next
  dlist_head.del m prev next

/-- Method `dlist_head::remove`: `del_node(this)`. -/
def dlist_head.remove {T : Type} (m : Mem T) (this : Nat) : Option (Mem T) :=
  dlist_head.del_node m this

/-- Method `dlist_head::move_to_back`: `del_node(this); new_head->push_back(this)`. -/
def dlist_head.move_to_back {T : Type} (m : Mem T) (this new_head : Nat) : Option (Mem T) := do
  let m ← dlist_head.del_node m this
  dlist_head.push_back m new_head this

/-- Static method `dlist_head::splice`. -/
def dlist_head.splice {T : Type} (m : Mem T) (list prev next : Nat) : Option (Mem T) := do
  let l ← m list
  let first ← l.next
  let last ← l.prev
  let m ← store_prev m first (some prev)
  let m ← store_next m prev (some first)
  let m ← store_next m last (some next)
  store_prev m next (some last)

/-- Method `dlist_head::splice_front`. -/
def dlist_head.splice_front {T : Type} (m : Mem T) (this src : Nat) : Option (Mem T) := do
  let e ← dlist_head.empty m src
  if !e then
    let t ← m this
    let next ← t.next
    let m ← dlist_head.splice m src this next
    dlist_head.init m src
  else
    some m

/-! ## Pool_list_base -/

/-- Method `Pool_list_base::create_obj` when the constructor of the element returns
normally.  The returned pointer is the address of the node (the element is the union
member `data` of the node). -/
def Pool_list_base.create_obj {T : Type} (s : State T) (v : T) :
    Option (Option Nat × State T) :=
  match s.m_free_nodes with
  | none => some (none, s)
  | some free_node => do
    let n ← s.mem free_node
    let next_node := n.next
    let m := Function.update s.mem free_node (some { n with next := none, data := some v })
    some (some free_node, { s with mem := m, m_size := s.m_size + 1, m_free_nodes := next_node })

/-- Method `Pool_list_base::destroy_obj`: `m_size--; std::destroy_at(obj);
add_to_free_nodes((Node*)obj)`. -/
def Pool_list_base.destroy_obj {T : Type} (s : State T) (obj : Nat) : Option (State T) := do
  let n ← s.mem obj
  let _ ← n.data
  let m ← store_data s.mem obj none
  add_to_free_nodes { s with m_size := s.m_size - 1, mem := m } obj

/-- Method `Pool_list_base::destroy`: `if(obj) destroy_obj(obj)`. -/
def Pool_list_base.destroy {T : Type} (s : State T) (obj : Option Nat) : Option (State T) :=
  match obj with
  | none => some s
  | some a => Pool_list_base.destroy_obj s a

/-- Method `Pool_list_base::destroy_all`, protected and empty. -/
def Pool_list_base.destroy_all {T : Type} (s : State T) : State T := s

/-! ## Pool_dlist_base -/

/-- Constructor `Pool_dlist_base()`: `m_used_nodes.init()`. -/
def Pool_dlist_base.ctor {T : Type} (s : State T) : Option (State T) := do
  let m ← dlist_head.init s.mem s.m_used_nodes
  some { s with mem := m }

/-- Method `Pool_dlist_base::create_obj` when the constructor of the element returns
normally.  The returned pointer is identified with the address of the node
(`get_node` and `get_data` only add or subtract `offsetof(Node, data)`). -/
def Pool_dlist_base.create_obj {T : Type} (s : State T) (v : T) :
    Option (Option Nat × State T) :=
  match s.m_free_nodes with
  | none => some (none, s)
  | some free_node => do
    let m ← store_data s.mem free_node (some v)
    let n ← m free_node
    let m ← dlist_head.push_back m s.m_used_nodes free_node
    some (some free_node, { s with mem := m, m_free_nodes := n.next, m_size := s.m_size + 1 })

/-- Method `Pool_dlist_base::destroy_obj`: `m_size--; std::destroy_at(obj);
node->head.remove(); add_to_free_nodes(node)`. -/
def Pool_dlist_base.destroy_obj {T : Type} (s : State T) (obj : Nat) : Option (State T) := do
  let n ← s.mem obj
  let _ ← n.data
  let m ← store_data s.mem obj none
  let m ← dlist_head.remove m obj
  add_to_free_nodes { s with m_size := s.m_size - 1, mem := m } obj

/-- Method `Pool_dlist_base::destroy(const T*)`: `if(obj) destroy_obj(obj)`. -/
def Pool_dlist_base.destroy {T : Type} (s : State T) (obj : Option Nat) : Option (State T) :=
  match obj with
  | none => some s
  | some a => Pool_dlist_base.destroy_obj s a

/-- The loop of `Pool_dlist_base::for_each`, entered with `iter`; `used` is
`&m_used_nodes`.  The callback may change the pool and a value `acc` of its own. -/
def Pool_dlist_base.for_each_loop {T α : Type}
    (f : State T → α → Nat → Option (State T × α)) (used : Nat) :
    Nat → State T → α → Option Nat → Option (State T × α)
  | 0, s, acc, iter => if iter = some used then some (s, acc) else none
  | fuel + 1, s, acc, iter =>
    if iter = some used then some (s, acc) else do
      let it ← iter
      let n ← s.mem it
      let next_iter := n.next
      let r ← f s acc it
      Pool_dlist_base.for_each_loop f used fuel r.1 r.2 next_iter

/-- Method `Pool_dlist_base::for_each`. -/
def Pool_dlist_base.for_each {T α : Type} (fuel : Nat)
    (f : State T → α → Nat → Option (State T × α)) (s : State T) (acc : α) :
    Option (State T × α) := do
  let h ← s.mem s.m_used_nodes
  Pool_dlist_base.for_each_loop f s.m_used_nodes fuel s acc h.next

/-- Method `Pool_dlist_base::destroy_all`: `for_each` with `destroy_obj`. -/
def Pool_dlist_base.destroy_all {T : Type} (fuel : Nat) (s : State T) : Option (State T) :=
  (Pool_dlist_base.for_each fuel
    (fun s (_ : Unit) obj => (Pool_dlist_base.destroy_obj s obj).map fun s => (s, ())) s ()).map
    Prod.fst

/-- Method `Pool_dlist_base::begin`: the iterator holds `m_used_nodes.next`. -/
def Pool_dlist_base.begin {T : Type} (s : State T) : Option (Option Nat) :=
  (s.mem s.m_used_nodes).map fun h => h.next

/-- Method `Pool_dlist_base::end`: the iterator holds `&m_used_nodes`. -/
def Pool_dlist_base.end {T : Type} (s : State T) : Option Nat := some s.m_used_nodes

/-- Method `Pool_dlist_base::Iterator_t::increment`: `m_node = m_node->next`. -/
def Pool_dlist_base.Iterator_t.increment {T : Type} (s : State T) (m_node : Option Nat) :
    Option (Option Nat) := do
  let a ← m_node
  let n ← s.mem a
  some n.next

/-- Method `Pool_dlist_base::Iterator_t::decrement`: `m_node = m_node->prev`. -/
def Pool_dlist_base.Iterator_t.decrement {T : Type} (s : State T) (m_node : Option Nat) :
    Option (Option Nat) := do
  let a ← m_node
  let n ← s.mem a
  some n.prev

/-- Method `Pool_dlist_base::destroy(const_iterator)`: returns the iterator `ret` and
the new state. -/
def Pool_dlist_base.destroy_pos {T : Type} (s : State T) (pos : Option Nat) :
    Option (Option Nat × State T) := do
  let a ← pos
  let n ← s.mem a
  let ret := n.next
  let s ← Pool_dlist_base.destroy_obj s a
  some (ret, s)

/-- The loop of `Pool_dlist_base::destroy(first, last)`. -/
def Pool_dlist_base.destroy_range_loop {T : Type} (last : Option Nat) :
    Nat → State T → Option Nat → Option (State T)
  | 0, s, first => if first = last then some s else none
  | fuel + 1, s, first =>
    if first = last then some s else do
      let r ← Pool_dlist_base.destroy_pos s first
      Pool_dlist_base.destroy_range_loop last fuel r.2 r.1

/-- Method `Pool_dlist_base::destroy(first, last)`: returns `last` and the new state. -/
def Pool_dlist_base.destroy_range {T : Type} (fuel : Nat) (s : State T)
    (first last : Option Nat) : Option (Option Nat × State T) :=
  (Pool_dlist_base.destroy_range_loop last fuel s first).map fun s => (last, s)

/-! ## SPool_list -/

/-- The loop of `SPool_list::node_is_used`, entered with `free_node`. -/
def SPool_list.node_is_used_loop {T : Type} (m : Mem T) (node : Nat) :
    Nat → Option Nat → Option Bool
  | _, none => some true
  | 0, some _ => none
  | fuel + 1, some free_node =>
    if node = free_node then some false else do
      let n ← m free_node
      SPool_list.node_is_used_loop m node fuel n.next

/-- Method `SPool_list::node_is_used`. -/
def SPool_list.node_is_used {T : Type} (fuel : Nat) (s : State T) (node : Nat) : Option Bool :=
  SPool_list.node_is_used_loop s.mem node fuel s.m_free_nodes

/-- Method `SPool_list::for_each`. -/
def SPool_list.for_each {T α : Type} (c : Cfg) (fuel : Nat)
    (f : State T → α → Nat → Option (State T × α)) (s : State T) (acc : α) :
    Option (State T × α) :=
  if Pool_base.empty s then some (s, acc)
  else if Pool_base.full c s then
    (array_nodes 0 c.N).foldlM (fun r node => f r.1 r.2 node) (s, acc)
  else
    (array_nodes 0 c.N).foldlM (fun r node => do
      let used ← SPool_list.node_is_used fuel r.1 node
      if used then f r.1 r.2 node else some r) (s, acc)

/-- Method `SPool_list::destroy_all`: `for_each` with `destroy_obj`. -/
def SPool_list.destroy_all {T : Type} (c : Cfg) (fuel : Nat) (s : State T) : Option (State T) :=
  (SPool_list.for_each c fuel
    (fun s (_ : Unit) obj => (Pool_list_base.destroy_obj s obj).map fun s => (s, ())) s ()).map
    Prod.fst

/-! ## SPool_list_bitset -/

/-- Method `SPool_list_bitset::index_node`: the distance from `m_pool.cbegin()`;
`m_pool[i]` is kept at address `i`. -/
def SPool_list_bitset.index_node (node : Nat) : Nat := node

/-- Method `SPool_list_bitset::create` when the constructor of the element returns
normally. -/
def SPool_list_bitset.create {T : Type} (s : State T) (v : T) :
    Option (Option Nat × State T) :=
  match s.m_free_nodes with
  | none => some (none, s)
  | some free_node => do
    let i := SPool_list_bitset.index_node free_node
    let r ← Pool_list_base.create_obj s v
    some (r.1, { r.2 with m_used := Function.update r.2.m_used i true })

/-- Method `SPool_list_bitset::destroy(const T*)`. -/
def SPool_list_bitset.destroy {T : Type} (s : State T) (obj : Option Nat) : Option (State T) :=
  match obj with
  | none => some s
  | some a =>
    let i := SPool_list_bitset.index_node a
    Pool_list_base.destroy_obj { s with m_used := Function.update s.m_used i false } a

/-- Method `SPool_list_bitset::for_each`. -/
def SPool_list_bitset.for_each {T α : Type} (c : Cfg)
    (f : State T → α → Nat → Option (State T × α)) (s : State T) (acc : α) :
    Option (State T × α) :=
  if Pool_base.empty s then some (s, acc)
  else
    (List.range c.N).foldlM (fun r i => if r.1.m_used i then f r.1 r.2 i else some r) (s, acc)

/-- Method `std::bitset<N>::reset()`. -/
def bitset_reset (N : Nat) (m_used : Nat → Bool) : Nat → Bool :=
  fun i => if i < N then false else m_used i

/-- Method `SPool_list_bitset::destroy_all`: `for_each` with `destroy_obj`, then
`m_used.reset()`. -/
def SPool_list_bitset.destroy_all {T : Type} (c : Cfg) (s : State T) : Option (State T) :=
  (SPool_list_bitset.for_each c
    (fun s (_ : Unit) obj => (Pool_list_base.destroy_obj s obj).map fun s => (s, ())) s ()).map
    fun r => { r.1 with m_used := bitset_reset c.N r.1.m_used }

/-- Expression `m_used[i]` that reads a bit of the `std::bitset<N>`: `operator[]` does
not check the index, and an index that is not below `N` is undefined behaviour. -/
def bitset_test (N : Nat) (m_used : Nat → Bool) (i : Nat) : Option Bool :=
  if i < N then some (m_used i) else none

/-- The loop of `SPool_list_bitset::Iterator_t::next`: `while(m_cur_pos < N)
{ m_cur_pos++; if(m_pool->m_used[m_cur_pos]) break; }`; the first argument counts the
iterations that `m_cur_pos < N` still allows. -/
def SPool_list_bitset.Iterator_t.next_loop (N : Nat) (m_used : Nat → Bool) :
    Nat → Nat → Option Nat
  | 0, m_cur_pos => some m_cur_pos
  | k + 1, m_cur_pos =>
    if m_cur_pos < N then do
      let bit ← bitset_test N m_used (m_cur_pos + 1)
      if bit then some (m_cur_pos + 1)
      else SPool_list_bitset.Iterator_t.next_loop N m_used k (m_cur_pos + 1)
    else some m_cur_pos

/-- Method `SPool_list_bitset::Iterator_t::next` (and `increment`): the new position. -/
def SPool_list_bitset.Iterator_t.next {T : Type} (c : Cfg) (s : State T) (m_cur_pos : Nat) :
    Option Nat :=
  SPool_list_bitset.Iterator_t.next_loop c.N s.m_used (c.N - m_cur_pos) m_cur_pos

/-- The loop of `SPool_list_bitset::Iterator_t::prev`, entered with `m_cur_pos`. -/
def SPool_list_bitset.Iterator_t.prev_loop (N : Nat) (m_used : Nat → Bool) : Nat → Nat
  | 0 => N
  | m_cur_pos + 1 =>
    if m_used m_cur_pos then m_cur_pos
    else SPool_list_bitset.Iterator_t.prev_loop N m_used m_cur_pos

/-- Method `SPool_list_bitset::Iterator_t::prev` (and `decrement`). -/
def SPool_list_bitset.Iterator_t.prev {T : Type} (c : Cfg) (s : State T) (m_cur_pos : Nat) : Nat :=
  if Pool_base.empty s then c.N
  else SPool_list_bitset.Iterator_t.prev_loop c.N s.m_used m_cur_pos

/-- Method `SPool_list_bitset::Iterator_t::set_first_pos`: `N` for an empty pool, else
`m_cur_pos = 0; if(!m_pool->m_used[m_cur_pos]) next();`. -/
def SPool_list_bitset.Iterator_t.set_first_pos {T : Type} (c : Cfg) (s : State T) :
    Option Nat :=
  if Pool_base.empty s then some c.N
  else do
    let bit ← bitset_test c.N s.m_used 0
    if !bit then SPool_list_bitset.Iterator_t.next c s 0
    else some 0

/-- Constructor `Iterator_t(pool, cur_pos)`: `if(cur_pos != N) set_first_pos()`. -/
def SPool_list_bitset.Iterator_t.ctor {T : Type} (c : Cfg) (s : State T) (cur_pos : Nat) :
    Option Nat :=
  if cur_pos ≠ c.N then SPool_list_bitset.Iterator_t.set_first_pos c s else some cur_pos

/-- Method `SPool_list_bitset::begin`: `iterator(this, 0)`. -/
def SPool_list_bitset.begin {T : Type} (c : Cfg) (s : State T) : Option Nat :=
  SPool_list_bitset.Iterator_t.ctor c s 0

/-- Method `SPool_list_bitset::end`: `iterator(this, N)`; the constructor calls
`set_first_pos()` only `if(cur_pos != N)`, so the position is `N`. -/
def SPool_list_bitset.end {T : Type} (c : Cfg) (_s : State T) : Nat := c.N

/-- Method `SPool_list_bitset::destroy(const_iterator)`: `ret = pos; ++ret;
destroy(&(*pos)); return ret`. -/
def SPool_list_bitset.destroy_pos {T : Type} (c : Cfg) (s : State T) (pos : Nat) :
    Option (Nat × State T) := do
  let ret ← SPool_list_bitset.Iterator_t.next c s pos
  let s ← SPool_list_bitset.destroy s (some pos)
  some (ret, s)

/-- The loop of `SPool_list_bitset::destroy(first, last)`. -/
def SPool_list_bitset.destroy_range_loop {T : Type} (c : Cfg) (last : Nat) :
    Nat → State T → Nat → Option (State T)
  | 0, s, first => if first = last then some s else none
  | fuel + 1, s, first =>
    if first = last then some s else do
      let r ← SPool_list_bitset.destroy_pos c s first
      SPool_list_bitset.destroy_range_loop c last fuel r.2 r.1

/-- Method `SPool_list_bitset::destroy(first, last)`: returns `last` and the new state. -/
def SPool_list_bitset.destroy_range {T : Type} (c : Cfg) (fuel : Nat) (s : State T)
    (first last : Nat) : Option (Nat × State T) :=
  (SPool_list_bitset.destroy_range_loop c last fuel s first).map fun s => (last, s)

/-! ## Calls through `impl()` into the node-management algorithm -/

/-- Call `impl().create_obj(args)`: `Pool_dlist_base::create_obj` or
`Pool_list_base::create_obj`, by the class. -/
def create_obj {T : Type} (c : Cfg) (s : State T) (v : T) : Option (Option Nat × State T) :=
  if c.impl.is_dlist then Pool_dlist_base.create_obj s v else Pool_list_base.create_obj s v

/-- Call `impl().destroy_obj(obj)`, by the class. -/
def destroy_obj {T : Type} (c : Cfg) (s : State T) (obj : Nat) : Option (State T) :=
  if c.impl.is_dlist then Pool_dlist_base.destroy_obj s obj else Pool_list_base.destroy_obj s obj

/-! ## Pool_node_allocator -/

/-- Method `Pool_node_allocator::add_node`; `new_node` is the answer of
`new (std::nothrow) Node()`. -/
def Pool_node_allocator.add_node {T : Type} (s : State T) (new_node : Option Nat) :
    Option (State T) :=
  match new_node with
  | none => some s
  | some a => do
    let m ← alloc_node s.mem a
    let s ← add_to_free_nodes { s with mem := m } a
    some { s with m_capacity := s.m_capacity + 1 }

/-- Method `Pool_node_allocator::del_node`: `m_capacity--; top_node = top_free_node();
pop_free_node(); delete top_node`. -/
def Pool_node_allocator.del_node {T : Type} (s : State T) : Option (State T) := do
  let s := { s with m_capacity := s.m_capacity - 1 }
  let top_node := top_free_node s
  let s ← pop_free_node s
  let a ← top_node
  some { s with mem := free_node s.mem a }

/-- The loop of `Pool_node_allocator::shrink_to_fit`, entered with the counter `i`. -/
def Pool_node_allocator.shrink_to_fit_loop {T : Type} (c : Cfg) (new_cap : Nat) :
    Nat → State T → Option (State T)
  | 0, s => some s
  | i + 1, s =>
    if capacity c s > new_cap ∧ i + 1 > new_cap then do
      let s ← Pool_node_allocator.del_node s
      Pool_node_allocator.shrink_to_fit_loop c new_cap i s
    else some s

/-- Method `Pool_node_allocator::shrink_to_fit`. -/
def Pool_node_allocator.shrink_to_fit {T : Type} (c : Cfg) (s : State T) (new_cap : Nat) :
    Option (State T) :=
  let new_cap := max (Pool_base.size s) new_cap
  Pool_node_allocator.shrink_to_fit_loop c new_cap (capacity c s) s

/-- Method `Pool_node_allocator::dtor`: `while(top_free_node()) del_node()`. -/
def Pool_node_allocator.dtor {T : Type} : Nat → State T → Option (State T)
  | 0, s => if (top_free_node s).isNone then some s else none
  | fuel + 1, s =>
    if (top_free_node s).isNone then some s else do
      let s ← Pool_node_allocator.del_node s
      Pool_node_allocator.dtor fuel s

/-! ## Pool_block_allocator -/

/-- Method `Pool_block_allocator::add_node`; `new_block` is the answer of
`new (std::nothrow) Block()`, given by the address of `nodes[0]`. -/
def Pool_block_allocator.add_node {T : Type} (c : Cfg) (s : State T) (new_block : Option Nat) :
    Option (State T) :=
  match new_block with
  | none => some s
  | some b => do
    let m ← alloc_block s.mem b c.N
    let s ← add_to_free_nodes_array { s with mem := m } (array_nodes b c.N)
    some { s with m_blocks := b :: s.m_blocks, m_capacity := s.m_capacity + c.N }

/-- Method `Pool_block_allocator::del_node`: `block = m_blocks; m_blocks = block->next;
m_capacity -= N; delete block`. -/
def Pool_block_allocator.del_node {T : Type} (c : Cfg) (s : State T) : Option (State T) :=
  match s.m_blocks with
  | [] => none
  | block :: next =>
    some { s with m_blocks := next, m_capacity := s.m_capacity - c.N,
                  mem := free_block s.mem block c.N }

/-- Method `Pool_block_allocator::readd_blocks`. -/
def Pool_block_allocator.readd_blocks {T : Type} (c : Cfg) (s : State T) : Option (State T) :=
  s.m_blocks.foldlM (fun s block => add_to_free_nodes_array s (array_nodes block c.N))
    (reset_free_nodes s)

/-- The loop of `Pool_block_allocator::shrink_to_fit`, entered with the counter `i`. -/
def Pool_block_allocator.shrink_to_fit_loop {T : Type} (c : Cfg) (new_cap : Nat) :
    Nat → State T → Option (State T)
  | 0, s => some s
  | i + 1, s =>
    if capacity c s > new_cap ∧ i + 1 > new_cap then do
      let s ← Pool_block_allocator.del_node c s
      Pool_block_allocator.shrink_to_fit_loop c new_cap i s
    else some s

/-- Method `Pool_block_allocator::shrink_to_fit`. -/
def Pool_block_allocator.shrink_to_fit {T : Type} (c : Cfg) (s : State T) (new_cap : Nat) :
    Option (State T) :=
  if !Pool_base.empty s then some s
  else do
    let s ← Pool_block_allocator.shrink_to_fit_loop c new_cap (capacity c s) s
    Pool_block_allocator.readd_blocks c s

/-- Method `Pool_block_allocator::dtor`: `while(m_blocks) del_node()`. -/
def Pool_block_allocator.dtor {T : Type} (c : Cfg) : Nat → State T → Option (State T)
  | 0, s => if s.m_blocks.isEmpty then some s else none
  | fuel + 1, s =>
    if s.m_blocks.isEmpty then some s else do
      let s ← Pool_block_allocator.del_node c s
      Pool_block_allocator.dtor c fuel s

/-! ## Calls through `impl()` into the allocation strategy -/

/-- Call `impl().add_node()`, by the class; `a` is the answer of `operator new`. -/
def add_node {T : Type} (c : Cfg) (s : State T) (a : Option Nat) : Option (State T) :=
  if c.impl.is_block then Pool_block_allocator.add_node c s a
  else Pool_node_allocator.add_node s a

/-- Method `shrink_to_fit` of a dynamic pool, by the class. -/
def shrink_to_fit {T : Type} (c : Cfg) (s : State T) (new_cap : Nat) : Option (State T) :=
  if c.impl.is_block then Pool_block_allocator.shrink_to_fit c s new_cap
  else Pool_node_allocator.shrink_to_fit c s new_cap

/-- Call `AlocBase::dtor()`, by the class. -/
def AlocBase.dtor {T : Type} (c : Cfg) (fuel : Nat) (s : State T) : Option (State T) :=
  if c.impl.is_block then Pool_block_allocator.dtor c fuel s
  else Pool_node_allocator.dtor fuel s

/-! ## DPool_base -/

/-- Method `DPool_base::create`; `a` is the answer of `operator new` should `add_node`
be called. -/
def DPool_base.create {T : Type} (c : Cfg) (s : State T) (v : T) (a : Option Nat) :
    Option (Option Nat × State T) := do
  let s ← if !flag_set c.Flags POOL_FIXED_CAPACITY && Pool_base.full c s
    then add_node c s a else some s
  create_obj c s v

/-- The loop of `DPool_base::reserve`, entered with the counter `i`; the first argument
counts the iterations that `i < new_cap` still allows, and `allocs` lists the answers of
`operator new` in the order of the calls (none left: the allocation fails). -/
def DPool_base.reserve_loop {T : Type} (c : Cfg) (new_cap : Nat) :
    Nat → Nat → State T → List (Option Nat) → Option (State T)
  | 0, _, s, _ => some s
  | k + 1, i, s, allocs =>
    if capacity c s < new_cap ∧ i < new_cap then do
      let s ← add_node c s allocs.head?.join
      DPool_base.reserve_loop c new_cap k (i + 1) s allocs.tail
    else some s

/-- Method `DPool_base::reserve`: the new state, and whether `std::bad_alloc` is thrown. -/
def DPool_base.reserve {T : Type} (c : Cfg) (s : State T) (new_cap : Nat)
    (allocs : List (Option Nat)) : Option (State T × Bool) := do
  let s ← DPool_base.reserve_loop c new_cap (new_cap - capacity c s) (capacity c s) s allocs
  some (s, flag_set c.Flags POOL_RESERVE_EXCEPTION && decide (capacity c s < new_cap))

/-! ## Pool_xxx: teardown and ownership transfer -/

/-- Method `destroy_all`, by the class: `SPool_list::destroy_all`,
`SPool_list_bitset::destroy_all`, `Pool_dlist_base::destroy_all`, and for `Pool_list`
and `Pool_list_block` the empty `Pool_list_base::destroy_all`. -/
def destroy_all {T : Type} (c : Cfg) (fuel : Nat) (s : State T) : Option (State T) :=
  match c.impl with
  | .SPool_list => SPool_list.destroy_all c fuel s
  | .SPool_list_bitset => SPool_list_bitset.destroy_all c s
  | .SPool_dlist | .Pool_dlist | .Pool_dlist_block => Pool_dlist_base.destroy_all fuel s
  | .Pool_list | .Pool_list_block => some (Pool_list_base.destroy_all s)

/-- Method `Pool_xxx::dtor`: `destroy_all(); AlocBase::dtor()`. -/
def Pool_xxx.dtor {T : Type} (c : Cfg) (fuel : Nat) (s : State T) : Option (State T) := do
  let s ← destroy_all c fuel s
  AlocBase.dtor c fuel s

/-- Method `Pool_list_base::move_from` for two distinct pools; returns the target and the
source.  The nodes the source owns pass to the target; whatever the target still owned
leaves the embedding (it is no longer referenced by any pool). -/
def Pool_list_base.move_from {T : Type} (self other : State T) : State T × State T :=
  ({ self with m_size := other.m_size, m_capacity := other.m_capacity,
               m_free_nodes := other.m_free_nodes, mem := other.mem },
   { other with m_size := 0, m_capacity := 0, m_free_nodes := none, mem := fun _ => none })

/-- Method `Pool_list_base::move_from` when `other` is the pool itself. -/
def Pool_list_base.move_from_self {T : Type} (self : State T) : State T :=
  { self with m_size := 0, m_capacity := 0, m_free_nodes := none, mem := fun _ => none }

/-- Method `Pool_dlist_base::move_from` for two distinct pools; returns the target and the
source.  `splice_front` runs on the memory that holds the nodes and the sentinel of the
source together with the sentinel of the target; afterwards the source owns its sentinel
only.  The sentinel of the target must not lie in the memory of the source. -/
def Pool_dlist_base.move_from {T : Type} (self other : State T) :
    Option (State T × State T) := do
  let h ← self.mem self.m_used_nodes
  if (other.mem self.m_used_nodes).isSome then none
  else do
    let m := Function.update other.mem self.m_used_nodes (some h)
    let m ← dlist_head.splice_front m self.m_used_nodes other.m_used_nodes
    some ({ self with m_size := other.m_size, m_capacity := other.m_capacity,
                      m_free_nodes := other.m_free_nodes,
                      mem := Function.update m other.m_used_nodes none },
          { other with m_size := 0, m_capacity := 0, m_free_nodes := none,
                       mem := fun a => if a = other.m_used_nodes then m a else none })

/-- Method `Pool_dlist_base::move_from` when `other` is the pool itself. -/
def Pool_dlist_base.move_from_self {T : Type} (self : State T) : Option (State T) := do
  let m ← dlist_head.splice_front self.mem self.m_used_nodes self.m_used_nodes
  some { self with m_size := 0, m_capacity := 0, m_free_nodes := none,
                   mem := fun a => if a = self.m_used_nodes then m a else none }

/-- Method `Pool_block_allocator::move_from` for two distinct pools (`Pool_node_allocator::
move_from` is empty). -/
def AlocBase.move_from {T : Type} (c : Cfg) (self other : State T) : State T × State T :=
  if c.impl.is_block then
    ({ self with m_blocks := other.m_blocks }, { other with m_blocks := [] })
  else (self, other)

/-- Method `AlocBase::move_from` when `other` is the pool itself. -/
def AlocBase.move_from_self {T : Type} (c : Cfg) (self : State T) : State T :=
  if c.impl.is_block then { self with m_blocks := [] } else self

/-- Method `Pool_xxx::move_from` for two distinct pools: `AlgBase::move_from(other);
AlocBase::move_from(other)`; returns the target and the source. -/
def Pool_xxx.move_from {T : Type} (c : Cfg) (self other : State T) :
    Option (State T × State T) := do
  let r ← if c.impl.is_dlist then Pool_dlist_base.move_from self other
    else some (Pool_list_base.move_from self other)
  some (AlocBase.move_from c r.1 r.2)

/-- Method `Pool_xxx::move_from` when `other` is the pool itself. -/
def Pool_xxx.move_from_self {T : Type} (c : Cfg) (self : State T) : Option (State T) := do
  let s ← if c.impl.is_dlist then Pool_dlist_base.move_from_self self
    else some (Pool_list_base.move_from_self self)
  some (AlocBase.move_from_self c s)

/-- Method `DPool_base::move_assign_operator` for two distinct pools: `self.dtor();
self.move_from(other)`; returns the target and the source. -/
def DPool_base.move_assign_operator {T : Type} (c : Cfg) (fuel : Nat) (self other : State T) :
    Option (State T × State T) := do
  let self ← Pool_xxx.dtor c fuel self
  Pool_xxx.move_from c self other

/-- Method `DPool_base::move_assign_operator` when `other` is the pool itself. -/
def DPool_base.move_assign_operator_self {T : Type} (c : Cfg) (fuel : Nat) (self : State T) :
    Option (State T) :=
  if flag_set c.Flags POOL_SELF_MOVE_GUARD then some self
  else do
    let self ← Pool_xxx.dtor c fuel self
    Pool_xxx.move_from_self c self

/-! ## Construction -/

/-- The members of a pool object at address `self` before any constructor body runs:
the default member initialisers (`m_size = 0`, `m_capacity = 0`, `m_free_nodes{nullptr}`,
`m_blocks{nullptr}`, all bits of `m_used` clear) and, for a static pool, the storage of
`m_pool`. -/
def State.raw {T : Type} (c : Cfg) (self : Nat) (oob : Nat → Bool) : State T :=
  { m_size := 0, m_capacity := 0, m_free_nodes := none, m_used_nodes := self, m_blocks := [],
    m_used := fun i => if i < c.N then false else oob i,
    mem := fun a => if c.impl.is_static ∧ a < c.N then some Node.blank else none }

/-- Default constructor of the class: for the doubly-linked classes the sentinel takes
its storage at `self` and `Pool_dlist_base()` runs; the static classes then run
`add_to_free_nodes(m_pool)`. -/
def construct {T : Type} (c : Cfg) (self : Nat) (oob : Nat → Bool) : Option (State T) := do
  let s : State T := State.raw c self oob
  let s ← if c.impl.is_dlist then do
      let m ← alloc_node s.mem self
      Pool_dlist_base.ctor { s with mem := m }
    else some s
  if c.impl.is_static then add_to_free_nodes_array s (array_nodes 0 c.N) else some s

/-- Move constructor `Pool_xxx(Pool_xxx&& other)` of a new pool at address `self`:
`Pool_xxx()` then `move_from(other)`; returns the new pool and the source. -/
def Pool_xxx.move_ctor {T : Type} (c : Cfg) (self : Nat) (oob : Nat → Bool) (other : State T) :
    Option (State T × State T) := do
  let s ← construct c self oob
  Pool_xxx.move_from c s other

/-! ## Public operations, by the class -/

/-- Method `create` of the class: `SPool_list_bitset::create`, `DPool_base::create` for
the dynamic classes, `Pool_base::create` (that is `create_obj`) otherwise. -/
def create {T : Type} (c : Cfg) (s : State T) (v : T) (a : Option Nat) :
    Option (Option Nat × State T) :=
  match c.impl with
  | .SPool_list_bitset => SPool_list_bitset.create s v
  | .SPool_list | .SPool_dlist => create_obj c s v
  | _ => DPool_base.create c s v a

/-- Method `destroy(const T*)` of the class. -/
def destroy {T : Type} (c : Cfg) (s : State T) (obj : Option Nat) : Option (State T) :=
  match c.impl with
  | .SPool_list_bitset => SPool_list_bitset.destroy s obj
  | .SPool_dlist | .Pool_dlist | .Pool_dlist_block => Pool_dlist_base.destroy s obj
  | _ => Pool_list_base.destroy s obj

/-! ## Observations of a state -/

/-- The node at `a` is allocated. -/
def al {T : Type} (m : Mem T) (a : Nat) : Bool := (m a).isSome

/-- The `next` word of the node at `a`, `none` also when `a` is not allocated. -/
def nx {T : Type} (m : Mem T) (a : Nat) : Option Nat := (m a).bind fun n => n.next

/-- The `prev` word of the node at `a`. -/
def pv {T : Type} (m : Mem T) (a : Nat) : Option Nat := (m a).bind fun n => n.prev

/-- The element alive in the node at `a`, if any. -/
def dt {T : Type} (m : Mem T) (a : Nat) : Option T := (m a).bind fun n => n.data

/-- The element that the reference `a` designates in state `s`, if it is alive. -/
def value {T : Type} (s : State T) (a : Nat) : Option T := dt s.mem a

/-- The slot at `a` is occupied: it holds a live element. -/
def live {T : Type} (s : State T) (a : Nat) : Bool := (value s a).isSome

/-- The nodes met from pointer `p` by following `next` are exactly `l`, and the walk ends
at `nullptr`. -/
def Chain {T : Type} (m : Mem T) : Option Nat → List Nat → Prop
  | p, [] => p = none
  | p, a :: l => p = some a ∧ al m a = true ∧ Chain m (nx m a) l

/-- The free chain of `s`, from `m_free_nodes`, is the list `l`. -/
def FreeChain {T : Type} (s : State T) (l : List Nat) : Prop := Chain s.mem s.m_free_nodes l

/-- Nodes `x` and `y` are neighbours in a doubly-linked list: `x.next == y` and
`y.prev == x`. -/
def Linked {T : Type} (m : Mem T) (x y : Nat) : Prop := nx m x = some y ∧ pv m y = some x

/-- Every two neighbours in the sequence `x, l, y` are `Linked`. -/
def Seg {T : Type} (m : Mem T) : Nat → List Nat → Nat → Prop
  | x, [], y => Linked m x y
  | x, a :: l, y => Linked m x a ∧ Seg m a l y

/-- The circular list anchored at the sentinel `h` has the members `l`, read from
`h.next` forward, and closes at `h`: every two neighbours in `h, l, h` are `Linked`. -/
def Ring {T : Type} (m : Mem T) (h : Nat) (l : List Nat) : Prop := Seg m h l h

/-- The used ring of `s`, anchored at `m_used_nodes`, has the members `l`. -/
def UsedRing {T : Type} (s : State T) (l : List Nat) : Prop := Ring s.mem s.m_used_nodes l

/-! ## Reachable states -/

/-- The elements of `ul` that are still alive in `s`, in the same order. -/
def survivors {T : Type} (s : State T) (ul : List Nat) : List Nat := ul.filter fun a => live s a

/-- `Reachable c s ul`: the state `s` of a pool of class `c.impl` is reached from a newly
constructed pool through the public operations, and `ul` lists, oldest first, the
references returned by `create` whose elements have not been destroyed since.

A pool obtained by a move takes the list of its source, the source starts again with
the empty list; the references that the target of a move assignment gave out before are
no longer in its list (`dtor` has destroyed or abandoned their elements). -/
inductive Reachable {T : Type} (c : Cfg) : State T → List Nat → Prop
  | construct (self : Nat) (oob : Nat → Bool) (s : State T) :
      construct c self oob = some s → Reachable c s []
  | create {s : State T} {ul : List Nat} (v : T) (a : Option Nat) (r : Option Nat)
      (s' : State T) :
      Reachable c s ul → create c s v a = some (r, s') → Reachable c s' (ul ++ r.toList)
  | destroy {s : State T} {ul : List Nat} (p : Nat) (s' : State T) :
      Reachable c s ul → p ∈ ul → destroy c s (some p) = some s' →
      Reachable c s' (ul.erase p)
  | destroy_null {s : State T} {ul : List Nat} (s' : State T) :
      Reachable c s ul → destroy c s none = some s' → Reachable c s' ul
  | destroy_all {s : State T} {ul : List Nat} (fuel : Nat) (s' : State T) :
      Reachable c s ul → c.impl ≠ Impl.Pool_list → c.impl ≠ Impl.Pool_list_block →
      destroy_all c fuel s = some s' → Reachable c s' (survivors s' ul)
  | destroy_pos_bitset {s : State T} {ul : List Nat} (pos ret : Nat) (s' : State T) :
      Reachable c s ul → c.impl = Impl.SPool_list_bitset → pos ∈ ul →
      SPool_list_bitset.destroy_pos c s pos = some (ret, s') → Reachable c s' (ul.erase pos)
  | destroy_range_bitset {s : State T} {ul : List Nat} (fuel first last ret : Nat)
      (s' : State T) :
      Reachable c s ul → c.impl = Impl.SPool_list_bitset →
      SPool_list_bitset.destroy_range c fuel s first last = some (ret, s') →
      Reachable c s' (survivors s' ul)
  | destroy_pos_dlist {s : State T} {ul : List Nat} (pos : Nat) (ret : Option Nat)
      (s' : State T) :
      Reachable c s ul → c.impl.is_dlist = true → pos ∈ ul →
      Pool_dlist_base.destroy_pos s (some pos) = some (ret, s') → Reachable c s' (ul.erase pos)
  | destroy_range_dlist {s : State T} {ul : List Nat} (fuel : Nat) (first last ret : Option Nat)
      (s' : State T) :
      Reachable c s ul → c.impl.is_dlist = true →
      Pool_dlist_base.destroy_range fuel s first last = some (ret, s') →
      Reachable c s' (survivors s' ul)
  | reserve {s : State T} {ul : List Nat} (new_cap : Nat) (allocs : List (Option Nat))
      (thrown : Bool) (s' : State T) :
      Reachable c s ul → c.impl.is_static = false →
      DPool_base.reserve c s new_cap allocs = some (s', thrown) → Reachable c s' ul
  | shrink_to_fit {s : State T} {ul : List Nat} (new_cap : Nat) (s' : State T) :
      Reachable c s ul → c.impl.is_static = false →
      shrink_to_fit c s new_cap = some s' → Reachable c s' ul
  | move_ctor_target {other : State T} {ul : List Nat} (self : Nat) (oob : Nat → Bool)
      (s' other' : State T) :
      Reachable c other ul → c.impl.is_static = false →
      Pool_xxx.move_ctor c self oob other = some (s', other') → Reachable c s' ul
  | move_ctor_source {other : State T} {ul : List Nat} (self : Nat) (oob : Nat → Bool)
      (s' other' : State T) :
      Reachable c other ul → c.impl.is_static = false →
      Pool_xxx.move_ctor c self oob other = some (s', other') → Reachable c other' []
  | move_assign_target {s other : State T} {ul ul2 : List Nat} (fuel : Nat)
      (s' other' : State T) :
      Reachable c s ul → Reachable c other ul2 → c.impl.is_static = false →
      DPool_base.move_assign_operator c fuel s other = some (s', other') → Reachable c s' ul2
  | move_assign_source {s other : State T} {ul ul2 : List Nat} (fuel : Nat)
      (s' other' : State T) :
      Reachable c s ul → Reachable c other ul2 → c.impl.is_static = false →
      DPool_base.move_assign_operator c fuel s other = some (s', other') →
      Reachable c other' []
  | move_assign_self {s : State T} {ul : List Nat} (fuel : Nat) (s' : State T) :
      Reachable c s ul → c.impl.is_static = false →
      DPool_base.move_assign_operator_self c fuel s = some s' →
      Reachable c s' (if flag_set c.Flags POOL_SELF_MOVE_GUARD then ul else [])

/-! ## The representation invariant -/

/-- The slots a static pool (`m_pool`) or a block pool (the `nodes` arrays of its
blocks) is made of; the single-slot allocator keeps no such list. -/
def slots {T : Type} (c : Cfg) (s : State T) : List Nat :=
  if c.impl.is_static then array_nodes 0 c.N
  else s.m_blocks.flatMap fun b => array_nodes b c.N

/-- `Core d s fl ul`: the linked structures of `s`.  The free chain from `m_free_nodes`
is `fl`; no slot occurs twice in `fl` and `ul`; the slots of `fl` hold no element and
those of `ul` hold one; and for the doubly-linked algorithm (`d = true`) the used ring
anchored at the sentinel is `ul`. -/
structure Core {T : Type} (d : Bool) (s : State T) (fl ul : List Nat) : Prop where
  chain : Chain s.mem s.m_free_nodes fl
  nodup : (fl ++ ul).Nodup
  fl_free : ∀ a ∈ fl, dt s.mem a = none
  ul_live : ∀ a ∈ ul, (dt s.mem a).isSome = true
  ring : d = true →
    Ring s.mem s.m_used_nodes ul ∧ s.m_used_nodes ∉ fl ++ ul ∧ dt s.mem s.m_used_nodes = none

/-- `Inv c s fl ul`: the free chain of `s` is `fl`, the occupied slots are `ul`, and the
counters, the owned memory and the slot arrays agree with them. -/
structure Inv {T : Type} (c : Cfg) (s : State T) (fl ul : List Nat) : Prop where
  core : Core c.impl.is_dlist s fl ul
  owned : ∀ a, al s.mem a = true →
    a ∈ fl ∨ a ∈ ul ∨ (c.impl.is_dlist = true ∧ a = s.m_used_nodes)
  size : s.m_size = ul.length
  cap : capacity c s = fl.length + ul.length
  slots_perm : (c.impl.is_static = true ∨ c.impl.is_block = true) →
    (fl ++ ul).Perm (slots c s)

/-- The occupancy bits of an `SPool_list_bitset` agree with the occupied slots `ul`. -/
def BitsInv {T : Type} (c : Cfg) (s : State T) (ul : List Nat) : Prop :=
  c.impl = Impl.SPool_list_bitset → ∀ i, i < c.N → (s.m_used i = true ↔ i ∈ ul)

/-- The nodes that one call of `add_node` obtains when `operator new` answers `x`: one
node for the single-slot allocator, the `N` nodes of a block for the block allocator. -/
def unit_nodes (c : Cfg) (x : Nat) : List Nat :=
  if c.impl.is_block then array_nodes x c.N else [x]

/-- The nodes that one call of `add_node` obtains when `operator new` answers `a`
(none when the allocation fails). -/
def grown (c : Cfg) (a : Option Nat) : List Nat :=
  match a with
  | none => []
  | some x => unit_nodes c x

/-- The answer `a` of `operator new` names storage that is not in use in `s` (every
answer does, and so does the failure `none`). -/
def fresh {T : Type} (c : Cfg) (s : State T) (a : Option Nat) : Prop :=
  ∀ b ∈ grown c a, al s.mem b = false

/-- Method `create` calls `add_node`: the pool is dynamic, `POOL_FIXED_CAPACITY` is not
set and the pool is full. -/
def grows {T : Type} (c : Cfg) (s : State T) : Bool :=
  !c.impl.is_static && (!flag_set c.Flags POOL_FIXED_CAPACITY && Pool_base.full c s)

/-- The used ring of `s` is empty: the sentinel is linked to itself (and holds no
element). -/
def RingEmpty {T : Type} (s : State T) : Prop :=
  Linked s.mem s.m_used_nodes s.m_used_nodes ∧ dt s.mem s.m_used_nodes = none

/-- `BlockInv c s`: what holds of a block pool without elements while
`Pool_block_allocator::del_node` releases blocks (the free chain is not looked at, it is
rebuilt or dropped afterwards): the blocks are disjoint, their nodes are allocated and
hold no element, the pool owns nothing else but its sentinel, and the capacity is `N`
times the number of blocks. -/
structure BlockInv {T : Type} (c : Cfg) (s : State T) : Prop where
  nodup : (slots c s).Nodup
  cap : s.m_capacity = c.N * s.m_blocks.length
  free : ∀ a ∈ slots c s, al s.mem a = true
  owned : ∀ a, al s.mem a = true →
    a ∈ slots c s ∨ (c.impl.is_dlist = true ∧ a = s.m_used_nodes)
  dead : ∀ a, dt s.mem a = none
  size : s.m_size = 0
  ring : c.impl.is_dlist = true → RingEmpty s ∧ s.m_used_nodes ∉ slots c s

/-- Bit `i` of `m_used` is set exactly when slot `i` of `m_pool` holds a live element,
for every `i < N`. -/
def BitsLive {T : Type} (c : Cfg) (s : State T) : Prop :=
  ∀ i, i < c.N → (s.m_used i = true ↔ live s (SPool_list_bitset.index_node i) = true)

/-! ## Sequences of calls -/

/-- Successive calls of `create`, one for each value of the list, each with the answer
that `operator new` gives if the call asks for storage; `none` as soon as one of the calls
returns `nullptr`. -/
def creates {T : Type} (c : Cfg) : List (T × Option Nat) → State T → Option (State T)
  | [], s => some s
  | (v, a) :: vs, s =>
    match create c s v a with
    | some (some _, s') => creates c vs s'
    | _ => none

/-! ## Example pools -/

/-- An `SPool_dlist<T, 2>` without flags. -/
def ex_dlist : Cfg := ⟨Impl.SPool_dlist, 2, 0⟩

/-- The `ex_dlist` pool after its constructor, the sentinel at address `2`. -/
def ex_dlist_s0 : State Nat :=
  (construct ex_dlist 2 fun _ => false).getD (State.raw ex_dlist 2 fun _ => false)

/-- The `ex_dlist` pool after `create(7)`. -/
def ex_dlist_s1 : State Nat := ((create ex_dlist ex_dlist_s0 7 none).map Prod.snd).getD ex_dlist_s0

/-- The `ex_dlist` pool after `create(7)` and `create(8)`. -/
def ex_dlist_s2 : State Nat := ((create ex_dlist ex_dlist_s1 8 none).map Prod.snd).getD ex_dlist_s1

/-- An `SPool_list_bitset<T, 2>` without flags. -/
def ex_bitset : Cfg := ⟨Impl.SPool_list_bitset, 2, 0⟩

/-- The `ex_bitset` pool after its constructor. -/
def ex_bitset_s0 : State Nat :=
  (construct ex_bitset 2 fun _ => false).getD (State.raw ex_bitset 2 fun _ => false)

/-- The `ex_bitset` pool after `create(7)`. -/
def ex_bitset_s1 : State Nat :=
  ((create ex_bitset ex_bitset_s0 7 none).map Prod.snd).getD ex_bitset_s0

/-- A `Pool_list<T>` without flags. -/
def ex_list : Cfg := ⟨Impl.Pool_list, 1, 0⟩

/-- The `ex_list` pool after its constructor. -/
def ex_list_s0 : State Nat :=
  (construct ex_list 0 fun _ => false).getD (State.raw ex_list 0 fun _ => false)

/-- The `ex_list` pool after `create(7)`, for which `operator new` answers address `5`. -/
def ex_list_s1 : State Nat :=
  ((create ex_list ex_list_s0 7 (some 5)).map Prod.snd).getD ex_list_s0

/-! ## Repeated iterator steps -/

/-- The prefix `operator++` applied `k` times to an iterator of `Pool_dlist_base`. -/
def Pool_dlist_base.Iterator_t.advance {T : Type} (s : State T) :
    Nat → Option Nat → Option (Option Nat)
  | 0, m_node => some m_node
  | k + 1, m_node =>
    (Pool_dlist_base.Iterator_t.increment s m_node).bind
      (Pool_dlist_base.Iterator_t.advance s k)

/-- The prefix `operator++` applied `k` times to an iterator of `SPool_list_bitset` that
stands at `m_cur_pos`. -/
def SPool_list_bitset.Iterator_t.advance {T : Type} (c : Cfg) (s : State T) :
    Nat → Nat → Option Nat
  | 0, m_cur_pos => some m_cur_pos
  | k + 1, m_cur_pos =>
    (SPool_list_bitset.Iterator_t.next c s m_cur_pos).bind
      (SPool_list_bitset.Iterator_t.advance c s k)

/-- The prefix `operator--` applied `k` times to an iterator of `Pool_dlist_base`. -/
def Pool_dlist_base.Iterator_t.retreat {T : Type} (s : State T) :
    Nat → Option Nat → Option (Option Nat)
  | 0, m_node => some m_node
  | k + 1, m_node =>
    (Pool_dlist_base.Iterator_t.decrement s m_node).bind
      (Pool_dlist_base.Iterator_t.retreat s k)

/-- The indices of the set bits of `m_used` below `N`, in rising order. -/
def set_bits {T : Type} (c : Cfg) (s : State T) : List Nat :=
  (List.range c.N).filter fun i => s.m_used i

/-! ## for_each, by the class -/

/-- Method `for_each` of the class: `SPool_list::for_each`, `SPool_list_bitset::for_each`
or `Pool_dlist_base::for_each`; the classes `Pool_list` and `Pool_list_block` have no
such method (`none`). -/
def for_each {T α : Type} (c : Cfg) (fuel : Nat)
    (f : State T → α → Nat → Option (State T × α)) (s : State T) (acc : α) :
    Option (State T × α) :=
  match c.impl with
  | .SPool_list => SPool_list.for_each c fuel f s acc
  | .SPool_list_bitset => SPool_list_bitset.for_each c f s acc
  | .SPool_dlist | .Pool_dlist | .Pool_dlist_block => Pool_dlist_base.for_each fuel f s acc
  | .Pool_list | .Pool_list_block => none

/-! ## Answers of `operator new` for a sequence of calls -/

/-- The addresses `xs` that successive calls of `operator new` answer name storage that
is pairwise disjoint and not in use in `s` (one node each for the single-slot allocator,
one block of `N` nodes each for the block allocator). -/
def all_fresh {T : Type} (c : Cfg) (s : State T) (xs : List Nat) : Prop :=
  (xs.flatMap (unit_nodes c)).Nodup ∧ ∀ b ∈ xs.flatMap (unit_nodes c), al s.mem b = false

/-- The number of slots that one call of `add_node` adds: 1 for the single-slot
allocator, `N` for the block allocator. -/
def unit_size (c : Cfg) : Nat := if c.impl.is_block then c.N else 1

/-! ## More example pools -/

/-- A `Pool_list_block<T, 0>` without flags: its blocks hold no node. -/
def ex_block0 : Cfg := ⟨Impl.Pool_list_block, 0, 0⟩

/-- The `ex_block0` pool after its constructor. -/
def ex_block0_s0 : State Nat :=
  (construct ex_block0 0 fun _ => false).getD (State.raw ex_block0 0 fun _ => false)

/-- The `ex_block0` pool after `create(7)`, for which `operator new` answers a block at
address `0`. -/
def ex_block0_s1 : State Nat :=
  ((create ex_block0 ex_block0_s0 7 (some 0)).map Prod.snd).getD ex_block0_s0

/-- The `ex_block0` pool after `reserve(1)`, for which `operator new` answers a block at
address `0`. -/
def ex_block0_r1 : State Nat :=
  ((DPool_base.reserve ex_block0 ex_block0_s0 1 [some 0]).map Prod.fst).getD ex_block0_s0

/-- A `Pool_dlist_block<T, 2>` with `POOL_FIXED_CAPACITY`. -/
def ex_fixed : Cfg := ⟨Impl.Pool_dlist_block, 2, POOL_FIXED_CAPACITY⟩

/-- The `ex_fixed` pool after its constructor, the sentinel at address `100`. -/
def ex_fixed_s0 : State Nat :=
  (construct ex_fixed 100 fun _ => false).getD (State.raw ex_fixed 100 fun _ => false)

/-- The `ex_fixed` pool after `reserve(3)`, for which `operator new` answers blocks at
the addresses `0` and `10`. -/
def ex_fixed_s1 : State Nat :=
  ((DPool_base.reserve ex_fixed ex_fixed_s0 3 [some 0, some 10]).map Prod.fst).getD ex_fixed_s0

/-- An `SPool_list<T, 2>` without flags. -/
def ex_slist : Cfg := ⟨Impl.SPool_list, 2, 0⟩

/-- The `ex_slist` pool after its constructor. -/
def ex_slist_s0 : State Nat :=
  (construct ex_slist 0 fun _ => false).getD (State.raw ex_slist 0 fun _ => false)

/-- The `ex_slist` pool after `create(7)`. -/
def ex_slist_s1 : State Nat :=
  ((create ex_slist ex_slist_s0 7 none).map Prod.snd).getD ex_slist_s0

/-- The `ex_list` pool after `create(7)` and `destroy` of the element. -/
def ex_list_s2 : State Nat := (destroy ex_list ex_list_s1 (some 5)).getD ex_list_s1

/-! ## reserve: the calls of `add_node` -/

/-- The loop of `DPool_base::reserve` together with the number of calls of `add_node` it
makes (the state it returns is that of `DPool_base.reserve_loop`, see
`reserve_loop_calls_fst`). -/
def DPool_base.reserve_loop_calls {T : Type} (c : Cfg) (new_cap : Nat) :
    Nat → Nat → State T → List (Option Nat) → Option (State T × Nat)
  | 0, _, s, _ => some (s, 0)
  | k + 1, i, s, allocs =>
    if capacity c s < new_cap ∧ i < new_cap then do
      let s ← add_node c s allocs.head?.join
      let r ← DPool_base.reserve_loop_calls c new_cap k (i + 1) s allocs.tail
      some (r.1, r.2 + 1)
    else some (s, 0)

/-- The number of calls of `add_node` that `DPool_base::reserve` makes. -/
def DPool_base.reserve_calls {T : Type} (c : Cfg) (s : State T) (new_cap : Nat)
    (allocs : List (Option Nat)) : Option Nat :=
  (DPool_base.reserve_loop_calls c new_cap (new_cap - capacity c s) (capacity c s) s
    allocs).map Prod.snd

/-- The answers that `operator new` gives to the first `n` calls when `allocs` lists its
answers in the order of the calls (none left: the allocation fails). -/
def answers : List (Option Nat) → Nat → List (Option Nat)
  | _, 0 => []
  | allocs, n + 1 => allocs.head?.join :: answers allocs.tail n

/-- The state after the first `n` calls of `add_node`. -/
def add_nodes {T : Type} (c : Cfg) (s : State T) (allocs : List (Option Nat)) (n : Nat) :
    Option (State T) :=
  (answers allocs n).foldlM (add_node c) s

/-! ## Pool: the class that the user instantiates -/

/-- The exception `std::bad_alloc`. -/
inductive bad_alloc where
  | mk
  deriving DecidableEq

/-- Method `Pool::create`: `obj = Impl::create(args)`, then with `POOL_CREATE_EXCEPTION`
the exception `std::bad_alloc` if `obj` is `nullptr`; returns what the call returns or
throws, and the state it leaves. -/
def Pool.create {T : Type} (c : Cfg) (s : State T) (v : T) (a : Option Nat) :
    Option (Except bad_alloc (Option Nat) × State T) := do
  let r ← pool_impl.create c s v a
  let obj := r.1
  if flag_set c.Flags POOL_CREATE_EXCEPTION then
    if obj.isNone then some (Except.error bad_alloc.mk, r.2) else some (Except.ok obj, r.2)
  else some (Except.ok obj, r.2)

/-! ## Example pools for reserve -/

/-- A `Pool_list<T>` with `POOL_RESERVE_EXCEPTION`. -/
def ex_rsv : Cfg := ⟨Impl.Pool_list, 1, POOL_RESERVE_EXCEPTION⟩

/-- The `ex_rsv` pool after its constructor. -/
def ex_rsv_s0 : State Nat :=
  (construct ex_rsv 0 fun _ => false).getD (State.raw ex_rsv 0 fun _ => false)

/-- The `ex_rsv` pool after `reserve(2)`, for which `operator new` answers address `5`
and then fails. -/
def ex_rsv_s1 : State Nat :=
  ((DPool_base.reserve ex_rsv ex_rsv_s0 2 [some 5, none]).map Prod.fst).getD ex_rsv_s0

/-- The `ex_list` pool after `reserve(2)`, for which `operator new` fails and then
answers address `5`. -/
def ex_list_r2 : State Nat :=
  ((DPool_base.reserve ex_list ex_list_s0 2 [none, some 5]).map Prod.fst).getD ex_list_s0

/-! ## Example pool for `Pool::create` -/

/-- A `Pool<T, 1, Align, POOL_CREATE_EXCEPTION | POOL_FIXED_CAPACITY, Pool_list>`. -/
def ex_cex : Cfg := ⟨Impl.Pool_list, 1, POOL_CREATE_EXCEPTION ||| POOL_FIXED_CAPACITY⟩

/-- The `ex_cex` pool after its constructor. -/
def ex_cex_s0 : State Nat :=
  (construct ex_cex 0 fun _ => false).getD (State.raw ex_cex 0 fun _ => false)

/-- The `ex_cex` pool after `reserve(1)`, for which `operator new` answers address `5`. -/
def ex_cex_s1 : State Nat :=
  ((DPool_base.reserve ex_cex ex_cex_s0 1 [some 5]).map Prod.fst).getD ex_cex_s0

/-! ## Example pools for shrink_to_fit -/

/-- The `ex_list` pool after `reserve(3)`, for which `operator new` answers the
addresses `5`, `6` and `7`. -/
def ex_list_r3 : State Nat :=
  ((DPool_base.reserve ex_list ex_list_s0 3 [some 5, some 6, some 7]).map Prod.fst).getD
    ex_list_s0

/-- The `ex_list_r3` pool after `create(9)`. -/
def ex_list_r4 : State Nat :=
  ((create ex_list ex_list_r3 9 none).map Prod.snd).getD ex_list_r3

/-- The `ex_list_r4` pool after `shrink_to_fit(2)`. -/
def ex_list_r5 : State Nat := (shrink_to_fit ex_list ex_list_r4 2).getD ex_list_r4

/-- A `Pool_dlist_block<T, 2>` without flags. -/
def ex_blk : Cfg := ⟨Impl.Pool_dlist_block, 2, 0⟩

/-- The `ex_blk` pool after its constructor, the sentinel at address `100`. -/
def ex_blk_s0 : State Nat :=
  (construct ex_blk 100 fun _ => false).getD (State.raw ex_blk 100 fun _ => false)

/-- The `ex_blk` pool after `reserve(4)`, for which `operator new` answers blocks at the
addresses `0` and `10`. -/
def ex_blk_s1 : State Nat :=
  ((DPool_base.reserve ex_blk ex_blk_s0 4 [some 0, some 10]).map Prod.fst).getD ex_blk_s0

/-- The `ex_blk_s1` pool after `shrink_to_fit(1)`. -/
def ex_blk_s2 : State Nat := (shrink_to_fit ex_blk ex_blk_s1 1).getD ex_blk_s1

/-- The `ex_blk_s1` pool after `create(7)`. -/
def ex_blk_s3 : State Nat := ((create ex_blk ex_blk_s1 7 none).map Prod.snd).getD ex_blk_s1

/-- The `ex_blk_s1` pool after `shrink_to_fit(2)`. -/
def ex_blk_s4 : State Nat := (shrink_to_fit ex_blk ex_blk_s1 2).getD ex_blk_s1

/-- A second `ex_blk` pool after its constructor, the sentinel at address `300`. -/
def ex_blk_t0 : State Nat :=
  (construct ex_blk 300 fun _ => false).getD (State.raw ex_blk 300 fun _ => false)

/-- The `ex_blk_t0` pool after `create(9)`, for which `operator new` answers a block at
address `400`. -/
def ex_blk_t1 : State Nat :=
  ((create ex_blk ex_blk_t0 9 (some 400)).map Prod.snd).getD ex_blk_t0

/-! ## Example pool for the guarded self move -/

/-- A `Pool_dlist<T>` with `POOL_SELF_MOVE_GUARD`. -/
def ex_guard : Cfg := ⟨Impl.Pool_dlist, 1, POOL_SELF_MOVE_GUARD⟩

/-- The `ex_guard` pool after its constructor, the sentinel at address `100`. -/
def ex_guard_s0 : State Nat :=
  (construct ex_guard 100 fun _ => false).getD (State.raw ex_guard 100 fun _ => false)

/-- The `ex_guard` pool after `create(7)`, for which `operator new` answers address `5`. -/
def ex_guard_s1 : State Nat :=
  ((create ex_guard ex_guard_s0 7 (some 5)).map Prod.snd).getD ex_guard_s0

/-! ## Pool_dtor and std::swap -/

/-- Function `SPool_base_flags<T>(Flags)`: `POOL_DTOR_OFF` is added when `T` is trivially
destructible (`trivial` is `std::is_trivially_destructible_v<T>`). -/
def SPool_base_flags (trivial : Bool) (Flags : Pool_flags_t) : Pool_flags_t :=
  if trivial then Flags ||| POOL_DTOR_OFF else Flags

/-- The flags that the base `Pool_dtor` of the class is instantiated with:
`SPool_base_flags<T>(Flags)` in `SPool_base`, `Flags` in `DPool_base`. -/
def Pool_dtor.flags (c : Cfg) (trivial : Bool) : Pool_flags_t :=
  if c.impl.is_static then SPool_base_flags trivial c.Flags else c.Flags

/-- Destructor `~Pool_dtor`: `static_cast<Impl*>(this)->dtor()`, and nothing in the
specialisation for `POOL_DTOR_OFF`; `dtor` is `SPool_base::dtor` (that is `destroy_all()`)
for a static class and `Pool_xxx::dtor` for a dynamic one. -/
def Pool_dtor.dtor {T : Type} (c : Cfg) (trivial : Bool) (fuel : Nat) (s : State T) :
    Option (State T) :=
  if flag_set (Pool_dtor.flags c trivial) POOL_DTOR_OFF then some s
  else if c.impl.is_static then destroy_all c fuel s
  else Pool_xxx.dtor c fuel s

/-- The call `std::swap(a, b)` on two pools of a dynamic class, by the definition of
`std::swap` in the standard library: `Pool tmp(std::move(a)); a = std::move(b);
b = std::move(tmp);`, and the destructor of `tmp` at the end of the scope.  `tmp` is the
address of the sentinel of the temporary; returns the states of `a` and `b`. -/
def std_swap {T : Type} (c : Cfg) (trivial : Bool) (fuel : Nat) (tmp : Nat) (oob : Nat → Bool)
    (a b : State T) : Option (State T × State T) := do
  let r1 ← Pool_xxx.move_ctor c tmp oob a
  let r2 ← DPool_base.move_assign_operator c fuel r1.2 b
  let r3 ← DPool_base.move_assign_operator c fuel r2.2 r1.1
  let _ ← Pool_dtor.dtor c trivial fuel r3.2
  some (r2.1, r3.1)

/-! ## SPool_list_bitset iterators: the reads of `m_used` -/

/-- The indices at which the loop of `SPool_list_bitset::Iterator_t::next` reads `m_used`
(`m_pool->m_used[m_cur_pos]` after `m_cur_pos++`), in the order of the reads. -/
def SPool_list_bitset.Iterator_t.next_loop_reads (N : Nat) (m_used : Nat → Bool) :
    Nat → Nat → List Nat
  | 0, _ => []
  | k + 1, m_cur_pos =>
    if m_cur_pos < N then
      (m_cur_pos + 1) ::
        (if m_used (m_cur_pos + 1) then []
         else SPool_list_bitset.Iterator_t.next_loop_reads N m_used k (m_cur_pos + 1))
    else []

/-- The indices at which `SPool_list_bitset::Iterator_t::next` reads `m_used`. -/
def SPool_list_bitset.Iterator_t.next_reads {T : Type} (c : Cfg) (s : State T)
    (m_cur_pos : Nat) : List Nat :=
  SPool_list_bitset.Iterator_t.next_loop_reads c.N s.m_used (c.N - m_cur_pos) m_cur_pos

/-- The indices at which `SPool_list_bitset::Iterator_t::set_first_pos` reads `m_used`:
index `0`, then those of `next()` if the bit is clear; none when the pool is empty. -/
def SPool_list_bitset.Iterator_t.set_first_pos_reads {T : Type} (c : Cfg) (s : State T) :
    List Nat :=
  if Pool_base.empty s then []
  else 0 :: (if !s.m_used 0 then SPool_list_bitset.Iterator_t.next_reads c s 0 else [])

/-! ## SPool_list::for_each: the two loops -/

/-- The loop of `SPool_list::for_each` for a full pool: `f` on every node of `m_pool`. -/
def SPool_list.for_each_full {T α : Type} (c : Cfg)
    (f : State T → α → Nat → Option (State T × α)) (s : State T) (acc : α) :
    Option (State T × α) :=
  (array_nodes 0 c.N).foldlM (fun r node => f r.1 r.2 node) (s, acc)

/-- The loop of `SPool_list::for_each` for a pool that is neither empty nor full: `f` on
every node of `m_pool` for which `node_is_used` holds. -/
def SPool_list.for_each_filter {T α : Type} (c : Cfg) (fuel : Nat)
    (f : State T → α → Nat → Option (State T × α)) (s : State T) (acc : α) :
    Option (State T × α) :=
  (array_nodes 0 c.N).foldlM (fun r node => do
    let used ← SPool_list.node_is_used fuel r.1 node
    if used then f r.1 r.2 node else some r) (s, acc)

/-- The `ex_slist` pool after `create(7)` and `create(8)`: it is full. -/
def ex_slist_s2 : State Nat :=
  ((create ex_slist ex_slist_s1 8 none).map Prod.snd).getD ex_slist_s1

/-! ## create_obj when the constructor of the element throws -/

/-- Method `Pool_list_base::create_obj` when the constructor of `T` throws.
`if(!m_free_nodes) return nullptr` comes first: the constructor is not called then and
nothing is thrown.  Otherwise `next_node` and `saver.stored_value` take
`m_free_nodes->next`; the constructor writes to the storage of the node, which the union
member `next` shares (`junk` is what it leaves in that word), and throws; the destructor
of `saver`, still enabled, runs `obj_ref = stored_value`; the statements after the
construction are not reached.  Returns whether the exception leaves the method, and the
state. -/
def Pool_list_base.create_obj_throw {T : Type} (s : State T) (junk : Option Nat) :
    Option (Bool × State T) :=
  match s.m_free_nodes with
  | none => some (false, s)
  | some free_node => do
    let n ← s.mem free_node
    let stored_value := n.next
    let m ← store_next s.mem free_node junk
    let m ← store_next m free_node stored_value
    some (true, { s with mem := m })

/-- Method `Pool_dlist_base::create_obj` when the constructor of `T` throws: the
constructor writes to the member `data` only (`next` is in another member of the node)
and no element comes alive; the statements after the construction (`m_free_nodes =
free_node->next`, `push_back`, `m_size++`) are not reached. -/
def Pool_dlist_base.create_obj_throw {T : Type} (s : State T) : Option (Bool × State T) :=
  match s.m_free_nodes with
  | none => some (false, s)
  | some free_node => do
    let _ ← s.mem free_node
    some (true, s)

/-- Call `impl().create_obj(args)` when the constructor of `T` throws, by the class. -/
def create_obj_throw {T : Type} (c : Cfg) (s : State T) (junk : Option Nat) :
    Option (Bool × State T) :=
  if c.impl.is_dlist then Pool_dlist_base.create_obj_throw s
  else Pool_list_base.create_obj_throw s junk

/-- Method `SPool_list_bitset::create` when the constructor of `T` throws: the exception
leaves `create_obj` and `create`, and `m_used[i] = 1` is not reached. -/
def SPool_list_bitset.create_throw {T : Type} (s : State T) (junk : Option Nat) :
    Option (Bool × State T) :=
  match s.m_free_nodes with
  | none => some (false, s)
  | some free_node => do
    let i := SPool_list_bitset.index_node free_node
    let r ← Pool_list_base.create_obj_throw s junk
    if r.1 then some r
    else some (false, { r.2 with m_used := Function.update r.2.m_used i true })

/-! ## Counting the accesses of `create` and `destroy`

The methods below are `create`, `destroy(const T*)` and the methods they call, written
once more so that every access is counted: a read of the members of a node, a write of
one member, the construction or the destruction of the element, the value-initialisation
of an allocated node, and a write of one bit of `m_used`.  Reads and writes of the data
members of the pool object itself (`m_size`, `m_capacity`, `m_free_nodes`, `m_blocks`)
are not counted: each statement of the source makes a fixed number of them. -/

/-- A run that counts its accesses: `none` when the behaviour is undefined, else the
result and the number of accesses made. -/
def Counted (α : Type) : Type := Option (α × Nat)

/-- The outcome `x`, obtained with `k` accesses. -/
def Counted.access {α : Type} (k : Nat) (x : Option α) : Counted α :=
  Option.map (fun a => (a, k)) x

/-- Sequencing of two runs: the accesses add up. -/
def Counted.andThen {α β : Type} (x : Counted α) (f : α → Counted β) : Counted β :=
  Option.bind x fun r => Option.map (fun q => (q.1, r.2 + q.2)) (f r.1)

instance : Monad Counted where
  pure := fun a => Counted.access 0 (some a)
  bind := Counted.andThen

/-- The result of a run, without the count. -/
def Counted.result {α : Type} (x : Counted α) : Option α := Option.map Prod.fst x

/-- The number of accesses of a run (`0` for a run whose behaviour is undefined). -/
def Counted.steps {α : Type} (x : Counted α) : Nat := (Option.map Prod.snd x).getD 0

/-- Static method `dlist_head::insert`, counted: four writes. -/
def dlist_head.insert_steps {T : Type} (m : Mem T) (node prev next : Nat) :
    Counted (Mem T) := do
  let m ← Counted.access 1 (store_prev m next (some node))
  let m ← Counted.access 1 (store_next m node (some next))
  let m ← Counted.access 1 (store_prev m node (some prev))
  Counted.access 1 (store_next m prev (some node))

/-- Method `dlist_head::push_back`, counted: the read of `prev`, then `insert`. -/
def dlist_head.push_back_steps {T : Type} (m : Mem T) (this node : Nat) :
    Counted (Mem T) := do
  let n ← Counted.access 1 (m this)
  let prev ← Counted.access 0 n.prev
  dlist_head.insert_steps m node prev this

/-- Static method `dlist_head::del`, counted: two writes. -/
def dlist_head.del_steps {T : Type} (m : Mem T) (prev next : Nat) : Counted (Mem T) := do
  let m ← Counted.access 1 (store_prev m next (some prev))
  Counted.access 1 (store_next m prev (some next))

/-- Static method `dlist_head::del_node`, counted: the read of the links of `node`, then
`del`. -/
def dlist_head.del_node_steps {T : Type} (m : Mem T) (node : Nat) : Counted (Mem T) := do
  let n ← Counted.access 1 (m node)
  let prev ← Counted.access 0 n.prev
  let next ← Counted.access 0 n.next
  dlist_head.del_steps m prev next

/-- Method `dlist_head::remove`, counted. -/
def dlist_head.remove_steps {T : Type} (m : Mem T) (this : Nat) : Counted (Mem T) :=
  dlist_head.del_node_steps m this

/-- Method `add_to_free_nodes(Node*)`, counted: one write. -/
def add_to_free_nodes_steps {T : Type} (s : State T) (node : Nat) : Counted (State T) := do
  let m ← Counted.access 1 (store_next s.mem node s.m_free_nodes)
  pure { s with mem := m, m_free_nodes := some node }

/-- Method `add_to_free_nodes(std::array<Node, N>&)`, counted: one call for every node
of the array. -/
def add_to_free_nodes_array_steps {T : Type} (s : State T) (nodes : List Nat) :
    Counted (State T) :=
  nodes.foldlM add_to_free_nodes_steps s

/-- Expression `new (std::nothrow) Block()`, counted: every node of the array is
value-initialised. -/
def alloc_block_steps {T : Type} (m : Mem T) (b N : Nat) : Counted (Mem T) :=
  (array_nodes b N).foldlM (fun m a => Counted.access 1 (alloc_node m a)) m

/-- Method `Pool_list_base::create_obj`, counted: the read of `m_free_nodes->next` and
the construction of the element. -/
def Pool_list_base.create_obj_steps {T : Type} (s : State T) (v : T) :
    Counted (Option Nat × State T) :=
  match s.m_free_nodes with
  | none => pure (none, s)
  | some free_node => do
    let n ← Counted.access 1 (s.mem free_node)
    let next_node := n.next
    let m ← Counted.access 1
      (some (Function.update s.mem free_node (some { n with next := none, data := some v })))
    pure (some free_node, { s with mem := m, m_size := s.m_size + 1, m_free_nodes := next_node })

/-- Method `Pool_list_base::destroy_obj`, counted: the element is read and destroyed,
then `add_to_free_nodes`. -/
def Pool_list_base.destroy_obj_steps {T : Type} (s : State T) (obj : Nat) :
    Counted (State T) := do
  let n ← Counted.access 1 (s.mem obj)
  let _ ← Counted.access 0 n.data
  let m ← Counted.access 1 (store_data s.mem obj none)
  add_to_free_nodes_steps { s with m_size := s.m_size - 1, mem := m } obj

/-- Method `Pool_list_base::destroy`, counted. -/
def Pool_list_base.destroy_steps {T : Type} (s : State T) (obj : Option Nat) :
    Counted (State T) :=
  match obj with
  | none => pure s
  | some a => Pool_list_base.destroy_obj_steps s a

/-- Method `Pool_dlist_base::create_obj`, counted: the construction of the element, the
read of `free_node->next`, then `push_back`. -/
def Pool_dlist_base.create_obj_steps {T : Type} (s : State T) (v : T) :
    Counted (Option Nat × State T) :=
  match s.m_free_nodes with
  | none => pure (none, s)
  | some free_node => do
    let m ← Counted.access 1 (store_data s.mem free_node (some v))
    let n ← Counted.access 1 (m free_node)
    let m ← dlist_head.push_back_steps m s.m_used_nodes free_node
    pure (some free_node, { s with mem := m, m_free_nodes := n.next, m_size := s.m_size + 1 })

/-- Method `Pool_dlist_base::destroy_obj`, counted: the element is read and destroyed,
then `remove` and `add_to_free_nodes`. -/
def Pool_dlist_base.destroy_obj_steps {T : Type} (s : State T) (obj : Nat) :
    Counted (State T) := do
  let n ← Counted.access 1 (s.mem obj)
  let _ ← Counted.access 0 n.data
  let m ← Counted.access 1 (store_data s.mem obj none)
  let m ← dlist_head.remove_steps m obj
  add_to_free_nodes_steps { s with m_size := s.m_size - 1, mem := m } obj

/-- Method `Pool_dlist_base::destroy(const T*)`, counted. -/
def Pool_dlist_base.destroy_steps {T : Type} (s : State T) (obj : Option Nat) :
    Counted (State T) :=
  match obj with
  | none => pure s
  | some a => Pool_dlist_base.destroy_obj_steps s a

/-- Method `SPool_list_bitset::create`, counted: `create_obj`, then the write of one
bit. -/
def SPool_list_bitset.create_steps {T : Type} (s : State T) (v : T) :
    Counted (Option Nat × State T) :=
  match s.m_free_nodes with
  | none => pure (none, s)
  | some free_node => do
    let i := SPool_list_bitset.index_node free_node
    let r ← Pool_list_base.create_obj_steps s v
    Counted.access 1 (some (r.1, { r.2 with m_used := Function.update r.2.m_used i true }))

/-- Method `SPool_list_bitset::destroy(const T*)`, counted: the write of one bit, then
`destroy_obj`. -/
def SPool_list_bitset.destroy_steps {T : Type} (s : State T) (obj : Option Nat) :
    Counted (State T) :=
  match obj with
  | none => pure s
  | some a => do
    let i := SPool_list_bitset.index_node a
    let s ← Counted.access 1 (some { s with m_used := Function.update s.m_used i false })
    Pool_list_base.destroy_obj_steps s a

/-- Call `impl().create_obj(args)`, counted. -/
def create_obj_steps {T : Type} (c : Cfg) (s : State T) (v : T) :
    Counted (Option Nat × State T) :=
  if c.impl.is_dlist then Pool_dlist_base.create_obj_steps s v
  else Pool_list_base.create_obj_steps s v

/-- Method `Pool_node_allocator::add_node`, counted: the value-initialisation of the new
node, then `add_to_free_nodes`. -/
def Pool_node_allocator.add_node_steps {T : Type} (s : State T) (new_node : Option Nat) :
    Counted (State T) :=
  match new_node with
  | none => pure s
  | some a => do
    let m ← Counted.access 1 (alloc_node s.mem a)
    let s ← add_to_free_nodes_steps { s with mem := m } a
    pure { s with m_capacity := s.m_capacity + 1 }

/-- Method `Pool_block_allocator::add_node`, counted: the value-initialisation of the
`N` nodes of the new block, then `add_to_free_nodes` for the array. -/
def Pool_block_allocator.add_node_steps {T : Type} (c : Cfg) (s : State T)
    (new_block : Option Nat) : Counted (State T) :=
  match new_block with
  | none => pure s
  | some b => do
    let m ← alloc_block_steps s.mem b c.N
    let s ← add_to_free_nodes_array_steps { s with mem := m } (array_nodes b c.N)
    pure { s with m_blocks := b :: s.m_blocks, m_capacity := s.m_capacity + c.N }

/-- Call `impl().add_node()`, counted. -/
def add_node_steps {T : Type} (c : Cfg) (s : State T) (a : Option Nat) : Counted (State T) :=
  if c.impl.is_block then Pool_block_allocator.add_node_steps c s a
  else Pool_node_allocator.add_node_steps s a

/-- Method `DPool_base::create`, counted. -/
def DPool_base.create_steps {T : Type} (c : Cfg) (s : State T) (v : T) (a : Option Nat) :
    Counted (Option Nat × State T) := do
  let s ← if !flag_set c.Flags POOL_FIXED_CAPACITY && Pool_base.full c s
    then add_node_steps c s a else pure s
  create_obj_steps c s v

/-- Method `create` of the class, counted. -/
def create_steps {T : Type} (c : Cfg) (s : State T) (v : T) (a : Option Nat) :
    Counted (Option Nat × State T) :=
  match c.impl with
  | .SPool_list_bitset => SPool_list_bitset.create_steps s v
  | .SPool_list | .SPool_dlist => create_obj_steps c s v
  | _ => DPool_base.create_steps c s v a

/-- Method `destroy(const T*)` of the class, counted. -/
def destroy_steps {T : Type} (c : Cfg) (s : State T) (obj : Option Nat) : Counted (State T) :=
  match c.impl with
  | .SPool_list_bitset => SPool_list_bitset.destroy_steps s obj
  | .SPool_dlist | .Pool_dlist | .Pool_dlist_block => Pool_dlist_base.destroy_steps s obj
  | _ => Pool_list_base.destroy_steps s obj

/-! ## Teardown with a record of the destructor calls -/

/-- The callback of `destroy_all` (`f` is `destroy_obj` of the algorithm) together with a
record of the destructor calls: each call of `std::destroy_at(obj)` adds the address
`obj` and the element that is alive there when the call is made. -/
def destroy_obj_log {T : Type} (f : State T → Nat → Option (State T)) (s : State T)
    (log : List (Nat × T)) (obj : Nat) : Option (State T × List (Nat × T)) := do
  let v ← value s obj
  let s ← f s obj
  some (s, log ++ [(obj, v)])

/-- Method `Pool_dlist_base::destroy_all` with the record of the destructor calls. -/
def Pool_dlist_base.destroy_all_log {T : Type} (fuel : Nat) (s : State T) :
    Option (State T × List (Nat × T)) :=
  Pool_dlist_base.for_each fuel (destroy_obj_log Pool_dlist_base.destroy_obj) s []

/-- Method `SPool_list::destroy_all` with the record of the destructor calls. -/
def SPool_list.destroy_all_log {T : Type} (c : Cfg) (fuel : Nat) (s : State T) :
    Option (State T × List (Nat × T)) :=
  SPool_list.for_each c fuel (destroy_obj_log Pool_list_base.destroy_obj) s []

/-- Method `SPool_list_bitset::destroy_all` with the record of the destructor calls. -/
def SPool_list_bitset.destroy_all_log {T : Type} (c : Cfg) (s : State T) :
    Option (State T × List (Nat × T)) :=
  (SPool_list_bitset.for_each c (destroy_obj_log Pool_list_base.destroy_obj) s []).map
    fun r => ({ r.1 with m_used := bitset_reset c.N r.1.m_used }, r.2)

/-- Method `destroy_all`, by the class, with the record of the destructor calls; the
empty `Pool_list_base::destroy_all` of `Pool_list` and `Pool_list_block` calls no
destructor. -/
def destroy_all_log {T : Type} (c : Cfg) (fuel : Nat) (s : State T) :
    Option (State T × List (Nat × T)) :=
  match c.impl with
  | .SPool_list => SPool_list.destroy_all_log c fuel s
  | .SPool_list_bitset => SPool_list_bitset.destroy_all_log c s
  | .SPool_dlist | .Pool_dlist | .Pool_dlist_block => Pool_dlist_base.destroy_all_log fuel s
  | .Pool_list | .Pool_list_block => some (Pool_list_base.destroy_all s, [])

/-- Method `Pool_xxx::dtor` with the record of the destructor calls:
`destroy_all(); AlocBase::dtor()`; releasing the nodes calls no destructor. -/
def Pool_xxx.dtor_log {T : Type} (c : Cfg) (fuel : Nat) (s : State T) :
    Option (State T × List (Nat × T)) := do
  let r ← destroy_all_log c fuel s
  let s ← AlocBase.dtor c fuel r.1
  some (s, r.2)

/-- Destructor `~Pool_dtor` with the record of the destructor calls of the elements. -/
def Pool_dtor.dtor_log {T : Type} (c : Cfg) (trivial : Bool) (fuel : Nat) (s : State T) :
    Option (State T × List (Nat × T)) :=
  if flag_set (Pool_dtor.flags c trivial) POOL_DTOR_OFF then some (s, [])
  else if c.impl.is_static then destroy_all_log c fuel s
  else Pool_xxx.dtor_log c fuel s

/-! ## A full `SPool_list_bitset` -/

/-- The `ex_bitset` pool after `create(7)` and `create(8)`: both slots are occupied. -/
def ex_bitset_s2 : State Nat :=
  ((create ex_bitset ex_bitset_s1 8 none).map Prod.snd).getD ex_bitset_s1

/-! # Theorems -/

section memory
variable {T : Type}

theorem al_update (m : Mem T) (a : Nat) (n : Node T) :
    al (Function.update m a (some n)) = Function.update (al m) a true := by
  funext b; by_cases h : b = a <;> simp [al, Function.update_apply, h]

theorem nx_update (m : Mem T) (a : Nat) (n : Node T) :
    nx (Function.update m a (some n)) = Function.update (nx m) a n.next := by
  funext b; by_cases h : b = a <;> simp [nx, Function.update_apply, h]

theorem pv_update (m : Mem T) (a : Nat) (n : Node T) :
    pv (Function.update m a (some n)) = Function.update (pv m) a n.prev := by
  funext b; by_cases h : b = a <;> simp [pv, Function.update_apply, h]

theorem dt_update (m : Mem T) (a : Nat) (n : Node T) :
    dt (Function.update m a (some n)) = Function.update (dt m) a n.data := by
  funext b; by_cases h : b = a <;> simp [dt, Function.update_apply, h]

theorem al_eq_true_iff {m : Mem T} {a : Nat} : al m a = true ↔ ∃ n, m a = some n := by
  simp [al, Option.isSome_iff_exists]

/-- Two memories with the same four observations are equal. -/
theorem mem_ext {m m' : Mem T} (h1 : al m = al m') (h2 : nx m = nx m') (h3 : pv m = pv m')
    (h4 : dt m = dt m') : m = m' := by
  funext a
  have e1 := congrFun h1 a
  have e2 := congrFun h2 a
  have e3 := congrFun h3 a
  have e4 := congrFun h4 a
  simp only [al, nx, pv, dt] at e1 e2 e3 e4
  cases hm : m a with
  | none =>
    cases hm' : m' a with
    | none => rfl
    | some n' => simp [hm, hm'] at e1
  | some n =>
    cases hm' : m' a with
    | none => simp [hm, hm'] at e1
    | some n' =>
      simp only [hm, hm', Option.some_bind] at e2 e3 e4
      cases n; cases n'; simp_all

/-- What `a->next = v` does to the four observations. -/
theorem store_next_spec {m m' : Mem T} {a : Nat} {v : Option Nat} :
    store_next m a v = some m' →
      al m a = true ∧ al m' = al m ∧ nx m' = Function.update (nx m) a v ∧ pv m' = pv m ∧
        dt m' = dt m := by
  unfold store_next
  cases h : m a with
  | none => simp
  | some n =>
    simp only [Option.map_some', Option.some.injEq]
    rintro rfl
    refine ⟨by simp [al, h], ?_, ?_, ?_, ?_⟩
    · rw [al_update]; funext b; by_cases hb : b = a <;> simp [Function.update_apply, hb, al, h]
    · rw [nx_update]
    · rw [pv_update]; funext b; by_cases hb : b = a <;> simp [Function.update_apply, hb, pv, h]
    · rw [dt_update]; funext b; by_cases hb : b = a <;> simp [Function.update_apply, hb, dt, h]

theorem store_next_defined {m : Mem T} {a : Nat} (v : Option Nat) (h : al m a = true) :
    ∃ m', store_next m a v = some m' := by
  obtain ⟨n, hn⟩ := al_eq_true_iff.1 h
  simp [store_next, hn]

/-- What `a->prev = v` does to the four observations. -/
theorem store_prev_spec {m m' : Mem T} {a : Nat} {v : Option Nat} :
    store_prev m a v = some m' →
      al m a = true ∧ al m' = al m ∧ nx m' = nx m ∧ pv m' = Function.update (pv m) a v ∧
        dt m' = dt m := by
  unfold store_prev
  cases h : m a with
  | none => simp
  | some n =>
    simp only [Option.map_some', Option.some.injEq]
    rintro rfl
    refine ⟨by simp [al, h], ?_, ?_, ?_, ?_⟩
    · rw [al_update]; funext b; by_cases hb : b = a <;> simp [Function.update_apply, hb, al, h]
    · rw [nx_update]; funext b; by_cases hb : b = a <;> simp [Function.update_apply, hb, nx, h]
    · rw [pv_update]
    · rw [dt_update]; funext b; by_cases hb : b = a <;> simp [Function.update_apply, hb, dt, h]

theorem store_prev_defined {m : Mem T} {a : Nat} (v : Option Nat) (h : al m a = true) :
    ∃ m', store_prev m a v = some m' := by
  obtain ⟨n, hn⟩ := al_eq_true_iff.1 h
  simp [store_prev, hn]

/-- What beginning or ending the lifetime of the element at `a` does to the four
observations. -/
theorem store_data_spec {m m' : Mem T} {a : Nat} {v : Option T} :
    store_data m a v = some m' →
      al m a = true ∧ al m' = al m ∧ nx m' = nx m ∧ pv m' = pv m ∧
        dt m' = Function.update (dt m) a v := by
  unfold store_data
  cases h : m a with
  | none => simp
  | some n =>
    simp only [Option.map_some', Option.some.injEq]
    rintro rfl
    refine ⟨by simp [al, h], ?_, ?_, ?_, ?_⟩
    · rw [al_update]; funext b; by_cases hb : b = a <;> simp [Function.update_apply, hb, al, h]
    · rw [nx_update]; funext b; by_cases hb : b = a <;> simp [Function.update_apply, hb, nx, h]
    · rw [pv_update]; funext b; by_cases hb : b = a <;> simp [Function.update_apply, hb, pv, h]
    · rw [dt_update]

theorem store_data_defined {m : Mem T} {a : Nat} (v : Option T) (h : al m a = true) :
    ∃ m', store_data m a v = some m' := by
  obtain ⟨n, hn⟩ := al_eq_true_iff.1 h
  simp [store_data, hn]

/-- What a successful allocation at `a` does to the four observations. -/
theorem alloc_node_spec {m m' : Mem T} {a : Nat} :
    alloc_node m a = some m' →
      al m a = false ∧ al m' = Function.update (al m) a true ∧
        nx m' = Function.update (nx m) a none ∧ pv m' = Function.update (pv m) a none ∧
        dt m' = Function.update (dt m) a none := by
  unfold alloc_node
  split
  · rename_i h
    simp only [Option.some.injEq]
    rintro rfl
    refine ⟨?_, al_update _ _ _, nx_update _ _ _, pv_update _ _ _, dt_update _ _ _⟩
    simpa [al] using h
  · simp

theorem alloc_node_defined {m : Mem T} {a : Nat} (h : al m a = false) :
    ∃ m', alloc_node m a = some m' := by
  have h' : (m a).isNone = true := by
    cases hm : m a <;> simp [al, hm] at h ⊢
  simp [alloc_node, h']

/-- What `delete` of the node at `a` does to the four observations. -/
theorem free_node_spec (m : Mem T) (a : Nat) :
    al (free_node m a) = Function.update (al m) a false ∧
      nx (free_node m a) = Function.update (nx m) a none ∧
      pv (free_node m a) = Function.update (pv m) a none ∧
      dt (free_node m a) = Function.update (dt m) a none := by
  refine ⟨?_, ?_, ?_, ?_⟩ <;> funext b <;> by_cases hb : b = a <;>
    simp [free_node, al, nx, pv, dt, Function.update_apply, hb]

end memory

section chains
variable {T : Type}

theorem Chain.frame_chain {m m' : Mem T} {l : List Nat} :
    ∀ {p : Option Nat}, Chain m p l →
      (∀ a ∈ l, al m' a = al m a ∧ nx m' a = nx m a) → Chain m' p l := by
  induction l with
  | nil => intro p h _; exact h
  | cons a l ih =>
    intro p h hf
    obtain ⟨h1, h2, h3⟩ := h
    have ha := hf a (List.mem_cons_self _ _)
    refine ⟨h1, by rw [ha.1]; exact h2, ?_⟩
    rw [ha.2]
    exact ih h3 fun b hb => hf b (List.mem_cons_of_mem _ hb)

theorem Chain.unique {m : Mem T} {l : List Nat} :
    ∀ {p : Option Nat} {l' : List Nat}, Chain m p l → Chain m p l' → l = l' := by
  induction l with
  | nil =>
    intro p l' h h'
    cases l' with
    | nil => rfl
    | cons b l' => simp [Chain] at h h'; simp [h] at h'
  | cons a l ih =>
    intro p l' h h'
    cases l' with
    | nil => simp [Chain] at h h'; simp [h'] at h
    | cons b l' =>
      obtain ⟨h1, _, h3⟩ := h
      obtain ⟨h1', _, h3'⟩ := h'
      have hab : a = b := by rw [h1] at h1'; exact Option.some.inj h1'
      subst hab
      rw [ih h3 h3']

theorem Chain.al_of_mem {m : Mem T} {l : List Nat} :
    ∀ {p : Option Nat}, Chain m p l → ∀ a ∈ l, al m a = true := by
  induction l with
  | nil => intro p _ a ha; cases ha
  | cons b l ih =>
    intro p h a ha
    obtain ⟨_, h2, h3⟩ := h
    rcases List.mem_cons.1 ha with rfl | ha
    · exact h2
    · exact ih h3 a ha

theorem Chain.of_some {m : Mem T} {a : Nat} {l : List Nat} (h : Chain m (some a) l) :
    ∃ l', l = a :: l' ∧ al m a = true ∧ Chain m (nx m a) l' := by
  cases l with
  | nil => simp [Chain] at h
  | cons b l =>
    obtain ⟨h1, h2, h3⟩ := h
    have hab : a = b := Option.some.inj h1
    subst hab
    exact ⟨l, rfl, h2, h3⟩

theorem Chain.of_none {m : Mem T} {l : List Nat} (h : Chain m none l) : l = [] := by
  cases l with
  | nil => rfl
  | cons b l => simp [Chain] at h

theorem Seg.frame_seg {m m' : Mem T} {l : List Nat} {y : Nat} :
    ∀ {x : Nat}, Seg m x l y → (∀ z ∈ x :: l, nx m' z = nx m z) →
      (∀ z ∈ l ++ [y], pv m' z = pv m z) → Seg m' x l y := by
  induction l with
  | nil =>
    intro x h hn hp
    exact ⟨by rw [hn x (by simp)]; exact h.1, by rw [hp y (by simp)]; exact h.2⟩
  | cons a l ih =>
    intro x h hn hp
    refine ⟨⟨by rw [hn x (by simp)]; exact h.1.1, by rw [hp a (by simp)]; exact h.1.2⟩, ?_⟩
    exact ih h.2 (fun z hz => hn z (List.mem_cons_of_mem _ hz))
      (fun z hz => hp z (by simp at hz ⊢; tauto))

theorem Seg.append {m : Mem T} {l1 l2 : List Nat} {a y : Nat} :
    ∀ {x : Nat}, Seg m x (l1 ++ a :: l2) y ↔ Seg m x l1 a ∧ Seg m a l2 y := by
  induction l1 with
  | nil => intro x; simp [Seg]
  | cons b l1 ih => intro x; simp [Seg, ih, and_assoc]

/-- The node before the end of a segment. -/
theorem Seg.last_linked {m : Mem T} {l : List Nat} {y : Nat} :
    ∀ {x : Nat}, Seg m x l y → ∃ p ∈ x :: l, Linked m p y := by
  induction l with
  | nil => intro x h; exact ⟨x, by simp, h⟩
  | cons a l ih =>
    intro x h
    obtain ⟨p, hp, hl⟩ := ih h.2
    exact ⟨p, List.mem_cons_of_mem _ hp, hl⟩

/-- The node after the start of a segment. -/
theorem Seg.first_linked {m : Mem T} {l : List Nat} {x y : Nat} (h : Seg m x l y) :
    ∃ q ∈ l ++ [y], Linked m x q := by
  cases l with
  | nil => exact ⟨y, by simp, h⟩
  | cons a l => exact ⟨a, by simp, h.1⟩

/-- Unlinking the node `a` from a segment (`dlist_head::del` on its neighbours). -/
theorem Seg.unlink {m m' : Mem T} {l1 l2 : List Nat} {a y p q : Nat}
    (hp : pv m a = some p) (hq : nx m a = some q)
    (hn : nx m' = Function.update (nx m) p (some q))
    (hv : pv m' = Function.update (pv m) q (some p)) :
    ∀ {x : Nat}, Seg m x l1 a → Seg m a l2 y → (x :: l1 ++ a :: l2).Nodup →
      y ∉ l1 ++ a :: l2 → Seg m' x (l1 ++ l2) y := by
  induction l1 with
  | nil =>
    intro x h1 h2 hnd hy
    have hxp : x = p := by
      have := h1.2; rw [hp] at this; exact (Option.some.inj this).symm
    subst hxp
    cases l2 with
    | nil =>
      have hyq : y = q := by
        have := h2.1; rw [hq] at this; exact (Option.some.inj this).symm
      subst hyq
      exact ⟨by rw [hn]; simp, by rw [hv]; simp⟩
    | cons b l2 =>
      have hbq : b = q := by
        have := h2.1.1; rw [hq] at this; exact (Option.some.inj this).symm
      subst hbq
      refine ⟨⟨by rw [hn]; simp, by rw [hv]; simp⟩, ?_⟩
      simp only [List.nil_append, List.cons_append, List.nodup_cons, List.mem_cons, not_or,
        List.mem_append] at hnd hy
      refine Seg.frame_seg h2.2 ?_ ?_
      · intro z hz
        rw [hn, Function.update_noteq]
        rintro rfl
        rcases List.mem_cons.1 hz with h | h
        · exact hnd.1.2.1 h
        · exact hnd.1.2.2 h
      · intro z hz
        rw [hv, Function.update_noteq]
        rintro rfl
        rcases List.mem_append.1 hz with h | h
        · exact hnd.2.2.1 h
        · simp at h; exact hy.2.1 h.symm
  | cons b l1 ih =>
    intro x h1 h2 hnd hy
    obtain ⟨p', hp', hl'⟩ := Seg.last_linked h1.2
    have hpp : p' = p := by
      have := hl'.2; rw [hp] at this; exact (Option.some.inj this).symm
    subst hpp
    obtain ⟨q', hq', hl2⟩ := Seg.first_linked h2
    have hqq : q' = q := by
      have := hl2.1; rw [hq] at this; exact (Option.some.inj this).symm
    subst hqq
    simp only [List.cons_append, List.nodup_cons, List.mem_cons, not_or, List.mem_append]
      at hnd hy
    refine ⟨⟨?_, ?_⟩, ?_⟩
    · rw [hn, Function.update_noteq]
      · exact h1.1.1
      · rintro rfl
        rcases List.mem_cons.1 hp' with h | h
        · exact hnd.1.1 h
        · exact hnd.1.2.1 h
    · rw [hv, Function.update_noteq]
      · exact h1.1.2
      · rintro rfl
        rcases List.mem_append.1 hq' with h | h
        · exact hnd.2.1.2.2 h
        · simp at h; exact hy.1 h.symm
    · refine ih h1.2 h2 ?_ ?_
      · simp only [List.cons_append, List.nodup_cons, List.mem_cons, not_or, List.mem_append]
        exact hnd.2
      · simp only [List.mem_append, List.mem_cons, not_or]
        exact ⟨hy.2.1, hy.2.2.1, hy.2.2.2⟩

/-- Linking the node `a` in front of the end `y` of a segment (`dlist_head::insert`
between the last node `p` and `y`). -/
theorem Seg.link {m m' : Mem T} {l : List Nat} {a y p : Nat}
    (hp : pv m y = some p)
    (hn : nx m' = Function.update (Function.update (nx m) a (some y)) p (some a))
    (hv : pv m' = Function.update (Function.update (pv m) y (some a)) a (some p)) :
    ∀ {x : Nat}, Seg m x l y → (x :: l).Nodup → a ∉ x :: l → a ≠ y → y ∉ l →
      Seg m' x (l ++ [a]) y := by
  induction l with
  | nil =>
    intro x h _ ha hay _
    have hxp : x = p := by
      have := h.2; rw [hp] at this; exact (Option.some.inj this).symm
    subst hxp
    have hax : a ≠ x := by simpa using ha
    refine ⟨⟨by rw [hn]; simp, by rw [hv]; simp⟩, ⟨?_, ?_⟩⟩
    · rw [hn, Function.update_noteq hax]; simp
    · rw [hv, Function.update_noteq (Ne.symm hay)]; simp
  | cons b l ih =>
    intro x h hnd ha hay hy
    obtain ⟨p', hp', hl'⟩ := Seg.last_linked h.2
    have hpp : p' = p := by
      have := hl'.2; rw [hp] at this; exact (Option.some.inj this).symm
    subst hpp
    simp only [List.nodup_cons, List.mem_cons, not_or] at hnd ha hy
    refine ⟨⟨?_, ?_⟩, ?_⟩
    · have hxp : x ≠ p' := by
        rintro rfl
        rcases List.mem_cons.1 hp' with h' | h'
        · exact hnd.1.1 h'
        · exact hnd.1.2 h'
      rw [hn, Function.update_noteq hxp, Function.update_noteq (Ne.symm ha.1)]
      exact h.1.1
    · rw [hv, Function.update_noteq (Ne.symm ha.2.1), Function.update_noteq (Ne.symm hy.1)]
      exact h.1.2
    · exact ih h.2 (List.nodup_cons.2 hnd.2)
        (by simp only [List.mem_cons, not_or]; exact ha.2) hay hy.2

end chains

section core
variable {T : Type}

theorem al_of_nx {m : Mem T} {a b : Nat} (h : nx m a = some b) : al m a = true := by
  unfold nx at h; unfold al
  cases hm : m a <;> simp [hm] at h ⊢

theorem al_of_pv {m : Mem T} {a b : Nat} (h : pv m a = some b) : al m a = true := by
  unfold pv at h; unfold al
  cases hm : m a <;> simp [hm] at h ⊢

theorem al_of_dt {m : Mem T} {a : Nat} (h : (dt m a).isSome = true) : al m a = true := by
  unfold dt at h; unfold al
  cases hm : m a <;> simp [hm] at h ⊢

/-- The linked structures only depend on the observations at the nodes they are made of. -/
theorem Core.frame_core {d : Bool} {s s' : State T} {fl ul : List Nat} (h : Core d s fl ul)
    (hf : s'.m_free_nodes = s.m_free_nodes) (hu : s'.m_used_nodes = s.m_used_nodes)
    (hm : ∀ a, a ∈ fl ∨ a ∈ ul ∨ (d = true ∧ a = s.m_used_nodes) →
      al s'.mem a = al s.mem a ∧ nx s'.mem a = nx s.mem a ∧ pv s'.mem a = pv s.mem a ∧
        dt s'.mem a = dt s.mem a) :
    Core d s' fl ul := by
  refine ⟨?_, h.nodup, ?_, ?_, ?_⟩
  · rw [hf]
    exact h.chain.frame_chain fun a ha => ⟨(hm a (Or.inl ha)).1, (hm a (Or.inl ha)).2.1⟩
  · intro a ha; rw [(hm a (Or.inl ha)).2.2.2]; exact h.fl_free a ha
  · intro a ha; rw [(hm a (Or.inr (Or.inl ha))).2.2.2]; exact h.ul_live a ha
  · intro hd
    obtain ⟨h1, h2, h3⟩ := h.ring hd
    rw [hu]
    refine ⟨?_, h2, ?_⟩
    · refine Seg.frame_seg h1 ?_ ?_
      · intro z hz
        rcases List.mem_cons.1 hz with rfl | hz
        · exact (hm _ (Or.inr (Or.inr ⟨hd, rfl⟩))).2.1
        · exact (hm _ (Or.inr (Or.inl hz))).2.1
      · intro z hz
        rcases List.mem_append.1 hz with hz | hz
        · exact (hm _ (Or.inr (Or.inl hz))).2.2.1
        · simp at hz; subst hz; exact (hm _ (Or.inr (Or.inr ⟨hd, rfl⟩))).2.2.1
    · rw [(hm _ (Or.inr (Or.inr ⟨hd, rfl⟩))).2.2.2]; exact h3

theorem Core.al_fl {d : Bool} {s : State T} {fl ul : List Nat} (h : Core d s fl ul) :
    ∀ a ∈ fl, al s.mem a = true := h.chain.al_of_mem

theorem Core.al_ul {d : Bool} {s : State T} {fl ul : List Nat} (h : Core d s fl ul) :
    ∀ a ∈ ul, al s.mem a = true := fun a ha => al_of_dt (h.ul_live a ha)

theorem Core.al_sentinel {s : State T} {fl ul : List Nat} (h : Core true s fl ul) :
    al s.mem s.m_used_nodes = true := by
  obtain ⟨q, _, hq⟩ := Seg.first_linked (h.ring rfl).1
  exact al_of_nx hq.1

/-- Method `add_to_free_nodes(Node*)` on a node that is allocated, holds no element and
is on neither list: it becomes the head of the free chain. -/
theorem Core.of_add_to_free_nodes {d : Bool} {s : State T} {fl ul : List Nat} {a : Nat}
    (h : Core d s fl ul) (hal : al s.mem a = true) (ha : a ∉ fl ++ ul)
    (hs : d = true → a ≠ s.m_used_nodes) (hd : dt s.mem a = none) :
    ∃ m', add_to_free_nodes s a = some { s with mem := m', m_free_nodes := some a } ∧
      al m' = al s.mem ∧ dt m' = dt s.mem ∧
      Core d { s with mem := m', m_free_nodes := some a } (a :: fl) ul := by
  obtain ⟨m', hm'⟩ := store_next_defined s.m_free_nodes hal
  obtain ⟨-, e1, e2, e3, e4⟩ := store_next_spec hm'
  refine ⟨m', by simp [pool_impl.add_to_free_nodes, hm'], e1, e4, ?_⟩
  have hafl : a ∉ fl := fun h' => ha (List.mem_append_left _ h')
  have haul : a ∉ ul := fun h' => ha (List.mem_append_right _ h')
  refine ⟨?_, ?_, ?_, ?_, ?_⟩
  · refine ⟨rfl, by simp only [e1]; exact hal, ?_⟩
    simp only [e2, Function.update_same]
    refine h.chain.frame_chain fun b hb => ?_
    have hba : b ≠ a := fun e => hafl (e ▸ hb)
    simp [e1, e2, Function.update_noteq hba]
  · simp only [List.cons_append, List.nodup_cons]; exact ⟨ha, h.nodup⟩
  · intro b hb
    simp only [e4]
    rcases List.mem_cons.1 hb with rfl | hb
    · exact hd
    · exact h.fl_free b hb
  · intro b hb; simp only [e4]; exact h.ul_live b hb
  · intro hd'
    obtain ⟨h1, h2, h3⟩ := h.ring hd'
    refine ⟨?_, ?_, by simp only [e4]; exact h3⟩
    · refine Seg.frame_seg h1 ?_ ?_
      · intro z hz
        have hza : z ≠ a := by
          rintro rfl
          rcases List.mem_cons.1 hz with h' | h'
          · exact hs hd' h'
          · exact haul h'
        simp [e2, Function.update_noteq hza]
      · intro z _; simp [e3]
    · simp only [List.cons_append, List.mem_cons, not_or]
      exact ⟨fun e => hs hd' e.symm, h2⟩

/-- Method `Pool_list_base::create_obj` on a non-empty free chain. -/
theorem Core.list_create_obj {s : State T} {fl ul : List Nat} {a : Nat}
    (h : Core false s (a :: fl) ul) (v : T) :
    ∃ m' p, Pool_list_base.create_obj s v =
        some (some a, { s with mem := m', m_size := s.m_size + 1, m_free_nodes := p }) ∧
      al m' = al s.mem ∧ dt m' = Function.update (dt s.mem) a (some v) ∧
      Core false { s with mem := m', m_size := s.m_size + 1, m_free_nodes := p } fl
        (ul ++ [a]) := by
  obtain ⟨hfree, hal, hch⟩ := h.chain
  obtain ⟨n, hn⟩ := al_eq_true_iff.1 hal
  have hnd := h.nodup
  simp only [List.cons_append, List.nodup_cons, List.mem_append, not_or] at hnd
  refine ⟨Function.update s.mem a (some { n with next := none, data := some v }), n.next,
    by simp [Pool_list_base.create_obj, hfree, hn], ?_, ?_, ?_⟩
  · rw [al_update]; funext b; by_cases hb : b = a <;> simp [Function.update_apply, hb, hal]
  · rw [dt_update]
  · have hnx : nx s.mem a = n.next := by simp [nx, hn]
    refine ⟨?_, ?_, ?_, ?_, by simp⟩
    · show Chain _ n.next fl
      rw [← hnx]
      refine hch.frame_chain fun b hb => ?_
      have hba : b ≠ a := fun e => hnd.1.1 (e ▸ hb)
      simp [al_update, nx_update, Function.update_noteq hba]
    · rw [← List.append_assoc]
      refine List.Nodup.append hnd.2 (by simp) ?_
      simp only [List.disjoint_singleton, List.mem_append, not_or]
      exact hnd.1
    · intro b hb
      have hba : b ≠ a := fun e => hnd.1.1 (e ▸ hb)
      show dt (Function.update _ _ _) b = none
      rw [dt_update, Function.update_noteq hba]
      exact h.fl_free b (List.mem_cons_of_mem _ hb)
    · intro b hb
      show (dt (Function.update _ _ _) b).isSome = true
      rw [dt_update]
      rcases List.mem_append.1 hb with hb | hb
      · have hba : b ≠ a := fun e => hnd.1.2 (e ▸ hb)
        rw [Function.update_noteq hba]; exact h.ul_live b hb
      · simp at hb; subst hb; simp

theorem nx_eq_some {m : Mem T} {a b : Nat} :
    nx m a = some b ↔ ∃ n, m a = some n ∧ n.next = some b := by
  simp [nx, Option.bind_eq_some]

theorem pv_eq_some {m : Mem T} {a b : Nat} :
    pv m a = some b ↔ ∃ n, m a = some n ∧ n.prev = some b := by
  simp [pv, Option.bind_eq_some]

/-- Method `dlist_head::push_back` in terms of the observations. -/
theorem push_back_spec {m : Mem T} {h node p : Nat} (hp : pv m h = some p)
    (hnode : al m node = true) (hpa : al m p = true) :
    ∃ m', dlist_head.push_back m h node = some m' ∧ al m' = al m ∧ dt m' = dt m ∧
      nx m' = Function.update (Function.update (nx m) node (some h)) p (some node) ∧
      pv m' = Function.update (Function.update (pv m) h (some node)) node (some p) := by
  obtain ⟨n, hn, hnp⟩ := pv_eq_some.1 hp
  have hh : al m h = true := al_of_pv hp
  obtain ⟨m1, h1⟩ := store_prev_defined (some node) hh
  obtain ⟨-, a1, b1, c1, d1⟩ := store_prev_spec h1
  obtain ⟨m2, h2⟩ := store_next_defined (m := m1) (some h) (by rw [a1]; exact hnode)
  obtain ⟨-, a2, b2, c2, d2⟩ := store_next_spec h2
  obtain ⟨m3, h3⟩ := store_prev_defined (m := m2) (some p) (by rw [a2, a1]; exact hnode)
  obtain ⟨-, a3, b3, c3, d3⟩ := store_prev_spec h3
  obtain ⟨m4, h4⟩ := store_next_defined (m := m3) (some node) (by rw [a3, a2, a1]; exact hpa)
  obtain ⟨-, a4, b4, c4, d4⟩ := store_next_spec h4
  refine ⟨m4, ?_, by rw [a4, a3, a2, a1], by rw [d4, d3, d2, d1], by rw [b4, b3, b2, b1],
    by rw [c4, c3, c2, c1]⟩
  simp [dlist_head.push_back, dlist_head.insert, hn, hnp, h1, h2, h3, h4]

/-- Method `dlist_head::remove` in terms of the observations. -/
theorem remove_spec {m : Mem T} {a p q : Nat} (hp : pv m a = some p) (hq : nx m a = some q)
    (hpa : al m p = true) (hqa : al m q = true) :
    ∃ m', dlist_head.remove m a = some m' ∧ al m' = al m ∧ dt m' = dt m ∧
      nx m' = Function.update (nx m) p (some q) ∧
      pv m' = Function.update (pv m) q (some p) := by
  obtain ⟨n, hn, hnp⟩ := pv_eq_some.1 hp
  obtain ⟨n', hn', hnq⟩ := nx_eq_some.1 hq
  have hnn : n' = n := by rw [hn] at hn'; exact (Option.some.inj hn').symm
  subst hnn
  obtain ⟨m1, h1⟩ := store_prev_defined (some p) hqa
  obtain ⟨-, a1, b1, c1, d1⟩ := store_prev_spec h1
  obtain ⟨m2, h2⟩ := store_next_defined (m := m1) (some q) (by rw [a1]; exact hpa)
  obtain ⟨-, a2, b2, c2, d2⟩ := store_next_spec h2
  refine ⟨m2, ?_, by rw [a2, a1], by rw [d2, d1], by rw [b2, b1], by rw [c2, c1]⟩
  simp [dlist_head.remove, dlist_head.del_node, dlist_head.del, hn, hnp, hnq, h1, h2]

/-- Method `Pool_dlist_base::create_obj` on a non-empty free chain. -/
theorem Core.dlist_create_obj {s : State T} {fl ul : List Nat} {a : Nat}
    (h : Core true s (a :: fl) ul) (v : T) :
    ∃ m' p, Pool_dlist_base.create_obj s v =
        some (some a, { s with mem := m', m_size := s.m_size + 1, m_free_nodes := p }) ∧
      al m' = al s.mem ∧ dt m' = Function.update (dt s.mem) a (some v) ∧
      Core true { s with mem := m', m_size := s.m_size + 1, m_free_nodes := p } fl
        (ul ++ [a]) := by
  obtain ⟨hfree, hal, hch⟩ := h.chain
  have hnd := h.nodup
  simp only [List.cons_append, List.nodup_cons, List.mem_append, not_or] at hnd
  obtain ⟨hring, hsent, hsd⟩ := h.ring rfl
  simp only [List.cons_append, List.mem_cons, List.mem_append, not_or] at hsent
  obtain ⟨p, hpm, hpl⟩ := Seg.last_linked hring
  obtain ⟨m1, h1⟩ := store_data_defined (some v) hal
  obtain ⟨-, a1, b1, c1, d1⟩ := store_data_spec h1
  obtain ⟨n, hn⟩ := al_eq_true_iff.1 (show al m1 a = true by rw [a1]; exact hal)
  have hnx : n.next = nx s.mem a := by rw [← b1]; simp [nx, hn]
  obtain ⟨m2, h2, a2, d2, b2, c2⟩ := @push_back_spec T m1 s.m_used_nodes a p
    (by rw [c1]; exact hpl.2) (by rw [a1]; exact hal)
    (by rw [a1]; exact al_of_nx hpl.1)
  rw [b1] at b2; rw [c1] at c2
  refine ⟨m2, n.next, by simp [Pool_dlist_base.create_obj, hfree, h1, hn, h2],
    by rw [a2, a1], by rw [d2, d1], ?_⟩
  have hpfl : ∀ b ∈ fl, b ≠ p := by
    rintro b hb rfl
    rcases List.mem_cons.1 hpm with e | e
    · exact hsent.2.1 (e ▸ hb)
    · exact (List.nodup_append.1 hnd.2).2.2 hb e
  refine ⟨?_, ?_, ?_, ?_, fun _ => ⟨?_, ?_, ?_⟩⟩
  · show Chain m2 n.next fl
    rw [hnx]
    refine hch.frame_chain fun b hb => ?_
    have hba : b ≠ a := fun e => hnd.1.1 (e ▸ hb)
    simp [a2, a1, b2, Function.update_noteq hba, Function.update_noteq (hpfl b hb)]
  · rw [← List.append_assoc]
    refine List.Nodup.append hnd.2 (by simp) ?_
    simp only [List.disjoint_singleton, List.mem_append, not_or]
    exact hnd.1
  · intro b hb
    have hba : b ≠ a := fun e => hnd.1.1 (e ▸ hb)
    show dt m2 b = none
    rw [d2, d1, Function.update_noteq hba]
    exact h.fl_free b (List.mem_cons_of_mem _ hb)
  · intro b hb
    show (dt m2 b).isSome = true
    rw [d2, d1]
    rcases List.mem_append.1 hb with hb | hb
    · have hba : b ≠ a := fun e => hnd.1.2 (e ▸ hb)
      rw [Function.update_noteq hba]; exact h.ul_live b hb
    · simp at hb; subst hb; simp
  · show Seg m2 s.m_used_nodes (ul ++ [a]) s.m_used_nodes
    refine Seg.link hpl.2 b2 c2 hring ?_ ?_ (Ne.symm hsent.1) hsent.2.2
    · exact List.nodup_cons.2 ⟨hsent.2.2, (List.nodup_append.1 hnd.2).2.1⟩
    · simp only [List.mem_cons, not_or]; exact ⟨Ne.symm hsent.1, hnd.1.2⟩
  · show s.m_used_nodes ∉ fl ++ (ul ++ [a])
    simp only [List.mem_append, List.mem_singleton, not_or]
    exact ⟨hsent.2.1, hsent.2.2, hsent.1⟩
  · show dt m2 s.m_used_nodes = none
    rw [d2, d1, Function.update_noteq hsent.1]; exact hsd

theorem dt_isSome_iff {m : Mem T} {a : Nat} :
    (dt m a).isSome = true ↔ ∃ n v, m a = some n ∧ n.data = some v := by
  unfold dt
  cases hm : m a with
  | none => simp
  | some n => cases hd : n.data <;> simp [hd]

theorem nodup_erase_facts {fl ul : List Nat} {a : Nat} (h : (fl ++ ul).Nodup) (ha : a ∈ ul) :
    a ∉ fl ∧ a ∉ ul.erase a ∧ (fl ++ ul.erase a).Nodup ∧
      ∀ b ∈ ul.erase a, b ≠ a ∧ b ∈ ul := by
  obtain ⟨h1, h2, h3⟩ := List.nodup_append.1 h
  refine ⟨fun hf => h3 hf ha, fun hm => ((h2.mem_erase_iff).1 hm).1 rfl, ?_, ?_⟩
  · exact h.sublist (List.Sublist.append_left (List.erase_sublist a ul) fl)
  · intro b hb; exact (h2.mem_erase_iff).1 hb

/-- Method `Pool_list_base::destroy_obj` on an occupied slot. -/
theorem Core.list_destroy_obj {s : State T} {fl ul : List Nat} {a : Nat}
    (h : Core false s fl ul) (ha : a ∈ ul) :
    ∃ m', Pool_list_base.destroy_obj s a =
        some { s with m_size := s.m_size - 1, mem := m', m_free_nodes := some a } ∧
      al m' = al s.mem ∧ dt m' = Function.update (dt s.mem) a none ∧
      Core false { s with m_size := s.m_size - 1, mem := m', m_free_nodes := some a }
        (a :: fl) (ul.erase a) := by
  obtain ⟨n, v, hn, hv⟩ := dt_isSome_iff.1 (h.ul_live a ha)
  have hal : al s.mem a = true := h.al_ul a ha
  obtain ⟨m1, h1⟩ := store_data_defined (none : Option T) hal
  obtain ⟨-, a1, b1, c1, d1⟩ := store_data_spec h1
  obtain ⟨hafl, hae, hnd, hmem⟩ := nodup_erase_facts h.nodup ha
  have hc1 : Core false { s with m_size := s.m_size - 1, mem := m1 } fl (ul.erase a) := by
    refine ⟨?_, hnd, ?_, ?_, by simp⟩
    · refine h.chain.frame_chain fun b hb => ?_
      simp [a1, b1]
    · intro b hb
      have hba : b ≠ a := fun e => hafl (e ▸ hb)
      show dt m1 b = none
      rw [d1, Function.update_noteq hba]; exact h.fl_free b hb
    · intro b hb
      show (dt m1 b).isSome = true
      rw [d1, Function.update_noteq (hmem b hb).1]; exact h.ul_live b (hmem b hb).2
  obtain ⟨m2, h2, a2, d2, hc2⟩ := hc1.of_add_to_free_nodes (a := a)
    (by show al m1 a = true; rw [a1]; exact hal)
    (by simp only [List.mem_append, not_or]; exact ⟨hafl, hae⟩) (by simp)
    (by show dt m1 a = none; rw [d1]; simp)
  refine ⟨m2, ?_, by rw [a2]; exact a1, by rw [d2]; exact d1, hc2⟩
  simp only [Pool_list_base.destroy_obj, hn, hv, h1, Option.bind_eq_bind, Option.some_bind]
  exact h2

/-- Method `Pool_dlist_base::destroy_obj` on an occupied slot. -/
theorem Core.dlist_destroy_obj {s : State T} {fl ul : List Nat} {a : Nat}
    (h : Core true s fl ul) (ha : a ∈ ul) :
    ∃ m', Pool_dlist_base.destroy_obj s a =
        some { s with m_size := s.m_size - 1, mem := m', m_free_nodes := some a } ∧
      al m' = al s.mem ∧ dt m' = Function.update (dt s.mem) a none ∧
      Core true { s with m_size := s.m_size - 1, mem := m', m_free_nodes := some a }
        (a :: fl) (ul.erase a) := by
  obtain ⟨n, v, hn, hv⟩ := dt_isSome_iff.1 (h.ul_live a ha)
  have hal : al s.mem a = true := h.al_ul a ha
  obtain ⟨hafl, hae, hnd, hmem⟩ := nodup_erase_facts h.nodup ha
  obtain ⟨hring, hsent, hsd⟩ := h.ring rfl
  simp only [List.mem_append, not_or] at hsent
  obtain ⟨l1, l2, rfl⟩ := List.append_of_mem ha
  have hul : (l1 ++ a :: l2).Nodup := (List.nodup_append.1 h.nodup).2.1
  have hal1 : a ∉ l1 := by
    intro e
    have := (List.nodup_append.1 hul).2.2 e (List.mem_cons_self _ _)
    exact this
  have herase : (l1 ++ a :: l2).erase a = l1 ++ l2 := by
    rw [List.erase_append_right _ hal1, List.erase_cons_head]
  rw [herase] at hae hnd hmem ⊢
  obtain ⟨hs1, hs2⟩ := Seg.append.1 hring
  obtain ⟨p, hpm, hpl⟩ := Seg.last_linked hs1
  obtain ⟨q, hqm, hql⟩ := Seg.first_linked hs2
  obtain ⟨m1, h1⟩ := store_data_defined (none : Option T) hal
  obtain ⟨-, a1, b1, c1, d1⟩ := store_data_spec h1
  obtain ⟨m2, h2, a2, d2, b2, c2⟩ := remove_spec (m := m1) (a := a) (p := p) (q := q)
    (by rw [c1]; exact hpl.2) (by rw [b1]; exact hql.1)
    (by rw [a1]; exact al_of_nx hpl.1) (by rw [a1]; exact al_of_pv hql.2)
  rw [b1] at b2; rw [c1] at c2
  have hpfl : ∀ b ∈ fl, b ≠ p := by
    rintro b hb rfl
    rcases List.mem_cons.1 hpm with e | e
    · exact hsent.1 (e ▸ hb)
    · exact (List.nodup_append.1 h.nodup).2.2 hb (List.mem_append_left _ e)
  have hseg : Seg m2 s.m_used_nodes (l1 ++ l2) s.m_used_nodes := by
    refine Seg.unlink hpl.2 hql.1 b2 c2 hs1 hs2 ?_ ?_
    · exact List.nodup_cons.2 ⟨hsent.2, hul⟩
    · exact hsent.2
  have hc1 : Core true { s with m_size := s.m_size - 1, mem := m2 } fl (l1 ++ l2) := by
    refine ⟨?_, hnd, ?_, ?_, fun _ => ⟨hseg, ?_, ?_⟩⟩
    · refine h.chain.frame_chain fun b hb => ?_
      simp [a2, a1, b2, Function.update_noteq (hpfl b hb)]
    · intro b hb
      have hba : b ≠ a := fun e => hafl (e ▸ hb)
      show dt m2 b = none
      rw [d2, d1, Function.update_noteq hba]; exact h.fl_free b hb
    · intro b hb
      show (dt m2 b).isSome = true
      rw [d2, d1, Function.update_noteq (hmem b hb).1]; exact h.ul_live b (hmem b hb).2
    · show s.m_used_nodes ∉ fl ++ (l1 ++ l2)
      simp only [List.mem_append, not_or]
      refine ⟨hsent.1, fun e => hsent.2 ?_, fun e => hsent.2 ?_⟩
      · exact List.mem_append_left _ e
      · exact List.mem_append_right _ (List.mem_cons_of_mem _ e)
    · show dt m2 s.m_used_nodes = none
      have hne : s.m_used_nodes ≠ a := fun e => hsent.2 (e ▸ ha)
      rw [d2, d1, Function.update_noteq hne]; exact hsd
  obtain ⟨m3, h3, a3, d3, hc3⟩ := hc1.of_add_to_free_nodes (a := a)
    (by show al m2 a = true; rw [a2, a1]; exact hal)
    (by simp only [List.mem_append, not_or] at hae ⊢; exact ⟨hafl, hae⟩)
    (fun _ e => hsent.2 (e ▸ ha))
    (by show dt m2 a = none; rw [d2, d1]; simp)
  refine ⟨m3, ?_, by rw [a3]; exact a2.trans a1, by rw [d3]; exact d2.trans d1, hc3⟩
  simp only [Pool_dlist_base.destroy_obj, hn, hv, h1, h2, Option.bind_eq_bind,
    Option.some_bind]
  exact h3

/-- Call `impl().create_obj` on a non-empty free chain, for either algorithm. -/
theorem Core.any_create_obj (c : Cfg) {s : State T} {fl ul : List Nat} {a : Nat}
    (h : Core c.impl.is_dlist s (a :: fl) ul) (v : T) :
    ∃ m' p, create_obj c s v =
        some (some a, { s with mem := m', m_size := s.m_size + 1, m_free_nodes := p }) ∧
      al m' = al s.mem ∧ dt m' = Function.update (dt s.mem) a (some v) ∧
      Core c.impl.is_dlist { s with mem := m', m_size := s.m_size + 1, m_free_nodes := p } fl
        (ul ++ [a]) := by
  unfold pool_impl.create_obj
  cases hd : c.impl.is_dlist with
  | true => rw [hd] at h; simpa using h.dlist_create_obj v
  | false => rw [hd] at h; simpa using h.list_create_obj v

/-- Call `impl().create_obj` on an empty free chain returns `nullptr` and changes nothing. -/
theorem create_obj_null (c : Cfg) {s : State T} (h : s.m_free_nodes = none) (v : T) :
    create_obj c s v = some (none, s) := by
  unfold create_obj
  cases c.impl.is_dlist <;> simp [Pool_dlist_base.create_obj, Pool_list_base.create_obj, h]

/-- Call `impl().destroy_obj` on an occupied slot, for either algorithm. -/
theorem Core.any_destroy_obj (c : Cfg) {s : State T} {fl ul : List Nat} {a : Nat}
    (h : Core c.impl.is_dlist s fl ul) (ha : a ∈ ul) :
    ∃ m', destroy_obj c s a =
        some { s with m_size := s.m_size - 1, mem := m', m_free_nodes := some a } ∧
      al m' = al s.mem ∧ dt m' = Function.update (dt s.mem) a none ∧
      Core c.impl.is_dlist { s with m_size := s.m_size - 1, mem := m', m_free_nodes := some a }
        (a :: fl) (ul.erase a) := by
  unfold pool_impl.destroy_obj
  cases hd : c.impl.is_dlist with
  | true => rw [hd] at h; simpa using h.dlist_destroy_obj ha
  | false => rw [hd] at h; simpa using h.list_destroy_obj ha

/-- Ending the lifetime of an element that is not alive is outside the embedding. -/
theorem destroy_obj_live (c : Cfg) {s s' : State T} {a : Nat}
    (h : destroy_obj c s a = some s') : (dt s.mem a).isSome = true := by
  unfold destroy_obj at h
  rw [dt_isSome_iff]
  cases hm : s.mem a with
  | none =>
    cases hd : c.impl.is_dlist <;>
      simp [hd, Pool_dlist_base.destroy_obj, Pool_list_base.destroy_obj, hm] at h
  | some n =>
    cases hv : n.data with
    | none =>
      cases hd : c.impl.is_dlist <;>
        simp [hd, Pool_dlist_base.destroy_obj, Pool_list_base.destroy_obj, hm, hv] at h
    | some v => exact ⟨n, v, rfl, hv⟩

end core

section inv
variable {T : Type}

theorem Inv.fl_ne_nil_of_free {c : Cfg} {s : State T} {fl ul : List Nat} {a : Nat}
    (h : Inv c s fl ul) (hf : s.m_free_nodes = some a) : ∃ fl', fl = a :: fl' := by
  have := h.core.chain
  rw [hf] at this
  obtain ⟨l', e, _⟩ := this.of_some
  exact ⟨l', e⟩

theorem Inv.fl_nil_of_free {c : Cfg} {s : State T} {fl ul : List Nat}
    (h : Inv c s fl ul) (hf : s.m_free_nodes = none) : fl = [] := by
  have := h.core.chain
  rw [hf] at this
  exact this.of_none

/-- Every occupied slot the pool owns is listed in `ul`. -/
theorem Inv.mem_ul_of_live {c : Cfg} {s : State T} {fl ul : List Nat} {a : Nat}
    (h : Inv c s fl ul) (ha : (dt s.mem a).isSome = true) : a ∈ ul := by
  rcases h.owned a (al_of_dt ha) with h1 | h1 | ⟨hd, rfl⟩
  · rw [h.core.fl_free a h1] at ha; simp at ha
  · exact h1
  · rw [(h.core.ring hd).2.2] at ha; simp at ha

/-- Call `impl().create_obj` on a non-empty free chain keeps the invariant: the head of
the chain becomes the youngest occupied slot. -/
theorem Inv.of_create_obj {c : Cfg} {s : State T} {fl ul : List Nat} {a : Nat}
    (h : Inv c s (a :: fl) ul) (v : T) :
    ∃ m' p, create_obj c s v =
        some (some a, { s with mem := m', m_size := s.m_size + 1, m_free_nodes := p }) ∧
      al m' = al s.mem ∧ dt m' = Function.update (dt s.mem) a (some v) ∧
      Inv c { s with mem := m', m_size := s.m_size + 1, m_free_nodes := p } fl (ul ++ [a]) := by
  obtain ⟨m', p, e, ha, hd, hc⟩ := h.core.any_create_obj c v
  refine ⟨m', p, e, ha, hd, hc, ?_, ?_, ?_, ?_⟩
  · intro b hb
    simp only [ha] at hb
    rcases h.owned b hb with h1 | h1 | h1
    · rcases List.mem_cons.1 h1 with rfl | h1
      · exact Or.inr (Or.inl (by simp))
      · exact Or.inl h1
    · exact Or.inr (Or.inl (List.mem_append_left _ h1))
    · exact Or.inr (Or.inr h1)
  · simp [h.size]
  · have := h.cap
    simp only [capacity, List.length_cons, List.length_append, List.length_nil] at this ⊢
    omega
  · intro hs
    have := h.slots_perm hs
    simp only [slots] at this ⊢
    refine List.Perm.trans ?_ this
    rw [← List.append_assoc]
    exact (List.perm_append_singleton a (fl ++ ul))

/-- Call `impl().destroy_obj` on an occupied slot keeps the invariant: the slot becomes
the head of the free chain and the other occupied slots keep their order. -/
theorem Inv.of_destroy_obj {c : Cfg} {s : State T} {fl ul : List Nat} {a : Nat}
    (h : Inv c s fl ul) (ha : a ∈ ul) :
    ∃ m', destroy_obj c s a =
        some { s with m_size := s.m_size - 1, mem := m', m_free_nodes := some a } ∧
      al m' = al s.mem ∧ dt m' = Function.update (dt s.mem) a none ∧
      Inv c { s with m_size := s.m_size - 1, mem := m', m_free_nodes := some a }
        (a :: fl) (ul.erase a) := by
  obtain ⟨m', e, hal, hd, hc⟩ := h.core.any_destroy_obj c ha
  have hlen : (ul.erase a).length + 1 = ul.length := by
    rw [List.length_erase_of_mem ha]
    have : 0 < ul.length := List.length_pos_of_mem ha
    omega
  refine ⟨m', e, hal, hd, hc, ?_, ?_, ?_, ?_⟩
  · intro b hb
    simp only [hal] at hb
    rcases h.owned b hb with h1 | h1 | h1
    · exact Or.inl (List.mem_cons_of_mem _ h1)
    · by_cases hba : b = a
      · exact Or.inl (by simp [hba])
      · exact Or.inr (Or.inl ((List.mem_erase_of_ne hba).2 h1))
    · exact Or.inr (Or.inr h1)
  · simp only [h.size]; omega
  · have := h.cap
    simp only [capacity, List.length_cons] at this ⊢
    omega
  · intro hs
    have := h.slots_perm hs
    simp only [slots] at this ⊢
    refine List.Perm.trans ?_ this
    have h1 : (a :: fl ++ ul.erase a).Perm (fl ++ a :: ul.erase a) := by
      simpa using (@List.perm_middle _ a fl (ul.erase a)).symm
    exact h1.trans (List.Perm.append_left fl (List.perm_cons_erase ha).symm)

/-- Method `add_to_free_nodes(std::array<Node, N>&)` on nodes that are allocated, hold no
element and are on neither list: they are pushed in order, the last one ends up first. -/
theorem Core.of_add_to_free_nodes_array {d : Bool} (nodes : List Nat) :
    ∀ {s : State T} {fl ul : List Nat}, Core d s fl ul →
      (∀ a ∈ nodes, al s.mem a = true) → nodes.Nodup → (∀ a ∈ nodes, a ∉ fl ++ ul) →
      (d = true → s.m_used_nodes ∉ nodes) → (∀ a ∈ nodes, dt s.mem a = none) →
      ∃ m' p, add_to_free_nodes_array s nodes = some { s with mem := m', m_free_nodes := p } ∧
        al m' = al s.mem ∧ dt m' = dt s.mem ∧
        Core d { s with mem := m', m_free_nodes := p } (nodes.reverse ++ fl) ul := by
  induction nodes with
  | nil =>
    intro s fl ul h _ _ _ _ _
    exact ⟨s.mem, s.m_free_nodes, by simp [pool_impl.add_to_free_nodes_array], rfl, rfl,
      by simpa using h⟩
  | cons a l ih =>
    intro s fl ul h hal hnd hdisj hs hd
    obtain ⟨hal_l, hnd_l⟩ := List.nodup_cons.1 hnd
    obtain ⟨m1, e1, a1, d1, c1⟩ := h.of_add_to_free_nodes (a := a) (hal a (by simp))
      (hdisj a (by simp)) (fun hd' e => hs hd' (e ▸ List.mem_cons_self _ _)) (hd a (by simp))
    obtain ⟨m2, p2, e2, a2, d2, c2⟩ := ih c1
      (fun b hb => by show al m1 b = true; rw [a1]; exact hal b (List.mem_cons_of_mem _ hb))
      hnd_l
      (fun b hb => by
        have := hdisj b (List.mem_cons_of_mem _ hb)
        simp only [List.cons_append, List.mem_cons, not_or]
        exact ⟨fun e => hal_l (e ▸ hb), this⟩)
      (fun hd' e => hs hd' (List.mem_cons_of_mem _ e))
      (fun b hb => by show dt m1 b = none; rw [d1]; exact hd b (List.mem_cons_of_mem _ hb))
    refine ⟨m2, p2, ?_, a2.trans a1, d2.trans d1, ?_⟩
    · simp only [pool_impl.add_to_free_nodes_array, List.foldlM_cons, e1, Option.bind_eq_bind,
        Option.some_bind] at e2 ⊢
      exact e2
    · simpa using c2

/-- A successful `new Block()` only takes storage that is not in use. -/
theorem alloc_block_fresh (l : List Nat) :
    ∀ {m m' : Mem T}, l.foldlM alloc_node m = some m' → ∀ a ∈ l, al m a = false := by
  induction l with
  | nil => intro m m' _ a ha; cases ha
  | cons b l ih =>
    intro m m' h a ha
    simp only [List.foldlM_cons, Option.bind_eq_bind, Option.bind_eq_some] at h
    obtain ⟨m1, h1, h2⟩ := h
    obtain ⟨f1, f2, -⟩ := alloc_node_spec h1
    rcases List.mem_cons.1 ha with rfl | ha
    · exact f1
    · have := ih h2 a ha
      rw [f2] at this
      by_cases hab : a = b
      · subst hab; simp at this
      · rwa [Function.update_noteq hab] at this

/-- The observations after `new Block()` on storage that is not in use. -/
theorem alloc_block_defined (l : List Nat) :
    ∀ {m : Mem T}, l.Nodup → (∀ a ∈ l, al m a = false) →
      ∃ m', l.foldlM alloc_node m = some m' ∧
        (∀ b, al m' b = (al m b || decide (b ∈ l))) ∧
        (∀ b, b ∉ l → nx m' b = nx m b ∧ pv m' b = pv m b ∧ dt m' b = dt m b) ∧
        (∀ b, b ∈ l → dt m' b = none) := by
  induction l with
  | nil => intro m _ _; exact ⟨m, by simp, by simp, by simp, by simp⟩
  | cons a l ih =>
    intro m hnd hf
    obtain ⟨hal, hnd_l⟩ := List.nodup_cons.1 hnd
    obtain ⟨m1, h1⟩ := alloc_node_defined (hf a (by simp))
    obtain ⟨-, f2, f3, f4, f5⟩ := alloc_node_spec h1
    have hf1 : ∀ b ∈ l, al m1 b = false := by
      intro b hb
      have hba : b ≠ a := fun e => hal (e ▸ hb)
      rw [f2, Function.update_noteq hba]
      exact hf b (List.mem_cons_of_mem _ hb)
    obtain ⟨m2, h2, g1, g2, g3⟩ := ih hnd_l hf1
    refine ⟨m2, by simp [List.foldlM_cons, h1, h2], ?_, ?_, ?_⟩
    · intro b
      rw [g1, f2]
      by_cases hba : b = a
      · subst hba; simp
      · simp [Function.update_noteq hba, hba]
    · intro b hb
      simp only [List.mem_cons, not_or] at hb
      obtain ⟨e1, e2, e3⟩ := g2 b hb.2
      rw [e1, e2, e3, f3, f4, f5]
      simp [Function.update_noteq hb.1]
    · intro b hb
      by_cases hbl : b ∈ l
      · exact g3 b hbl
      · have hba : b = a := by
          rcases List.mem_cons.1 hb with e | e
          · exact e
          · exact absurd e hbl
        subst hba
        rw [(g2 b hbl).2.2, f5]; simp

/-- The observations after `delete block`. -/
theorem free_block_spec (l : List Nat) :
    ∀ (m : Mem T), (∀ b, al (l.foldl free_node m) b = (al m b && !decide (b ∈ l))) ∧
      (∀ b, b ∉ l → nx (l.foldl free_node m) b = nx m b ∧ pv (l.foldl free_node m) b = pv m b ∧
        dt (l.foldl free_node m) b = dt m b) := by
  induction l with
  | nil => intro m; simp
  | cons a l ih =>
    intro m
    obtain ⟨f1, f2, f3, f4⟩ := free_node_spec m a
    obtain ⟨g1, g2⟩ := ih (free_node m a)
    refine ⟨?_, ?_⟩
    · intro b
      simp only [List.foldl_cons]
      rw [g1, f1]
      by_cases hba : b = a
      · subst hba; simp
      · simp [Function.update_noteq hba, hba]
    · intro b hb
      simp only [List.mem_cons, not_or] at hb
      simp only [List.foldl_cons]
      obtain ⟨e1, e2, e3⟩ := g2 b hb.2
      rw [e1, e2, e3, f2, f3, f4]
      simp [Function.update_noteq hb.1]

theorem Core.congr_core {d : Bool} {s s' : State T} {fl ul : List Nat} (h : Core d s fl ul)
    (hm : s'.mem = s.mem) (hf : s'.m_free_nodes = s.m_free_nodes)
    (hu : s'.m_used_nodes = s.m_used_nodes) : Core d s' fl ul :=
  h.frame_core hf hu fun a _ => by rw [hm]; exact ⟨rfl, rfl, rfl, rfl⟩

theorem dt_of_not_al {m : Mem T} {a : Nat} (h : al m a = false) : dt m a = none := by
  unfold al at h; unfold dt
  cases hm : m a <;> simp [hm] at h ⊢

/-- A successful `add_node` was answered with storage that was not in use. -/
theorem add_node_fresh {c : Cfg} {s s' : State T} {a : Option Nat}
    (e : add_node c s a = some s') : fresh c s a := by
  intro b hb
  cases a with
  | none => simp [grown] at hb
  | some x =>
  unfold add_node at e
  unfold grown unit_nodes at hb
  cases hblk : c.impl.is_block with
  | true =>
    simp only [hblk, if_true, Pool_block_allocator.add_node, Option.bind_eq_bind,
      Option.bind_eq_some] at e hb
    obtain ⟨m1, h1, -⟩ := e
    exact alloc_block_fresh _ h1 b hb
  | false =>
    simp only [hblk, Bool.false_eq_true, if_false, Pool_node_allocator.add_node,
      Option.bind_eq_bind, Option.bind_eq_some, List.mem_singleton] at e hb
    obtain ⟨m1, h1, -⟩ := e
    subst hb
    exact (alloc_node_spec h1).1

/-- Storage that is not in use is on neither list and is not the sentinel. -/
theorem Inv.fresh_not_mem {c : Cfg} {s : State T} {fl ul : List Nat} (h : Inv c s fl ul)
    {b : Nat} (hb : al s.mem b = false) :
    b ∉ fl ++ ul ∧ (c.impl.is_dlist = true → b ≠ s.m_used_nodes) := by
  refine ⟨fun hm => ?_, fun hd e => ?_⟩
  · rcases List.mem_append.1 hm with h1 | h1
    · rw [h.core.al_fl b h1] at hb; cases hb
    · rw [h.core.al_ul b h1] at hb; cases hb
  · subst e
    have hc := h.core
    rw [hd] at hc
    rw [hc.al_sentinel] at hb; cases hb

/-- Method `Pool_node_allocator::add_node` keeps the invariant. -/
theorem Inv.node_add_node {c : Cfg} {s : State T} {fl ul : List Nat} (h : Inv c s fl ul)
    (hdyn : c.impl.is_static = false) (hblk : c.impl.is_block = false) {x : Nat}
    (hx : al s.mem x = false) :
    ∃ s', Pool_node_allocator.add_node s (some x) = some s' ∧ dt s'.mem = dt s.mem ∧
      s'.m_size = s.m_size ∧ s'.m_used_nodes = s.m_used_nodes ∧ s'.m_used = s.m_used ∧
      s'.m_blocks = s.m_blocks ∧ s'.m_capacity = s.m_capacity + 1 ∧
      Inv c s' (x :: fl) ul := by
  obtain ⟨m1, h1⟩ := alloc_node_defined hx
  obtain ⟨-, a1, b1, c1, d1⟩ := alloc_node_spec h1
  obtain ⟨hx1, hx2⟩ := h.fresh_not_mem hx
  have hne : ∀ b, b ∈ fl ∨ b ∈ ul ∨ (c.impl.is_dlist = true ∧ b = s.m_used_nodes) → b ≠ x := by
    rintro b hb rfl
    rcases hb with hb | hb | ⟨hd, hb⟩
    · exact hx1 (List.mem_append_left _ hb)
    · exact hx1 (List.mem_append_right _ hb)
    · exact hx2 hd hb
  have hc0 : Core c.impl.is_dlist { s with mem := m1 } fl ul :=
    h.core.frame_core rfl rfl fun b hb => by
      have := hne b hb
      simp [a1, b1, c1, d1, Function.update_noteq this]
  obtain ⟨m2, e2, a2, d2, c2⟩ := hc0.of_add_to_free_nodes (a := x)
    (by show al m1 x = true; rw [a1]; simp) hx1 hx2 (by show dt m1 x = none; rw [d1]; simp)
  have hdt : dt m2 = dt s.mem := by
    rw [d2]; show dt m1 = dt s.mem
    rw [d1]; funext b
    by_cases hb : b = x
    · subst hb; simp [dt_of_not_al hx]
    · simp [Function.update_noteq hb]
  refine ⟨{ s with mem := m2, m_free_nodes := some x, m_capacity := s.m_capacity + 1 }, ?_,
    hdt, rfl, rfl, rfl, rfl, rfl, ?_⟩
  · simp only [Pool_node_allocator.add_node, h1, Option.bind_eq_bind, Option.some_bind, e2]
  · refine ⟨⟨c2.chain, c2.nodup, c2.fl_free, c2.ul_live, c2.ring⟩, ?_, h.size, ?_, ?_⟩
    · intro b hb
      have hb' : al m2 b = true := hb
      rw [a2] at hb'
      have hb'' : al m1 b = true := hb'
      rw [a1] at hb''
      by_cases hbx : b = x
      · exact Or.inl (by simp [hbx])
      · rw [Function.update_noteq hbx] at hb''
        rcases h.owned b hb'' with h1 | h1 | h1
        · exact Or.inl (List.mem_cons_of_mem _ h1)
        · exact Or.inr (Or.inl h1)
        · exact Or.inr (Or.inr h1)
    · have := h.cap
      simp only [capacity, hdyn, Bool.false_eq_true, if_false, List.length_cons] at this ⊢
      omega
    · intro hs
      rcases hs with hs | hs
      · rw [hdyn] at hs; cases hs
      · rw [hblk] at hs; cases hs

/-- Method `Pool_block_allocator::add_node` keeps the invariant. -/
theorem Inv.block_add_node {c : Cfg} {s : State T} {fl ul : List Nat} (h : Inv c s fl ul)
    (hdyn : c.impl.is_static = false) (hblk : c.impl.is_block = true) {x : Nat}
    (hx : ∀ b ∈ array_nodes x c.N, al s.mem b = false) :
    ∃ s', Pool_block_allocator.add_node c s (some x) = some s' ∧ dt s'.mem = dt s.mem ∧
      s'.m_size = s.m_size ∧ s'.m_used_nodes = s.m_used_nodes ∧ s'.m_used = s.m_used ∧
      s'.m_blocks = x :: s.m_blocks ∧ s'.m_capacity = s.m_capacity + c.N ∧
      Inv c s' ((array_nodes x c.N).reverse ++ fl) ul := by
  have hnd : (array_nodes x c.N).Nodup := List.nodup_range' _ _
  obtain ⟨m1, h1, a1, b1, d1⟩ := alloc_block_defined (array_nodes x c.N) hnd hx
  have hne : ∀ b, b ∈ fl ∨ b ∈ ul ∨ (c.impl.is_dlist = true ∧ b = s.m_used_nodes) →
      b ∉ array_nodes x c.N := by
    intro b hb hm
    obtain ⟨hx1, hx2⟩ := h.fresh_not_mem (hx b hm)
    rcases hb with hb | hb | ⟨hd, hb⟩
    · exact hx1 (List.mem_append_left _ hb)
    · exact hx1 (List.mem_append_right _ hb)
    · exact hx2 hd hb
  have hal0 : ∀ b, b ∈ fl ∨ b ∈ ul ∨ (c.impl.is_dlist = true ∧ b = s.m_used_nodes) →
      al s.mem b = true := by
    intro b hb
    rcases hb with hb | hb | ⟨hd, hb⟩
    · exact h.core.al_fl b hb
    · exact h.core.al_ul b hb
    · subst hb
      have hc := h.core
      rw [hd] at hc
      exact hc.al_sentinel
  have hc0 : Core c.impl.is_dlist { s with mem := m1 } fl ul :=
    h.core.frame_core rfl rfl fun b hb => by
      have hn := hne b hb
      obtain ⟨e1, e2, e3⟩ := b1 b hn
      refine ⟨?_, e1, e2, e3⟩
      show al m1 b = al s.mem b
      rw [a1, hal0 b hb]; simp
  obtain ⟨m2, p2, e2, a2, d2, c2⟩ := hc0.of_add_to_free_nodes_array (array_nodes x c.N)
    (fun b hb => by show al m1 b = true; rw [a1]; simp [hb]) hnd
    (fun b hb => (h.fresh_not_mem (hx b hb)).1)
    (fun hd hm => (h.fresh_not_mem (hx _ hm)).2 hd rfl)
    (fun b hb => d1 b hb)
  have hdt : dt m2 = dt s.mem := by
    rw [d2]; show dt m1 = dt s.mem
    funext b
    by_cases hb : b ∈ array_nodes x c.N
    · rw [d1 b hb, dt_of_not_al (hx b hb)]
    · exact (b1 b hb).2.2
  refine ⟨{ s with mem := m2, m_free_nodes := p2, m_blocks := x :: s.m_blocks,
                   m_capacity := s.m_capacity + c.N }, ?_, hdt, rfl, rfl, rfl, rfl, rfl, ?_⟩
  · simp only [Pool_block_allocator.add_node, alloc_block, h1, Option.bind_eq_bind,
      Option.some_bind, e2]
  · refine ⟨⟨c2.chain, c2.nodup, c2.fl_free, c2.ul_live, c2.ring⟩, ?_, h.size, ?_, ?_⟩
    · intro b hb
      have hb' : al m2 b = true := hb
      rw [a2] at hb'
      have hb'' : al m1 b = true := hb'
      rw [a1] at hb''
      by_cases hbx : b ∈ array_nodes x c.N
      · exact Or.inl (by simp [hbx])
      · simp only [hbx, decide_False, Bool.or_false] at hb''
        rcases h.owned b hb'' with h1 | h1 | h1
        · exact Or.inl (List.mem_append_right _ h1)
        · exact Or.inr (Or.inl h1)
        · exact Or.inr (Or.inr h1)
    · have := h.cap
      simp only [capacity, hdyn, Bool.false_eq_true, if_false, List.length_append,
        List.length_reverse, array_nodes, List.length_range'] at this ⊢
      omega
    · intro _
      have := h.slots_perm (Or.inr hblk)
      simp only [slots, hdyn, Bool.false_eq_true, if_false, List.flatMap_cons] at this ⊢
      rw [List.append_assoc]
      exact List.Perm.append (List.reverse_perm _) this

theorem Inv.congr {c : Cfg} {s s' : State T} {fl ul : List Nat} (h : Inv c s fl ul)
    (h1 : s'.mem = s.mem) (h2 : s'.m_free_nodes = s.m_free_nodes)
    (h3 : s'.m_used_nodes = s.m_used_nodes) (h4 : s'.m_size = s.m_size)
    (h5 : s'.m_capacity = s.m_capacity) (h6 : s'.m_blocks = s.m_blocks) : Inv c s' fl ul := by
  refine ⟨h.core.congr_core h1 h2 h3, ?_, ?_, ?_, ?_⟩
  · intro a ha; rw [h1] at ha; rw [h3]; exact h.owned a ha
  · rw [h4]; exact h.size
  · have := h.cap; simp only [capacity, h5] at this ⊢; exact this
  · intro hs; have := h.slots_perm hs; simp only [slots, h6] at this ⊢; exact this

theorem length_grown (c : Cfg) (x : Nat) :
    (grown c (some x)).length = if c.impl.is_block then c.N else 1 := by
  unfold grown unit_nodes
  cases c.impl.is_block <;> simp [array_nodes]

/-- Call `impl().add_node()` answered with storage that is not in use keeps the
invariant: the new nodes are pushed on the free chain and the capacity grows by their
number. -/
theorem Inv.of_add_node {c : Cfg} {s : State T} {fl ul : List Nat} (h : Inv c s fl ul)
    (hdyn : c.impl.is_static = false) {a : Option Nat} (hf : fresh c s a) :
    ∃ s', add_node c s a = some s' ∧ dt s'.mem = dt s.mem ∧ s'.m_size = s.m_size ∧
      s'.m_used_nodes = s.m_used_nodes ∧ s'.m_used = s.m_used ∧
      s'.m_capacity = s.m_capacity + (grown c a).length ∧ (a = none → s' = s) ∧
      Inv c s' ((grown c a).reverse ++ fl) ul := by
  cases a with
  | none =>
    refine ⟨s, ?_, rfl, rfl, rfl, rfl, by simp [grown], fun _ => rfl, by simpa [grown] using h⟩
    unfold pool_impl.add_node
    cases c.impl.is_block <;>
      simp [Pool_block_allocator.add_node, Pool_node_allocator.add_node]
  | some x =>
    unfold pool_impl.add_node
    cases hblk : c.impl.is_block with
    | true =>
      have hx : ∀ b ∈ array_nodes x c.N, al s.mem b = false := by
        intro b hb; exact hf b (by simp [grown, unit_nodes, hblk, hb])
      obtain ⟨s', e, h1, h2, h3, h4, -, h6, h7⟩ := h.block_add_node hdyn hblk hx
      refine ⟨s', by simpa using e, h1, h2, h3, h4, ?_, by simp, ?_⟩
      · rw [h6]; simp [grown, unit_nodes, hblk, array_nodes]
      · simpa [grown, unit_nodes, hblk] using h7
    | false =>
      have hx : al s.mem x = false := hf x (by simp [grown, unit_nodes, hblk])
      obtain ⟨s', e, h1, h2, h3, h4, -, h6, h7⟩ := h.node_add_node hdyn hblk hx
      refine ⟨s', by simpa using e, h1, h2, h3, h4, ?_, by simp, ?_⟩
      · rw [h6]; simp [grown, unit_nodes, hblk]
      · simpa [grown, unit_nodes, hblk] using h7

theorem BitsInv.congr_bits {c : Cfg} {s s' : State T} {ul : List Nat} (h : BitsInv c s ul)
    (hu : s'.m_used = s.m_used) : BitsInv c s' ul := by
  intro hc i hi; rw [hu]; exact h hc i hi

theorem bitset_is_static {c : Cfg} (h : c.impl = Impl.SPool_list_bitset) :
    c.impl.is_static = true ∧ c.impl.is_dlist = false ∧ c.impl.is_block = false := by
  rw [h]; exact ⟨rfl, rfl, rfl⟩

/-- In a static pool every slot on either list is a slot of `m_pool`. -/
theorem Inv.lt_N_of_static {c : Cfg} {s : State T} {fl ul : List Nat} (h : Inv c s fl ul)
    (hs : c.impl.is_static = true) {a : Nat} (ha : a ∈ fl ++ ul) : a < c.N := by
  have := (h.slots_perm (Or.inl hs)).mem_iff.1 ha
  simp only [slots, hs, if_true, array_nodes, List.mem_range'_1] at this
  omega

/-- Call `impl().create_obj` in a state that satisfies the invariant, with all the facts
about the result that the public operations need. -/
theorem Inv.of_create_obj_full {c : Cfg} {s : State T} {fl ul : List Nat} (h : Inv c s fl ul)
    (v : T) :
    (fl = [] → create_obj c s v = some (none, s)) ∧
    (∀ x fl2, fl = x :: fl2 → ∃ s', create_obj c s v = some (some x, s') ∧
      Inv c s' fl2 (ul ++ [x]) ∧ al s'.mem = al s.mem ∧
      dt s'.mem = Function.update (dt s.mem) x (some v) ∧ s'.m_size = s.m_size + 1 ∧
      s'.m_capacity = s.m_capacity ∧ s'.m_used_nodes = s.m_used_nodes ∧
      s'.m_blocks = s.m_blocks ∧ s'.m_used = s.m_used) := by
  refine ⟨fun hfl => ?_, fun x fl2 hfl => ?_⟩
  · subst hfl
    exact create_obj_null c h.core.chain v
  · subst hfl
    obtain ⟨m', p, e, ha, hd, hi⟩ := h.of_create_obj v
    exact ⟨_, e, hi, ha, hd, rfl, rfl, rfl, rfl, rfl⟩

/-- Method `SPool_list_bitset::create` in a state that satisfies the invariant. -/
theorem Inv.bitset_create {c : Cfg} {s : State T} {fl ul : List Nat} (h : Inv c s fl ul)
    (hb : BitsInv c s ul) (hc : c.impl = Impl.SPool_list_bitset) (v : T) :
    (fl = [] → SPool_list_bitset.create s v = some (none, s)) ∧
    (∀ x fl2, fl = x :: fl2 → ∃ s', SPool_list_bitset.create s v = some (some x, s') ∧
      Inv c s' fl2 (ul ++ [x]) ∧ BitsInv c s' (ul ++ [x]) ∧ al s'.mem = al s.mem ∧
      dt s'.mem = Function.update (dt s.mem) x (some v) ∧ s'.m_size = s.m_size + 1 ∧
      s'.m_capacity = s.m_capacity ∧ s'.m_used_nodes = s.m_used_nodes ∧
      s'.m_blocks = s.m_blocks ∧ s'.m_used = Function.update s.m_used x true) := by
  obtain ⟨hst, hdl, hbk⟩ := bitset_is_static hc
  refine ⟨fun hfl => ?_, fun x fl2 hfl => ?_⟩
  · subst hfl
    have : s.m_free_nodes = none := h.core.chain
    simp [SPool_list_bitset.create, this]
  · subst hfl
    have hfree : s.m_free_nodes = some x := h.core.chain.1
    obtain ⟨s', e, hi, ha, hd, h1, h2, h3, h4, h5⟩ := (h.of_create_obj_full v).2 x fl2 rfl
    have e' : Pool_list_base.create_obj s v = some (some x, s') := by
      simpa [pool_impl.create_obj, hdl] using e
    refine ⟨{ s' with m_used := Function.update s'.m_used x true }, ?_,
      hi.congr rfl rfl rfl rfl rfl rfl, ?_, ha, hd, h1, h2, h3, h4, by simp [h5]⟩
    · simp [SPool_list_bitset.create, hfree, e', SPool_list_bitset.index_node]
    · intro _ i hi'
      show Function.update s'.m_used x true i = true ↔ i ∈ ul ++ [x]
      rw [h5]
      by_cases hix : i = x
      · subst hix; simp
      · rw [Function.update_noteq hix, hb hc i hi']
        simp [hix]

theorem add_node_none (c : Cfg) (s : State T) : add_node c s none = some s := by
  unfold add_node
  cases c.impl.is_block <;> simp [Pool_block_allocator.add_node, Pool_node_allocator.add_node]

/-- Method `create` of every class, in a state that satisfies the invariant and with an
answer of `operator new` that names unused storage.  `s1` is the state after the
optional call of `add_node`. -/
theorem Inv.of_create {c : Cfg} {s : State T} {fl ul : List Nat} (h : Inv c s fl ul)
    (hb : BitsInv c s ul) (v : T) {a : Option Nat} (hf : fresh c s a) :
    ∃ s1 g, (if grows c s then add_node c s a else some s) = some s1 ∧
      g = (if grows c s then grown c a else []) ∧
      Inv c s1 (g.reverse ++ fl) ul ∧ BitsInv c s1 ul ∧ dt s1.mem = dt s.mem ∧
      s1.m_size = s.m_size ∧ s1.m_capacity = s.m_capacity + g.length ∧
      (g.reverse ++ fl = [] → create c s v a = some (none, s1)) ∧
      (∀ x fl2, g.reverse ++ fl = x :: fl2 → ∃ s', create c s v a = some (some x, s') ∧
        Inv c s' fl2 (ul ++ [x]) ∧ BitsInv c s' (ul ++ [x]) ∧
        dt s'.mem = Function.update (dt s.mem) x (some v) ∧ s'.m_size = s.m_size + 1 ∧
        s'.m_capacity = s1.m_capacity ∧ s'.m_used_nodes = s.m_used_nodes ∧
        s'.m_blocks = s1.m_blocks) := by
  by_cases hbit : c.impl = Impl.SPool_list_bitset
  · obtain ⟨hst, hdl, hbk⟩ := bitset_is_static hbit
    have hg : grows c s = false := by simp [grows, hst]
    obtain ⟨e1, e2⟩ := h.bitset_create hb hbit v
    have hcr : create c s v a = SPool_list_bitset.create s v := by
      simp [pool_impl.create, hbit]
    refine ⟨s, [], by simp [hg], by simp [hg], by simpa using h, hb, rfl, rfl, by simp, ?_, ?_⟩
    · intro hfl; rw [hcr]; exact e1 (by simpa using hfl)
    · intro x fl2 hfl
      obtain ⟨s', e, hi, hb', -, hd, h1, h2, h3, h4, -⟩ := e2 x fl2 (by simpa using hfl)
      exact ⟨s', by rw [hcr]; exact e, hi, hb', hd, h1, h2, h3, h4⟩
  · have hbits : ∀ (s' : State T) (l : List Nat), BitsInv c s' l := fun _ _ hc => absurd hc hbit
    cases hst : c.impl.is_static with
    | true =>
      have hg : grows c s = false := by simp [grows, hst]
      have hcr : create c s v a = create_obj c s v := by
        unfold pool_impl.create
        cases hi : c.impl <;> simp_all [Impl.is_static]
      obtain ⟨e1, e2⟩ := h.of_create_obj_full v
      refine ⟨s, [], by simp [hg], by simp [hg], by simpa using h, hb, rfl, rfl, by simp,
        ?_, ?_⟩
      · intro hfl; rw [hcr]; exact e1 (by simpa using hfl)
      · intro x fl2 hfl
        obtain ⟨s', e, hi, -, hd, h1, h2, h3, h4, -⟩ := e2 x fl2 (by simpa using hfl)
        exact ⟨s', by rw [hcr]; exact e, hi, hbits _ _, hd, h1, h2, h3, h4⟩
    | false =>
      have hcr : create c s v a = DPool_base.create c s v a := by
        unfold pool_impl.create
        cases hi : c.impl <;> simp_all [Impl.is_static]
      have hgr : grows c s = (!flag_set c.Flags POOL_FIXED_CAPACITY && Pool_base.full c s) := by
        simp [grows, hst]
      have key : ∀ (s1 : State T) (g : List Nat),
          (if grows c s then add_node c s a else some s) = some s1 →
          Inv c s1 (g.reverse ++ fl) ul → dt s1.mem = dt s.mem → s1.m_size = s.m_size →
          s1.m_used_nodes = s.m_used_nodes →
          (g.reverse ++ fl = [] → create c s v a = some (none, s1)) ∧
          (∀ x fl2, g.reverse ++ fl = x :: fl2 → ∃ s', create c s v a = some (some x, s') ∧
            Inv c s' fl2 (ul ++ [x]) ∧ BitsInv c s' (ul ++ [x]) ∧
            dt s'.mem = Function.update (dt s.mem) x (some v) ∧ s'.m_size = s.m_size + 1 ∧
            s'.m_capacity = s1.m_capacity ∧ s'.m_used_nodes = s.m_used_nodes ∧
            s'.m_blocks = s1.m_blocks) := by
        intro s1 g hs1 hi1 hd1 hz1 hu1
        have hcr' : create c s v a = create_obj c s1 v := by
          rw [hcr]; unfold DPool_base.create
          rw [← hgr]
          cases hg : grows c s with
          | true =>
            simp only [hg, if_true] at hs1 ⊢
            simp [hs1]
          | false =>
            simp only [hg, Bool.false_eq_true, if_false, Option.some.injEq] at hs1 ⊢
            simp [hs1]
        obtain ⟨e1, e2⟩ := hi1.of_create_obj_full v
        refine ⟨fun hfl => by rw [hcr']; exact e1 hfl, fun x fl2 hfl => ?_⟩
        obtain ⟨s', e, hi, -, hd, h1, h2, h3, h4, -⟩ := e2 x fl2 hfl
        exact ⟨s', by rw [hcr']; exact e, hi, hbits _ _, by rw [hd, hd1], by rw [h1, hz1], h2,
          by rw [h3, hu1], h4⟩
      cases hg : grows c s with
      | true =>
        obtain ⟨s1, e, h1, h2, h3, h4, h5, -, h7⟩ := h.of_add_node hst hf
        obtain ⟨k1, k2⟩ := key s1 (grown c a) (by simp [hg, e]) h7 h1 h2 h3
        exact ⟨s1, grown c a, by simp [e], by simp, h7, hbits _ _, h1, h2, h5, k1, k2⟩
      | false =>
        obtain ⟨k1, k2⟩ := key s [] (by simp [hg]) (by simpa using h) rfl rfl rfl
        exact ⟨s, [], by simp, by simp, by simpa using h, hb, rfl, rfl, by simp, k1, k2⟩

theorem destroy_null (c : Cfg) (s : State T) : destroy c s none = some s := by
  unfold destroy
  cases c.impl <;> rfl

theorem destroy_eq_bitset {c : Cfg} (hc : c.impl = Impl.SPool_list_bitset) (s : State T)
    (a : Nat) :
    destroy c s (some a) =
      destroy_obj c { s with m_used := Function.update s.m_used a false } a := by
  simp [destroy, hc, SPool_list_bitset.destroy, destroy_obj, Impl.is_dlist,
    SPool_list_bitset.index_node]

theorem destroy_eq_other {c : Cfg} (hc : c.impl ≠ Impl.SPool_list_bitset) (s : State T)
    (a : Nat) : destroy c s (some a) = destroy_obj c s a := by
  unfold destroy destroy_obj
  cases hi : c.impl <;>
    simp_all [Impl.is_dlist, Pool_dlist_base.destroy, Pool_list_base.destroy]

/-- Method `destroy(const T*)` is outside the embedding unless the element is alive. -/
theorem destroy_live {c : Cfg} {s s' : State T} {a : Nat}
    (h : destroy c s (some a) = some s') : (dt s.mem a).isSome = true := by
  by_cases hc : c.impl = Impl.SPool_list_bitset
  · rw [destroy_eq_bitset hc] at h
    exact destroy_obj_live (s := { s with m_used := Function.update s.m_used a false }) c h
  · rw [destroy_eq_other hc] at h
    exact destroy_obj_live c h

/-- Method `destroy(const T*)` of every class on a live reference. -/
theorem Inv.of_destroy {c : Cfg} {s : State T} {fl ul : List Nat} {a : Nat}
    (h : Inv c s fl ul) (hb : BitsInv c s ul) (ha : a ∈ ul) :
    ∃ s', destroy c s (some a) = some s' ∧ Inv c s' (a :: fl) (ul.erase a) ∧
      BitsInv c s' (ul.erase a) ∧ al s'.mem = al s.mem ∧
      dt s'.mem = Function.update (dt s.mem) a none ∧ s'.m_size = s.m_size - 1 ∧
      s'.m_capacity = s.m_capacity ∧ s'.m_used_nodes = s.m_used_nodes ∧
      s'.m_blocks = s.m_blocks ∧ s'.m_free_nodes = some a := by
  by_cases hc : c.impl = Impl.SPool_list_bitset
  · have h0 : Inv c { s with m_used := Function.update s.m_used a false } fl ul :=
      h.congr rfl rfl rfl rfl rfl rfl
    obtain ⟨m', e, h1, h2, hi⟩ := h0.of_destroy_obj ha
    refine ⟨_, by rw [destroy_eq_bitset hc]; exact e, hi, ?_, h1, h2, rfl, rfl, rfl, rfl, rfl⟩
    intro _ i hi'
    show Function.update s.m_used a false i = true ↔ i ∈ ul.erase a
    have hnd : ul.Nodup := (List.nodup_append.1 h.core.nodup).2.1
    rw [hnd.mem_erase_iff]
    by_cases hia : i = a
    · subst hia; simp
    · rw [Function.update_noteq hia, hb hc i hi']
      simp [hia]
  · obtain ⟨m', e, h1, h2, hi⟩ := h.of_destroy_obj ha
    exact ⟨_, by rw [destroy_eq_other hc]; exact e, hi, fun hc' => absurd hc' hc, h1, h2, rfl,
      rfl, rfl, rfl, rfl⟩

/-- When `create` does not call `add_node` the answer of `operator new` is not used. -/
theorem create_irrel {c : Cfg} {s : State T} (hg : grows c s = false) (v : T)
    (a : Option Nat) : create c s v a = create c s v none := by
  unfold create
  cases hi : c.impl <;> simp only [] <;>
    · unfold DPool_base.create
      have : (!flag_set c.Flags POOL_FIXED_CAPACITY && Pool_base.full c s) = false := by
        simpa [grows, hi, Impl.is_static] using hg
      simp [this]

/-- A successful `create` was answered with unused storage if it called `add_node`. -/
theorem create_fresh {c : Cfg} {s s' : State T} {v : T} {a r : Option Nat}
    (hg : grows c s = true) (e : create c s v a = some (r, s')) : fresh c s a := by
  have hst : c.impl.is_static = false := by
    simp only [grows, Bool.and_eq_true, Bool.not_eq_true'] at hg
    exact hg.1
  have hfl : (!flag_set c.Flags POOL_FIXED_CAPACITY && Pool_base.full c s) = true := by
    simpa [grows, hst] using hg
  have hcr : create c s v a = DPool_base.create c s v a := by
    unfold create
    cases hi : c.impl <;> simp_all [Impl.is_static]
  rw [hcr] at e
  unfold DPool_base.create at e
  simp only [hfl, if_true, Option.bind_eq_bind, Option.bind_eq_some] at e
  obtain ⟨s1, e1, -⟩ := e
  exact add_node_fresh e1

end inv

section construction
variable {T : Type}

theorem raw_al (c : Cfg) (self : Nat) (oob : Nat → Bool) (a : Nat) :
    al (State.raw (T := T) c self oob).mem a = (c.impl.is_static && decide (a < c.N)) := by
  unfold al State.raw
  by_cases h1 : c.impl.is_static = true <;> by_cases h2 : a < c.N <;> simp [h1, h2]

theorem raw_dt (c : Cfg) (self : Nat) (oob : Nat → Bool) (a : Nat) :
    dt (State.raw (T := T) c self oob).mem a = none := by
  unfold dt State.raw
  by_cases h1 : c.impl.is_static = true <;> by_cases h2 : a < c.N <;>
    simp [h1, h2, Node.blank]

/-- The sentinel of a new doubly-linked pool: its storage is taken at `self` and
`Pool_dlist_base()` links it to itself. -/
theorem sentinel_ctor (c : Cfg) (self : Nat) (oob : Nat → Bool)
    (hself : c.impl.is_static = true → c.N ≤ self) :
    ∃ m1 m3, alloc_node (State.raw (T := T) c self oob).mem self = some m1 ∧
      Pool_dlist_base.ctor { State.raw (T := T) c self oob with mem := m1 } =
        some { State.raw (T := T) c self oob with mem := m3 } ∧
      (∀ a, al m3 a = ((c.impl.is_static && decide (a < c.N)) || decide (a = self))) ∧
      (∀ a, dt m3 a = none) ∧ nx m3 self = some self ∧ pv m3 self = some self := by
  have hfree : al (State.raw (T := T) c self oob).mem self = false := by
    rw [raw_al]
    cases hs : c.impl.is_static with
    | false => simp
    | true => have := hself hs; simp; omega
  obtain ⟨m1, h1⟩ := alloc_node_defined hfree
  obtain ⟨-, a1, b1, c1, d1⟩ := alloc_node_spec h1
  obtain ⟨m2, h2⟩ := store_next_defined (m := m1) (a := self) (some self) (by rw [a1]; simp)
  obtain ⟨-, a2, b2, c2, d2⟩ := store_next_spec h2
  obtain ⟨m3, h3⟩ := store_prev_defined (m := m2) (a := self) (some self)
    (by rw [a2, a1]; simp)
  obtain ⟨-, a3, b3, c3, d3⟩ := store_prev_spec h3
  refine ⟨m1, m3, h1, ?_, ?_, ?_, ?_, ?_⟩
  · simp only [Pool_dlist_base.ctor, dlist_head.init, Option.bind_eq_bind]
    show (((store_next m1 self (some self)).bind fun m => store_prev m self (some self)).bind
      fun m => some _) = _
    rw [h2]; simp only [Option.some_bind]; rw [h3]; rfl
  · intro a
    rw [a3, a2, a1]
    by_cases ha : a = self
    · subst ha; simp
    · rw [Function.update_noteq ha, raw_al]; simp [ha]
  · intro a
    rw [d3, d2, d1]
    by_cases ha : a = self
    · subst ha; simp
    · rw [Function.update_noteq ha, raw_dt]
  · rw [b3, b2]; simp
  · rw [c3]; simp

/-- The body of the constructor of a static class (`add_to_free_nodes(m_pool)`) after the
base classes are constructed; a dynamic class has an empty body. -/
theorem construct_tail (c : Cfg) (s0 : State T) (self : Nat)
    (hc : Core c.impl.is_dlist s0 [] [])
    (hal : ∀ a, al s0.mem a =
      ((c.impl.is_static && decide (a < c.N)) || (c.impl.is_dlist && decide (a = self))))
    (hdt : ∀ a, dt s0.mem a = none) (hu : s0.m_used_nodes = self) (hsz : s0.m_size = 0)
    (hcap : s0.m_capacity = 0) (hblk : s0.m_blocks = [])
    (hbits : ∀ i, i < c.N → s0.m_used i = false)
    (hself : c.impl.is_dlist = true → c.impl.is_static = true → c.N ≤ self) :
    ∃ s, (if c.impl.is_static then add_to_free_nodes_array s0 (array_nodes 0 c.N)
        else some s0) = some s ∧
      Inv c s (if c.impl.is_static then (array_nodes 0 c.N).reverse else []) [] ∧
      BitsInv c s [] ∧ s.m_used_nodes = self ∧ s.m_size = 0 := by
  cases hs : c.impl.is_static with
  | false =>
    refine ⟨s0, by simp, ⟨hc, ?_, hsz, ?_, ?_⟩, ?_, hu, hsz⟩
    · intro a ha
      rw [hal, hs] at ha
      simp only [Bool.false_and, Bool.false_or, Bool.and_eq_true, decide_eq_true_eq] at ha
      exact Or.inr (Or.inr ⟨ha.1, by rw [hu]; exact ha.2⟩)
    · simp [capacity, hs, hcap]
    · intro h
      rcases h with h | h
      · rw [hs] at h; cases h
      · simp [slots, hs, hblk]
    · intro hc' i hi
      simp [hbits i hi]
  | true =>
    have hmem : ∀ a, a ∈ array_nodes 0 c.N ↔ a < c.N := by
      intro a; simp [array_nodes, List.mem_range'_1]
    obtain ⟨m', p, e, a1, d1, c1⟩ := hc.of_add_to_free_nodes_array (array_nodes 0 c.N)
      (fun a ha => by rw [hal, hs]; simp [(hmem a).1 ha])
      (List.nodup_range' _ _) (fun a _ => by simp)
      (fun hd hm => by
        have := hself hd hs
        rw [hu] at hm
        have := (hmem self).1 hm
        omega)
      (fun a _ => hdt a)
    refine ⟨{ s0 with mem := m', m_free_nodes := p }, by simpa using e,
      ⟨by simpa using c1, ?_, hsz, ?_, ?_⟩, ?_, hu, hsz⟩
    · intro a ha
      have ha' : al m' a = true := ha
      rw [a1, hal, hs] at ha'
      simp only [Bool.true_and, Bool.or_eq_true, decide_eq_true_eq, Bool.and_eq_true] at ha'
      rcases ha' with h1 | h1
      · exact Or.inl (by simp [(hmem a).2 h1])
      · exact Or.inr (Or.inr ⟨h1.1, by show a = s0.m_used_nodes; rw [hu]; exact h1.2⟩)
    · simp [capacity, hs, array_nodes]
    · intro _
      simp only [slots, hs, if_true, List.append_nil]
      exact List.reverse_perm _
    · intro hc' i hi
      show s0.m_used i = true ↔ i ∈ []
      simp [hbits i hi]

/-- The default constructor yields a state that satisfies the invariant, with every slot
of a static pool on the free chain (the last slot of `m_pool` first) and nothing
occupied.  The sentinel of a static doubly-linked pool must lie outside `m_pool`. -/
theorem construct_spec (c : Cfg) (self : Nat) (oob : Nat → Bool)
    (hself : c.impl.is_dlist = true → c.impl.is_static = true → c.N ≤ self) :
    ∃ s : State T, construct c self oob = some s ∧
      Inv c s (if c.impl.is_static then (array_nodes 0 c.N).reverse else []) [] ∧
      BitsInv c s [] ∧ s.m_used_nodes = self ∧ s.m_size = 0 := by
  have hbits : ∀ i, i < c.N → (State.raw (T := T) c self oob).m_used i = false := by
    intro i hi; simp [State.raw, hi]
  cases hd : c.impl.is_dlist with
  | true =>
    obtain ⟨m1, m3, h1, h2, a3, d3, n3, p3⟩ := sentinel_ctor (T := T) c self oob (hself hd)
    have hc : Core c.impl.is_dlist { State.raw (T := T) c self oob with mem := m3 } [] [] := by
      refine ⟨rfl, by simp, by simp, by simp, fun _ => ⟨⟨n3, p3⟩, by simp, d3 self⟩⟩
    obtain ⟨s, e, hi, hb, hu, hz⟩ := construct_tail c _ self hc
      (fun a => by rw [a3 a, hd]; simp) d3 rfl rfl rfl rfl hbits hself
    refine ⟨s, ?_, hi, hb, hu, hz⟩
    simp only [construct, hd, if_true, Option.bind_eq_bind, Option.some_bind]
    rw [h1]; simp only [Option.some_bind]; rw [h2]; simp only [Option.some_bind]
    exact e
  | false =>
    have hc : Core c.impl.is_dlist (State.raw (T := T) c self oob) [] [] := by
      refine ⟨rfl, by simp, by simp, by simp, fun h => by rw [hd] at h; cases h⟩
    obtain ⟨s, e, hi, hb, hu, hz⟩ := construct_tail c _ self hc
      (fun a => by rw [raw_al, hd]; simp) (raw_dt c self oob) rfl rfl rfl rfl hbits hself
    refine ⟨s, ?_, hi, hb, hu, hz⟩
    simp only [construct, hd, Bool.false_eq_true, if_false, Option.bind_eq_bind,
      Option.some_bind]
    exact e

/-- A constructor that returns took the storage of the sentinel outside `m_pool`. -/
theorem construct_self {c : Cfg} {self : Nat} {oob : Nat → Bool} {s : State T}
    (e : construct c self oob = some s) :
    c.impl.is_dlist = true → c.impl.is_static = true → c.N ≤ self := by
  intro hd hs
  by_contra hlt
  have hal : al (State.raw (T := T) c self oob).mem self = true := by
    rw [raw_al, hs]; simp; omega
  have : alloc_node (State.raw (T := T) c self oob).mem self = none := by
    unfold alloc_node
    have : ((State.raw (T := T) c self oob).mem self).isNone = false := by
      unfold al at hal
      cases hm : (State.raw (T := T) c self oob).mem self <;> simp [hm] at hal ⊢
    simp [this]
  simp [construct, hd, this] at e

end construction

section node_allocator
variable {T : Type}

theorem BitsInv.of_dynamic {c : Cfg} (hdyn : c.impl.is_static = false) (s : State T)
    (ul : List Nat) : BitsInv c s ul := by
  intro hc; rw [hc] at hdyn; cases hdyn

/-- Method `Pool_node_allocator::del_node` on a non-empty free chain: the head of the
chain is released. -/
theorem Inv.node_del_node {c : Cfg} {s : State T} {fl ul : List Nat} {a : Nat}
    (h : Inv c s (a :: fl) ul) (hdyn : c.impl.is_static = false)
    (hblk : c.impl.is_block = false) :
    ∃ s', Pool_node_allocator.del_node s = some s' ∧ Inv c s' fl ul ∧ dt s'.mem = dt s.mem ∧
      s'.m_size = s.m_size ∧ s'.m_used_nodes = s.m_used_nodes ∧
      s'.m_capacity = s.m_capacity - 1 ∧ s'.m_blocks = s.m_blocks ∧ s'.m_used = s.m_used := by
  obtain ⟨hfree, hal, hch⟩ := h.core.chain
  obtain ⟨n, hn⟩ := al_eq_true_iff.1 hal
  have hnx : nx s.mem a = n.next := by simp [nx, hn]
  obtain ⟨f1, f2, f3, f4⟩ := free_node_spec s.mem a
  have hnd := h.core.nodup
  simp only [List.cons_append, List.nodup_cons, List.mem_append, not_or] at hnd
  have hne : ∀ b, b ∈ fl ∨ b ∈ ul ∨ (c.impl.is_dlist = true ∧ b = s.m_used_nodes) → b ≠ a := by
    rintro b hb rfl
    rcases hb with hb | hb | ⟨hd, hb⟩
    · exact hnd.1.1 hb
    · exact hnd.1.2 hb
    · exact (h.core.ring hd).2.1 (by rw [← hb]; simp)
  refine ⟨{ s with m_capacity := s.m_capacity - 1, m_free_nodes := n.next,
                   mem := free_node s.mem a }, ?_, ?_, ?_, rfl, rfl, rfl, rfl, rfl⟩
  · simp [Pool_node_allocator.del_node, pop_free_node, top_free_node, hfree, hn]
  · refine ⟨⟨?_, hnd.2, ?_, ?_, ?_⟩, ?_, h.size, ?_, ?_⟩
    · show Chain (free_node s.mem a) n.next fl
      rw [← hnx]
      refine hch.frame_chain fun b hb => ?_
      have := hne b (Or.inl hb)
      simp [f1, f2, Function.update_noteq this]
    · intro b hb
      show dt (free_node s.mem a) b = none
      rw [f4, Function.update_noteq (hne b (Or.inl hb))]
      exact h.core.fl_free b (List.mem_cons_of_mem _ hb)
    · intro b hb
      show (dt (free_node s.mem a) b).isSome = true
      rw [f4, Function.update_noteq (hne b (Or.inr (Or.inl hb)))]
      exact h.core.ul_live b hb
    · intro hd
      obtain ⟨r1, r2, r3⟩ := h.core.ring hd
      refine ⟨?_, fun hm => r2 (List.mem_cons_of_mem _ hm), ?_⟩
      · refine Seg.frame_seg r1 ?_ ?_
        · intro z hz
          have : z ≠ a := by
            rcases List.mem_cons.1 hz with e | e
            · exact hne z (Or.inr (Or.inr ⟨hd, e⟩))
            · exact hne z (Or.inr (Or.inl e))
          show nx (free_node s.mem a) z = nx s.mem z
          rw [f2, Function.update_noteq this]
        · intro z hz
          have : z ≠ a := by
            rcases List.mem_append.1 hz with e | e
            · exact hne z (Or.inr (Or.inl e))
            · simp at e; exact hne z (Or.inr (Or.inr ⟨hd, e⟩))
          show pv (free_node s.mem a) z = pv s.mem z
          rw [f3, Function.update_noteq this]
      · show dt (free_node s.mem a) s.m_used_nodes = none
        rw [f4, Function.update_noteq (hne _ (Or.inr (Or.inr ⟨hd, rfl⟩)))]
        exact r3
    · intro b hb
      have hb' : al (free_node s.mem a) b = true := hb
      rw [f1] at hb'
      by_cases hba : b = a
      · subst hba; simp at hb'
      · rw [Function.update_noteq hba] at hb'
        rcases h.owned b hb' with h1 | h1 | h1
        · rcases List.mem_cons.1 h1 with e | e
          · exact absurd e hba
          · exact Or.inl e
        · exact Or.inr (Or.inl h1)
        · exact Or.inr (Or.inr h1)
    · have := h.cap
      simp only [capacity, hdyn, Bool.false_eq_true, if_false, List.length_cons] at this ⊢
      omega
    · intro hs
      rcases hs with hs | hs
      · rw [hdyn] at hs; cases hs
      · rw [hblk] at hs; cases hs
  · funext b
    show dt (free_node s.mem a) b = dt s.mem b
    rw [f4]
    by_cases hba : b = a
    · subst hba; simp [h.core.fl_free b (by simp)]
    · rw [Function.update_noteq hba]

/-- The loop of `Pool_node_allocator::shrink_to_fit`, entered with the counter equal to
the capacity and a target that is at least the size: it releases the first
`capacity - new_cap` nodes of the free chain. -/
theorem Inv.node_shrink_loop {c : Cfg} {ul : List Nat} (hdyn : c.impl.is_static = false)
    (hblk : c.impl.is_block = false) (new_cap : Nat) (hk : ul.length ≤ new_cap) :
    ∀ (i : Nat) (s : State T) (fl : List Nat), Inv c s fl ul → s.m_capacity = i →
      ∃ s', Pool_node_allocator.shrink_to_fit_loop c new_cap i s = some s' ∧
        Inv c s' (fl.drop (i - new_cap)) ul ∧ dt s'.mem = dt s.mem ∧ s'.m_size = s.m_size ∧
        s'.m_used_nodes = s.m_used_nodes ∧ s'.m_capacity = min i new_cap ∧
        s'.m_blocks = s.m_blocks ∧ s'.m_used = s.m_used := by
  intro i
  induction i with
  | zero =>
    intro s fl h hc
    exact ⟨s, rfl, by simpa using h, rfl, rfl, rfl, by simp [hc], rfl, rfl⟩
  | succ i ih =>
    intro s fl h hc
    have hcap := h.cap
    simp only [capacity, hdyn, Bool.false_eq_true, if_false] at hcap
    by_cases hgt : i + 1 > new_cap
    · have hfl : 0 < fl.length := by omega
      obtain ⟨a, fl1, rfl⟩ := List.exists_cons_of_length_pos hfl
      obtain ⟨s1, e1, i1, d1, z1, u1, c1, b1, m1⟩ := h.node_del_node hdyn hblk
      obtain ⟨s', e2, i2, d2, z2, u2, c2, b2, m2⟩ := ih s1 fl1 i1 (by rw [c1, hc]; rfl)
      refine ⟨s', ?_, ?_, d2.trans d1, z2.trans z1, u2.trans u1, ?_, b2.trans b1,
        m2.trans m1⟩
      · simp only [Pool_node_allocator.shrink_to_fit_loop, capacity, hdyn, Bool.false_eq_true,
          if_false, hc]
        rw [if_pos ⟨hgt, hgt⟩]
        simp [e1, e2]
      · have : i + 1 - new_cap = (i - new_cap) + 1 := by omega
        rw [this, List.drop_succ_cons]
        exact i2
      · rw [c2]; omega
    · refine ⟨s, ?_, ?_, rfl, rfl, rfl, ?_, rfl, rfl⟩
      · simp only [Pool_node_allocator.shrink_to_fit_loop]
        rw [if_neg (fun hh => hgt hh.2)]
      · have : i + 1 - new_cap = 0 := by omega
        rw [this]; simpa using h
      · rw [hc]; omega

/-- Method `Pool_node_allocator::shrink_to_fit` always returns and keeps the invariant. -/
theorem Inv.node_shrink_to_fit {c : Cfg} {s : State T} {fl ul : List Nat} (h : Inv c s fl ul)
    (hdyn : c.impl.is_static = false) (hblk : c.impl.is_block = false) (new_cap : Nat) :
    ∃ s', Pool_node_allocator.shrink_to_fit c s new_cap = some s' ∧
      Inv c s' (fl.drop (s.m_capacity - max s.m_size new_cap)) ul ∧ dt s'.mem = dt s.mem ∧
      s'.m_size = s.m_size ∧ s'.m_used_nodes = s.m_used_nodes ∧
      s'.m_capacity = min s.m_capacity (max s.m_size new_cap) ∧
      s'.m_blocks = s.m_blocks ∧ s'.m_used = s.m_used := by
  have hk : ul.length ≤ max s.m_size new_cap := by rw [h.size]; exact le_max_left _ _
  obtain ⟨s', e, r⟩ := Inv.node_shrink_loop hdyn hblk (max s.m_size new_cap) hk s.m_capacity
    s fl h rfl
  refine ⟨s', ?_, r⟩
  simp only [Pool_node_allocator.shrink_to_fit, Pool_base.size, capacity, hdyn,
    Bool.false_eq_true, if_false]
  simpa [capacity, hdyn] using e

/-- Method `Pool_node_allocator::dtor` releases the whole free chain; it returns exactly
when the fuel covers the length of the chain. -/
theorem Inv.node_dtor {c : Cfg} {ul : List Nat} (hdyn : c.impl.is_static = false)
    (hblk : c.impl.is_block = false) :
    ∀ (fl : List Nat) (s : State T), Inv c s fl ul →
      ∃ sf, Inv c sf [] ul ∧ dt sf.mem = dt s.mem ∧ sf.m_size = s.m_size ∧
        sf.m_used_nodes = s.m_used_nodes ∧ sf.m_blocks = s.m_blocks ∧ sf.m_used = s.m_used ∧
        ∀ fuel, Pool_node_allocator.dtor fuel s =
          if fl.length ≤ fuel then some sf else none := by
  intro fl
  induction fl with
  | nil =>
    intro s h
    have hfree : s.m_free_nodes = none := h.core.chain
    refine ⟨s, h, rfl, rfl, rfl, rfl, rfl, fun fuel => ?_⟩
    cases fuel <;> simp [Pool_node_allocator.dtor, top_free_node, hfree]
  | cons a fl ih =>
    intro s h
    have hfree : s.m_free_nodes = some a := h.core.chain.1
    obtain ⟨s1, e1, i1, d1, z1, u1, -, b1, m1⟩ := h.node_del_node hdyn hblk
    obtain ⟨sf, i2, d2, z2, u2, b2, m2, hf⟩ := ih s1 i1
    refine ⟨sf, i2, d2.trans d1, z2.trans z1, u2.trans u1, b2.trans b1, m2.trans m1,
      fun fuel => ?_⟩
    cases fuel with
    | zero => simp [Pool_node_allocator.dtor, top_free_node, hfree]
    | succ fuel =>
      simp only [Pool_node_allocator.dtor, top_free_node, hfree, Option.isNone_some,
        Bool.false_eq_true, if_false, e1, Option.bind_eq_bind, Option.some_bind, hf fuel,
        List.length_cons, Nat.add_le_add_iff_right]

end node_allocator

section destroy_all_dlist
variable {T : Type}

theorem Seg.nx_head {m : Mem T} {l : List Nat} {x y : Nat} (h : Seg m x l y) :
    nx m x = (l ++ [y]).head? := by
  cases l with
  | nil => exact h.1
  | cons a l => exact h.1.1

theorem destroy_obj_dlist {c : Cfg} (hd : c.impl.is_dlist = true) (s : State T) (a : Nat) :
    Pool_dlist_base.destroy_obj s a = destroy_obj c s a := by
  simp [destroy_obj, hd]

/-- The loop of `Pool_dlist_base::for_each` with `destroy_obj` as the callback, entered at
the first member of the used ring: it destroys every member in ring order, and it returns
exactly when the fuel covers the length of the ring. -/
theorem Inv.dlist_destroy_loop {c : Cfg} (hd : c.impl.is_dlist = true) :
    ∀ (ul : List Nat) (s : State T) (fl : List Nat), Inv c s fl ul →
      ∃ sf, Inv c sf (ul.reverse ++ fl) [] ∧ al sf.mem = al s.mem ∧
        (∀ b, dt sf.mem b = if b ∈ ul then none else dt s.mem b) ∧
        sf.m_used_nodes = s.m_used_nodes ∧ sf.m_capacity = s.m_capacity ∧
        sf.m_blocks = s.m_blocks ∧ sf.m_used = s.m_used ∧
        ∀ fuel, Pool_dlist_base.for_each_loop
            (fun s (_ : Unit) obj => (Pool_dlist_base.destroy_obj s obj).map fun s => (s, ()))
            s.m_used_nodes fuel s () (ul ++ [s.m_used_nodes]).head? =
          if ul.length ≤ fuel then some (sf, ()) else none := by
  intro ul
  induction ul with
  | nil =>
    intro s fl h
    refine ⟨s, by simpa using h, rfl, by simp, rfl, rfl, rfl, rfl, fun fuel => ?_⟩
    cases fuel <;> simp [Pool_dlist_base.for_each_loop]
  | cons a ul ih =>
    intro s fl h
    obtain ⟨hring, hsent, -⟩ := h.core.ring hd
    have hah : a ≠ s.m_used_nodes := by
      rintro rfl; exact hsent (by simp)
    have hnx : nx s.mem a = (ul ++ [s.m_used_nodes]).head? := Seg.nx_head hring.2
    obtain ⟨n, hn⟩ := al_eq_true_iff.1 (h.core.al_ul a (by simp))
    have hnn : n.next = (ul ++ [s.m_used_nodes]).head? := by rw [← hnx]; simp [nx, hn]
    obtain ⟨m', e, a1, d1, i1⟩ := h.of_destroy_obj (a := a) (by simp)
    rw [List.erase_cons_head] at i1
    obtain ⟨sf, i2, a2, d2, u2, c2, b2, m2, hf⟩ := ih _ _ i1
    have hnd : a ∉ ul := by
      have := (List.nodup_append.1 h.core.nodup).2.1
      exact (List.nodup_cons.1 this).1
    refine ⟨sf, by simpa using i2, a2.trans a1, ?_, u2, c2, b2, m2, fun fuel => ?_⟩
    · intro b
      rw [d2 b]
      show (if b ∈ ul then none else dt m' b) = _
      rw [d1]
      by_cases hba : b = a
      · subst hba; simp [hnd]
      · simp [hba, Function.update_noteq hba]
    · cases fuel with
      | zero => simp [Pool_dlist_base.for_each_loop, hah]
      | succ fuel =>
        have hne : (some a : Option Nat) ≠ some s.m_used_nodes := by simpa using hah
        rw [← destroy_obj_dlist hd] at e
        simp only [List.cons_append, List.head?_cons, Pool_dlist_base.for_each_loop, hne,
          if_false, Option.bind_eq_bind, Option.some_bind, hn, e, Option.map_some', hnn]
        have := hf fuel
        simp only [List.length_cons, Nat.add_le_add_iff_right]
        exact this

/-- Method `Pool_dlist_base::destroy_all` destroys every element, in ring order, and
returns exactly when the fuel covers the size. -/
theorem Inv.dlist_destroy_all {c : Cfg} (hd : c.impl.is_dlist = true) {s : State T}
    {fl ul : List Nat} (h : Inv c s fl ul) :
    ∃ sf, Inv c sf (ul.reverse ++ fl) [] ∧ al sf.mem = al s.mem ∧
      (∀ b, dt sf.mem b = if b ∈ ul then none else dt s.mem b) ∧
      sf.m_used_nodes = s.m_used_nodes ∧ sf.m_capacity = s.m_capacity ∧
      sf.m_blocks = s.m_blocks ∧ sf.m_used = s.m_used ∧
      ∀ fuel, Pool_dlist_base.destroy_all fuel s =
        if ul.length ≤ fuel then some sf else none := by
  obtain ⟨sf, i, a, d, u, cp, b, m, hf⟩ := Inv.dlist_destroy_loop hd ul s fl h
  refine ⟨sf, i, a, d, u, cp, b, m, fun fuel => ?_⟩
  obtain ⟨hring, -, -⟩ := h.core.ring hd
  have hc := h.core
  rw [hd] at hc
  obtain ⟨n, hn⟩ := al_eq_true_iff.1 hc.al_sentinel
  have hnn : n.next = (ul ++ [s.m_used_nodes]).head? := by
    rw [← Seg.nx_head hring]; simp [nx, hn]
  simp only [Pool_dlist_base.destroy_all, Pool_dlist_base.for_each, hn, Option.bind_eq_bind,
    Option.some_bind, hnn, hf fuel]
  split <;> simp

end destroy_all_dlist

section destroy_all_static
variable {T : Type}

theorem survivors_self {c : Cfg} {s : State T} {fl ul : List Nat} (h : Inv c s fl ul) :
    survivors s ul = ul := by
  unfold survivors
  rw [List.filter_eq_self]
  intro a ha
  exact h.core.ul_live a ha

theorem survivors_of_empty {c : Cfg} {s : State T} {fl : List Nat} (h : Inv c s fl [])
    (ul : List Nat) : survivors s ul = [] := by
  unfold survivors
  rw [List.filter_eq_nil_iff]
  intro a _ hl
  have := h.mem_ul_of_live (a := a) hl
  cases this

theorem survivors_erase {c : Cfg} {s : State T} {fl ul' ul : List Nat} {a : Nat}
    (h : Inv c s fl ul') (ha : a ∈ fl) (hnd : ul.Nodup) :
    survivors s (ul.erase a) = survivors s ul := by
  unfold survivors
  rw [hnd.erase_eq_filter, List.filter_filter]
  refine List.filter_congr fun b _ => ?_
  by_cases hba : b = a
  · subst hba
    simp [live, value, h.core.fl_free b ha]
  · simp [hba]

/-- A loop over slots in which every step either leaves the pool as it is or destroys
the slot keeps the invariant, and the occupied slots afterwards are the survivors. -/
theorem Inv.destroy_fold {c : Cfg} (step : State T × Unit → Nat → Option (State T × Unit))
    (hstep : ∀ s a r, step (s, ()) a = some r → r.1 = s ∨ destroy_obj c s a = some r.1) :
    ∀ (nodes : List Nat) (s : State T) (fl ul : List Nat) (r : State T × Unit),
      Inv c s fl ul → nodes.foldlM step (s, ()) = some r →
      ∃ fl', Inv c r.1 fl' (survivors r.1 ul) ∧ (∀ b ∈ fl, b ∈ fl') ∧
        r.1.m_used = s.m_used := by
  intro nodes
  induction nodes with
  | nil =>
    intro s fl ul r h e
    simp only [List.foldlM_nil, Option.pure_def, Option.some.injEq] at e
    subst e
    exact ⟨fl, by rw [survivors_self h]; exact h, fun _ hb => hb, rfl⟩
  | cons a l ih =>
    intro s fl ul r h e
    simp only [List.foldlM_cons, Option.bind_eq_bind, Option.bind_eq_some] at e
    obtain ⟨r1, e1, e2⟩ := e
    obtain ⟨s1, u⟩ := r1
    rcases hstep s a _ e1 with hs | hs
    · simp only at hs
      subst hs
      exact ih s1 fl ul r h e2
    · simp only at hs
      have hlive := destroy_obj_live c hs
      have ha := h.mem_ul_of_live hlive
      obtain ⟨m', e', -, -, hi⟩ := h.of_destroy_obj ha
      rw [hs, Option.some.injEq] at e'
      subst e'
      obtain ⟨fl', hi', hsub, hu⟩ := ih _ _ _ r hi e2
      refine ⟨fl', ?_, fun b hb => hsub b (List.mem_cons_of_mem _ hb), hu⟩
      have hnd : ul.Nodup := (List.nodup_append.1 h.core.nodup).2.1
      rw [← survivors_erase hi' (hsub a (List.mem_cons_self _ _)) hnd]
      exact hi'

/-- Method `SPool_list::destroy_all`, whenever it returns, keeps the invariant. -/
theorem Inv.spool_list_destroy_all {c : Cfg} {s s' : State T} {fl ul : List Nat}
    (h : Inv c s fl ul) (hc : c.impl = Impl.SPool_list) {fuel : Nat}
    (e : SPool_list.destroy_all c fuel s = some s') :
    ∃ fl', Inv c s' fl' (survivors s' ul) ∧ s'.m_used = s.m_used := by
  have hdl : c.impl.is_dlist = false := by rw [hc]; rfl
  unfold SPool_list.destroy_all SPool_list.for_each at e
  simp only [Option.map_eq_some'] at e
  obtain ⟨r, e, rfl⟩ := e
  split at e
  · simp only [Option.some.injEq] at e
    subst e
    exact ⟨fl, by rw [survivors_self h]; exact h, rfl⟩
  · split at e
    · obtain ⟨fl', h1, -, h3⟩ := Inv.destroy_fold (c := c) _ (fun s a r hr => by
        right
        simp only [Option.map_eq_some'] at hr
        obtain ⟨s1, hs1, rfl⟩ := hr
        simpa [destroy_obj, hdl] using hs1) _ s fl ul r h e
      exact ⟨fl', h1, h3⟩
    · obtain ⟨fl', h1, -, h3⟩ := Inv.destroy_fold (c := c) _ (fun s a r hr => by
        simp only [Option.bind_eq_bind, Option.bind_eq_some] at hr
        obtain ⟨used, -, hr⟩ := hr
        cases used with
        | false =>
          left
          simp only [Bool.false_eq_true, if_false, Option.some.injEq] at hr
          rw [← hr]
        | true =>
          right
          simp only [if_true, Option.map_eq_some'] at hr
          obtain ⟨s1, hs1, rfl⟩ := hr
          simpa [destroy_obj, hdl] using hs1) _ s fl ul r h e
      exact ⟨fl', h1, h3⟩

/-- The loop of `SPool_list_bitset::for_each` with `destroy_obj` as the callback, over
slots whose bits agree with the occupied slots: it destroys exactly the occupied ones. -/
theorem Inv.bitset_destroy_fold {c : Cfg} (hdl : c.impl.is_dlist = false) :
    ∀ (nodes : List Nat) (s : State T) (fl ul : List Nat), Inv c s fl ul → nodes.Nodup →
      (∀ a ∈ nodes, (s.m_used a = true ↔ a ∈ ul)) →
      ∃ sf fl', nodes.foldlM (fun (r : State T × Unit) i =>
            if r.1.m_used i then
              (Pool_list_base.destroy_obj r.1 i).map fun s => (s, ())
            else some r) (s, ()) = some (sf, ()) ∧
        Inv c sf fl' (ul.filter fun b => decide (b ∉ nodes)) ∧ sf.m_used = s.m_used ∧
        al sf.mem = al s.mem ∧
        (∀ b, dt sf.mem b = if b ∈ ul ∧ b ∈ nodes then none else dt s.mem b) := by
  intro nodes
  induction nodes with
  | nil =>
    intro s fl ul h _ _
    exact ⟨s, fl, by simp, by simpa using h, rfl, rfl, by simp⟩
  | cons a l ih =>
    intro s fl ul h hnd hbits
    obtain ⟨hal, hndl⟩ := List.nodup_cons.1 hnd
    have huln : ul.Nodup := (List.nodup_append.1 h.core.nodup).2.1
    by_cases hu : s.m_used a = true
    · have ha : a ∈ ul := (hbits a (by simp)).1 hu
      obtain ⟨m', e, a1, d1, i1⟩ := h.of_destroy_obj ha
      have e' : Pool_list_base.destroy_obj s a =
          some { s with m_size := s.m_size - 1, mem := m', m_free_nodes := some a } := by
        simpa [destroy_obj, hdl] using e
      obtain ⟨sf, fl', e2, i2, u2, a2, d2⟩ := ih _ _ _ i1 hndl (fun b hb => by
        have hba : b ≠ a := fun e => hal (e ▸ hb)
        show s.m_used b = true ↔ b ∈ ul.erase a
        rw [List.mem_erase_of_ne hba]
        exact hbits b (List.mem_cons_of_mem _ hb))
      refine ⟨sf, fl', ?_, ?_, u2, a2.trans a1, ?_⟩
      · simp only [List.foldlM_cons, hu, if_true, e', Option.map_some', Option.bind_eq_bind,
          Option.some_bind]
        exact e2
      · have : (ul.erase a).filter (fun b => decide (b ∉ l)) =
            ul.filter (fun b => decide (b ∉ a :: l)) := by
          rw [huln.erase_eq_filter, List.filter_filter]
          refine List.filter_congr fun b _ => ?_
          by_cases hba : b = a <;> simp [hba]
        rw [← this]; exact i2
      · intro b
        rw [d2 b]
        show (if b ∈ ul.erase a ∧ b ∈ l then none else dt m' b) = _
        rw [d1]
        by_cases hba : b = a
        · subst hba; simp [ha, hal]
        · simp [hba, Function.update_noteq hba, List.mem_erase_of_ne hba]
    · have ha : a ∉ ul := fun hm => hu ((hbits a (by simp)).2 hm)
      obtain ⟨sf, fl', e2, i2, u2, a2, d2⟩ := ih s fl ul h hndl
        (fun b hb => hbits b (List.mem_cons_of_mem _ hb))
      refine ⟨sf, fl', ?_, ?_, u2, a2, ?_⟩
      · simp only [List.foldlM_cons, hu, Bool.false_eq_true, if_false, Option.bind_eq_bind,
          Option.some_bind]
        exact e2
      · have : ul.filter (fun b => decide (b ∉ l)) =
            ul.filter (fun b => decide (b ∉ a :: l)) := by
          refine List.filter_congr fun b hb => ?_
          have hba : b ≠ a := fun e => ha (e ▸ hb)
          simp [hba]
        rw [← this]; exact i2
      · intro b
        rw [d2 b]
        by_cases hba : b = a
        · subst hba; simp [ha]
        · simp [hba]

/-- Method `SPool_list_bitset::destroy_all` always returns, destroys every element and
clears every bit. -/
theorem Inv.bitset_destroy_all {c : Cfg} {s : State T} {fl ul : List Nat} (h : Inv c s fl ul)
    (hb : BitsInv c s ul) (hc : c.impl = Impl.SPool_list_bitset) :
    ∃ sf fl', SPool_list_bitset.destroy_all c s = some sf ∧ Inv c sf fl' [] ∧
      BitsInv c sf [] ∧ al sf.mem = al s.mem ∧
      (∀ b, dt sf.mem b = if b ∈ ul then none else dt s.mem b) ∧
      sf.m_used = bitset_reset c.N s.m_used := by
  obtain ⟨hst, hdl, hbk⟩ := bitset_is_static hc
  have hbits : ∀ (sf : State T), sf.m_used = bitset_reset c.N s.m_used → BitsInv c sf [] := by
    intro sf hu _ i hi
    rw [hu]; simp [bitset_reset, hi]
  by_cases hem : Pool_base.empty s = true
  · have hul : ul = [] := by
      have : s.m_size = 0 := by simpa [Pool_base.empty, Pool_base.size] using hem
      rw [h.size] at this
      exact List.length_eq_zero.1 this
    subst hul
    refine ⟨{ s with m_used := bitset_reset c.N s.m_used }, fl, ?_,
      h.congr rfl rfl rfl rfl rfl rfl, hbits _ rfl, rfl, by simp, rfl⟩
    simp [SPool_list_bitset.destroy_all, SPool_list_bitset.for_each, hem]
  · obtain ⟨sf, fl', e, i, u, a, d⟩ := Inv.bitset_destroy_fold hdl (List.range c.N) s fl ul h
      (List.nodup_range _) (fun a ha => hb hc a (List.mem_range.1 ha))
    have hall : ∀ b ∈ ul, b ∈ List.range c.N := by
      intro b hb'
      exact List.mem_range.2 (h.lt_N_of_static hst (List.mem_append_right _ hb'))
    have hnil : (ul.filter fun b => decide (b ∉ List.range c.N)) = [] := by
      rw [List.filter_eq_nil_iff]
      intro b hb'; simp [List.mem_range.1 (hall b hb')]
    rw [hnil] at i
    refine ⟨{ sf with m_used := bitset_reset c.N sf.m_used }, fl', ?_,
      i.congr rfl rfl rfl rfl rfl rfl, hbits _ (by simp [u]), a, ?_, by simp [u]⟩
    · simp only [SPool_list_bitset.destroy_all, SPool_list_bitset.for_each, hem,
        Bool.false_eq_true, if_false, e, Option.map_some']
    · intro b
      show dt sf.mem b = _
      rw [d b]
      by_cases hbu : b ∈ ul
      · simp [hbu, hall b hbu]
      · simp [hbu]

/-- Method `destroy_all` of the classes that offer it, whenever it returns, keeps the
invariant; the occupied slots afterwards are the survivors. -/
theorem Inv.of_destroy_all {c : Cfg} {s s' : State T} {fl ul : List Nat} (h : Inv c s fl ul)
    (hb : BitsInv c s ul) (h1 : c.impl ≠ Impl.Pool_list) (h2 : c.impl ≠ Impl.Pool_list_block)
    {fuel : Nat} (e : destroy_all c fuel s = some s') :
    ∃ fl', Inv c s' fl' (survivors s' ul) ∧ BitsInv c s' (survivors s' ul) := by
  by_cases hbit : c.impl = Impl.SPool_list_bitset
  · obtain ⟨sf, fl', e', i, b, -⟩ := h.bitset_destroy_all hb hbit
    have : destroy_all c fuel s = SPool_list_bitset.destroy_all c s := by
      simp [destroy_all, hbit]
    rw [this, e', Option.some.injEq] at e
    subst e
    rw [survivors_of_empty i]
    exact ⟨fl', i, b⟩
  · have hbits : ∀ (s' : State T) (l : List Nat), BitsInv c s' l := fun _ _ hc => absurd hc hbit
    by_cases hsl : c.impl = Impl.SPool_list
    · have : destroy_all c fuel s = SPool_list.destroy_all c fuel s := by
        simp [destroy_all, hsl]
      rw [this] at e
      obtain ⟨fl', i, -⟩ := h.spool_list_destroy_all hsl e
      exact ⟨fl', i, hbits _ _⟩
    · have hd : c.impl.is_dlist = true := by
        cases hi : c.impl <;> simp_all [Impl.is_dlist]
      have : destroy_all c fuel s = Pool_dlist_base.destroy_all fuel s := by
        unfold destroy_all
        cases hi : c.impl <;> simp_all
      rw [this] at e
      obtain ⟨sf, i, -, -, -, -, -, -, hf⟩ := h.dlist_destroy_all hd
      rw [hf fuel] at e
      split at e
      · simp only [Option.some.injEq] at e
        subst e
        rw [survivors_of_empty (by simpa using i)]
        exact ⟨_, i, hbits _ _⟩
      · cases e

end destroy_all_static

section destroy_iterators
variable {T : Type}

theorem bitset_destroy_eq {c : Cfg} (hc : c.impl = Impl.SPool_list_bitset) (s : State T)
    (obj : Option Nat) : SPool_list_bitset.destroy s obj = destroy c s obj := by
  simp [destroy, hc]

theorem dlist_destroy_eq {c : Cfg} (hd : c.impl.is_dlist = true) (s : State T) (a : Nat) :
    Pool_dlist_base.destroy_obj s a = destroy c s (some a) := by
  unfold destroy
  cases hi : c.impl <;> simp_all [Impl.is_dlist, Pool_dlist_base.destroy]

/-- One step of a loop that destroys a live element keeps the invariant, and the
survivors of the rest of the loop are the survivors of the whole loop. -/
theorem Inv.destroy_step {c : Cfg} {s s1 : State T} {fl ul : List Nat} {a : Nat}
    (h : Inv c s fl ul) (hb : BitsInv c s ul) (e : destroy c s (some a) = some s1) :
    a ∈ ul ∧ Inv c s1 (a :: fl) (ul.erase a) ∧ BitsInv c s1 (ul.erase a) ∧
      ∀ (s' : State T) (fl' : List Nat), Inv c s' fl' (survivors s' (ul.erase a)) →
        (∀ b ∈ a :: fl, b ∈ fl') → survivors s' (ul.erase a) = survivors s' ul := by
  have ha := h.mem_ul_of_live (destroy_live e)
  obtain ⟨s1', e', i, b, -⟩ := h.of_destroy hb ha
  rw [e, Option.some.injEq] at e'
  subst e'
  refine ⟨ha, i, b, fun s' fl' hi hsub => ?_⟩
  exact survivors_erase hi (hsub a (List.mem_cons_self _ _))
    (List.nodup_append.1 h.core.nodup).2.1

/-- Method `SPool_list_bitset::destroy(first, last)`, whenever it returns, keeps the
invariant; the occupied slots afterwards are the survivors. -/
theorem Inv.bitset_destroy_range_loop {c : Cfg} (hc : c.impl = Impl.SPool_list_bitset)
    (last : Nat) :
    ∀ (fuel : Nat) (s s' : State T) (fl ul : List Nat) (first : Nat), Inv c s fl ul →
      BitsInv c s ul → SPool_list_bitset.destroy_range_loop c last fuel s first = some s' →
      ∃ fl', Inv c s' fl' (survivors s' ul) ∧ BitsInv c s' (survivors s' ul) ∧
        ∀ b ∈ fl, b ∈ fl' := by
  intro fuel
  induction fuel with
  | zero =>
    intro s s' fl ul first h hb e
    simp only [SPool_list_bitset.destroy_range_loop] at e
    split at e
    · simp only [Option.some.injEq] at e
      subst e
      rw [survivors_self h]
      exact ⟨fl, h, hb, fun _ hx => hx⟩
    · cases e
  | succ fuel ih =>
    intro s s' fl ul first h hb e
    simp only [SPool_list_bitset.destroy_range_loop] at e
    split at e
    · simp only [Option.some.injEq] at e
      subst e
      rw [survivors_self h]
      exact ⟨fl, h, hb, fun _ hx => hx⟩
    · simp only [SPool_list_bitset.destroy_pos, Option.bind_eq_bind, Option.bind_eq_some] at e
      obtain ⟨r, ⟨ret, -, s1, e1, hr⟩, e2⟩ := e
      simp only [Option.some.injEq] at hr
      subst hr
      rw [bitset_destroy_eq hc] at e1
      obtain ⟨-, i1, b1, hsurv⟩ := h.destroy_step hb e1
      obtain ⟨fl', i2, b2, hsub⟩ := ih _ _ _ _ _ i1 b1 e2
      have hs := hsurv _ fl' i2 hsub
      rw [hs] at i2 b2
      exact ⟨fl', i2, b2, fun b hb' => hsub b (List.mem_cons_of_mem _ hb')⟩

/-- Method `Pool_dlist_base::destroy(first, last)`, whenever it returns, keeps the
invariant; the occupied slots afterwards are the survivors. -/
theorem Inv.dlist_destroy_range_loop {c : Cfg} (hd : c.impl.is_dlist = true)
    (last : Option Nat) :
    ∀ (fuel : Nat) (s s' : State T) (fl ul : List Nat) (first : Option Nat), Inv c s fl ul →
      BitsInv c s ul → Pool_dlist_base.destroy_range_loop last fuel s first = some s' →
      ∃ fl', Inv c s' fl' (survivors s' ul) ∧ BitsInv c s' (survivors s' ul) ∧
        ∀ b ∈ fl, b ∈ fl' := by
  intro fuel
  induction fuel with
  | zero =>
    intro s s' fl ul first h hb e
    simp only [Pool_dlist_base.destroy_range_loop] at e
    split at e
    · simp only [Option.some.injEq] at e
      subst e
      rw [survivors_self h]
      exact ⟨fl, h, hb, fun _ hx => hx⟩
    · cases e
  | succ fuel ih =>
    intro s s' fl ul first h hb e
    simp only [Pool_dlist_base.destroy_range_loop] at e
    split at e
    · simp only [Option.some.injEq] at e
      subst e
      rw [survivors_self h]
      exact ⟨fl, h, hb, fun _ hx => hx⟩
    · simp only [Pool_dlist_base.destroy_pos, Option.bind_eq_bind, Option.bind_eq_some] at e
      obtain ⟨r, ⟨a, -, n, -, s1, e1, hr⟩, e2⟩ := e
      simp only [Option.some.injEq] at hr
      subst hr
      rw [dlist_destroy_eq hd] at e1
      obtain ⟨-, i1, b1, hsurv⟩ := h.destroy_step hb e1
      obtain ⟨fl', i2, b2, hsub⟩ := ih _ _ _ _ _ i1 b1 e2
      have hs := hsurv _ fl' i2 hsub
      rw [hs] at i2 b2
      exact ⟨fl', i2, b2, fun b hb' => hsub b (List.mem_cons_of_mem _ hb')⟩

end destroy_iterators

section reserve
variable {T : Type}

/-- The loop of `DPool_base::reserve`, whenever it returns, keeps the invariant, the
occupied slots and their elements; the capacity does not decrease. -/
theorem Inv.reserve_loop {c : Cfg} (hdyn : c.impl.is_static = false) {ul : List Nat}
    (new_cap : Nat) :
    ∀ (k i : Nat) (s s' : State T) (fl : List Nat) (allocs : List (Option Nat)),
      Inv c s fl ul → DPool_base.reserve_loop c new_cap k i s allocs = some s' →
      ∃ fl', Inv c s' fl' ul ∧ dt s'.mem = dt s.mem ∧ s'.m_size = s.m_size ∧
        s'.m_used_nodes = s.m_used_nodes ∧ s.m_capacity ≤ s'.m_capacity := by
  intro k
  induction k with
  | zero =>
    intro i s s' fl allocs h e
    simp only [DPool_base.reserve_loop, Option.some.injEq] at e
    subst e
    exact ⟨fl, h, rfl, rfl, rfl, le_refl _⟩
  | succ k ih =>
    intro i s s' fl allocs h e
    simp only [DPool_base.reserve_loop] at e
    split at e
    · simp only [Option.bind_eq_bind, Option.bind_eq_some] at e
      obtain ⟨s1, e1, e2⟩ := e
      obtain ⟨s1', e1', d1, z1, u1, -, c1, -, i1⟩ := h.of_add_node hdyn (add_node_fresh e1)
      rw [e1, Option.some.injEq] at e1'
      subst e1'
      obtain ⟨fl', i2, d2, z2, u2, c2⟩ := ih _ _ _ _ _ i1 e2
      exact ⟨fl', i2, d2.trans d1, z2.trans z1, u2.trans u1, by omega⟩
    · simp only [Option.some.injEq] at e
      subst e
      exact ⟨fl, h, rfl, rfl, rfl, le_refl _⟩

/-- Method `DPool_base::reserve`, whenever it returns (with or without throwing), keeps
the invariant. -/
theorem Inv.of_reserve {c : Cfg} (hdyn : c.impl.is_static = false) {s s' : State T}
    {fl ul : List Nat} (h : Inv c s fl ul) {new_cap : Nat} {allocs : List (Option Nat)}
    {thrown : Bool} (e : DPool_base.reserve c s new_cap allocs = some (s', thrown)) :
    ∃ fl', Inv c s' fl' ul ∧ dt s'.mem = dt s.mem ∧ s'.m_size = s.m_size ∧
      s'.m_used_nodes = s.m_used_nodes ∧ s.m_capacity ≤ s'.m_capacity := by
  simp only [DPool_base.reserve, Option.bind_eq_bind, Option.bind_eq_some, Option.some.injEq,
    Prod.mk.injEq] at e
  obtain ⟨s1, e1, rfl, -⟩ := e
  exact Inv.reserve_loop hdyn new_cap _ _ _ _ _ _ h e1

end reserve

section block_allocator
variable {T : Type}

theorem length_slots_block {c : Cfg} (hdyn : c.impl.is_static = false) (s : State T) :
    (slots c s).length = c.N * s.m_blocks.length := by
  simp only [slots, hdyn, Bool.false_eq_true, if_false]
  induction s.m_blocks with
  | nil => simp
  | cons b bs ih =>
    rw [List.flatMap_cons, List.length_append, ih, List.length_cons]
    have : (array_nodes b c.N).length = c.N := by simp [array_nodes]
    rw [this]; ring

theorem slots_dynamic {c : Cfg} (hdyn : c.impl.is_static = false) (s : State T) :
    slots c s = s.m_blocks.flatMap fun b => array_nodes b c.N := by
  simp [slots, hdyn]

/-- An empty block pool that satisfies the invariant satisfies `BlockInv`. -/
theorem Inv.to_block_inv {c : Cfg} {s : State T} {fl : List Nat} (h : Inv c s fl [])
    (hdyn : c.impl.is_static = false) (hblk : c.impl.is_block = true) : BlockInv c s := by
  have hp := h.slots_perm (Or.inr hblk)
  simp only [List.append_nil] at hp
  have hnd : fl.Nodup := by simpa using h.core.nodup
  refine ⟨hp.nodup_iff.1 hnd, ?_, ?_, ?_, ?_, by simpa using h.size, ?_⟩
  · have := h.cap
    simp only [capacity, hdyn, Bool.false_eq_true, if_false, List.length_nil, add_zero] at this
    rw [this, hp.length_eq, length_slots_block hdyn]
  · intro a ha
    exact h.core.al_fl a (hp.mem_iff.2 ha)
  · intro a ha
    rcases h.owned a ha with h1 | h1 | h1
    · exact Or.inl (hp.mem_iff.1 h1)
    · cases h1
    · exact Or.inr h1
  · intro a
    by_cases hl : (dt s.mem a).isSome = true
    · have := h.mem_ul_of_live hl; cases this
    · cases hd : dt s.mem a with
      | none => rfl
      | some v => rw [hd] at hl; simp at hl
  · intro hd
    obtain ⟨r1, r2, r3⟩ := h.core.ring hd
    refine ⟨⟨r1, r3⟩, fun hm => r2 ?_⟩
    simpa using hp.mem_iff.2 hm

/-- Method `Pool_block_allocator::del_node` releases the first block. -/
theorem BlockInv.del_node {c : Cfg} {s : State T} (h : BlockInv c s)
    (hdyn : c.impl.is_static = false) {b : Nat} {bs : List Nat} (hb : s.m_blocks = b :: bs) :
    ∃ s', Pool_block_allocator.del_node c s = some s' ∧ BlockInv c s' ∧ s'.m_blocks = bs ∧
      s'.m_used_nodes = s.m_used_nodes ∧ s'.m_used = s.m_used ∧
      s'.m_capacity = s.m_capacity - c.N ∧ s'.m_free_nodes = s.m_free_nodes := by
  obtain ⟨f1, f2⟩ := free_block_spec (array_nodes b c.N) s.mem
  have hsl : slots c s = array_nodes b c.N ++ bs.flatMap fun b => array_nodes b c.N := by
    simp [slots, hdyn, hb]
  have hnd := h.nodup
  rw [hsl] at hnd
  obtain ⟨n1, n2, n3⟩ := List.nodup_append.1 hnd
  refine ⟨{ s with m_blocks := bs, m_capacity := s.m_capacity - c.N,
                   mem := free_block s.mem b c.N }, ?_, ?_, rfl, rfl, rfl, rfl, rfl⟩
  · simp [Pool_block_allocator.del_node, hb]
  · have hsl' : ∀ (m : Mem T) (k : Nat), slots c { s with m_blocks := bs, m_capacity := k, mem := m }
        = bs.flatMap fun b => array_nodes b c.N := by
      intro m k; simp [slots, hdyn]
    refine ⟨by rw [hsl']; exact n2, ?_, ?_, ?_, ?_, h.size, ?_⟩
    · show s.m_capacity - c.N = c.N * bs.length
      rw [h.cap, hb, List.length_cons, Nat.mul_succ, Nat.add_sub_cancel]
    · intro a ha
      rw [hsl'] at ha
      show al (free_block s.mem b c.N) a = true
      unfold free_block
      rw [f1 a, h.free a (by rw [hsl]; exact List.mem_append_right _ ha)]
      have : a ∉ array_nodes b c.N := fun hm => n3 hm ha
      simp [this]
    · intro a ha
      rw [hsl']
      have ha' : al (free_block s.mem b c.N) a = true := ha
      unfold free_block at ha'
      rw [f1 a] at ha'
      simp only [Bool.and_eq_true, Bool.not_eq_true', decide_eq_false_iff_not] at ha'
      rcases h.owned a ha'.1 with h1 | h1
      · rw [hsl] at h1
        rcases List.mem_append.1 h1 with h2 | h2
        · exact absurd h2 ha'.2
        · exact Or.inl h2
      · exact Or.inr h1
    · intro a
      show dt (free_block s.mem b c.N) a = none
      by_cases hm : a ∈ array_nodes b c.N
      · have : al (free_block s.mem b c.N) a = false := by
          unfold free_block; rw [f1 a]; simp [hm]
        exact dt_of_not_al this
      · unfold free_block; rw [(f2 a hm).2.2]; exact h.dead a
    · intro hd
      obtain ⟨⟨r1, r2⟩, r3⟩ := h.ring hd
      have hns : s.m_used_nodes ∉ array_nodes b c.N := fun hm =>
        r3 (by rw [hsl]; exact List.mem_append_left _ hm)
      obtain ⟨g1, g2, g3⟩ := f2 _ hns
      refine ⟨⟨⟨?_, ?_⟩, ?_⟩, ?_⟩
      · show nx (free_block s.mem b c.N) s.m_used_nodes = _
        unfold free_block; rw [g1]; exact r1.1
      · show pv (free_block s.mem b c.N) s.m_used_nodes = _
        unfold free_block; rw [g2]; exact r1.2
      · show dt (free_block s.mem b c.N) s.m_used_nodes = _
        unfold free_block; rw [g3]; exact r2
      · rw [hsl']
        exact fun hm => r3 (by rw [hsl]; exact List.mem_append_right _ hm)

/-- The loop of `Pool_block_allocator::shrink_to_fit` on a pool without elements always
returns; it releases some of the first blocks. -/
theorem BlockInv.shrink_loop {c : Cfg} (hdyn : c.impl.is_static = false) (new_cap : Nat) :
    ∀ (i : Nat) (s : State T), BlockInv c s →
      ∃ s' j, Pool_block_allocator.shrink_to_fit_loop c new_cap i s = some s' ∧
        BlockInv c s' ∧ s'.m_blocks = s.m_blocks.drop j ∧
        s'.m_used_nodes = s.m_used_nodes ∧ s'.m_used = s.m_used := by
  intro i
  induction i with
  | zero => intro s h; exact ⟨s, 0, rfl, h, by simp, rfl, rfl⟩
  | succ i ih =>
    intro s h
    by_cases hgt : capacity c s > new_cap ∧ i + 1 > new_cap
    · have hcap : 0 < s.m_capacity := by
        have := hgt.1
        simp only [capacity, hdyn, Bool.false_eq_true, if_false] at this
        omega
      have hne : s.m_blocks ≠ [] := by
        intro e
        have := h.cap
        rw [e] at this
        simp at this
        omega
      obtain ⟨b, bs, hb⟩ := List.exists_cons_of_ne_nil hne
      obtain ⟨s1, e1, i1, b1, u1, m1, -, -⟩ := h.del_node hdyn hb
      obtain ⟨s', j, e2, i2, b2, u2, m2⟩ := ih s1 i1
      refine ⟨s', j + 1, ?_, i2, ?_, u2.trans u1, m2.trans m1⟩
      · simp only [Pool_block_allocator.shrink_to_fit_loop]
        rw [if_pos hgt]
        simp [e1, e2]
      · rw [b2, b1, hb, List.drop_succ_cons]
    · refine ⟨s, 0, ?_, h, by simp, rfl, rfl⟩
      simp only [Pool_block_allocator.shrink_to_fit_loop]
      rw [if_neg hgt]

/-- Method `Pool_block_allocator::dtor` on a pool without elements releases every block;
it returns exactly when the fuel covers the number of blocks. -/
theorem BlockInv.dtor {c : Cfg} (hdyn : c.impl.is_static = false) :
    ∀ (bs : List Nat) (s : State T), BlockInv c s → s.m_blocks = bs →
      ∃ sf, BlockInv c sf ∧ sf.m_blocks = [] ∧ sf.m_used_nodes = s.m_used_nodes ∧
        sf.m_used = s.m_used ∧
        ∀ fuel, Pool_block_allocator.dtor c fuel s =
          if bs.length ≤ fuel then some sf else none := by
  intro bs
  induction bs with
  | nil =>
    intro s h hb
    refine ⟨s, h, hb, rfl, rfl, fun fuel => ?_⟩
    cases fuel <;> simp [Pool_block_allocator.dtor, hb]
  | cons b bs ih =>
    intro s h hb
    obtain ⟨s1, e1, i1, b1, u1, m1, -, -⟩ := h.del_node hdyn hb
    obtain ⟨sf, i2, b2, u2, m2, hf⟩ := ih s1 i1 b1
    refine ⟨sf, i2, b2, u2.trans u1, m2.trans m1, fun fuel => ?_⟩
    cases fuel with
    | zero => simp [Pool_block_allocator.dtor, hb]
    | succ fuel =>
      simp only [Pool_block_allocator.dtor, hb, List.isEmpty_cons, Bool.false_eq_true, if_false,
        e1, Option.bind_eq_bind, Option.some_bind, hf fuel, List.length_cons,
        Nat.add_le_add_iff_right]

/-- The loop of `Pool_block_allocator::readd_blocks`: the nodes of the blocks `bs`, which
are allocated, hold no element and are not on the free chain yet, are pushed on it block
by block. -/
theorem Core.readd_loop {d : Bool} (N : Nat) :
    ∀ (bs : List Nat) (s : State T) (fl : List Nat), Core d s fl [] →
      (bs.flatMap fun b => array_nodes b N).Nodup →
      (∀ a ∈ bs.flatMap fun b => array_nodes b N,
        al s.mem a = true ∧ dt s.mem a = none ∧ a ∉ fl) →
      (d = true → s.m_used_nodes ∉ bs.flatMap fun b => array_nodes b N) →
      ∃ m' p fl', bs.foldlM (fun s b => add_to_free_nodes_array s (array_nodes b N)) s =
          some { s with mem := m', m_free_nodes := p } ∧
        al m' = al s.mem ∧ dt m' = dt s.mem ∧
        Core d { s with mem := m', m_free_nodes := p } fl' [] ∧
        fl'.Perm ((bs.flatMap fun b => array_nodes b N) ++ fl) := by
  intro bs
  induction bs with
  | nil =>
    intro s fl h _ _ _
    exact ⟨s.mem, s.m_free_nodes, fl, by simp, rfl, rfl, h, by simp⟩
  | cons b bs ih =>
    intro s fl h hnd hall hs
    simp only [List.flatMap_cons] at hnd hall hs
    obtain ⟨n1, n2, n3⟩ := List.nodup_append.1 hnd
    obtain ⟨m1, p1, e1, a1, d1, c1⟩ := h.of_add_to_free_nodes_array (array_nodes b N)
      (fun a ha => (hall a (List.mem_append_left _ ha)).1) n1
      (fun a ha => by simpa using (hall a (List.mem_append_left _ ha)).2.2)
      (fun hd hm => hs hd (List.mem_append_left _ hm))
      (fun a ha => (hall a (List.mem_append_left _ ha)).2.1)
    obtain ⟨m2, p2, fl2, e2, a2, d2, c2, hp⟩ := ih _ _ c1 n2
      (fun a ha => by
        obtain ⟨h1, h2, h3⟩ := hall a (List.mem_append_right _ ha)
        refine ⟨by show al m1 a = true; rw [a1]; exact h1,
          by show dt m1 a = none; rw [d1]; exact h2, ?_⟩
        simp only [List.mem_append, List.mem_reverse, not_or]
        exact ⟨fun hm => n3 hm ha, h3⟩)
      (fun hd hm => hs hd (List.mem_append_right _ hm))
    refine ⟨m2, p2, fl2, ?_, a2.trans a1, d2.trans d1, c2, ?_⟩
    · simp only [List.foldlM_cons, e1, Option.bind_eq_bind, Option.some_bind]
      exact e2
    · refine hp.trans ?_
      simp only [List.flatMap_cons]
      have h1 : ((bs.flatMap fun b => array_nodes b N) ++ ((array_nodes b N).reverse ++ fl)).Perm
          ((bs.flatMap fun b => array_nodes b N) ++ (array_nodes b N ++ fl)) :=
        List.Perm.append_left _ (List.Perm.append_right _ (List.reverse_perm _))
      refine h1.trans ?_
      rw [← List.append_assoc]
      exact List.Perm.append_right _ List.perm_append_comm

/-- Method `Pool_block_allocator::readd_blocks` on a pool without elements rebuilds the
free chain from the nodes of all blocks and restores the invariant. -/
theorem BlockInv.readd_blocks {c : Cfg} {s : State T} (h : BlockInv c s)
    (hdyn : c.impl.is_static = false) :
    ∃ s' fl', Pool_block_allocator.readd_blocks c s = some s' ∧ Inv c s' fl' [] ∧
      fl'.Perm (slots c s) ∧ (∀ a, dt s'.mem a = none) ∧ s'.m_size = s.m_size ∧
      s'.m_used_nodes = s.m_used_nodes ∧ s'.m_blocks = s.m_blocks ∧
      s'.m_capacity = s.m_capacity ∧ s'.m_used = s.m_used := by
  have hsl := slots_dynamic hdyn s
  have hc0 : Core c.impl.is_dlist (reset_free_nodes s) [] [] := by
    refine ⟨rfl, by simp, by simp, by simp, fun hd => ?_⟩
    obtain ⟨⟨r1, r2⟩, -⟩ := h.ring hd
    exact ⟨r1, by simp, r2⟩
  obtain ⟨m', p, fl', e, a1, d1, c1, hp⟩ := Core.readd_loop c.N s.m_blocks _ [] hc0
    (by rw [← hsl]; exact h.nodup)
    (fun a ha => ⟨h.free a (by rw [hsl]; exact ha), h.dead a, by simp⟩)
    (fun hd hm => (h.ring hd).2 (by rw [hsl]; exact hm))
  simp only [List.append_nil] at hp
  rw [← hsl] at hp
  refine ⟨{ s with mem := m', m_free_nodes := p }, fl', ?_, ⟨c1, ?_, h.size, ?_, ?_⟩, hp,
    ?_, rfl, rfl, rfl, rfl, rfl⟩
  · simpa [Pool_block_allocator.readd_blocks] using e
  · intro a ha
    have ha' : al m' a = true := ha
    rw [a1] at ha'
    rcases h.owned a ha' with h1 | h1
    · exact Or.inl (hp.mem_iff.2 h1)
    · exact Or.inr (Or.inr h1)
  · simp only [capacity, hdyn, Bool.false_eq_true, if_false, List.length_nil, add_zero]
    rw [hp.length_eq, length_slots_block hdyn]
    exact h.cap
  · intro _
    simpa [slots, hdyn] using hp
  · intro a
    show dt m' a = none
    rw [d1]; exact h.dead a

/-- Method `Pool_block_allocator::shrink_to_fit` always returns and keeps the invariant;
on a pool that holds an element it changes nothing. -/
theorem Inv.block_shrink_to_fit {c : Cfg} {s : State T} {fl ul : List Nat} (h : Inv c s fl ul)
    (hdyn : c.impl.is_static = false) (hblk : c.impl.is_block = true) (new_cap : Nat) :
    ∃ s' fl', Pool_block_allocator.shrink_to_fit c s new_cap = some s' ∧ Inv c s' fl' ul ∧
      dt s'.mem = dt s.mem ∧ s'.m_size = s.m_size ∧ s'.m_used_nodes = s.m_used_nodes ∧
      (ul ≠ [] → s' = s) := by
  by_cases hem : Pool_base.empty s = true
  · have hul : ul = [] := by
      have : s.m_size = 0 := by simpa [Pool_base.empty, Pool_base.size] using hem
      rw [h.size] at this
      exact List.length_eq_zero.1 this
    subst hul
    have hb := h.to_block_inv hdyn hblk
    obtain ⟨s1, j, e1, i1, -, u1, -⟩ := BlockInv.shrink_loop hdyn new_cap (capacity c s) s hb
    obtain ⟨s2, fl2, e2, i2, -, d2, z2, u2, -⟩ := i1.readd_blocks hdyn
    refine ⟨s2, fl2, ?_, i2, ?_, ?_, u2.trans u1, fun hne => absurd rfl hne⟩
    · simp [Pool_block_allocator.shrink_to_fit, hem, e1, e2]
    · funext a; rw [d2 a, hb.dead a]
    · rw [z2, i1.size, hb.size]
  · refine ⟨s, fl, ?_, h, rfl, rfl, rfl, fun _ => rfl⟩
    simp [Pool_block_allocator.shrink_to_fit, hem]

/-- Method `shrink_to_fit` of every dynamic class always returns and keeps the invariant,
the occupied slots and their elements. -/
theorem Inv.of_shrink_to_fit {c : Cfg} {s : State T} {fl ul : List Nat} (h : Inv c s fl ul)
    (hdyn : c.impl.is_static = false) (new_cap : Nat) :
    ∃ s' fl', shrink_to_fit c s new_cap = some s' ∧ Inv c s' fl' ul ∧
      dt s'.mem = dt s.mem ∧ s'.m_size = s.m_size ∧ s'.m_used_nodes = s.m_used_nodes := by
  unfold pool_impl.shrink_to_fit
  cases hblk : c.impl.is_block with
  | true =>
    obtain ⟨s', fl', e, i, d, z, u, -⟩ := h.block_shrink_to_fit hdyn hblk new_cap
    exact ⟨s', fl', by simpa using e, i, d, z, u⟩
  | false =>
    obtain ⟨s', e, i, d, z, u, -⟩ := h.node_shrink_to_fit hdyn hblk new_cap
    exact ⟨s', _, by simpa using e, i, d, z, u⟩

end block_allocator

section moves
variable {T : Type}

/-- A segment keeps its members when its end is replaced by another node. -/
theorem Seg.retarget {m m' : Mem T} {l : List Nat} {y y' z : Nat} (hz : pv m y = some z)
    (hnz : nx m' z = some y') (hvy : pv m' y' = some z) :
    ∀ {x : Nat}, Seg m x l y → (x :: l).Nodup →
      (∀ b ∈ x :: l, b ≠ z → nx m' b = nx m b) → (∀ b ∈ l, pv m' b = pv m b) →
      Seg m' x l y' := by
  induction l with
  | nil =>
    intro x h _ _ _
    have hxz : x = z := by
      have := h.2; rw [hz] at this; exact (Option.some.inj this).symm
    subst hxz
    exact ⟨hnz, hvy⟩
  | cons a l ih =>
    intro x h hnd hn hv
    obtain ⟨p, hp, hpl⟩ := Seg.last_linked h.2
    have hpz : p = z := by
      have := hpl.2; rw [hz] at this; exact (Option.some.inj this).symm
    subst hpz
    obtain ⟨hx, hnd'⟩ := List.nodup_cons.1 hnd
    have hxp : x ≠ p := fun e => hx (e ▸ hp)
    refine ⟨⟨?_, ?_⟩, ?_⟩
    · rw [hn x (by simp) hxp]; exact h.1.1
    · rw [hv a (by simp)]; exact h.1.2
    · exact ih h.2 hnd' (fun b hb hbz => hn b (List.mem_cons_of_mem _ hb) hbz)
        (fun b hb => hv b (List.mem_cons_of_mem _ hb))

/-- Method `dlist_head::splice_front`: the members of the ring anchored at `src` pass, in
the same order, to the empty ring anchored at `this`, and the ring at `src` is left
empty. -/
theorem splice_front_spec {m : Mem T} {this src : Nat} {l : List Nat}
    (hsrc : Seg m src l src) (hnd : (src :: l).Nodup) (hthis : Linked m this this)
    (hne : this ∉ src :: l) :
    ∃ m', dlist_head.splice_front m this src = some m' ∧ al m' = al m ∧ dt m' = dt m ∧
      Seg m' this l this ∧ Linked m' src src ∧
      (∀ b, b ∉ this :: src :: l → nx m' b = nx m b ∧ pv m' b = pv m b) := by
  simp only [List.mem_cons, not_or] at hne
  obtain ⟨hsl, hndl⟩ := List.nodup_cons.1 hnd
  obtain ⟨nsrc, hnsrc, hnsrc'⟩ := nx_eq_some.1
    (show nx m src = some ((l ++ [src]).head (by simp)) by
      rw [Seg.nx_head hsrc]; exact List.head?_eq_head _)
  cases l with
  | nil =>
    refine ⟨m, ?_, rfl, rfl, hthis, hsrc, fun _ _ => ⟨rfl, rfl⟩⟩
    simp only [List.nil_append, List.head_cons] at hnsrc'
    simp [dlist_head.splice_front, dlist_head.empty, hnsrc, hnsrc']
  | cons a l =>
    simp only [List.cons_append, List.head_cons] at hnsrc'
    simp only [List.mem_cons, not_or] at hsl hne
    obtain ⟨z, hzm, hzl⟩ := Seg.last_linked hsrc.2
    obtain ⟨nsrc2, hnsrc2, hprev⟩ := pv_eq_some.1 hzl.2
    have hnn : nsrc2 = nsrc := by rw [hnsrc] at hnsrc2; exact (Option.some.inj hnsrc2).symm
    subst hnn
    obtain ⟨nthis, hnthis, hnthis'⟩ := nx_eq_some.1 hthis.1
    have hala : al m a = true := al_of_pv hsrc.1.2
    have halz : al m z = true := al_of_nx hzl.1
    have halt : al m this = true := al_of_nx hthis.1
    have hals : al m src = true := al_eq_true_iff.2 ⟨_, hnsrc⟩
    obtain ⟨m1, h1⟩ := store_prev_defined (some this) hala
    obtain ⟨-, a1, b1, c1, d1⟩ := store_prev_spec h1
    obtain ⟨m2, h2⟩ := store_next_defined (m := m1) (some a) (by rw [a1]; exact halt)
    obtain ⟨-, a2, b2, c2, d2⟩ := store_next_spec h2
    obtain ⟨m3, h3⟩ := store_next_defined (m := m2) (some this) (by rw [a2, a1]; exact halz)
    obtain ⟨-, a3, b3, c3, d3⟩ := store_next_spec h3
    obtain ⟨m4, h4⟩ := store_prev_defined (m := m3) (some z) (by rw [a3, a2, a1]; exact halt)
    obtain ⟨-, a4, b4, c4, d4⟩ := store_prev_spec h4
    obtain ⟨m5, h5⟩ := store_next_defined (m := m4) (some src)
      (by rw [a4, a3, a2, a1]; exact hals)
    obtain ⟨-, a5, b5, c5, d5⟩ := store_next_spec h5
    obtain ⟨m6, h6⟩ := store_prev_defined (m := m5) (some src)
      (by rw [a5, a4, a3, a2, a1]; exact hals)
    obtain ⟨-, a6, b6, c6, d6⟩ := store_prev_spec h6
    have hnx : nx m6 = Function.update (Function.update (Function.update (nx m) this (some a))
        z (some this)) src (some src) := by rw [b6, b5, b4, b3, b2, b1]
    have hpv : pv m6 = Function.update (Function.update (Function.update (pv m) a (some this))
        this (some z)) src (some src) := by rw [c6, c5, c4, c3, c2, c1]
    have hzs : z ≠ src := fun e => hsl.1 (by
      rcases List.mem_cons.1 hzm with e' | e'
      · exact (e ▸ e'.symm ▸ rfl : src = a)
      · exact absurd (e ▸ e') hsl.2)
    have hzt : z ≠ this := fun e => by
      rcases List.mem_cons.1 hzm with e' | e'
      · exact hne.2.1 (e ▸ e'.symm ▸ rfl)
      · exact hne.2.2 (e ▸ e')
    have has : a ≠ src := fun e => hsl.1 e.symm
    have hat : a ≠ this := fun e => hne.2.1 e.symm
    refine ⟨m6, ?_, by rw [a6, a5, a4, a3, a2, a1], by rw [d6, d5, d4, d3, d2, d1], ?_, ?_, ?_⟩
    · have hsa : (nsrc2.next == some src) = false := by
        rw [hnsrc']; simpa using has
      simp only [dlist_head.splice_front, dlist_head.empty, hnsrc, Option.bind_eq_bind,
        Option.some_bind, hsa, Bool.not_false, if_true, hnthis, hnthis', dlist_head.splice,
        hnsrc', hprev, h1, h2, h3, h4, dlist_head.init, h5, h6]
      simp [has]
    · refine ⟨⟨?_, ?_⟩, ?_⟩
      · rw [hnx, Function.update_noteq hne.1, Function.update_noteq (Ne.symm hzt)]; simp
      · rw [hpv, Function.update_noteq has, Function.update_noteq hat]; simp
      · refine Seg.retarget hzl.2 ?_ ?_ hsrc.2 hndl ?_ ?_
        · rw [hnx, Function.update_noteq hzs]; simp
        · rw [hpv, Function.update_noteq hne.1]; simp
        · intro b hb hbz
          have hbs : b ≠ src := by
            rintro rfl
            rcases List.mem_cons.1 hb with e | e
            · exact hsl.1 e
            · exact hsl.2 e
          have hbt : b ≠ this := by
            rintro rfl
            rcases List.mem_cons.1 hb with e | e
            · exact hne.2.1 e
            · exact hne.2.2 e
          rw [hnx, Function.update_noteq hbs, Function.update_noteq hbz,
            Function.update_noteq hbt]
        · intro b hb
          have hbs : b ≠ src := fun e => hsl.2 (e ▸ hb)
          have hbt : b ≠ this := fun e => hne.2.2 (e ▸ hb)
          have hba : b ≠ a := fun e => (List.nodup_cons.1 hndl).1 (e ▸ hb)
          rw [hpv, Function.update_noteq hbs, Function.update_noteq hbt,
            Function.update_noteq hba]
    · exact ⟨by rw [hnx]; simp, by rw [hpv]; simp⟩
    · intro b hb
      simp only [List.mem_cons, not_or] at hb
      have hbz : b ≠ z := by
        rintro rfl
        rcases List.mem_cons.1 hzm with e | e
        · exact hb.2.2.1 e
        · exact hb.2.2.2 e
      refine ⟨?_, ?_⟩
      · rw [hnx, Function.update_noteq hb.2.1, Function.update_noteq hbz,
          Function.update_noteq hb.1]
      · rw [hpv, Function.update_noteq hb.2.1, Function.update_noteq hb.1,
          Function.update_noteq hb.2.2.1]

/-- The invariant only depends on the members it mentions: the sentinel counts for the
doubly-linked algorithm only, the blocks for the block allocator only. -/
theorem Inv.transfer {c : Cfg} {s s' : State T} {fl ul : List Nat} (h : Inv c s fl ul)
    (h1 : s'.mem = s.mem) (h2 : s'.m_free_nodes = s.m_free_nodes)
    (h3 : c.impl.is_dlist = true → s'.m_used_nodes = s.m_used_nodes)
    (h4 : s'.m_size = s.m_size) (h5 : s'.m_capacity = s.m_capacity)
    (h6 : c.impl.is_block = true → s'.m_blocks = s.m_blocks) : Inv c s' fl ul := by
  refine ⟨⟨?_, h.core.nodup, ?_, ?_, ?_⟩, ?_, ?_, ?_, ?_⟩
  · rw [h1, h2]; exact h.core.chain
  · rw [h1]; exact h.core.fl_free
  · rw [h1]; exact h.core.ul_live
  · intro hd; rw [h1, h3 hd]; exact h.core.ring hd
  · intro a ha
    rw [h1] at ha
    rcases h.owned a ha with e | e | e
    · exact Or.inl e
    · exact Or.inr (Or.inl e)
    · exact Or.inr (Or.inr ⟨e.1, by rw [h3 e.1]; exact e.2⟩)
  · rw [h4]; exact h.size
  · have := h.cap; simp only [capacity, h5] at this ⊢; exact this
  · intro hs
    have := h.slots_perm hs
    cases hst : c.impl.is_static with
    | true => simpa [slots, hst] using this
    | false =>
      have hb : c.impl.is_block = true := by
        rcases hs with e | e
        · rw [hst] at e; cases e
        · exact e
      simpa [slots, hst, h6 hb] using this

/-- A pool that owns nothing (no node, no block, and for the doubly-linked algorithm only
its sentinel, linked to itself) satisfies the invariant with both lists empty. -/
theorem Inv.of_nothing {c : Cfg} {s : State T} (hdyn : c.impl.is_static = false)
    (hf : s.m_free_nodes = none) (hz : s.m_size = 0) (hc : s.m_capacity = 0)
    (hb : c.impl.is_block = true → s.m_blocks = [])
    (hown : ∀ a, al s.mem a = true → c.impl.is_dlist = true ∧ a = s.m_used_nodes)
    (hr : c.impl.is_dlist = true → RingEmpty s) : Inv c s [] [] := by
  refine ⟨⟨hf, by simp, by simp, by simp, fun hd => ⟨(hr hd).1, by simp, (hr hd).2⟩⟩, ?_,
    by simp [hz], by simp [capacity, hdyn, hc], ?_⟩
  · intro a ha; exact Or.inr (Or.inr (hown a ha))
  · intro hs
    rcases hs with e | e
    · rw [hdyn] at e; cases e
    · simp [slots, hdyn, hb e]

theorem Inv.ring_empty {c : Cfg} {s : State T} {fl : List Nat} (h : Inv c s fl [])
    (hd : c.impl.is_dlist = true) : RingEmpty s :=
  ⟨(h.core.ring hd).1, (h.core.ring hd).2.2⟩

/-- Method `Pool_xxx::dtor` of a doubly-linked dynamic pool, whenever it returns, leaves
the sentinel linked to itself and nothing else owned. -/
theorem Inv.dtor_dlist {c : Cfg} {s s1 : State T} {fl ul : List Nat} (h : Inv c s fl ul)
    (hdyn : c.impl.is_static = false) (hd : c.impl.is_dlist = true) {fuel : Nat}
    (e : Pool_xxx.dtor c fuel s = some s1) :
    RingEmpty s1 ∧ (∀ a, al s1.mem a = true → a = s1.m_used_nodes) ∧
      s1.m_used_nodes = s.m_used_nodes ∧ s1.m_used = s.m_used := by
  have hda : destroy_all c fuel s = Pool_dlist_base.destroy_all fuel s := by
    unfold destroy_all
    cases hi : c.impl <;> simp_all [Impl.is_dlist]
  obtain ⟨sf, i, -, -, u, -, -, mu, hf⟩ := h.dlist_destroy_all hd
  simp only [Pool_xxx.dtor, hda, hf fuel, Option.bind_eq_bind] at e
  split at e
  · simp only [Option.some_bind, AlocBase.dtor] at e
    cases hblk : c.impl.is_block with
    | true =>
      simp only [hblk, if_true] at e
      have hb := Inv.to_block_inv (by simpa using i) hdyn hblk
      obtain ⟨s2, i2, b2, u2, m2, hf2⟩ := BlockInv.dtor hdyn sf.m_blocks sf hb rfl
      rw [hf2 fuel] at e
      split at e
      · simp only [Option.some.injEq] at e
        subst e
        refine ⟨(i2.ring hd).1, ?_, u2.trans u, m2.trans mu⟩
        intro a ha
        rcases i2.owned a ha with e' | e'
        · simp [slots, hdyn, b2] at e'
        · exact e'.2
      · cases e
    | false =>
      simp only [hblk, Bool.false_eq_true, if_false] at e
      obtain ⟨s2, i2, -, -, u2, -, m2, hf2⟩ := Inv.node_dtor hdyn hblk _ sf i
      rw [hf2 fuel] at e
      split at e
      · simp only [Option.some.injEq] at e
        subst e
        refine ⟨i2.ring_empty hd, ?_, u2.trans u, m2.trans mu⟩
        intro a ha
        rcases i2.owned a ha with e' | e' | e'
        · cases e'
        · cases e'
        · exact e'.2
      · cases e
  · simp at e

/-- Method `Pool_dlist_base::move_from` for two distinct pools, whenever it returns: the
target, whose ring was empty, takes the free chain, the ring and the counters of the
source; the source is left with its sentinel only. -/
theorem Inv.dlist_move_from {c : Cfg} {self other s' o' : State T} {fl ul : List Nat}
    (h : Inv c other fl ul) (hd : c.impl.is_dlist = true) (hr : RingEmpty self)
    (e : Pool_dlist_base.move_from self other = some (s', o')) :
    (Core true s' fl ul ∧
      (∀ a, al s'.mem a = true → a ∈ fl ∨ a ∈ ul ∨ a = s'.m_used_nodes) ∧
      s'.m_size = other.m_size ∧ s'.m_capacity = other.m_capacity ∧
      s'.m_used_nodes = self.m_used_nodes ∧ s'.m_blocks = self.m_blocks ∧
      s'.m_used = self.m_used ∧ s'.m_free_nodes = other.m_free_nodes ∧
      ∀ b ∈ ul, dt s'.mem b = dt other.mem b) ∧
    (o'.m_free_nodes = none ∧ o'.m_size = 0 ∧ o'.m_capacity = 0 ∧
      o'.m_used_nodes = other.m_used_nodes ∧ o'.m_blocks = other.m_blocks ∧
      o'.m_used = other.m_used ∧ RingEmpty o' ∧
      ∀ a, al o'.mem a = true → a = o'.m_used_nodes) := by
  have hc := h.core
  rw [hd] at hc
  obtain ⟨hring, hsent, hsd⟩ := hc.ring rfl
  obtain ⟨hn, hn1, hn2⟩ := nx_eq_some.1 hr.1.1
  obtain ⟨hn', hn1', hn3⟩ := pv_eq_some.1 hr.1.2
  have : hn' = hn := by rw [hn1] at hn1'; exact (Option.some.inj hn1').symm
  subst this
  have hn4 : hn'.data = none := by
    have := hr.2; simpa [dt, hn1] using this
  unfold Pool_dlist_base.move_from at e
  simp only [hn1, Option.bind_eq_bind, Option.some_bind] at e
  have hfresh : al other.mem self.m_used_nodes = false := by
    unfold al
    cases hx : (other.mem self.m_used_nodes).isSome with
    | false => rfl
    | true => simp [hx] at e
  have hx : (other.mem self.m_used_nodes).isSome = false := hfresh
  simp only [hx, Bool.false_eq_true, if_false, Option.bind_eq_some] at e
  obtain ⟨m', e1, e2⟩ := e
  simp only [Option.some.injEq, Prod.mk.injEq] at e2
  obtain ⟨rfl, rfl⟩ := e2
  obtain ⟨hf1, hf2⟩ := h.fresh_not_mem hfresh
  have hso : self.m_used_nodes ≠ other.m_used_nodes := hf2 hd
  have hsul : self.m_used_nodes ∉ ul := fun hm => hf1 (List.mem_append_right _ hm)
  have hsfl : self.m_used_nodes ∉ fl := fun hm => hf1 (List.mem_append_left _ hm)
  have hofl : other.m_used_nodes ∉ fl := fun hm => hsent (List.mem_append_left _ hm)
  have houl : other.m_used_nodes ∉ ul := fun hm => hsent (List.mem_append_right _ hm)
  have hnd : (other.m_used_nodes :: ul).Nodup :=
    List.nodup_cons.2 ⟨houl, (List.nodup_append.1 hc.nodup).2.1⟩
  -- the combined memory
  have oal := al_update other.mem self.m_used_nodes hn'
  have onx := nx_update other.mem self.m_used_nodes hn'
  have opv := pv_update other.mem self.m_used_nodes hn'
  have odt := dt_update other.mem self.m_used_nodes hn'
  rw [hn2] at onx; rw [hn3] at opv; rw [hn4] at odt
  have hseg : Seg (Function.update other.mem self.m_used_nodes (some hn'))
      other.m_used_nodes ul other.m_used_nodes := by
    refine Seg.frame_seg hring ?_ ?_
    · intro z hz
      have : z ≠ self.m_used_nodes := by
        rintro rfl
        rcases List.mem_cons.1 hz with e' | e'
        · exact hso e'
        · exact hsul e'
      rw [onx, Function.update_noteq this]
    · intro z hz
      have : z ≠ self.m_used_nodes := by
        rintro rfl
        rcases List.mem_append.1 hz with e' | e'
        · exact hsul e'
        · simp at e'; exact hso e'
      rw [opv, Function.update_noteq this]
  obtain ⟨m'', e1', a1, d1, s1, l1, f1⟩ := @splice_front_spec T _ self.m_used_nodes _ _ hseg hnd
    ⟨by rw [onx]; simp, by rw [opv]; simp⟩
    (by simp only [List.mem_cons, not_or]; exact ⟨hso, hsul⟩)
  rw [e1, Option.some.injEq] at e1'
  subst e1'
  obtain ⟨g1, g2, g3, g4⟩ := free_node_spec m' other.m_used_nodes
  have hfree_eq : free_node m' other.m_used_nodes = Function.update m' other.m_used_nodes none :=
    rfl
  rw [← hfree_eq]
  have hframe : ∀ b, b ∈ fl ∨ b ∈ ul → b ≠ self.m_used_nodes ∧ b ≠ other.m_used_nodes := by
    intro b hb
    refine ⟨?_, ?_⟩ <;> rintro rfl
    · rcases hb with e' | e'
      · exact hsfl e'
      · exact hsul e'
    · rcases hb with e' | e'
      · exact hofl e'
      · exact houl e'
  refine ⟨⟨⟨?_, hc.nodup, ?_, ?_, fun _ => ⟨?_, ?_, ?_⟩⟩, ?_, rfl, rfl, rfl, rfl, rfl, rfl,
    ?_⟩, rfl, rfl, rfl, rfl, rfl, rfl, ⟨⟨?_, ?_⟩, ?_⟩, ?_⟩
  · refine hc.chain.frame_chain fun b hb => ?_
    obtain ⟨hb1, hb2⟩ := hframe b (Or.inl hb)
    have hbl : b ∉ self.m_used_nodes :: other.m_used_nodes :: ul := by
      simp only [List.mem_cons, not_or]
      exact ⟨hb1, hb2, fun hm => (List.nodup_append.1 hc.nodup).2.2 hb hm⟩
    refine ⟨?_, ?_⟩
    · show al (free_node m' _) b = _
      rw [g1, Function.update_noteq hb2, a1, oal, Function.update_noteq hb1]
    · show nx (free_node m' _) b = _
      rw [g2, Function.update_noteq hb2, (f1 b hbl).1, onx, Function.update_noteq hb1]
  · intro b hb
    obtain ⟨hb1, hb2⟩ := hframe b (Or.inl hb)
    show dt (free_node m' _) b = none
    rw [g4, Function.update_noteq hb2, d1, odt, Function.update_noteq hb1]
    exact hc.fl_free b hb
  · intro b hb
    obtain ⟨hb1, hb2⟩ := hframe b (Or.inr hb)
    show (dt (free_node m' _) b).isSome = true
    rw [g4, Function.update_noteq hb2, d1, odt, Function.update_noteq hb1]
    exact hc.ul_live b hb
  · show Seg (free_node m' _) self.m_used_nodes ul self.m_used_nodes
    refine Seg.frame_seg s1 ?_ ?_
    · intro z hz
      have : z ≠ other.m_used_nodes := by
        rintro rfl
        rcases List.mem_cons.1 hz with e' | e'
        · exact hso e'.symm
        · exact houl e'
      rw [g2, Function.update_noteq this]
    · intro z hz
      have : z ≠ other.m_used_nodes := by
        rintro rfl
        rcases List.mem_append.1 hz with e' | e'
        · exact houl e'
        · simp at e'; exact hso e'.symm
      rw [g3, Function.update_noteq this]
  · exact hf1
  · show dt (free_node m' _) self.m_used_nodes = none
    rw [g4, Function.update_noteq hso, d1, odt]; simp
  · intro a ha
    have ha' : al (free_node m' other.m_used_nodes) a = true := ha
    rw [g1] at ha'
    by_cases hao : a = other.m_used_nodes
    · subst hao; simp at ha'
    · rw [Function.update_noteq hao, a1, oal] at ha'
      by_cases has : a = self.m_used_nodes
      · exact Or.inr (Or.inr has)
      · rw [Function.update_noteq has] at ha'
        rcases h.owned a ha' with e' | e' | e'
        · exact Or.inl e'
        · exact Or.inr (Or.inl e')
        · exact absurd e'.2 hao
  · intro b hb
    obtain ⟨hb1, hb2⟩ := hframe b (Or.inr hb)
    show dt (free_node m' _) b = _
    rw [g4, Function.update_noteq hb2, d1, odt, Function.update_noteq hb1]
  · show nx (fun a => if a = other.m_used_nodes then m' a else none) other.m_used_nodes = _
    have := l1.1
    simpa [nx] using this
  · show pv (fun a => if a = other.m_used_nodes then m' a else none) other.m_used_nodes = _
    have := l1.2
    simpa [pv] using this
  · show dt (fun a => if a = other.m_used_nodes then m' a else none) other.m_used_nodes = _
    have : dt m' other.m_used_nodes = none := by
      rw [d1, odt, Function.update_noteq (Ne.symm hso)]; exact hsd
    simpa [dt] using this
  · intro a ha
    by_contra hne
    have : al (fun a => if a = other.m_used_nodes then m' a else none) a = false := by
      simp [al, hne]
    rw [this] at ha; cases ha

/-- Method `Pool_xxx::move_from` for two distinct pools, whenever it returns: the target
takes over the source (same free chain, same occupied slots in the same order, same
counters, same elements), and the source is left empty with capacity zero. -/
theorem Inv.of_move_from {c : Cfg} {self other s' o' : State T} {fl ul : List Nat}
    (h : Inv c other fl ul) (hdyn : c.impl.is_static = false)
    (hr : c.impl.is_dlist = true → RingEmpty self)
    (e : Pool_xxx.move_from c self other = some (s', o')) :
    Inv c s' fl ul ∧ Inv c o' [] [] ∧ s'.m_used_nodes = self.m_used_nodes ∧
      s'.m_size = other.m_size ∧ s'.m_capacity = other.m_capacity ∧
      s'.m_free_nodes = other.m_free_nodes ∧
      (∀ b ∈ ul, dt s'.mem b = dt other.mem b) ∧ o'.m_used_nodes = other.m_used_nodes ∧
      o'.m_size = 0 ∧ o'.m_capacity = 0 ∧ o'.m_free_nodes = none ∧
      (c.impl.is_block = true → o'.m_blocks = [] ∧ s'.m_blocks = other.m_blocks) := by
  have hcap := h.cap
  simp only [capacity, hdyn, Bool.false_eq_true, if_false] at hcap
  unfold Pool_xxx.move_from at e
  cases hd : c.impl.is_dlist with
  | true =>
    simp only [hd, if_true, Option.bind_eq_bind, Option.bind_eq_some, Option.some.injEq] at e
    obtain ⟨⟨s1, o1⟩, e1, e2⟩ := e
    obtain ⟨⟨k1, k2, k3, k4, k5, k6, k7, k9, k8⟩, ⟨j1, j2, j3, j4, j5, j6, j7, j8⟩⟩ :=
      h.dlist_move_from hd (hr hd) e1
    have hown : ∀ a, al s1.mem a = true →
        a ∈ fl ∨ a ∈ ul ∨ (c.impl.is_dlist = true ∧ a = s1.m_used_nodes) := by
      intro a ha
      rcases k2 a ha with e' | e' | e'
      · exact Or.inl e'
      · exact Or.inr (Or.inl e')
      · exact Or.inr (Or.inr ⟨hd, e'⟩)
    cases hblk : c.impl.is_block with
    | true =>
      simp only [AlocBase.move_from, hblk, if_true, Prod.mk.injEq] at e2
      obtain ⟨rfl, rfl⟩ := e2
      refine ⟨⟨?_, hown, ?_, ?_, ?_⟩, ?_, k5, k3, k4, k9, k8, j4, j2, j3, j1,
        fun _ => ⟨rfl, j5⟩⟩
      · rw [hd]; exact ⟨k1.chain, k1.nodup, k1.fl_free, k1.ul_live, k1.ring⟩
      · show s1.m_size = _; rw [k3]; exact h.size
      · simp only [capacity, hdyn, Bool.false_eq_true, if_false]
        show s1.m_capacity = _; rw [k4]; exact hcap
      · intro hs
        have := h.slots_perm hs
        simp only [slots, hdyn, Bool.false_eq_true, if_false] at this ⊢
        show (fl ++ ul).Perm (o1.m_blocks.flatMap _)
        rw [j5]; exact this
      · exact Inv.of_nothing hdyn j1 j2 j3 (fun _ => rfl)
          (fun a ha => ⟨hd, j8 a ha⟩) (fun _ => j7)
    | false =>
      simp only [AlocBase.move_from, hblk, Bool.false_eq_true, if_false, Prod.mk.injEq] at e2
      obtain ⟨rfl, rfl⟩ := e2
      have hb0 : c.impl.is_block = true → False := fun hx => by rw [hblk] at hx; cases hx
      refine ⟨⟨?_, hown, ?_, ?_, ?_⟩, ?_, k5, k3, k4, k9, k8, j4, j2, j3, j1,
        fun hx => by cases hx⟩
      · rw [hd]; exact k1
      · rw [k3]; exact h.size
      · simp only [capacity, hdyn, Bool.false_eq_true, if_false]
        rw [k4]; exact hcap
      · intro hs
        rcases hs with hs | hs
        · rw [hdyn] at hs; cases hs
        · exact (hb0 hs).elim
      · exact Inv.of_nothing hdyn j1 j2 j3 (fun hx => (hb0 hx).elim)
          (fun a ha => ⟨hd, j8 a ha⟩) (fun _ => j7)
  | false =>
    have hd0 : c.impl.is_dlist = true → False := fun hx => by rw [hd] at hx; cases hx
    simp only [hd, Bool.false_eq_true, if_false, Option.bind_eq_bind, Option.some_bind,
      Option.some.injEq, Pool_list_base.move_from] at e
    have hno : ∀ a, al (fun _ => none : Mem T) a = true → c.impl.is_dlist = true ∧
        a = other.m_used_nodes := by
      intro a ha; simp [al] at ha
    cases hblk : c.impl.is_block with
    | true =>
      simp only [AlocBase.move_from, hblk, if_true, Prod.mk.injEq] at e
      obtain ⟨rfl, rfl⟩ := e
      refine ⟨h.transfer rfl rfl (fun hx => (hd0 hx).elim) rfl rfl (fun _ => rfl), ?_, rfl,
        rfl, rfl, rfl, fun _ _ => rfl, rfl, rfl, rfl, rfl, fun _ => ⟨rfl, rfl⟩⟩
      exact Inv.of_nothing hdyn rfl rfl rfl (fun _ => rfl) hno (fun hx => (hd0 hx).elim)
    | false =>
      have hb0 : c.impl.is_block = true → False := fun hx => by rw [hblk] at hx; cases hx
      simp only [AlocBase.move_from, hblk, Bool.false_eq_true, if_false, Prod.mk.injEq] at e
      obtain ⟨rfl, rfl⟩ := e
      refine ⟨h.transfer rfl rfl (fun hx => (hd0 hx).elim) rfl rfl (fun hx => (hb0 hx).elim),
        ?_, rfl, rfl, rfl, rfl, fun _ _ => rfl, rfl, rfl, rfl, rfl, fun hx => by cases hx⟩
      exact Inv.of_nothing hdyn rfl rfl rfl (fun hx => (hb0 hx).elim) hno
        (fun hx => (hd0 hx).elim)

/-- Method `Pool_xxx::move_from` when `other` is the pool itself, whenever it returns,
leaves the pool empty with capacity zero. -/
theorem Inv.of_move_from_self {c : Cfg} {self s' : State T} (hdyn : c.impl.is_static = false)
    (hr : c.impl.is_dlist = true → RingEmpty self)
    (e : Pool_xxx.move_from_self c self = some s') :
    Inv c s' [] [] ∧ s'.m_size = 0 ∧ s'.m_capacity = 0 ∧ s'.m_free_nodes = none ∧
      s'.m_used_nodes = self.m_used_nodes := by
  unfold Pool_xxx.move_from_self at e
  have key : ∀ s1 : State T, s1.m_free_nodes = none → s1.m_size = 0 → s1.m_capacity = 0 →
      s1.m_used_nodes = self.m_used_nodes →
      (∀ a, al s1.mem a = true → c.impl.is_dlist = true ∧ a = s1.m_used_nodes) →
      (c.impl.is_dlist = true → RingEmpty s1) →
      AlocBase.move_from_self c s1 = s' →
      Inv c s' [] [] ∧ s'.m_size = 0 ∧ s'.m_capacity = 0 ∧ s'.m_free_nodes = none ∧
        s'.m_used_nodes = self.m_used_nodes := by
    intro s1 h1 h2 h3 h4 h5 h6 h7
    unfold AlocBase.move_from_self at h7
    cases hblk : c.impl.is_block with
    | true =>
      simp only [hblk, if_true] at h7
      subst h7
      exact ⟨Inv.of_nothing hdyn h1 h2 h3 (fun _ => rfl) h5 h6, h2, h3, h1, h4⟩
    | false =>
      simp only [hblk, Bool.false_eq_true, if_false] at h7
      subst h7
      exact ⟨Inv.of_nothing hdyn h1 h2 h3 (fun hx => by rw [hblk] at hx; cases hx) h5 h6, h2,
        h3, h1, h4⟩
  cases hd : c.impl.is_dlist with
  | true =>
    obtain ⟨n, hn1, hn2⟩ := nx_eq_some.1 (hr hd).1.1
    have hsp : dlist_head.splice_front self.mem self.m_used_nodes self.m_used_nodes =
        some self.mem := by
      simp [dlist_head.splice_front, dlist_head.empty, hn1, hn2]
    simp only [hd, if_true, Pool_dlist_base.move_from_self, hsp, Option.bind_eq_bind,
      Option.some_bind, Option.some.injEq] at e
    refine key _ ?_ ?_ ?_ ?_ ?_ ?_ e
    · rfl
    · rfl
    · rfl
    · rfl
    · intro a ha
      refine ⟨hd, ?_⟩
      by_contra hne
      have : al (fun a => if a = self.m_used_nodes then self.mem a else none) a = false := by
        simp [al, hne]
      rw [this] at ha; cases ha
    · intro _
      obtain ⟨⟨r1, r2⟩, r3⟩ := hr hd
      refine ⟨⟨?_, ?_⟩, ?_⟩
      · show nx (fun a => if a = self.m_used_nodes then self.mem a else none) _ = _
        simpa [nx] using r1
      · show pv (fun a => if a = self.m_used_nodes then self.mem a else none) _ = _
        simpa [pv] using r2
      · show dt (fun a => if a = self.m_used_nodes then self.mem a else none) _ = _
        simpa [dt] using r3
  | false =>
    simp only [hd, Bool.false_eq_true, if_false, Pool_list_base.move_from_self,
      Option.bind_eq_bind, Option.some_bind, Option.some.injEq] at e
    refine key _ ?_ ?_ ?_ ?_ ?_ (fun hx => by rw [hd] at hx; cases hx) e
    · rfl
    · rfl
    · rfl
    · rfl
    · intro a ha
      simp [al] at ha

/-- The move constructor, whenever it returns: the new pool takes over the source and the
source is left empty. -/
theorem Inv.of_move_ctor {c : Cfg} {other s' o' : State T} {fl ul : List Nat}
    (h : Inv c other fl ul) (hdyn : c.impl.is_static = false) {self : Nat} {oob : Nat → Bool}
    (e : Pool_xxx.move_ctor c self oob other = some (s', o')) :
    Inv c s' fl ul ∧ Inv c o' [] [] ∧ s'.m_size = other.m_size ∧
      s'.m_capacity = other.m_capacity ∧ (∀ b ∈ ul, dt s'.mem b = dt other.mem b) := by
  simp only [Pool_xxx.move_ctor, Option.bind_eq_bind, Option.bind_eq_some] at e
  obtain ⟨s0, e0, e1⟩ := e
  obtain ⟨s0', e0', i0, -, -, -⟩ := construct_spec (T := T) c self oob (construct_self e0)
  rw [e0] at e0'
  cases e0'
  rw [hdyn] at i0
  obtain ⟨k1, k2, -, k4, k5, -, k7, -⟩ :=
    h.of_move_from hdyn (fun hd => i0.ring_empty hd) e1
  exact ⟨k1, k2, k4, k5, k7⟩

/-- Move assignment between two distinct pools, whenever it returns: the target takes
over the source and the source is left empty. -/
theorem Inv.of_move_assign {c : Cfg} {s other s' o' : State T} {fl ul fl2 ul2 : List Nat}
    (hs : Inv c s fl ul) (h : Inv c other fl2 ul2) (hdyn : c.impl.is_static = false)
    {fuel : Nat} (e : DPool_base.move_assign_operator c fuel s other = some (s', o')) :
    Inv c s' fl2 ul2 ∧ Inv c o' [] [] ∧ s'.m_size = other.m_size ∧
      s'.m_capacity = other.m_capacity ∧ (∀ b ∈ ul2, dt s'.mem b = dt other.mem b) := by
  simp only [DPool_base.move_assign_operator, Option.bind_eq_bind, Option.bind_eq_some] at e
  obtain ⟨s0, e0, e1⟩ := e
  obtain ⟨k1, k2, -, k4, k5, -, k7, -⟩ :=
    h.of_move_from hdyn (fun hd => (hs.dtor_dlist hdyn hd e0).1) e1
  exact ⟨k1, k2, k4, k5, k7⟩

/-- Move assignment of a pool to itself, whenever it returns: with
`POOL_SELF_MOVE_GUARD` nothing changes, without it the pool is left empty with capacity
zero. -/
theorem Inv.of_move_assign_self {c : Cfg} {s s' : State T} {fl ul : List Nat}
    (hs : Inv c s fl ul) (hdyn : c.impl.is_static = false) {fuel : Nat}
    (e : DPool_base.move_assign_operator_self c fuel s = some s') :
    (flag_set c.Flags POOL_SELF_MOVE_GUARD = true → s' = s) ∧
      (flag_set c.Flags POOL_SELF_MOVE_GUARD = false →
        Inv c s' [] [] ∧ s'.m_size = 0 ∧ s'.m_capacity = 0) := by
  unfold DPool_base.move_assign_operator_self at e
  cases hg : flag_set c.Flags POOL_SELF_MOVE_GUARD with
  | true =>
    simp only [hg, if_true, Option.some.injEq] at e
    exact ⟨fun _ => e.symm, fun hx => by cases hx⟩
  | false =>
    simp only [hg, Bool.false_eq_true, if_false, Option.bind_eq_bind,
      Option.bind_eq_some] at e
    obtain ⟨s0, e0, e1⟩ := e
    obtain ⟨k1, k2, k3, -, -⟩ :=
      Inv.of_move_from_self hdyn (fun hd => (hs.dtor_dlist hdyn hd e0).1) e1
    exact ⟨fun hx => (by cases hx), fun _ => ⟨k1, k2, k3⟩⟩

end moves

section reachable
variable {T : Type}

/-- Every reachable state satisfies the representation invariant: there is a free chain
`fl` with `Inv c s fl ul`, and the occupancy bits agree with `ul`. -/
theorem reachable_inv {c : Cfg} {s : State T} {ul : List Nat} (h : Reachable c s ul) :
    ∃ fl, Inv c s fl ul ∧ BitsInv c s ul := by
  induction h with
  | construct self oob s e =>
    obtain ⟨s0, e0, i0, b0, -⟩ := construct_spec (T := T) c self oob (construct_self e)
    rw [e] at e0
    cases e0
    exact ⟨_, i0, b0⟩
  | @create s ul v a r s' _ e ih =>
    obtain ⟨fl, hi, hb⟩ := ih
    have hf : ∃ a', fresh c s a' ∧ create c s v a' = some (r, s') := by
      cases hg : grows c s with
      | true => exact ⟨a, create_fresh hg e, e⟩
      | false =>
        refine ⟨none, ?_, by rw [← create_irrel hg v a]; exact e⟩
        intro b hb'
        simp [grown] at hb'
    obtain ⟨a', hf, e'⟩ := hf
    obtain ⟨s1, g, -, -, i1, b1, -, -, -, hnil, hcons⟩ := hi.of_create hb v hf
    cases hfl : g.reverse ++ fl with
    | nil =>
      have e2 := hnil hfl
      rw [e'] at e2
      simp only [Option.some.injEq, Prod.mk.injEq] at e2
      obtain ⟨rfl, rfl⟩ := e2
      rw [hfl] at i1
      refine ⟨[], ?_, ?_⟩
      · simpa using i1
      · simpa using b1
    | cons x fl2 =>
      obtain ⟨s2, e2, i2, b2, -⟩ := hcons x fl2 hfl
      rw [e'] at e2
      simp only [Option.some.injEq, Prod.mk.injEq] at e2
      obtain ⟨rfl, rfl⟩ := e2
      exact ⟨fl2, i2, b2⟩
  | @destroy s ul p s' _ hp e ih =>
    obtain ⟨fl, hi, hb⟩ := ih
    obtain ⟨s2, e2, i2, b2, -⟩ := hi.of_destroy hb hp
    rw [e] at e2
    cases e2
    exact ⟨_, i2, b2⟩
  | @destroy_null s ul s' _ e ih =>
    rw [destroy_null] at e
    cases e
    exact ih
  | @destroy_all s ul fuel s' _ h1 h2 e ih =>
    obtain ⟨fl, hi, hb⟩ := ih
    exact hi.of_destroy_all hb h1 h2 e
  | @destroy_pos_bitset s ul pos ret s' _ hc hp e ih =>
    obtain ⟨fl, hi, hb⟩ := ih
    simp only [SPool_list_bitset.destroy_pos, Option.bind_eq_bind, Option.bind_eq_some,
      Option.some.injEq, Prod.mk.injEq] at e
    obtain ⟨ret', -, s2, e2, -, rfl⟩ := e
    rw [bitset_destroy_eq hc] at e2
    obtain ⟨s3, e3, i3, b3, -⟩ := hi.of_destroy hb hp
    rw [e2] at e3
    cases e3
    exact ⟨_, i3, b3⟩
  | @destroy_range_bitset s ul fuel first last ret s' _ hc e ih =>
    obtain ⟨fl, hi, hb⟩ := ih
    simp only [SPool_list_bitset.destroy_range, Option.map_eq_some', Prod.mk.injEq] at e
    obtain ⟨s2, e2, -, rfl⟩ := e
    obtain ⟨fl', i3, b3, -⟩ := Inv.bitset_destroy_range_loop hc last fuel s s2 fl ul first hi hb e2
    exact ⟨fl', i3, b3⟩
  | @destroy_pos_dlist s ul pos ret s' _ hd hp e ih =>
    obtain ⟨fl, hi, hb⟩ := ih
    simp only [Pool_dlist_base.destroy_pos, Option.bind_eq_bind, Option.bind_eq_some,
      Option.some.injEq, Prod.mk.injEq, Option.some_bind] at e
    obtain ⟨n, -, s2, e2, -, rfl⟩ := e
    rw [dlist_destroy_eq hd] at e2
    obtain ⟨s3, e3, i3, b3, -⟩ := hi.of_destroy hb hp
    rw [e2] at e3
    cases e3
    exact ⟨_, i3, b3⟩
  | @destroy_range_dlist s ul fuel first last ret s' _ hd e ih =>
    obtain ⟨fl, hi, hb⟩ := ih
    simp only [Pool_dlist_base.destroy_range, Option.map_eq_some', Prod.mk.injEq] at e
    obtain ⟨s2, e2, -, rfl⟩ := e
    obtain ⟨fl', i3, b3, -⟩ := Inv.dlist_destroy_range_loop hd last fuel s s2 fl ul first hi hb e2
    exact ⟨fl', i3, b3⟩
  | @reserve s ul new_cap allocs thrown s' _ hdyn e ih =>
    obtain ⟨fl, hi, -⟩ := ih
    obtain ⟨fl', i2, -⟩ := hi.of_reserve hdyn e
    exact ⟨fl', i2, BitsInv.of_dynamic hdyn _ _⟩
  | @shrink_to_fit s ul new_cap s' _ hdyn e ih =>
    obtain ⟨fl, hi, -⟩ := ih
    obtain ⟨s2, fl', e2, i2, -⟩ := hi.of_shrink_to_fit hdyn new_cap
    rw [e] at e2
    cases e2
    exact ⟨fl', i2, BitsInv.of_dynamic hdyn _ _⟩
  | @move_ctor_target other ul self oob s' other' _ hdyn e ih =>
    obtain ⟨fl, hi, -⟩ := ih
    exact ⟨fl, (hi.of_move_ctor hdyn e).1, BitsInv.of_dynamic hdyn _ _⟩
  | @move_ctor_source other ul self oob s' other' _ hdyn e ih =>
    obtain ⟨fl, hi, -⟩ := ih
    exact ⟨[], (hi.of_move_ctor hdyn e).2.1, BitsInv.of_dynamic hdyn _ _⟩
  | @move_assign_target s other ul ul2 fuel s' other' _ _ hdyn e ih1 ih2 =>
    obtain ⟨fl, hi, -⟩ := ih1
    obtain ⟨fl2, hi2, -⟩ := ih2
    exact ⟨fl2, (hi.of_move_assign hi2 hdyn e).1, BitsInv.of_dynamic hdyn _ _⟩
  | @move_assign_source s other ul ul2 fuel s' other' _ _ hdyn e ih1 ih2 =>
    obtain ⟨fl, hi, -⟩ := ih1
    obtain ⟨fl2, hi2, -⟩ := ih2
    exact ⟨[], (hi.of_move_assign hi2 hdyn e).2.1, BitsInv.of_dynamic hdyn _ _⟩
  | @move_assign_self s ul fuel s' _ hdyn e ih =>
    obtain ⟨fl, hi, -⟩ := ih
    obtain ⟨k1, k2⟩ := hi.of_move_assign_self hdyn e
    cases hg : flag_set c.Flags POOL_SELF_MOVE_GUARD with
    | true =>
      rw [k1 hg]
      simp only [if_true]
      exact ⟨fl, hi, BitsInv.of_dynamic hdyn _ _⟩
    | false =>
      simp only [Bool.false_eq_true, if_false]
      exact ⟨[], (k2 hg).1, BitsInv.of_dynamic hdyn _ _⟩

end reachable

section operations
variable {T : Type}

theorem fresh_none (c : Cfg) (s : State T) : fresh c s none := by
  intro b hb
  simp [grown] at hb

theorem grows_false_of_fixed {c : Cfg} (s : State T)
    (h : c.impl.is_static = true ∨ flag_set c.Flags POOL_FIXED_CAPACITY = true) :
    grows c s = false := by
  rcases h with h | h <;> simp [grows, h]

theorem grows_dynamic {c : Cfg} {s : State T} (h : grows c s = true) :
    c.impl.is_static = false := by
  cases hs : c.impl.is_static with
  | false => rfl
  | true => simp [grows, hs] at h

/-- When `create` is about to grow the pool, the free chain is empty. -/
theorem Inv.grows_nil {c : Cfg} {s : State T} {fl ul : List Nat} (h : Inv c s fl ul)
    (hg : grows c s = true) : fl = [] := by
  have h1 := h.size
  have h2 := h.cap
  have h3 : Pool_base.full c s = true := by
    simp only [grows, Bool.and_eq_true] at hg
    exact hg.2.2
  simp only [Pool_base.full, Pool_base.size, beq_iff_eq] at h3
  exact List.length_eq_zero.1 (by omega)

/-- What a call of `create` that returns a reference has done. -/
theorem Inv.create_some {c : Cfg} {s s' : State T} {fl ul : List Nat} {v : T}
    {a : Option Nat} {p : Nat} (h : Inv c s fl ul) (hb : BitsInv c s ul)
    (e : create c s v a = some (some p, s')) :
    ∃ g fl2, g = (if grows c s then grown c a else []) ∧ g.reverse ++ fl = p :: fl2 ∧
      Inv c s' fl2 (ul ++ [p]) ∧ BitsInv c s' (ul ++ [p]) ∧ p ∉ ul ∧ dt s.mem p = none ∧
      dt s'.mem = Function.update (dt s.mem) p (some v) ∧ s'.m_size = s.m_size + 1 ∧
      s'.m_capacity = s.m_capacity + g.length ∧ s'.m_used_nodes = s.m_used_nodes := by
  have key : ∀ a', fresh c s a' → create c s v a' = some (some p, s') →
      (if grows c s then grown c a' else []) = (if grows c s then grown c a else []) →
      ∃ g fl2, g = (if grows c s then grown c a else []) ∧ g.reverse ++ fl = p :: fl2 ∧
        Inv c s' fl2 (ul ++ [p]) ∧ BitsInv c s' (ul ++ [p]) ∧ p ∉ ul ∧ dt s.mem p = none ∧
        dt s'.mem = Function.update (dt s.mem) p (some v) ∧ s'.m_size = s.m_size + 1 ∧
        s'.m_capacity = s.m_capacity + g.length ∧ s'.m_used_nodes = s.m_used_nodes := by
    intro a' hf e' hgr
    obtain ⟨s1, g, -, h2, i1, -, d1, -, c1, hnil, hcons⟩ := h.of_create hb v hf
    cases hfl : g.reverse ++ fl with
    | nil =>
      have e2 := hnil hfl
      rw [e'] at e2
      simp at e2
    | cons x fl2 =>
      obtain ⟨s2, e2, i2, b2, d2, z2, c2, u2, -⟩ := hcons x fl2 hfl
      rw [e'] at e2
      simp only [Option.some.injEq, Prod.mk.injEq] at e2
      obtain ⟨rfl, rfl⟩ := e2
      have hnd := i1.core.nodup
      rw [hfl] at hnd i1
      refine ⟨g, fl2, h2.trans hgr, hfl, i2, b2, ?_, ?_, d2, z2, by rw [c2, c1], u2⟩
      · intro hx
        exact (List.nodup_append.1 hnd).2.2 (List.mem_cons_self _ _) hx
      · rw [← d1]
        exact i1.core.fl_free _ (List.mem_cons_self _ _)
  rcases Bool.eq_false_or_eq_true (grows c s) with hg | hg
  · exact key a (create_fresh hg e) e rfl
  · refine key none (fresh_none c s) (by rw [← create_irrel hg v a]; exact e) ?_
    simp [hg]

/-- A call of `create` that cannot grow the pool, or whose growth allocation fails. -/
theorem Inv.create_no_growth {c : Cfg} {s : State T} {fl ul : List Nat} (h : Inv c s fl ul)
    (hb : BitsInv c s ul) (v : T) {a : Option Nat}
    (hg : grows c s = false ∨ a = none) :
    (fl = [] → create c s v a = some (none, s)) ∧
    (∀ x fl2, fl = x :: fl2 → ∃ s', create c s v a = some (some x, s') ∧
      Inv c s' fl2 (ul ++ [x]) ∧ BitsInv c s' (ul ++ [x]) ∧
      dt s'.mem = Function.update (dt s.mem) x (some v) ∧ s'.m_size = s.m_size + 1 ∧
      s'.m_capacity = s.m_capacity ∧ s'.m_used_nodes = s.m_used_nodes) := by
  have ea : create c s v a = create c s v none := by
    rcases hg with hg | hg
    · exact create_irrel hg v a
    · rw [hg]
  obtain ⟨s1, g, h1, h2, -, -, -, -, -, hnil, hcons⟩ := h.of_create hb v (fresh_none c s)
  have hs1 : s1 = s := by
    cases hgr : grows c s with
    | true =>
      simp only [hgr, if_true, add_node_none, Option.some.injEq] at h1
      exact h1.symm
    | false =>
      simp only [hgr, Bool.false_eq_true, if_false, Option.some.injEq] at h1
      exact h1.symm
  have hg0 : g = [] := by
    rw [h2]
    split <;> rfl
  subst hs1
  subst hg0
  rw [ea]
  refine ⟨fun hfl => hnil (by simpa using hfl), fun x fl2 hfl => ?_⟩
  obtain ⟨s', e, i2, b2, d2, z2, c2, u2, -⟩ := hcons x fl2 (by simpa using hfl)
  exact ⟨s', e, i2, b2, d2, z2, c2, u2⟩

/-- Successive successful calls of `create` on a pool that cannot grow lead to a reachable
state, raise the size by their number and keep the capacity. -/
theorem creates_reachable {c : Cfg}
    (hfix : c.impl.is_static = true ∨ flag_set c.Flags POOL_FIXED_CAPACITY = true) :
    ∀ (vs : List (T × Option Nat)) (s s' : State T) (ul : List Nat), Reachable c s ul →
      creates c vs s = some s' →
      ∃ ul', Reachable c s' ul' ∧ Pool_base.size s' = Pool_base.size s + vs.length ∧
        capacity c s' = capacity c s := by
  intro vs
  induction vs with
  | nil =>
    intro s s' ul h e
    simp only [creates, Option.some.injEq] at e
    subst e
    exact ⟨ul, h, rfl, rfl⟩
  | cons va vs ih =>
    intro s s' ul h e
    obtain ⟨v, a⟩ := va
    simp only [creates] at e
    cases hcr : create c s v a with
    | none => simp [hcr] at e
    | some rs =>
      obtain ⟨r, s1⟩ := rs
      cases r with
      | none => simp [hcr] at e
      | some p =>
        simp only [hcr] at e
        obtain ⟨fl, hi, hb⟩ := reachable_inv h
        obtain ⟨g, fl2, hg, -, -, -, -, -, -, z1, c1, -⟩ := hi.create_some hb hcr
        rw [grows_false_of_fixed s hfix] at hg
        simp only [Bool.false_eq_true, if_false] at hg
        subst hg
        obtain ⟨ul', h2, z2, c2⟩ := ih s1 s' _ (Reachable.create v a (some p) s1 h hcr) e
        refine ⟨ul', h2, ?_, ?_⟩
        · rw [z2]
          simp only [Pool_base.size, List.length_cons, z1]
          omega
        · rw [c2]
          simp only [capacity, c1, List.length_nil, Nat.add_zero]

/-- Every member of a doubly-linked segment has a successor it is `Linked` to. -/
theorem Seg.linked_succ {m : Mem T} {l : List Nat} {y : Nat} :
    ∀ {x : Nat}, Seg m x l y → ∀ a ∈ x :: l, ∃ b, Linked m a b := by
  induction l with
  | nil =>
    intro x h a ha
    simp only [List.mem_singleton] at ha
    subst ha
    exact ⟨y, h⟩
  | cons z l ih =>
    intro x h a ha
    rcases List.mem_cons.1 ha with rfl | ha
    · exact ⟨z, h.1⟩
    · exact ih h.2 a ha

/-- Every member of a doubly-linked segment has a predecessor it is `Linked` to. -/
theorem Seg.linked_pred {m : Mem T} {l : List Nat} {y : Nat} :
    ∀ {x : Nat}, Seg m x l y → ∀ a ∈ l ++ [y], ∃ b, Linked m b a := by
  induction l with
  | nil =>
    intro x h a ha
    simp only [List.nil_append, List.mem_singleton] at ha
    subst ha
    exact ⟨x, h⟩
  | cons z l ih =>
    intro x h a ha
    rcases List.mem_cons.1 ha with rfl | ha
    · exact ⟨x, h.1⟩
    · exact ih h.2 a ha

/-- The number of set bits among the first `N` equals the number of the occupied slots
when the bits agree with them. -/
theorem length_filter_bits {N : Nat} {ul : List Nat} (f : Nat → Bool) (hnd : ul.Nodup)
    (hlt : ∀ a ∈ ul, a < N) (hf : ∀ i, i < N → (f i = true ↔ i ∈ ul)) :
    ((List.range N).filter f).length = ul.length := by
  apply List.Perm.length_eq
  rw [List.perm_ext_iff_of_nodup ((List.nodup_range N).filter _) hnd]
  intro a
  simp only [List.mem_filter, List.mem_range]
  constructor
  · rintro ⟨h1, h2⟩
    exact (hf a h1).1 h2
  · intro h
    exact ⟨hlt a h, (hf a (hlt a h)).2 h⟩

end operations

section examples

theorem ex_dlist_reach0 : Reachable ex_dlist ex_dlist_s0 [] :=
  Reachable.construct 2 (fun _ => false) ex_dlist_s0 rfl

theorem ex_dlist_create1 : create ex_dlist ex_dlist_s0 7 none = some (some 1, ex_dlist_s1) :=
  rfl

theorem ex_dlist_reach1 : Reachable ex_dlist ex_dlist_s1 [1] :=
  Reachable.create 7 none (some 1) ex_dlist_s1 ex_dlist_reach0 ex_dlist_create1

theorem ex_dlist_create2 : create ex_dlist ex_dlist_s1 8 none = some (some 0, ex_dlist_s2) :=
  rfl

theorem ex_dlist_reach2 : Reachable ex_dlist ex_dlist_s2 [1, 0] :=
  Reachable.create 8 none (some 0) ex_dlist_s2 ex_dlist_reach1 ex_dlist_create2

theorem ex_bitset_reach0 : Reachable ex_bitset ex_bitset_s0 [] :=
  Reachable.construct 2 (fun _ => false) ex_bitset_s0 rfl

theorem ex_bitset_create1 :
    create ex_bitset ex_bitset_s0 7 none = some (some 1, ex_bitset_s1) := rfl

theorem ex_bitset_reach1 : Reachable ex_bitset ex_bitset_s1 [1] :=
  Reachable.create 7 none (some 1) ex_bitset_s1 ex_bitset_reach0 ex_bitset_create1

theorem ex_list_reach0 : Reachable ex_list ex_list_s0 [] :=
  Reachable.construct 0 (fun _ => false) ex_list_s0 rfl

theorem ex_list_create1 :
    create ex_list ex_list_s0 7 (some 5) = some (some 5, ex_list_s1) := rfl

theorem ex_list_reach1 : Reachable ex_list ex_list_s1 [5] :=
  Reachable.create 7 (some 5) (some 5) ex_list_s1 ex_list_reach0 ex_list_create1

end examples

section claims
variable {T : Type}

/-- Claim C1: in every reachable state of every pool class (the state after the
constructor, and after any sequence of `create`, `destroy`, `destroy_all`, `reserve`,
`shrink_to_fit` and moves, whatever `operator new` answers), `size() <= capacity()`. -/
theorem size_le_capacity {c : Cfg} {s : State T} {ul : List Nat} (h : Reachable c s ul) :
    Pool_base.size s ≤ capacity c s := by
  obtain ⟨fl, hi, -⟩ := reachable_inv h
  have h1 := hi.size
  have h2 := hi.cap
  simp only [Pool_base.size]
  omega

theorem size_le_capacity_witness :
    Reachable ex_list ex_list_s1 [5] ∧ Pool_base.size ex_list_s1 ≤ capacity ex_list ex_list_s1 :=
  ⟨ex_list_reach1, size_le_capacity ex_list_reach1⟩

/-- Claim C2: in every reachable state the walk from `m_free_nodes` along `next` ends at
`nullptr` after the slots of a list `fl` that has no slot twice and no occupied slot, and
whose length is `capacity() - size()`; the occupied slots are exactly the `size()` live
references. -/
theorem free_chain_well_formed {c : Cfg} {s : State T} {ul : List Nat}
    (h : Reachable c s ul) :
    ∃ fl, FreeChain s fl ∧ fl.Nodup ∧ (∀ a ∈ fl, live s a = false) ∧
      fl.length = capacity c s - Pool_base.size s ∧
      ul.Nodup ∧ (∀ a, live s a = true ↔ a ∈ ul) ∧ ul.length = Pool_base.size s := by
  obtain ⟨fl, hi, -⟩ := reachable_inv h
  have hnd := List.nodup_append.1 hi.core.nodup
  have h1 := hi.size
  have h2 := hi.cap
  refine ⟨fl, hi.core.chain, hnd.1, ?_, ?_, hnd.2.1, ?_, h1.symm⟩
  · intro a ha
    simp only [live, value, hi.core.fl_free a ha, Option.isSome_none]
  · simp only [Pool_base.size]
    omega
  · intro a
    exact ⟨fun ha => hi.mem_ul_of_live ha, fun ha => hi.core.ul_live a ha⟩

theorem free_chain_well_formed_witness :
    Reachable ex_dlist ex_dlist_s1 [1] ∧
      ∃ fl, FreeChain ex_dlist_s1 fl ∧ fl.Nodup ∧ (∀ a ∈ fl, live ex_dlist_s1 a = false) ∧
        fl.length = capacity ex_dlist ex_dlist_s1 - Pool_base.size ex_dlist_s1 ∧
        [1].Nodup ∧ (∀ a, live ex_dlist_s1 a = true ↔ a ∈ [1]) ∧
        [1].length = Pool_base.size ex_dlist_s1 :=
  ⟨ex_dlist_reach1, free_chain_well_formed ex_dlist_reach1⟩

/-- Claim C3: in a reachable state whose free chain is not empty, `create(v)` returns a
non-null reference (the head of the free chain) to a slot that now holds `v`, the size
grows by exactly one and the capacity does not change. -/
theorem create_of_free {c : Cfg} {s : State T} {ul : List Nat} (h : Reachable c s ul)
    (hfree : s.m_free_nodes ≠ none) (v : T) (a : Option Nat) :
    ∃ p s', create c s v a = some (some p, s') ∧ s.m_free_nodes = some p ∧
      value s' p = some v ∧ Pool_base.size s' = Pool_base.size s + 1 ∧
      capacity c s' = capacity c s := by
  obtain ⟨fl, hi, hb⟩ := reachable_inv h
  obtain ⟨x, hx⟩ := Option.ne_none_iff_exists'.1 hfree
  obtain ⟨fl2, rfl⟩ := hi.fl_ne_nil_of_free hx
  have hg : grows c s = false := by
    rcases Bool.eq_false_or_eq_true (grows c s) with hg | hg
    · exact absurd (hi.grows_nil hg) (List.cons_ne_nil _ _)
    · exact hg
  obtain ⟨s', e, -, -, d, z, cp, -⟩ := (hi.create_no_growth hb v (Or.inl hg)).2 x fl2 rfl
  refine ⟨x, s', e, hx, ?_, z, ?_⟩
  · simp only [value, d, Function.update_same]
  · simp only [capacity, cp]

theorem create_of_free_witness :
    Reachable ex_dlist ex_dlist_s0 [] ∧ ex_dlist_s0.m_free_nodes ≠ none ∧
      ∃ p s', create ex_dlist ex_dlist_s0 7 none = some (some p, s') ∧
        ex_dlist_s0.m_free_nodes = some p ∧ value s' p = some 7 ∧
        Pool_base.size s' = Pool_base.size ex_dlist_s0 + 1 ∧
        capacity ex_dlist s' = capacity ex_dlist ex_dlist_s0 :=
  ⟨ex_dlist_reach0, by decide, create_of_free ex_dlist_reach0 (by decide) 7 none⟩

/-- Claim C4: in a reachable state without a free slot, when the pool is static, or has
`POOL_FIXED_CAPACITY`, or `operator new` fails, `create` returns `nullptr` and the state
(size, capacity, free chain, used set) is unchanged; and on a static or fixed-capacity
pool, after as many successful calls of `create` as the capacity, the size equals the
capacity and the next `create` returns `nullptr` and changes nothing. -/
theorem create_null_of_full {c : Cfg} {s : State T} {ul : List Nat} (h : Reachable c s ul)
    (v : T) {a : Option Nat}
    (hg : c.impl.is_static = true ∨ flag_set c.Flags POOL_FIXED_CAPACITY = true ∨ a = none) :
    (s.m_free_nodes = none → create c s v a = some (none, s)) ∧
    ((c.impl.is_static = true ∨ flag_set c.Flags POOL_FIXED_CAPACITY = true) →
      ∀ (vs : List (T × Option Nat)) (s' : State T), vs.length = capacity c s →
        creates c vs s = some s' →
        Pool_base.size s' = capacity c s ∧ capacity c s' = capacity c s ∧
          create c s' v a = some (none, s')) := by
  have key : ∀ (s : State T) (ul : List Nat), Reachable c s ul →
      (s.m_free_nodes = none ∨ Pool_base.size s = capacity c s) →
      create c s v a = some (none, s) := by
    intro s ul h hno
    obtain ⟨fl, hi, hb⟩ := reachable_inv h
    have hfl : fl = [] := by
      rcases hno with hno | hno
      · exact hi.fl_nil_of_free hno
      · have h1 := hi.size
        have h2 := hi.cap
        simp only [Pool_base.size] at hno
        exact List.length_eq_zero.1 (by omega)
    have hg' : grows c s = false ∨ a = none := by
      rcases hg with hg | hg | hg
      · exact Or.inl (grows_false_of_fixed s (Or.inl hg))
      · exact Or.inl (grows_false_of_fixed s (Or.inr hg))
      · exact Or.inr hg
    exact (hi.create_no_growth hb v hg').1 hfl
  refine ⟨fun hno => key s ul h (Or.inl hno), fun hfix vs s' hlen e => ?_⟩
  obtain ⟨ul', h', z, cp⟩ := creates_reachable hfix vs s s' ul h e
  obtain ⟨fl', hi', -⟩ := reachable_inv h'
  have h1 := hi'.size
  have h2 := hi'.cap
  have hz : Pool_base.size s' = capacity c s := by
    simp only [Pool_base.size] at z ⊢
    omega
  exact ⟨hz, cp, key s' ul' h' (Or.inr (by rw [hz, cp]))⟩

theorem create_null_of_full_witness :
    (Reachable ex_dlist ex_dlist_s2 [1, 0] ∧ ex_dlist_s2.m_free_nodes = none ∧
      create ex_dlist ex_dlist_s2 9 none = some (none, ex_dlist_s2)) ∧
    (Reachable ex_dlist ex_dlist_s0 [] ∧
      creates ex_dlist [(7, none), (8, none)] ex_dlist_s0 = some ex_dlist_s2 ∧
      Pool_base.size ex_dlist_s2 = capacity ex_dlist ex_dlist_s0 ∧
      capacity ex_dlist ex_dlist_s2 = capacity ex_dlist ex_dlist_s0 ∧
      create ex_dlist ex_dlist_s2 9 none = some (none, ex_dlist_s2)) :=
  ⟨⟨ex_dlist_reach2, rfl, (create_null_of_full ex_dlist_reach2 9 (Or.inl rfl)).1 rfl⟩,
    ex_dlist_reach0, rfl,
    (create_null_of_full ex_dlist_reach0 9 (Or.inl rfl)).2 (Or.inl rfl)
      [(7, none), (8, none)] ex_dlist_s2 rfl rfl⟩

/-- Claim C5: a reference returned by `create` in a reachable state designates a slot
that was not occupied: it differs from every live reference (those returned earlier and
not destroyed since), and the value stored under every other reference is unchanged. -/
theorem create_returns_unoccupied {c : Cfg} {s s' : State T} {ul : List Nat} {v : T}
    {a : Option Nat} {p : Nat} (h : Reachable c s ul)
    (e : create c s v a = some (some p, s')) :
    live s p = false ∧ p ∉ ul ∧ (∀ q ∈ ul, q ≠ p ∧ live s' q = true) ∧
      ∀ q, q ≠ p → value s' q = value s q := by
  obtain ⟨fl, hi, hb⟩ := reachable_inv h
  obtain ⟨g, fl2, -, -, i2, -, hp, d0, d, -⟩ := hi.create_some hb e
  refine ⟨?_, hp, fun q hq => ⟨fun hqp => hp (hqp ▸ hq), ?_⟩, fun q hq => ?_⟩
  · simp only [live, value, d0, Option.isSome_none]
  · exact i2.core.ul_live q (List.mem_append_left _ hq)
  · simp only [value, d, Function.update_noteq hq]

theorem create_returns_unoccupied_witness :
    Reachable ex_dlist ex_dlist_s1 [1] ∧
      create ex_dlist ex_dlist_s1 8 none = some (some 0, ex_dlist_s2) ∧
      live ex_dlist_s1 0 = false ∧ 0 ∉ [1] ∧ (∀ q ∈ [1], q ≠ 0 ∧ live ex_dlist_s2 q = true) ∧
      ∀ q, q ≠ 0 → value ex_dlist_s2 q = value ex_dlist_s1 q :=
  ⟨ex_dlist_reach1, ex_dlist_create2,
    create_returns_unoccupied ex_dlist_reach1 ex_dlist_create2⟩

/-- Claim C6: in a reachable state `destroy(p)` of a live reference `p` returns, lowers
the size by exactly one, keeps the capacity, puts the slot of `p` (and nothing else) at
the head of the free chain, and every other live element stays live with its value. -/
theorem destroy_live_reference {c : Cfg} {s : State T} {ul : List Nat} {p : Nat}
    (h : Reachable c s ul) (hp : p ∈ ul) :
    ∃ s', destroy c s (some p) = some s' ∧ Pool_base.size s' + 1 = Pool_base.size s ∧
      capacity c s' = capacity c s ∧ (∃ fl, FreeChain s fl ∧ FreeChain s' (p :: fl)) ∧
      live s' p = false ∧ ∀ q, q ≠ p → value s' q = value s q := by
  obtain ⟨fl, hi, hb⟩ := reachable_inv h
  obtain ⟨s', e, i2, -, -, d, z, cp, -⟩ := hi.of_destroy hb hp
  have h1 := hi.size
  have hpos : 0 < ul.length := List.length_pos_of_mem hp
  refine ⟨s', e, ?_, ?_, ⟨fl, hi.core.chain, i2.core.chain⟩, ?_, fun q hq => ?_⟩
  · simp only [Pool_base.size, z]
    omega
  · simp only [capacity, cp]
  · simp only [live, value, d, Function.update_same, Option.isSome_none]
  · simp only [value, d, Function.update_noteq hq]

theorem destroy_live_reference_witness :
    Reachable ex_dlist ex_dlist_s2 [1, 0] ∧ 1 ∈ [1, 0] ∧
      ∃ s', destroy ex_dlist ex_dlist_s2 (some 1) = some s' ∧
        Pool_base.size s' + 1 = Pool_base.size ex_dlist_s2 ∧
        capacity ex_dlist s' = capacity ex_dlist ex_dlist_s2 ∧
        (∃ fl, FreeChain ex_dlist_s2 fl ∧ FreeChain s' (1 :: fl)) ∧
        live s' 1 = false ∧ ∀ q, q ≠ 1 → value s' q = value ex_dlist_s2 q :=
  ⟨ex_dlist_reach2, by decide, destroy_live_reference ex_dlist_reach2 (by decide)⟩

/-- Claim C7: in a reachable state, when `create` returns a reference without a change of
the capacity, `destroy` of that reference right after returns and restores the size, the
capacity, the head of the free chain and the order of the chain, the used ring of a
doubly-linked pool, the occupancy bits of an `SPool_list_bitset`, and the stored
elements. -/
theorem create_destroy_restores {c : Cfg} {s s1 : State T} {ul : List Nat} {v : T}
    {a : Option Nat} {p : Nat} (h : Reachable c s ul)
    (e : create c s v a = some (some p, s1)) (hcap : capacity c s1 = capacity c s) :
    ∃ s2, destroy c s1 (some p) = some s2 ∧ Pool_base.size s2 = Pool_base.size s ∧
      capacity c s2 = capacity c s ∧ s2.m_free_nodes = s.m_free_nodes ∧
      (∃ fl, FreeChain s fl ∧ FreeChain s2 fl) ∧
      s2.m_used_nodes = s.m_used_nodes ∧
      (c.impl.is_dlist = true → UsedRing s ul ∧ UsedRing s2 ul) ∧
      (c.impl = Impl.SPool_list_bitset → ∀ i, i < c.N → s2.m_used i = s.m_used i) ∧
      ∀ q, value s2 q = value s q := by
  obtain ⟨fl, hi, hb⟩ := reachable_inv h
  obtain ⟨g, fl2, hg, hfl, i1, b1, hp, d0, d1, z1, c1, u1⟩ := hi.create_some hb e
  have hg0 : g = [] := by
    rcases Bool.eq_false_or_eq_true (grows c s) with hgr | hgr
    · have hdyn := grows_dynamic hgr
      simp only [capacity, hdyn, Bool.false_eq_true, if_false] at hcap
      exact List.length_eq_zero.1 (by omega)
    · rw [hg, hgr]
      rfl
  subst hg0
  simp only [List.reverse_nil, List.nil_append] at hfl
  subst hfl
  obtain ⟨s2, e2, i2, b2, -, d2, z2, c2, u2, -, f2⟩ :=
    i1.of_destroy b1 (List.mem_append_right _ (List.mem_singleton_self p))
  have her : (ul ++ [p]).erase p = ul := by
    rw [List.erase_append_right _ hp]
    simp
  rw [her] at i2 b2
  refine ⟨s2, e2, ?_, ?_, ?_, ⟨_, hi.core.chain, i2.core.chain⟩, by rw [u2, u1], ?_, ?_, ?_⟩
  · simp only [Pool_base.size, z2, z1]
    omega
  · simp only [capacity, c2, c1, List.length_nil, Nat.add_zero]
  · rw [f2]
    exact hi.core.chain.1.symm
  · intro hd
    exact ⟨(hi.core.ring hd).1, (i2.core.ring hd).1⟩
  · intro hc i hiN
    exact Bool.eq_iff_iff.2 ((b2 hc i hiN).trans (hb hc i hiN).symm)
  · intro q
    simp only [value, d2, d1]
    by_cases hq : q = p
    · subst hq
      simp only [Function.update_same, d0]
    · simp only [Function.update_noteq hq]

theorem create_destroy_restores_witness :
    Reachable ex_dlist ex_dlist_s0 [] ∧
      create ex_dlist ex_dlist_s0 7 none = some (some 1, ex_dlist_s1) ∧
      capacity ex_dlist ex_dlist_s1 = capacity ex_dlist ex_dlist_s0 ∧
      ∃ s2, destroy ex_dlist ex_dlist_s1 (some 1) = some s2 ∧
        Pool_base.size s2 = Pool_base.size ex_dlist_s0 ∧
        capacity ex_dlist s2 = capacity ex_dlist ex_dlist_s0 ∧
        s2.m_free_nodes = ex_dlist_s0.m_free_nodes ∧
        (∃ fl, FreeChain ex_dlist_s0 fl ∧ FreeChain s2 fl) ∧
        s2.m_used_nodes = ex_dlist_s0.m_used_nodes ∧
        (ex_dlist.impl.is_dlist = true → UsedRing ex_dlist_s0 [] ∧ UsedRing s2 []) ∧
        (ex_dlist.impl = Impl.SPool_list_bitset →
          ∀ i, i < ex_dlist.N → s2.m_used i = ex_dlist_s0.m_used i) ∧
        ∀ q, value s2 q = value ex_dlist_s0 q :=
  ⟨ex_dlist_reach0, ex_dlist_create1, rfl,
    create_destroy_restores ex_dlist_reach0 ex_dlist_create1 rfl⟩

/-- Claim C8: for every pool class and every state, `destroy(nullptr)` returns and the
state is the one before the call: the size, the capacity, the free chain, the used ring
and the occupancy bits are the same. -/
theorem destroy_nullptr_noop (c : Cfg) (s : State T) :
    ∃ s', destroy c s none = some s' ∧ s' = s ∧ Pool_base.size s' = Pool_base.size s ∧
      capacity c s' = capacity c s ∧ s'.m_free_nodes = s.m_free_nodes ∧
      (∀ fl, FreeChain s' fl ↔ FreeChain s fl) ∧ (∀ l, UsedRing s' l ↔ UsedRing s l) ∧
      s'.m_used = s.m_used :=
  ⟨s, destroy_null c s, rfl, rfl, rfl, rfl, fun _ => Iff.rfl, fun _ => Iff.rfl, rfl⟩

/-- Claim C9: in every reachable state of a doubly-linked pool the used ring through the
sentinel is well formed (`x.next.prev == x` and `x.prev.next == x` for the sentinel and
every member), its members read from `sentinel.next` forward are the live references in
the order of their creation, with no slot twice, and they are exactly the occupied
slots; `create` appends the new slot at the tail, `destroy` removes the slot and keeps
the order of the others. -/
theorem used_ring_well_formed {c : Cfg} {s : State T} {ul : List Nat}
    (h : Reachable c s ul) (hd : c.impl.is_dlist = true) :
    UsedRing s ul ∧
      (∀ x ∈ s.m_used_nodes :: ul, (nx s.mem x).bind (pv s.mem) = some x ∧
        (pv s.mem x).bind (nx s.mem) = some x) ∧
      ul.Nodup ∧ s.m_used_nodes ∉ ul ∧ (∀ a, live s a = true ↔ a ∈ ul) ∧
      (∀ (v : T) (a : Option Nat) (p : Nat) (s' : State T),
        create c s v a = some (some p, s') → UsedRing s' (ul ++ [p])) ∧
      (∀ p ∈ ul, ∃ s', destroy c s (some p) = some s' ∧ UsedRing s' (ul.erase p)) := by
  obtain ⟨fl, hi, hb⟩ := reachable_inv h
  obtain ⟨hr, hs, -⟩ := hi.core.ring hd
  refine ⟨hr, fun x hx => ⟨?_, ?_⟩, (List.nodup_append.1 hi.core.nodup).2.1,
    fun hx => hs (List.mem_append_right _ hx),
    fun a => ⟨fun ha => hi.mem_ul_of_live ha, fun ha => hi.core.ul_live a ha⟩,
    fun v a p s' e => ?_, fun p hp => ?_⟩
  · obtain ⟨b, h1, h2⟩ := Seg.linked_succ hr x hx
    simp only [h1, Option.some_bind, h2]
  · have hx' : x ∈ ul ++ [s.m_used_nodes] := by
      rcases List.mem_cons.1 hx with hx | hx
      · exact List.mem_append_right _ (by simp [hx])
      · exact List.mem_append_left _ hx
    obtain ⟨b, h1, h2⟩ := Seg.linked_pred hr x hx'
    simp only [h2, Option.some_bind, h1]
  · obtain ⟨g, fl2, -, -, i1, -⟩ := hi.create_some hb e
    exact (i1.core.ring hd).1
  · obtain ⟨s', e, i2, -⟩ := hi.of_destroy hb hp
    exact ⟨s', e, (i2.core.ring hd).1⟩

theorem used_ring_well_formed_witness :
    Reachable ex_dlist ex_dlist_s2 [1, 0] ∧ ex_dlist.impl.is_dlist = true ∧
      UsedRing ex_dlist_s2 [1, 0] ∧
      (∀ x ∈ ex_dlist_s2.m_used_nodes :: [1, 0],
        (nx ex_dlist_s2.mem x).bind (pv ex_dlist_s2.mem) = some x ∧
        (pv ex_dlist_s2.mem x).bind (nx ex_dlist_s2.mem) = some x) ∧
      [1, 0].Nodup ∧ ex_dlist_s2.m_used_nodes ∉ [1, 0] ∧
      (∀ a, live ex_dlist_s2 a = true ↔ a ∈ [1, 0]) ∧
      (∀ (v : Nat) (a : Option Nat) (p : Nat) (s' : State Nat),
        create ex_dlist ex_dlist_s2 v a = some (some p, s') → UsedRing s' ([1, 0] ++ [p])) ∧
      (∀ p ∈ [1, 0], ∃ s', destroy ex_dlist ex_dlist_s2 (some p) = some s' ∧
        UsedRing s' ([1, 0].erase p)) :=
  ⟨ex_dlist_reach2, rfl, used_ring_well_formed ex_dlist_reach2 rfl⟩

/-- Claim C10: in every reachable state of an `SPool_list_bitset`, bit `i` of `m_used`
is set exactly when slot `i` holds a live element, for every `i < N`, and the number of
set bits is `size()`; the states that `create`, `destroy(ref)`, `destroy(iterator)`,
`destroy(range)` and `destroy_all` lead to have the property again. -/
theorem bits_agree_with_slots {c : Cfg} {s : State T} {ul : List Nat}
    (h : Reachable c s ul) (hc : c.impl = Impl.SPool_list_bitset) :
    BitsLive c s ∧
      ((List.range c.N).filter fun i => s.m_used i).length = Pool_base.size s ∧
      (∀ (v : T) (a r : Option Nat) (s' : State T),
        create c s v a = some (r, s') → BitsLive c s') ∧
      (∀ p ∈ ul, ∀ s' : State T, destroy c s (some p) = some s' → BitsLive c s') ∧
      (∀ pos ∈ ul, ∀ (ret : Nat) (s' : State T),
        SPool_list_bitset.destroy_pos c s pos = some (ret, s') → BitsLive c s') ∧
      (∀ (fuel first last ret : Nat) (s' : State T),
        SPool_list_bitset.destroy_range c fuel s first last = some (ret, s') →
          BitsLive c s') ∧
      (∀ (fuel : Nat) (s' : State T), destroy_all c fuel s = some s' → BitsLive c s') := by
  have main : ∀ (s : State T) (ul : List Nat), Reachable c s ul → BitsLive c s := by
    intro s ul h i hi'
    obtain ⟨fl, hi, hb⟩ := reachable_inv h
    rw [hb hc i hi']
    exact ⟨fun ha => hi.core.ul_live i ha, fun ha => hi.mem_ul_of_live ha⟩
  have h1 : c.impl ≠ Impl.Pool_list := by rw [hc]; decide
  have h2 : c.impl ≠ Impl.Pool_list_block := by rw [hc]; decide
  refine ⟨main s ul h, ?_, fun v a r s' e => main s' _ (Reachable.create v a r s' h e),
    fun p hp s' e => main s' _ (Reachable.destroy p s' h hp e),
    fun pos hp ret s' e => main s' _ (Reachable.destroy_pos_bitset pos ret s' h hc hp e),
    fun fuel first last ret s' e =>
      main s' _ (Reachable.destroy_range_bitset fuel first last ret s' h hc e),
    fun fuel s' e => main s' _ (Reachable.destroy_all fuel s' h h1 h2 e)⟩
  obtain ⟨fl, hi, hb⟩ := reachable_inv h
  rw [Pool_base.size, hi.size]
  exact length_filter_bits _ (List.nodup_append.1 hi.core.nodup).2.1
    (fun a ha => hi.lt_N_of_static (bitset_is_static hc).1 (List.mem_append_right _ ha))
    (hb hc)

theorem bits_agree_with_slots_witness :
    Reachable ex_bitset ex_bitset_s1 [1] ∧ ex_bitset.impl = Impl.SPool_list_bitset ∧
      BitsLive ex_bitset ex_bitset_s1 ∧
      ((List.range ex_bitset.N).filter fun i => ex_bitset_s1.m_used i).length =
        Pool_base.size ex_bitset_s1 ∧
      (∀ (v : Nat) (a r : Option Nat) (s' : State Nat),
        create ex_bitset ex_bitset_s1 v a = some (r, s') → BitsLive ex_bitset s') ∧
      (∀ p ∈ [1], ∀ s' : State Nat,
        destroy ex_bitset ex_bitset_s1 (some p) = some s' → BitsLive ex_bitset s') ∧
      (∀ pos ∈ [1], ∀ (ret : Nat) (s' : State Nat),
        SPool_list_bitset.destroy_pos ex_bitset ex_bitset_s1 pos = some (ret, s') →
          BitsLive ex_bitset s') ∧
      (∀ (fuel first last ret : Nat) (s' : State Nat),
        SPool_list_bitset.destroy_range ex_bitset fuel ex_bitset_s1 first last =
          some (ret, s') → BitsLive ex_bitset s') ∧
      (∀ (fuel : Nat) (s' : State Nat),
        destroy_all ex_bitset fuel ex_bitset_s1 = some s' → BitsLive ex_bitset s') :=
  ⟨ex_bitset_reach1, rfl, bits_agree_with_slots ex_bitset_reach1 rfl⟩

end claims

section iterators
variable {T : Type}

theorem increment_of_al {s : State T} {a : Nat} (h : al s.mem a = true) :
    Pool_dlist_base.Iterator_t.increment s (some a) = some (nx s.mem a) := by
  obtain ⟨n, hn⟩ := al_eq_true_iff.1 h
  simp [Pool_dlist_base.Iterator_t.increment, nx, hn]

theorem decrement_of_al {s : State T} {a : Nat} (h : al s.mem a = true) :
    Pool_dlist_base.Iterator_t.decrement s (some a) = some (pv s.mem a) := by
  obtain ⟨n, hn⟩ := al_eq_true_iff.1 h
  simp [Pool_dlist_base.Iterator_t.decrement, pv, hn]

/-- Stepping forward along a doubly-linked segment: `k` increments from the successor of
`x` lead to the member number `k` of `l ++ [y]`. -/
theorem Seg.advance_spec {s : State T} {y : Nat} :
    ∀ (l : List Nat) (x k : Nat), Seg s.mem x l y → k ≤ l.length →
      Pool_dlist_base.Iterator_t.advance s k (nx s.mem x) = some ((l ++ [y])[k]?) := by
  intro l
  induction l with
  | nil =>
    intro x k h hk
    have hk0 : k = 0 := by simpa using hk
    subst hk0
    simp [Pool_dlist_base.Iterator_t.advance, h.1]
  | cons a l ih =>
    intro x k h hk
    obtain ⟨h1, h2⟩ := h
    cases k with
    | zero => simp [Pool_dlist_base.Iterator_t.advance, h1.1]
    | succ k =>
      have hal : al s.mem a = true := by
        obtain ⟨q, -, hq⟩ := Seg.first_linked h2
        exact al_of_nx hq.1
      rw [h1.1]
      simp only [Pool_dlist_base.Iterator_t.advance, increment_of_al hal, Option.some_bind]
      rw [ih a k h2 (by simpa using hk)]
      simp

/-- Stepping backward along a doubly-linked segment: `k` decrements from the predecessor
of `y` lead to the member number `k` of `l.reverse ++ [x]`. -/
theorem Seg.retreat_spec {s : State T} {x : Nat} :
    ∀ (l : List Nat) (y k : Nat), Seg s.mem x l y → k ≤ l.length →
      Pool_dlist_base.Iterator_t.retreat s k (pv s.mem y) = some ((l.reverse ++ [x])[k]?) := by
  intro l
  induction l using List.reverseRecOn with
  | nil =>
    intro y k h hk
    have hk0 : k = 0 := by simpa using hk
    subst hk0
    simp [Pool_dlist_base.Iterator_t.retreat, h.2]
  | append_singleton l a ih =>
    intro y k h hk
    obtain ⟨h1, h2⟩ := Seg.append.1 h
    have h2' : Linked s.mem a y := h2
    cases k with
    | zero => simp [Pool_dlist_base.Iterator_t.retreat, h2'.2]
    | succ k =>
      have hal : al s.mem a = true := al_of_nx h2'.1
      rw [h2'.2]
      simp only [Pool_dlist_base.Iterator_t.retreat, decrement_of_al hal, Option.some_bind]
      rw [ih a k h1 (by simpa using hk)]
      simp

end iterators

section bitset_iterators
variable {T : Type}

/-- A read of `m_used` at an index below `N` gives the bit. -/
theorem bitset_test_lt {N : Nat} (u : Nat → Bool) {i : Nat} (h : i < N) :
    bitset_test N u i = some (u i) := by
  simp [bitset_test, h]

/-- A read of `m_used` at an index that is not below `N` is undefined. -/
theorem bitset_test_ge {N : Nat} (u : Nat → Bool) {i : Nat} (h : N ≤ i) :
    bitset_test N u i = none := by
  have : ¬ i < N := by omega
  simp [bitset_test, this]

/-- The loop of `next` entered below `N` stops at the first set bit above the position;
when no bit above the position is set, it goes on to read `m_used[N]`, which is
undefined. -/
theorem next_loop_spec (N : Nat) (u : Nat → Bool) :
    ∀ (d p : Nat), p + 1 + d = N →
      SPool_list_bitset.Iterator_t.next_loop N u (d + 1) p =
        ((List.range' (p + 1) d).filter fun i => u i)[0]? := by
  intro d
  induction d with
  | zero =>
    intro p hp
    have hlt : p < N := by omega
    simp [SPool_list_bitset.Iterator_t.next_loop, hlt,
      bitset_test_ge u (show N ≤ p + 1 by omega)]
  | succ d ih =>
    intro p hp
    have hlt : p < N := by omega
    rw [SPool_list_bitset.Iterator_t.next_loop]
    simp only [hlt, if_true, bitset_test_lt u (show p + 1 < N by omega), Option.bind_eq_bind,
      Option.some_bind, List.range'_succ, List.filter_cons]
    by_cases hu : u (p + 1) = true
    · simp [hu]
    · simp only [hu, Bool.false_eq_true, if_false]
      exact ih (p + 1) (by omega)

/-- Method `next` at a position below `N`: the first set bit above the position, and
undefined when there is none. -/
theorem next_spec (c : Cfg) (s : State T) {p : Nat} (hp : p < c.N) :
    SPool_list_bitset.Iterator_t.next c s p =
      ((List.range' (p + 1) (c.N - p - 1)).filter fun i => s.m_used i)[0]? := by
  have := next_loop_spec c.N s.m_used (c.N - p - 1) p (by omega)
  rw [← this, SPool_list_bitset.Iterator_t.next]
  congr 1
  omega

/-- Method `next` at a position that is not below `N` leaves the position alone. -/
theorem next_at_end (c : Cfg) (s : State T) {p : Nat} (hp : c.N ≤ p) :
    SPool_list_bitset.Iterator_t.next c s p = some p := by
  have h0 : c.N - p = 0 := by omega
  simp [SPool_list_bitset.Iterator_t.next, h0, SPool_list_bitset.Iterator_t.next_loop]

/-- One more increment after `k` increments. -/
theorem bitset_advance_succ (c : Cfg) (s : State T) :
    ∀ (k p : Nat), SPool_list_bitset.Iterator_t.advance c s (k + 1) p =
      (SPool_list_bitset.Iterator_t.advance c s k p).bind
        (SPool_list_bitset.Iterator_t.next c s) := by
  intro k
  induction k with
  | zero =>
    intro p
    simp only [SPool_list_bitset.Iterator_t.advance, Option.some_bind]
    cases SPool_list_bitset.Iterator_t.next c s p <;> rfl
  | succ k ih =>
    intro p
    rw [SPool_list_bitset.Iterator_t.advance]
    cases hn : SPool_list_bitset.Iterator_t.next c s p with
    | none => simp [SPool_list_bitset.Iterator_t.advance, hn]
    | some q =>
      rw [Option.some_bind, ih q]
      conv_rhs => rw [SPool_list_bitset.Iterator_t.advance, hn, Option.some_bind]

/-- Repeated `next` from the first set bit at or above `p` runs through the set bits from
`p` on, in rising order; the increment from the last of them is undefined. -/
theorem next_iterate (c : Cfg) (s : State T) :
    ∀ (d p start : Nat), p + d = c.N →
      ((List.range' p d).filter fun i => s.m_used i)[0]? = some start →
      ∀ k, SPool_list_bitset.Iterator_t.advance c s k start =
        ((List.range' p d).filter fun i => s.m_used i)[k]? := by
  intro d
  induction d with
  | zero =>
    intro p start _ hs
    simp at hs
  | succ d ih =>
    intro p start hp hs k
    simp only [List.range'_succ, List.filter_cons] at hs ⊢
    by_cases hu : s.m_used p = true
    · simp only [hu, if_true] at hs ⊢
      have hst : p = start := by simpa using hs
      subst hst
      cases k with
      | zero => simp [SPool_list_bitset.Iterator_t.advance]
      | succ k =>
        have hn := next_spec c s (show p < c.N by omega)
        have hd : c.N - p - 1 = d := by omega
        rw [hd] at hn
        simp only [SPool_list_bitset.Iterator_t.advance, List.getElem?_cons_succ]
        cases hL : (List.range' (p + 1) d).filter fun i => s.m_used i with
        | nil =>
          rw [hL] at hn
          simp [hn]
        | cons q l =>
          rw [hL] at hn
          have hq : ((List.range' (p + 1) d).filter fun i => s.m_used i)[0]? = some q := by
            rw [hL]
            simp
          have := ih (p + 1) q (by omega) hq k
          rw [hL] at this
          simp only [hn, List.getElem?_cons_zero, Option.some_bind]
          exact this
    · simp only [hu, Bool.false_eq_true, if_false] at hs ⊢
      exact ih (p + 1) start (by omega) hs k

/-- The loop of `prev` entered at `p` stops at the last set bit below `p`, or at `N`. -/
theorem prev_loop_spec (N : Nat) (u : Nat → Bool) :
    ∀ p : Nat, some (SPool_list_bitset.Iterator_t.prev_loop N u p) =
      ((((List.range p).filter fun i => u i).reverse) ++ [N])[0]? := by
  intro p
  induction p with
  | zero => simp [SPool_list_bitset.Iterator_t.prev_loop]
  | succ p ih =>
    rw [SPool_list_bitset.Iterator_t.prev_loop, List.range_succ, List.filter_append]
    by_cases hu : u p = true
    · simp [hu]
    · simp only [hu, Bool.false_eq_true, if_false]
      simpa [List.filter_cons, hu] using ih

/-- Repeated `prev` from the last set bit below `p` runs through the set bits below `p`
in falling order, and then stands at `N`. -/
theorem prev_iterate (N : Nat) (u : Nat → Bool) :
    ∀ (p start : Nat),
      some start = ((((List.range p).filter fun i => u i).reverse) ++ [N])[0]? →
      ∀ k, k ≤ ((List.range p).filter fun i => u i).length →
        some (Nat.iterate (SPool_list_bitset.Iterator_t.prev_loop N u) k start) =
          ((((List.range p).filter fun i => u i).reverse) ++ [N])[k]? := by
  intro p
  induction p with
  | zero =>
    intro start hs k hk
    have hk0 : k = 0 := by simpa using hk
    subst hk0
    simpa using hs
  | succ p ih =>
    intro start hs k hk
    rw [List.range_succ, List.filter_append] at hs hk ⊢
    by_cases hu : u p = true
    · simp only [List.filter_cons, hu, if_true, List.filter_nil, List.reverse_append,
        List.reverse_cons, List.reverse_nil, List.nil_append, List.singleton_append,
        List.cons_append, List.length_append, List.length_singleton] at hs hk ⊢
      have hst : start = p := by simpa using hs
      subst hst
      cases k with
      | zero => simp
      | succ k =>
        rw [Function.iterate_succ_apply]
        have := ih _ (prev_loop_spec N u start) k (by omega)
        simpa using this
    · simp only [List.filter_cons, hu, Bool.false_eq_true, if_false, List.filter_nil,
        List.append_nil] at hs hk ⊢
      exact ih start hs k hk

end bitset_iterators

section traversal
variable {T : Type}

/-- A forward sequence `F` closed by `e` against the backward one: position `k` of the
backward walk is position `length - 1 - k` of the forward walk, the backward walk meets
the first position of the forward walk after `length` steps and not before. -/
theorem walk_facts (F : List Nat) (e : Nat) (hnd : F.Nodup) (he : e ∉ F) :
    (∀ k, k < F.length → ∃ a, F.reverse[k]? = some a ∧ (F.reverse ++ [e])[k]? = some a ∧
      (F ++ [e])[F.length - 1 - k]? = some a) ∧
    (e :: (F.reverse ++ [e]))[F.length]? = (F ++ [e])[0]? ∧
    (∀ k, k < F.length → (e :: (F.reverse ++ [e]))[k]? ≠ (F ++ [e])[0]?) := by
  refine ⟨fun k hk => ?_, ?_, fun k hk => ?_⟩
  · have h1 : F.length - 1 - k < F.length := by omega
    refine ⟨F[F.length - 1 - k], ?_, ?_, ?_⟩
    · rw [List.getElem?_reverse hk, List.getElem?_eq_getElem h1]
    · rw [List.getElem?_append_left (by simpa using hk), List.getElem?_reverse hk,
        List.getElem?_eq_getElem h1]
    · rw [List.getElem?_append_left h1, List.getElem?_eq_getElem h1]
  · cases F with
    | nil => simp
    | cons a F =>
      have hlen : F.length < (a :: F).reverse.length := by simp
      simp only [List.length_cons, List.getElem?_cons_succ, List.cons_append,
        List.getElem?_cons_zero]
      rw [List.getElem?_append_left hlen, List.getElem?_reverse (by simp)]
      simp
  · cases F with
    | nil => simp at hk
    | cons a F =>
      simp only [List.cons_append, List.getElem?_cons_zero]
      cases k with
      | zero =>
        simp only [List.getElem?_cons_zero, ne_eq, Option.some.injEq]
        rintro rfl
        exact he (List.mem_cons_self _ _)
      | succ k =>
        have hk' : k < (a :: F).reverse.length := by
          simp only [List.length_reverse, List.length_cons] at hk ⊢
          omega
        have hk2 : k < (a :: F).length := by simpa using hk'
        have hi : (a :: F).length - 1 - k < (a :: F).length := by
          simp only [List.length_cons]
          omega
        rw [List.getElem?_cons_succ, List.getElem?_append_left hk',
          List.getElem?_reverse hk2, List.getElem?_eq_getElem hi]
        simp only [ne_eq, Option.some.injEq]
        intro heq
        have h0 : (a :: F)[0] = a := rfl
        rw [← h0] at heq
        have := (List.Nodup.getElem_inj_iff hnd).1 heq
        simp only [List.length_cons] at this hk
        omega

end traversal

section traversal_pool
variable {T : Type}

/-- The iterators of a doubly-linked pool: `begin()`, `k` increments from it, and `k`
decrements from `end()`, in terms of the used ring `ul`. -/
theorem Inv.dlist_walk {c : Cfg} {s : State T} {fl ul : List Nat} (h : Inv c s fl ul)
    (hd : c.impl.is_dlist = true) :
    Pool_dlist_base.begin s = some ((ul ++ [s.m_used_nodes])[0]?) ∧
    (∀ k, k ≤ ul.length →
      Pool_dlist_base.Iterator_t.advance s k ((ul ++ [s.m_used_nodes])[0]?) =
        some ((ul ++ [s.m_used_nodes])[k]?)) ∧
    (∀ k, k ≤ ul.length + 1 →
      Pool_dlist_base.Iterator_t.retreat s k (Pool_dlist_base.end s) =
        some ((s.m_used_nodes :: (ul.reverse ++ [s.m_used_nodes]))[k]?)) := by
  obtain ⟨hr, -, -⟩ := h.core.ring hd
  have hal : al s.mem s.m_used_nodes = true := by
    obtain ⟨q, -, hq⟩ := Seg.first_linked hr
    exact al_of_nx hq.1
  have hb : nx s.mem s.m_used_nodes = (ul ++ [s.m_used_nodes])[0]? := by
    rw [Seg.nx_head hr, List.head?_eq_getElem?]
  refine ⟨?_, fun k hk => ?_, fun k hk => ?_⟩
  · rw [← hb]
    obtain ⟨n, hn⟩ := al_eq_true_iff.1 hal
    simp [Pool_dlist_base.begin, nx, hn]
  · rw [← hb]
    exact Seg.advance_spec ul _ k hr hk
  · cases k with
    | zero => simp [Pool_dlist_base.Iterator_t.retreat, Pool_dlist_base.end]
    | succ k =>
      simp only [Pool_dlist_base.Iterator_t.retreat, Pool_dlist_base.end,
        decrement_of_al hal, Option.some_bind, List.getElem?_cons_succ]
      exact Seg.retreat_spec ul _ k hr (by omega)

/-- The set bits of a reachable `SPool_list_bitset` are the occupied slots. -/
theorem Inv.set_bits_spec {c : Cfg} {s : State T} {fl ul : List Nat} (h : Inv c s fl ul)
    (hb : BitsInv c s ul) (hc : c.impl = Impl.SPool_list_bitset) :
    (set_bits c s).Nodup ∧ (set_bits c s).length = s.m_size ∧
      (∀ a, a ∈ set_bits c s ↔ a ∈ ul) ∧ (set_bits c s).Perm ul ∧
      ∀ a ∈ set_bits c s, a < c.N := by
  have hnd : (set_bits c s).Nodup := (List.nodup_range c.N).filter _
  have huln : ul.Nodup := (List.nodup_append.1 h.core.nodup).2.1
  have hlt : ∀ a ∈ ul, a < c.N := fun a ha =>
    h.lt_N_of_static (bitset_is_static hc).1 (List.mem_append_right _ ha)
  have hmem : ∀ a, a ∈ set_bits c s ↔ a ∈ ul := by
    intro a
    simp only [set_bits, List.mem_filter, List.mem_range]
    constructor
    · rintro ⟨h1, h2⟩
      exact (hb hc a h1).1 h2
    · intro ha
      exact ⟨hlt a ha, (hb hc a (hlt a ha)).2 ha⟩
  have hperm : (set_bits c s).Perm ul := (List.perm_ext_iff_of_nodup hnd huln).2 hmem
  refine ⟨hnd, ?_, hmem, hperm, fun a ha => hlt a ((hmem a).1 ha)⟩
  rw [hperm.length_eq, h.size]

/-- The iterators of an `SPool_list_bitset`: `end()` is at `N`; `begin()` is defined and
stands at the first set bit, or at `N`; `k` increments from `begin()` of a pool that is
not empty stand at the set bit number `k` as long as there is one, and are undefined
from then on; `k` decrements from `end()` run through the set bits in falling order. -/
theorem Inv.bitset_walk {c : Cfg} {s : State T} {fl ul : List Nat} (h : Inv c s fl ul)
    (hb : BitsInv c s ul) (hc : c.impl = Impl.SPool_list_bitset) :
    SPool_list_bitset.end c s = c.N ∧
    (∃ b, SPool_list_bitset.begin c s = some b ∧ some b = (set_bits c s ++ [c.N])[0]?) ∧
    (∀ b, SPool_list_bitset.begin c s = some b → set_bits c s ≠ [] →
      ∀ k, SPool_list_bitset.Iterator_t.advance c s k b = (set_bits c s)[k]?) ∧
    (∀ k, k ≤ (set_bits c s).length + 1 →
      some (Nat.iterate (SPool_list_bitset.Iterator_t.prev c s) k
        (SPool_list_bitset.end c s)) = (c.N :: ((set_bits c s).reverse ++ [c.N]))[k]?) := by
  obtain ⟨-, hlen, -, -, -⟩ := h.set_bits_spec hb hc
  have hend : SPool_list_bitset.end c s = c.N := rfl
  have hB : set_bits c s = (List.range' 0 c.N).filter fun i => s.m_used i := by
    rw [set_bits, List.range_eq_range']
  have hbegin : ∃ b, SPool_list_bitset.begin c s = some b ∧
      some b = (set_bits c s ++ [c.N])[0]? := by
    by_cases hN : c.N = 0
    · exact ⟨0, by simp [SPool_list_bitset.begin, SPool_list_bitset.Iterator_t.ctor, hN],
        by simp [set_bits, hN]⟩
    · have hN' : (0 : Nat) ≠ c.N := fun e => hN e.symm
      simp only [SPool_list_bitset.begin, SPool_list_bitset.Iterator_t.ctor, hN', ne_eq,
        not_false_eq_true, if_true, SPool_list_bitset.Iterator_t.set_first_pos]
      by_cases hem : Pool_base.empty s = true
      · have : s.m_size = 0 := by simpa [Pool_base.empty, Pool_base.size] using hem
        rw [this] at hlen
        rw [List.length_eq_zero.1 hlen]
        exact ⟨c.N, by simp [hem], by simp⟩
      · simp only [hem, Bool.false_eq_true, if_false,
          bitset_test_lt s.m_used (show 0 < c.N by omega), Option.bind_eq_bind,
          Option.some_bind]
        obtain ⟨n, hn⟩ : ∃ n, c.N = n + 1 := ⟨c.N - 1, by omega⟩
        by_cases hu : s.m_used 0 = true
        · exact ⟨0, by simp [hu], by simp [hu, hB, hn, List.range'_succ, List.filter_cons]⟩
        · simp only [hu, Bool.not_false, if_true, Bool.not_eq_true]
          have hnx := next_spec c s (show 0 < c.N by omega)
          have hB' : set_bits c s = (List.range' (0 + 1) (c.N - 0 - 1)).filter
              fun i => s.m_used i := by
            rw [hB, hn]
            simp [List.range'_succ, List.filter_cons, hu]
          rw [← hB'] at hnx
          have hpos : set_bits c s ≠ [] := by
            intro e
            rw [e] at hlen
            have : s.m_size = 0 := hlen.symm
            exact hem (by simp [Pool_base.empty, Pool_base.size, this])
          cases hs : set_bits c s with
          | nil => exact absurd hs hpos
          | cons q l =>
            rw [hs] at hnx
            exact ⟨q, by rw [hnx]; simp, by simp⟩
  refine ⟨hend, hbegin, fun b hbb hne k => ?_, fun k hk => ?_⟩
  · obtain ⟨b', hb1, hb2⟩ := hbegin
    rw [hbb] at hb1
    have hbb' : b = b' := Option.some.inj hb1
    subst hbb'
    have h0 : (set_bits c s)[0]? = some b := by
      cases hs : set_bits c s with
      | nil => exact absurd hs hne
      | cons q l =>
        rw [hs] at hb2
        simpa using hb2.symm
    rw [hB] at h0 ⊢
    exact next_iterate c s c.N 0 b (by omega) h0 k
  · rw [hend]
    by_cases hem : Pool_base.empty s = true
    · have : s.m_size = 0 := by simpa [Pool_base.empty, Pool_base.size] using hem
      rw [this] at hlen
      have hnil := List.length_eq_zero.1 hlen
      rw [hnil] at hk ⊢
      have hp : SPool_list_bitset.Iterator_t.prev c s = fun _ => c.N := by
        funext p
        simp [SPool_list_bitset.Iterator_t.prev, hem]
      rw [hp]
      have hk' : k = 0 ∨ k = 1 := by
        simp only [List.length_nil] at hk
        omega
      rcases hk' with rfl | rfl <;> simp
    · have hp : SPool_list_bitset.Iterator_t.prev c s =
          SPool_list_bitset.Iterator_t.prev_loop c.N s.m_used := by
        funext p
        simp [SPool_list_bitset.Iterator_t.prev, hem]
      rw [hp]
      cases k with
      | zero => simp
      | succ k =>
        rw [Function.iterate_succ_apply, List.getElem?_cons_succ]
        exact prev_iterate c.N s.m_used c.N _ (prev_loop_spec c.N s.m_used c.N) k
          (by simpa [set_bits] using hk)

end traversal_pool

section for_each_pure
variable {T : Type}

/-- The loop of `Pool_dlist_base::for_each` with a callback that leaves the pool alone
calls it on the members of the segment, in order, and takes one iteration for each. -/
theorem Seg.for_each_loop_pure {α : Type} {s : State T} {h : Nat} (g : α → Nat → α) :
    ∀ (l : List Nat) (x : Nat) (acc : α) (fuel : Nat), Seg s.mem x l h → h ∉ l →
      Pool_dlist_base.for_each_loop (fun s acc a => some (s, g acc a)) h fuel s acc
          (nx s.mem x) =
        if l.length ≤ fuel then some (s, l.foldl g acc) else none := by
  intro l
  induction l with
  | nil =>
    intro x acc fuel hs _
    have hx : nx s.mem x = some h := hs.1
    cases fuel <;> simp [Pool_dlist_base.for_each_loop, hx]
  | cons a l ih =>
    intro x acc fuel hs hh
    obtain ⟨h1, h2⟩ := hs
    have hah : a ≠ h := fun e => hh (e ▸ List.mem_cons_self _ _)
    have hhl : h ∉ l := fun e => hh (List.mem_cons_of_mem _ e)
    rw [h1.1]
    cases fuel with
    | zero => simp [Pool_dlist_base.for_each_loop, hah]
    | succ fuel =>
      obtain ⟨q, -, hq⟩ := Seg.first_linked h2
      obtain ⟨n, hn, hnn⟩ := nx_eq_some.1 hq.1
      have hnx : n.next = nx s.mem a := by rw [hq.1, hnn]
      simp only [Pool_dlist_base.for_each_loop, Option.some.injEq, hah, if_false,
        Option.bind_eq_bind, Option.some_bind, hn, hnx, List.length_cons,
        Nat.add_le_add_iff_right, List.foldl_cons]
      exact ih a (g acc a) fuel h2 hhl

/-- The loop of `SPool_list::node_is_used` with enough fuel tells whether the node is
off the free chain. -/
theorem Chain.node_is_used {m : Mem T} (node : Nat) :
    ∀ (fl : List Nat) (p : Option Nat) (fuel : Nat), Chain m p fl → fl.length ≤ fuel →
      SPool_list.node_is_used_loop m node fuel p = some (decide (node ∉ fl)) := by
  intro fl
  induction fl with
  | nil =>
    intro p fuel hc _
    have : p = none := hc
    subst this
    cases fuel <;> simp [SPool_list.node_is_used_loop]
  | cons a fl ih =>
    intro p fuel hc hf
    obtain ⟨rfl, hal, hch⟩ := hc
    cases fuel with
    | zero => simp at hf
    | succ fuel =>
      obtain ⟨n, hn⟩ := al_eq_true_iff.1 hal
      have hnx : n.next = nx m a := by simp [nx, hn]
      by_cases hna : node = a
      · simp [SPool_list.node_is_used_loop, hna]
      · simp only [SPool_list.node_is_used_loop, hna, if_false, hn, Option.bind_eq_bind,
          Option.some_bind, hnx, List.mem_cons, false_or]
        exact ih _ fuel hch (by simpa using hf)

/-- A loop over slots that calls a callback which leaves the pool alone on the slots
passing a test calls it on the slots of the list for which the test says yes. -/
theorem foldlM_test_pure {α : Type} (s : State T) (g : α → Nat → α)
    (test : State T → Nat → Option Bool) (p : Nat → Bool) :
    ∀ (nodes : List Nat) (acc : α), (∀ a ∈ nodes, test s a = some (p a)) →
      nodes.foldlM (fun (r : State T × α) node => do
          let used ← test r.1 node
          if used then some (r.1, g r.2 node) else some r) (s, acc) =
        some (s, (nodes.filter p).foldl g acc) := by
  intro nodes
  induction nodes with
  | nil => intro acc _; rfl
  | cons a l ih =>
    intro acc ht
    have ha := ht a (List.mem_cons_self _ _)
    have hl : ∀ b ∈ l, test s b = some (p b) := fun b hb => ht b (List.mem_cons_of_mem _ hb)
    simp only [List.foldlM_cons, ha, Option.bind_eq_bind, Option.some_bind, List.filter_cons]
    cases hp : p a with
    | true => simpa using ih (g acc a) hl
    | false => simpa using ih acc hl

/-- The loop of `SPool_list_bitset::for_each` with a callback that leaves the pool alone
calls it on the slots of the list whose bit is set. -/
theorem foldlM_bits_pure {α : Type} (s : State T) (g : α → Nat → α) :
    ∀ (nodes : List Nat) (acc : α),
      nodes.foldlM (fun (r : State T × α) i =>
          if r.1.m_used i then some (r.1, g r.2 i) else some r) (s, acc) =
        some (s, (nodes.filter fun i => s.m_used i).foldl g acc) := by
  intro nodes
  induction nodes with
  | nil => intro acc; rfl
  | cons a l ih =>
    intro acc
    simp only [List.foldlM_cons, List.filter_cons]
    cases hp : s.m_used a with
    | true => simpa using ih (g acc a)
    | false => simpa using ih acc

end for_each_pure

section claims_iterators
variable {T : Type}

/-- Iteration from `begin()`: in every reachable state of a doubly-linked pool or an
`SPool_list_bitset`, `begin()` is defined, `k` increments from it are defined and stand
on a live element for every `k < size()` (the member number `k` of the used ring, or
the set bit number `k`), these elements are pairwise distinct and none of them is
`end()`, and `begin() == end()` exactly when the pool is empty.  In a doubly-linked pool
`size()` increments from `begin()` give `end()`.  In an `SPool_list_bitset` that is not
empty the increment number `size()`, the one from the last element, is undefined:
`next()` reads `m_used[N]`. -/
theorem iterate_begin_to_end {c : Cfg} {s : State T} {ul : List Nat}
    (h : Reachable c s ul) :
    (c.impl.is_dlist = true →
      ∃ b, Pool_dlist_base.begin s = some b ∧
        (∀ k, k < Pool_base.size s → ∃ a, ul[k]? = some a ∧
          Pool_dlist_base.Iterator_t.advance s k b = some (some a) ∧
          some a ≠ Pool_dlist_base.end s ∧ live s a = true) ∧
        Pool_dlist_base.Iterator_t.advance s (Pool_base.size s) b =
          some (Pool_dlist_base.end s) ∧
        ul.Nodup ∧ (b = Pool_dlist_base.end s ↔ Pool_base.empty s = true)) ∧
    (c.impl = Impl.SPool_list_bitset →
      ∃ b, SPool_list_bitset.begin c s = some b ∧
        (∀ k, k < Pool_base.size s → ∃ a, (set_bits c s)[k]? = some a ∧
          SPool_list_bitset.Iterator_t.advance c s k b = some a ∧
          a ≠ SPool_list_bitset.end c s ∧ live s a = true) ∧
        (0 < Pool_base.size s →
          SPool_list_bitset.Iterator_t.advance c s (Pool_base.size s) b = none) ∧
        (set_bits c s).Nodup ∧
        (b = SPool_list_bitset.end c s ↔ Pool_base.empty s = true)) := by
  obtain ⟨fl, hi, hb⟩ := reachable_inv h
  have hsz := hi.size
  have huln : ul.Nodup := (List.nodup_append.1 hi.core.nodup).2.1
  refine ⟨fun hd => ?_, fun hc => ?_⟩
  · obtain ⟨hbeg, hadv, -⟩ := hi.dlist_walk hd
    obtain ⟨-, hs, -⟩ := hi.core.ring hd
    have hsul : s.m_used_nodes ∉ ul := fun hx => hs (List.mem_append_right _ hx)
    refine ⟨_, hbeg, fun k hk => ?_, ?_, huln, ?_⟩
    · have hk' : k < ul.length := by simpa [Pool_base.size, hsz] using hk
      refine ⟨ul[k], List.getElem?_eq_getElem hk', ?_, ?_, ?_⟩
      · rw [hadv k (by omega), List.getElem?_append_left hk', List.getElem?_eq_getElem hk']
      · simp only [Pool_dlist_base.end, ne_eq, Option.some.injEq]
        intro he
        exact hsul (he ▸ List.getElem_mem hk')
      · exact hi.core.ul_live _ (List.getElem_mem hk')
    · rw [Pool_base.size, hsz, hadv _ (le_refl _)]
      simp [Pool_dlist_base.end]
    · simp only [Pool_dlist_base.end, Pool_base.empty, Pool_base.size, hsz, beq_iff_eq]
      cases ul with
      | nil => simp
      | cons a l =>
        simp only [List.cons_append, List.getElem?_cons_zero, Option.some.injEq,
          List.length_cons]
        constructor
        · intro he
          exact absurd (List.mem_cons_self a l) (he ▸ hsul)
        · intro he
          omega
  · obtain ⟨hnd, hlen, hmem, -, hlt⟩ := hi.set_bits_spec hb hc
    obtain ⟨hend, ⟨b, hbeg, hb0⟩, hnext, -⟩ := hi.bitset_walk hb hc
    refine ⟨b, hbeg, fun k hk => ?_, fun hpos => ?_, hnd, ?_⟩
    · have hk' : k < (set_bits c s).length := by simpa [Pool_base.size, hlen] using hk
      have ha := List.getElem_mem hk'
      have hne : set_bits c s ≠ [] := List.ne_nil_of_length_pos (by omega)
      refine ⟨(set_bits c s)[k], List.getElem?_eq_getElem hk', ?_, ?_, ?_⟩
      · rw [hnext b hbeg hne, List.getElem?_eq_getElem hk']
      · rw [hend]
        exact Nat.ne_of_lt (hlt _ ha)
      · exact hi.core.ul_live _ ((hmem _).1 ha)
    · have hne : set_bits c s ≠ [] :=
        List.ne_nil_of_length_pos (by simpa [Pool_base.size, hlen] using hpos)
      rw [hnext b hbeg hne, Pool_base.size, ← hlen]
      exact List.getElem?_eq_none (le_refl _)
    · rw [hend]
      simp only [Pool_base.empty, Pool_base.size, ← hlen, beq_iff_eq]
      cases hB : set_bits c s with
      | nil =>
        rw [hB] at hb0
        simp only [List.nil_append, List.getElem?_cons_zero, Option.some.injEq] at hb0
        simp [hb0]
      | cons a l =>
        rw [hB] at hb0
        simp only [List.cons_append, List.getElem?_cons_zero, Option.some.injEq] at hb0
        have : a < c.N := hlt a (by rw [hB]; exact List.mem_cons_self _ _)
        simp only [hb0, List.length_cons]
        constructor
        · intro he
          omega
        · intro he
          omega

/-- Claim C12: in every reachable state of a doubly-linked pool or an
`SPool_list_bitset` the traversal from `rbegin()` to `rend()` (the base iterator starts
at `end()`, is decremented once a step, and the element of a step is the one under the
decremented base) visits exactly `size()` elements: the base meets `begin()` after
`size()` decrements and not before, and the element of step `k` is the element of step
`size() - 1 - k` of the forward traversal (which `size() - 1 - k` increments from
`begin()` reach, all of them defined). -/
theorem reverse_traversal {c : Cfg} {s : State T} {ul : List Nat} (h : Reachable c s ul) :
    (c.impl.is_dlist = true →
      ∃ b, Pool_dlist_base.begin s = some b ∧
        (∀ k, k < Pool_base.size s → ∃ a, ul.reverse[k]? = some a ∧
          Pool_dlist_base.Iterator_t.retreat s (k + 1) (Pool_dlist_base.end s) =
            some (some a) ∧
          Pool_dlist_base.Iterator_t.advance s (Pool_base.size s - 1 - k) b =
            some (some a)) ∧
        Pool_dlist_base.Iterator_t.retreat s (Pool_base.size s) (Pool_dlist_base.end s) =
          some b ∧
        ∀ k, k < Pool_base.size s →
          Pool_dlist_base.Iterator_t.retreat s k (Pool_dlist_base.end s) ≠ some b) ∧
    (c.impl = Impl.SPool_list_bitset →
      ∃ b, SPool_list_bitset.begin c s = some b ∧
        (∀ k, k < Pool_base.size s → ∃ a, (set_bits c s).reverse[k]? = some a ∧
          Nat.iterate (SPool_list_bitset.Iterator_t.prev c s) (k + 1)
            (SPool_list_bitset.end c s) = a ∧
          SPool_list_bitset.Iterator_t.advance c s (Pool_base.size s - 1 - k) b = some a) ∧
        Nat.iterate (SPool_list_bitset.Iterator_t.prev c s) (Pool_base.size s)
          (SPool_list_bitset.end c s) = b ∧
        ∀ k, k < Pool_base.size s →
          Nat.iterate (SPool_list_bitset.Iterator_t.prev c s) k (SPool_list_bitset.end c s) ≠
            b) := by
  obtain ⟨fl, hi, hb⟩ := reachable_inv h
  have hsz := hi.size
  have huln : ul.Nodup := (List.nodup_append.1 hi.core.nodup).2.1
  refine ⟨fun hd => ?_, fun hc => ?_⟩
  · obtain ⟨hbeg, hadv, hret⟩ := hi.dlist_walk hd
    obtain ⟨-, hs, -⟩ := hi.core.ring hd
    have hsul : s.m_used_nodes ∉ ul := fun hx => hs (List.mem_append_right _ hx)
    obtain ⟨w1, w2, w3⟩ := walk_facts ul s.m_used_nodes huln hsul
    simp only [Pool_base.size, hsz]
    refine ⟨_, hbeg, fun k hk => ?_, ?_, fun k hk => ?_⟩
    · obtain ⟨a, e1, e2, e3⟩ := w1 k hk
      refine ⟨a, e1, ?_, ?_⟩
      · rw [hret (k + 1) (by omega), List.getElem?_cons_succ, e2]
      · rw [hadv _ (by omega), e3]
    · rw [hret _ (by omega), w2]
    · rw [hret k (by omega)]
      intro he
      exact w3 k hk (Option.some.inj he)
  · obtain ⟨hnd, hlen, hmem, -, hlt⟩ := hi.set_bits_spec hb hc
    obtain ⟨hend, ⟨b, hbeg, hb0⟩, hnext, hprev⟩ := hi.bitset_walk hb hc
    have hN : c.N ∉ set_bits c s := fun hx => Nat.lt_irrefl _ (hlt _ hx)
    obtain ⟨w1, w2, w3⟩ := walk_facts (set_bits c s) c.N hnd hN
    simp only [Pool_base.size, ← hlen]
    refine ⟨b, hbeg, fun k hk => ?_, ?_, fun k hk => ?_⟩
    · obtain ⟨a, e1, e2, e3⟩ := w1 k hk
      refine ⟨a, e1, ?_, ?_⟩
      · have := hprev (k + 1) (by omega)
        rw [List.getElem?_cons_succ, e2] at this
        exact Option.some.inj this
      · have hne : set_bits c s ≠ [] := by
          intro e
          rw [e] at hk
          simp at hk
        rw [hnext b hbeg hne, ← e3, List.getElem?_append_left (by omega)]
    · have := hprev (set_bits c s).length (by omega)
      rw [w2, ← hb0] at this
      exact Option.some.inj this
    · intro he
      have := hprev k (by omega)
      rw [he, hb0] at this
      exact w3 k hk this.symm

end claims_iterators

section claims_for_each
variable {T : Type}

/-- Method `Pool_dlist_base::for_each` with a callback that leaves the pool alone. -/
theorem Inv.dlist_for_each_pure {c : Cfg} {s : State T} {fl ul : List Nat}
    (h : Inv c s fl ul) (hd : c.impl.is_dlist = true) {α : Type} (g : α → Nat → α) (acc : α)
    (fuel : Nat) :
    Pool_dlist_base.for_each fuel (fun s acc a => some (s, g acc a)) s acc =
      if ul.length ≤ fuel then some (s, ul.foldl g acc) else none := by
  obtain ⟨hr, hs, -⟩ := h.core.ring hd
  obtain ⟨q, -, hq⟩ := Seg.first_linked hr
  obtain ⟨n, hn, hnn⟩ := nx_eq_some.1 hq.1
  have hnx : n.next = nx s.mem s.m_used_nodes := by rw [hq.1, hnn]
  simp only [Pool_dlist_base.for_each, hn, Option.bind_eq_bind, Option.some_bind, hnx]
  exact Seg.for_each_loop_pure g ul _ acc fuel hr (fun hx => hs (List.mem_append_right _ hx))

/-- Method `SPool_list::for_each` with a callback that leaves the pool alone. -/
theorem Inv.spool_list_for_each_pure {c : Cfg} {s : State T} {fl ul : List Nat}
    (h : Inv c s fl ul) (hc : c.impl = Impl.SPool_list) {α : Type} (g : α → Nat → α)
    (acc : α) {fuel : Nat} (hf : fl.length ≤ fuel) :
    SPool_list.for_each c fuel (fun s acc a => some (s, g acc a)) s acc =
      some (s, ((array_nodes 0 c.N).filter fun a => decide (a ∉ fl)).foldl g acc) := by
  have hst : c.impl.is_static = true := by rw [hc]; rfl
  have hsz := h.size
  have hcap := h.cap
  simp only [capacity, hst, if_true] at hcap
  have hperm := h.slots_perm (Or.inl hst)
  simp only [slots, hst, if_true] at hperm
  unfold SPool_list.for_each
  by_cases hem : Pool_base.empty s = true
  · have h0 : s.m_size = 0 := by simpa [Pool_base.empty, Pool_base.size] using hem
    have hul : ul = [] := List.length_eq_zero.1 (by omega)
    subst hul
    have hnil : ((array_nodes 0 c.N).filter fun a => decide (a ∉ fl)) = [] := by
      rw [List.filter_eq_nil_iff]
      intro a ha
      have : a ∈ fl := by simpa using hperm.symm.subset ha
      simp [this]
    rw [hnil]
    simp [hem]
  · simp only [hem, Bool.false_eq_true, if_false]
    by_cases hfull : Pool_base.full c s = true
    · have hN : s.m_size = c.N := by
        simpa [Pool_base.full, Pool_base.size, capacity, hst] using hfull
      have hfl : fl = [] := List.length_eq_zero.1 (by omega)
      subst hfl
      simp only [hfull, if_true, List.not_mem_nil, not_false_eq_true, decide_True,
        List.filter_true]
      generalize array_nodes 0 c.N = nodes
      induction nodes generalizing acc with
      | nil => rfl
      | cons a l ih => simpa using ih (g acc a)
    · simp only [hfull, Bool.false_eq_true, if_false]
      exact foldlM_test_pure s g (fun r node => SPool_list.node_is_used fuel r node)
        (fun a => decide (a ∉ fl)) _ acc
        (fun a _ => Chain.node_is_used a fl _ fuel h.core.chain hf)

/-- Method `SPool_list_bitset::for_each` with a callback that leaves the pool alone. -/
theorem Inv.bitset_for_each_pure {c : Cfg} {s : State T} {fl ul : List Nat}
    (h : Inv c s fl ul) (hb : BitsInv c s ul) (hc : c.impl = Impl.SPool_list_bitset)
    {α : Type} (g : α → Nat → α) (acc : α) :
    SPool_list_bitset.for_each c (fun s acc a => some (s, g acc a)) s acc =
      some (s, (set_bits c s).foldl g acc) := by
  obtain ⟨-, hlen, -, -, -⟩ := h.set_bits_spec hb hc
  unfold SPool_list_bitset.for_each
  by_cases hem : Pool_base.empty s = true
  · have h0 : s.m_size = 0 := by simpa [Pool_base.empty, Pool_base.size] using hem
    rw [h0] at hlen
    simp [hem, List.length_eq_zero.1 hlen]
  · simp only [hem, Bool.false_eq_true, if_false]
    exact foldlM_bits_pure s g _ acc

/-- Claim C13: in every reachable state of an `SPool_list`, an `SPool_list_bitset` or a
doubly-linked pool, `for_each(f)` with a callback that leaves the pool alone returns
and has called `f` on the slots of a list `L` that holds every live reference exactly
once and no slot of the free chain; the number of calls is `size()`. -/
theorem for_each_visits_live {c : Cfg} {s : State T} {ul : List Nat} (h : Reachable c s ul)
    (h1 : c.impl ≠ Impl.Pool_list) (h2 : c.impl ≠ Impl.Pool_list_block) :
    ∃ L : List Nat, L.Perm ul ∧ L.Nodup ∧ L.length = Pool_base.size s ∧
      (∀ a ∈ L, live s a = true) ∧ (∀ fl, FreeChain s fl → ∀ a ∈ L, a ∉ fl) ∧
      ∀ (α : Type) (g : α → Nat → α) (acc : α) (fuel : Nat), capacity c s ≤ fuel →
        for_each c fuel (fun s acc a => some (s, g acc a)) s acc =
          some (s, L.foldl g acc) := by
  obtain ⟨fl, hi, hb⟩ := reachable_inv h
  have hsz := hi.size
  have hcap := hi.cap
  have hnd := List.nodup_append.1 hi.core.nodup
  have key : ∀ L : List Nat, L.Perm ul →
      (∀ (α : Type) (g : α → Nat → α) (acc : α) (fuel : Nat), capacity c s ≤ fuel →
        for_each c fuel (fun s acc a => some (s, g acc a)) s acc =
          some (s, L.foldl g acc)) →
      ∃ L : List Nat, L.Perm ul ∧ L.Nodup ∧ L.length = Pool_base.size s ∧
        (∀ a ∈ L, live s a = true) ∧ (∀ fl, FreeChain s fl → ∀ a ∈ L, a ∉ fl) ∧
        ∀ (α : Type) (g : α → Nat → α) (acc : α) (fuel : Nat), capacity c s ≤ fuel →
          for_each c fuel (fun s acc a => some (s, g acc a)) s acc =
            some (s, L.foldl g acc) := by
    intro L hp hfe
    refine ⟨L, hp, hp.nodup_iff.2 hnd.2.1, by rw [hp.length_eq, Pool_base.size, hsz],
      fun a ha => hi.core.ul_live a (hp.subset ha), fun fl' hfl' a ha hf => ?_, hfe⟩
    have : fl' = fl := Chain.unique hfl' hi.core.chain
    subst this
    exact hnd.2.2 hf (hp.subset ha)
  have hdl : c.impl.is_dlist = true →
      (∀ (α : Type) (g : α → Nat → α) (acc : α) (fuel : Nat),
        for_each c fuel (fun s acc a => some (s, g acc a)) s acc =
          Pool_dlist_base.for_each fuel (fun s acc a => some (s, g acc a)) s acc) →
      ∃ L : List Nat, L.Perm ul ∧ L.Nodup ∧ L.length = Pool_base.size s ∧
        (∀ a ∈ L, live s a = true) ∧ (∀ fl, FreeChain s fl → ∀ a ∈ L, a ∉ fl) ∧
        ∀ (α : Type) (g : α → Nat → α) (acc : α) (fuel : Nat), capacity c s ≤ fuel →
          for_each c fuel (fun s acc a => some (s, g acc a)) s acc =
            some (s, L.foldl g acc) := by
    intro hd he
    refine key ul (List.Perm.refl _) fun α g acc fuel hf => ?_
    have hle : ul.length ≤ fuel := by omega
    rw [he, hi.dlist_for_each_pure hd g acc fuel, if_pos hle]
  cases hc : c.impl with
  | SPool_list =>
    have hst : c.impl.is_static = true := by rw [hc]; rfl
    have hperm := hi.slots_perm (Or.inl hst)
    simp only [slots, hst, if_true] at hperm
    refine key ((array_nodes 0 c.N).filter fun a => decide (a ∉ fl)) ?_ ?_
    · refine (List.perm_ext_iff_of_nodup ((hperm.nodup_iff.1 hi.core.nodup).filter _)
        hnd.2.1).2 fun a => ?_
      simp only [List.mem_filter, decide_eq_true_eq]
      constructor
      · rintro ⟨ha, hf⟩
        rcases List.mem_append.1 (hperm.symm.subset ha) with hx | hx
        · exact absurd hx hf
        · exact hx
      · intro ha
        exact ⟨hperm.subset (List.mem_append_right _ ha), fun hf => hnd.2.2 hf ha⟩
    · intro α g acc fuel hf
      have hle : fl.length ≤ fuel := by omega
      have := hi.spool_list_for_each_pure hc g acc hle
      simpa [for_each, hc] using this
  | SPool_list_bitset =>
    obtain ⟨-, -, -, hperm, -⟩ := hi.set_bits_spec hb hc
    refine key (set_bits c s) hperm fun α g acc fuel _ => ?_
    have := hi.bitset_for_each_pure hb hc g acc
    simpa [for_each, hc] using this
  | SPool_dlist =>
    exact hdl (by rw [hc]; rfl) fun α g acc fuel => by simp [for_each, hc]
  | Pool_dlist =>
    exact hdl (by rw [hc]; rfl) fun α g acc fuel => by simp [for_each, hc]
  | Pool_dlist_block =>
    exact hdl (by rw [hc]; rfl) fun α g acc fuel => by simp [for_each, hc]
  | Pool_list => exact absurd hc h1
  | Pool_list_block => exact absurd hc h2

end claims_for_each

section destroy_all_forward
variable {T : Type}

/-- A loop over distinct slots whose step destroys the occupied slot it is given (and,
when `skip` holds, leaves the pool alone on a slot of the free chain) returns, with
exactly the occupied slots of the list destroyed. -/
theorem Inv.destroy_fold_exact {c : Cfg} (hdl : c.impl.is_dlist = false) (skip : Prop)
    (K : Nat) (step : State T × Unit → Nat → Option (State T × Unit))
    (hstep : ∀ (s : State T) (fl ul : List Nat) (a : Nat), Inv c s fl ul → fl.length ≤ K →
      a ∈ ul → step (s, ()) a = (Pool_list_base.destroy_obj s a).map fun s => (s, ()))
    (hskip : skip → ∀ (s : State T) (fl ul : List Nat) (a : Nat), Inv c s fl ul →
      fl.length ≤ K → a ∈ fl → step (s, ()) a = some (s, ())) :
    ∀ (nodes : List Nat) (s : State T) (fl ul : List Nat), Inv c s fl ul → nodes.Nodup →
      (∀ a ∈ nodes, (skip ∧ a ∈ fl) ∨ a ∈ ul) → fl.length + ul.length ≤ K →
      ∃ sf fl', nodes.foldlM step (s, ()) = some (sf, ()) ∧
        Inv c sf fl' (ul.filter fun b => decide (b ∉ nodes)) ∧ sf.m_used = s.m_used ∧
        sf.m_capacity = s.m_capacity ∧ sf.m_used_nodes = s.m_used_nodes ∧
        sf.m_blocks = s.m_blocks ∧
        (∀ b, dt sf.mem b = if b ∈ ul ∧ b ∈ nodes then none else dt s.mem b) := by
  intro nodes
  induction nodes with
  | nil =>
    intro s fl ul h _ _ _
    exact ⟨s, fl, rfl, by simpa using h, rfl, rfl, rfl, rfl, by simp⟩
  | cons a l ih =>
    intro s fl ul h hnd hmem hK
    obtain ⟨hal, hndl⟩ := List.nodup_cons.1 hnd
    have huln : ul.Nodup := (List.nodup_append.1 h.core.nodup).2.1
    rcases hmem a (List.mem_cons_self _ _) with ⟨hsk, haf⟩ | ha
    · have hau : a ∉ ul := fun hx => (List.nodup_append.1 h.core.nodup).2.2 haf hx
      obtain ⟨sf, fl', e2, i2, u2, c2, n2, b2, d2⟩ := ih s fl ul h hndl
        (fun b hb => hmem b (List.mem_cons_of_mem _ hb)) (by omega)
      refine ⟨sf, fl', ?_, ?_, u2, c2, n2, b2, ?_⟩
      · simp only [List.foldlM_cons, hskip hsk s fl ul a h (by omega) haf,
          Option.bind_eq_bind, Option.some_bind]
        exact e2
      · have : ul.filter (fun b => decide (b ∉ l)) =
            ul.filter (fun b => decide (b ∉ a :: l)) := by
          refine List.filter_congr fun b hb => ?_
          have hba : b ≠ a := fun e => hau (e ▸ hb)
          simp [hba]
        rw [← this]; exact i2
      · intro b
        rw [d2 b]
        by_cases hba : b = a
        · subst hba; simp [hau]
        · simp [hba]
    · obtain ⟨m', e, a1, d1, i1⟩ := h.of_destroy_obj ha
      have e' : Pool_list_base.destroy_obj s a =
          some { s with m_size := s.m_size - 1, mem := m', m_free_nodes := some a } := by
        simpa [destroy_obj, hdl] using e
      obtain ⟨sf, fl', e2, i2, u2, c2, n2, b2, d2⟩ := ih _ _ _ i1 hndl (fun b hb => by
        have hba : b ≠ a := fun e => hal (e ▸ hb)
        rcases hmem b (List.mem_cons_of_mem _ hb) with ⟨hsk, hbf⟩ | hbu
        · exact Or.inl ⟨hsk, List.mem_cons_of_mem _ hbf⟩
        · exact Or.inr ((List.mem_erase_of_ne hba).2 hbu))
        (by
          have := List.length_erase_of_mem ha
          have := List.length_pos_of_mem ha
          simp only [List.length_cons]
          omega)
      refine ⟨sf, fl', ?_, ?_, u2, c2, n2, b2, ?_⟩
      · simp only [List.foldlM_cons, hstep s fl ul a h (by omega) ha, e', Option.map_some',
          Option.bind_eq_bind, Option.some_bind]
        exact e2
      · have : (ul.erase a).filter (fun b => decide (b ∉ l)) =
            ul.filter (fun b => decide (b ∉ a :: l)) := by
          rw [huln.erase_eq_filter, List.filter_filter]
          refine List.filter_congr fun b _ => ?_
          by_cases hba : b = a <;> simp [hba]
        rw [← this]; exact i2
      · intro b
        rw [d2 b]
        show (if b ∈ ul.erase a ∧ b ∈ l then none else dt m' b) = _
        rw [d1]
        by_cases hba : b = a
        · subst hba; simp [ha, hal]
        · simp [hba, Function.update_noteq hba, List.mem_erase_of_ne hba]

/-- Method `SPool_list::destroy_all` with fuel for the walks of `node_is_used` returns
and destroys every element. -/
theorem Inv.spool_list_destroy_all_exact {c : Cfg} {s : State T} {fl ul : List Nat}
    (h : Inv c s fl ul) (hc : c.impl = Impl.SPool_list) {fuel : Nat} (hf : c.N ≤ fuel) :
    ∃ sf fl', SPool_list.destroy_all c fuel s = some sf ∧ Inv c sf fl' [] ∧
      sf.m_used = s.m_used ∧ sf.m_capacity = s.m_capacity ∧
      sf.m_used_nodes = s.m_used_nodes ∧ sf.m_blocks = s.m_blocks ∧
      (∀ b, dt sf.mem b = if b ∈ ul then none else dt s.mem b) := by
  have hst : c.impl.is_static = true := by rw [hc]; rfl
  have hdl : c.impl.is_dlist = false := by rw [hc]; rfl
  have hsz := h.size
  have hcap := h.cap
  simp only [capacity, hst, if_true] at hcap
  have hperm := h.slots_perm (Or.inl hst)
  simp only [slots, hst, if_true] at hperm
  have hnd : (array_nodes 0 c.N).Nodup := hperm.nodup_iff.1 h.core.nodup
  have hlenN : (array_nodes 0 c.N).length = c.N := by simp [array_nodes]
  have hall : ∀ b ∈ ul, b ∈ array_nodes 0 c.N := fun b hb =>
    hperm.subset (List.mem_append_right _ hb)
  have hnil : (ul.filter fun b => decide (b ∉ array_nodes 0 c.N)) = [] := by
    rw [List.filter_eq_nil_iff]
    intro b hb; simp [hall b hb]
  have hdt : ∀ (sf : State T),
      (∀ b, dt sf.mem b = if b ∈ ul ∧ b ∈ array_nodes 0 c.N then none else dt s.mem b) →
      ∀ b, dt sf.mem b = if b ∈ ul then none else dt s.mem b := by
    intro sf d b
    rw [d b]
    by_cases hbu : b ∈ ul
    · simp [hbu, hall b hbu]
    · simp [hbu]
  unfold SPool_list.destroy_all SPool_list.for_each
  by_cases hem : Pool_base.empty s = true
  · have h0 : s.m_size = 0 := by simpa [Pool_base.empty, Pool_base.size] using hem
    have hul : ul = [] := List.length_eq_zero.1 (by omega)
    subst hul
    exact ⟨s, fl, by simp [hem], h, rfl, rfl, rfl, rfl, by simp⟩
  · simp only [hem, Bool.false_eq_true, if_false]
    by_cases hfull : Pool_base.full c s = true
    · have hN : s.m_size = c.N := by
        simpa [Pool_base.full, Pool_base.size, capacity, hst] using hfull
      have hfl : fl = [] := List.length_eq_zero.1 (by omega)
      subst hfl
      obtain ⟨sf, fl', e, i, u, cp, n, b, d⟩ := Inv.destroy_fold_exact hdl False c.N
        (fun (r : State T × Unit) node =>
          (Pool_list_base.destroy_obj r.1 node).map fun s => (s, ()))
        (fun _ _ _ _ _ _ _ => rfl) (fun hx => hx.elim) (array_nodes 0 c.N) s [] ul h hnd
        (fun a ha => Or.inr (by simpa using hperm.symm.subset ha))
        (by simp only [List.length_nil]; omega)
      rw [hnil] at i
      refine ⟨sf, fl', ?_, i, u, cp, n, b, hdt sf d⟩
      simp only [hfull, if_true, e, Option.map_some']
    · simp only [hfull, Bool.false_eq_true, if_false]
      obtain ⟨sf, fl', e, i, u, cp, n, b, d⟩ := Inv.destroy_fold_exact hdl True fuel
        (fun (r : State T × Unit) node => do
          let used ← SPool_list.node_is_used fuel r.1 node
          if used then (Pool_list_base.destroy_obj r.1 node).map fun s => (s, ())
          else some r)
        (fun s' fl' ul' a hi hK ha => by
          have hnf : a ∉ fl' := fun hx => (List.nodup_append.1 hi.core.nodup).2.2 hx ha
          have := Chain.node_is_used a fl' _ fuel hi.core.chain hK
          simp only [SPool_list.node_is_used, this, hnf, not_false_eq_true, decide_True,
            Option.bind_eq_bind, Option.some_bind, if_true])
        (fun _ s' fl' ul' a hi hK ha => by
          have := Chain.node_is_used a fl' _ fuel hi.core.chain hK
          simp [SPool_list.node_is_used, this, ha])
        (array_nodes 0 c.N) s fl ul h hnd
        (fun a ha => by
          rcases List.mem_append.1 (hperm.symm.subset ha) with hx | hx
          · exact Or.inl ⟨trivial, hx⟩
          · exact Or.inr hx)
        (by omega)
      rw [hnil] at i
      refine ⟨sf, fl', ?_, i, u, cp, n, b, hdt sf d⟩
      simp only [e, Option.map_some']

end destroy_all_forward

section destroy_all_exact
variable {T : Type}

/-- Method `Pool_dlist_base::destroy_all` on an empty used ring changes nothing. -/
theorem dlist_destroy_all_empty {s : State T} (h : RingEmpty s) (fuel : Nat) :
    Pool_dlist_base.destroy_all fuel s = some s := by
  obtain ⟨n, hn, hnn⟩ := nx_eq_some.1 h.1.1
  cases fuel <;>
    simp [Pool_dlist_base.destroy_all, Pool_dlist_base.for_each,
      Pool_dlist_base.for_each_loop, hn, hnn]

theorem destroy_all_dlist_eq {c : Cfg} (hd : c.impl.is_dlist = true) (fuel : Nat)
    (s : State T) : destroy_all c fuel s = Pool_dlist_base.destroy_all fuel s := by
  cases hc : c.impl <;> simp_all [destroy_all, Impl.is_dlist]

theorem bitset_reset_idem (N : Nat) (u : Nat → Bool) :
    bitset_reset N (bitset_reset N u) = bitset_reset N u := by
  funext i
  simp only [bitset_reset]
  split <;> rfl

/-- Method `destroy_all` of the classes that offer it, with fuel for its loops: it
returns, every element is destroyed, every slot is on the free chain, and a second call
changes nothing. -/
theorem Inv.destroy_all_exact {c : Cfg} {s : State T} {fl ul : List Nat} (h : Inv c s fl ul)
    (hb : BitsInv c s ul) (h1 : c.impl ≠ Impl.Pool_list) (h2 : c.impl ≠ Impl.Pool_list_block)
    {fuel : Nat} (hf : capacity c s ≤ fuel) :
    ∃ sf fl', destroy_all c fuel s = some sf ∧ Inv c sf fl' [] ∧ BitsInv c sf [] ∧
      capacity c sf = capacity c s ∧
      (c.impl.is_dlist = true → sf.m_used_nodes = s.m_used_nodes) ∧
      (∀ b, dt sf.mem b = if b ∈ ul then none else dt s.mem b) ∧
      (∀ a, a ∈ fl' ↔ a ∈ fl ∨ a ∈ ul) ∧
      (c.impl = Impl.SPool_list_bitset → ∀ i, i < c.N → sf.m_used i = false) ∧
      ∀ fuel2, destroy_all c fuel2 sf = some sf := by
  have hcap := h.cap
  have hstat : c.impl.is_static = true → ∀ (sf : State T) (fl' : List Nat), Inv c sf fl' [] →
      capacity c sf = capacity c s ∧ ∀ a, a ∈ fl' ↔ a ∈ fl ∨ a ∈ ul := by
    intro hst sf fl' i
    have p1 := h.slots_perm (Or.inl hst)
    have p2 := i.slots_perm (Or.inl hst)
    simp only [slots, hst, if_true, List.append_nil] at p1 p2
    refine ⟨by simp [capacity, hst], fun a => ?_⟩
    rw [← List.mem_append]
    exact (p2.trans p1.symm).mem_iff
  have hcases : c.impl = Impl.SPool_list ∨ c.impl = Impl.SPool_list_bitset ∨
      c.impl.is_dlist = true := by
    cases hc : c.impl <;> simp_all [Impl.is_dlist]
  rcases hcases with hc | hc | hd
  · have hst : c.impl.is_static = true := by rw [hc]; rfl
    have hN : c.N ≤ fuel := by simpa [capacity, hst] using hf
    obtain ⟨sf, fl', e, i, -, -, n, -, d⟩ := h.spool_list_destroy_all_exact hc hN
    obtain ⟨q1, q2⟩ := hstat hst sf fl' i
    refine ⟨sf, fl', by simpa [destroy_all, hc] using e, i, fun hx => ?_, q1, fun _ => n, d,
      q2, fun hx => ?_, fun f2 => ?_⟩
    · rw [hc] at hx; cases hx
    · rw [hc] at hx; cases hx
    · have h0 : sf.m_size = 0 := i.size
      have hem : Pool_base.empty sf = true := by simp [Pool_base.empty, Pool_base.size, h0]
      simp only [destroy_all, hc, SPool_list.destroy_all, SPool_list.for_each, hem, if_true,
        Option.map_some']
  · have hst : c.impl.is_static = true := by rw [hc]; rfl
    obtain ⟨sf, fl', e, i, b, -, d, u⟩ := h.bitset_destroy_all hb hc
    obtain ⟨q1, q2⟩ := hstat hst sf fl' i
    refine ⟨sf, fl', by simpa [destroy_all, hc] using e, i, b, q1, fun hx => ?_, d, q2,
      fun _ j hj => ?_, fun f2 => ?_⟩
    · rw [hc] at hx; cases hx
    · rw [u]
      simp [bitset_reset, hj]
    · have h0 : sf.m_size = 0 := i.size
      have hem : Pool_base.empty sf = true := by simp [Pool_base.empty, Pool_base.size, h0]
      have hu : bitset_reset c.N sf.m_used = sf.m_used := by
        rw [u, bitset_reset_idem]
      simp only [destroy_all, hc, SPool_list_bitset.destroy_all, SPool_list_bitset.for_each,
        hem, if_true, Option.map_some', hu]
  · have he : ∀ (f : Nat) (x : State T),
        destroy_all c f x = Pool_dlist_base.destroy_all f x := fun f x =>
      destroy_all_dlist_eq hd f x
    obtain ⟨sf, i, -, d, n, cp, -, -, e⟩ := h.dlist_destroy_all hd
    have hle : ul.length ≤ fuel := by
      have : ul.length ≤ capacity c s := by omega
      omega
    refine ⟨sf, _, by rw [he, e, if_pos hle], i, ?_, ?_, fun _ => n, d, ?_, ?_, fun f2 => ?_⟩
    · intro hc
      rw [hc] at hd
      cases hd
    · simp only [capacity, cp]
    · intro a
      simp only [List.mem_append, List.mem_reverse]
      exact or_comm
    · intro hc
      rw [hc] at hd
      cases hd
    · rw [he]
      exact dlist_destroy_all_empty (i.ring_empty hd) f2

end destroy_all_exact

section claims_destroy_all
variable {T : Type}

/-- As many calls of `create` as the free chain has slots all return a reference, and
none of them changes the capacity. -/
theorem Inv.creates_defined {c : Cfg} :
    ∀ (vs : List (T × Option Nat)) (s : State T) (fl ul : List Nat), Inv c s fl ul →
      BitsInv c s ul → vs.length ≤ fl.length →
      ∃ s', creates c vs s = some s' ∧ Pool_base.size s' = Pool_base.size s + vs.length ∧
        capacity c s' = capacity c s := by
  intro vs
  induction vs with
  | nil =>
    intro s fl ul _ _ _
    exact ⟨s, rfl, rfl, rfl⟩
  | cons va vs ih =>
    intro s fl ul h hb hlen
    obtain ⟨v, a⟩ := va
    cases fl with
    | nil => simp at hlen
    | cons x fl2 =>
      have hg : grows c s = false := by
        rcases Bool.eq_false_or_eq_true (grows c s) with hg | hg
        · exact absurd (h.grows_nil hg) (List.cons_ne_nil _ _)
        · exact hg
      obtain ⟨s1, e, i1, b1, -, z1, c1, -⟩ :=
        (h.create_no_growth hb v (a := a) (Or.inl hg)).2 x fl2 rfl
      obtain ⟨s', e', z', c'⟩ := ih s1 fl2 _ i1 b1 (by simpa using hlen)
      refine ⟨s', by simp only [creates, e, e'], ?_, ?_⟩
      · rw [z']
        simp only [Pool_base.size, z1, List.length_cons]
        omega
      · rw [c']
        simp only [capacity, c1]

/-- Claim C14: in every reachable state of an `SPool_list`, an `SPool_list_bitset` or a
doubly-linked pool, `destroy_all()` returns and leaves `size() == 0` with the capacity
unchanged: no slot holds an element, the used ring is empty, every occupancy bit is
clear, the free chain holds exactly the slots that were free or occupied before
(`capacity()` of them), and `capacity()` calls of `create` after it all succeed. -/
theorem destroy_all_empties {c : Cfg} {s : State T} {ul : List Nat} (h : Reachable c s ul)
    (h1 : c.impl ≠ Impl.Pool_list) (h2 : c.impl ≠ Impl.Pool_list_block) {fuel : Nat}
    (hf : capacity c s ≤ fuel) :
    ∃ s' fl', destroy_all c fuel s = some s' ∧ Pool_base.size s' = 0 ∧
      capacity c s' = capacity c s ∧ (∀ a, live s' a = false) ∧
      (c.impl.is_dlist = true → UsedRing s' [] ∧ s'.m_used_nodes = s.m_used_nodes) ∧
      (c.impl = Impl.SPool_list_bitset → ∀ i, i < c.N → s'.m_used i = false) ∧
      FreeChain s' fl' ∧ fl'.Nodup ∧ fl'.length = capacity c s ∧
      (∀ fl, FreeChain s fl → ∀ a, a ∈ fl' ↔ a ∈ fl ∨ a ∈ ul) ∧
      ∀ vs : List (T × Option Nat), vs.length = capacity c s →
        ∃ s'', creates c vs s' = some s'' ∧ Pool_base.size s'' = capacity c s ∧
          capacity c s'' = capacity c s := by
  obtain ⟨fl, hi, hb⟩ := reachable_inv h
  obtain ⟨sf, fl', e, i, b, cp, n, d, m, u, -⟩ := hi.destroy_all_exact hb h1 h2 hf
  have hlen : fl'.length = capacity c s := by
    have := i.cap
    simp only [List.length_nil, Nat.add_zero] at this
    rw [← this, cp]
  refine ⟨sf, fl', e, i.size, cp, fun a => ?_, fun hd => ⟨(i.core.ring hd).1, n hd⟩, u,
    i.core.chain, (List.nodup_append.1 i.core.nodup).1, hlen, fun fl0 hfl0 a => ?_,
    fun vs hvs => ?_⟩
  · cases hl : live sf a with
    | false => rfl
    | true => exact absurd (i.mem_ul_of_live hl) (List.not_mem_nil _)
  · have : fl0 = fl := Chain.unique hfl0 hi.core.chain
    subst this
    exact m a
  · obtain ⟨s'', e', z, c'⟩ := Inv.creates_defined vs sf fl' [] i b (by omega)
    refine ⟨s'', e', ?_, by rw [c', cp]⟩
    rw [z, hvs]
    have : Pool_base.size sf = 0 := i.size
    omega

/-- Claim C15: in every reachable state of an `SPool_list`, an `SPool_list_bitset` or a
doubly-linked pool, `destroy_all()` returns a state on which a second `destroy_all()`
returns the very same state: size, capacity, free chain and used set are those after
the first call. -/
theorem destroy_all_idempotent {c : Cfg} {s : State T} {ul : List Nat}
    (h : Reachable c s ul) (h1 : c.impl ≠ Impl.Pool_list)
    (h2 : c.impl ≠ Impl.Pool_list_block) {fuel : Nat} (hf : capacity c s ≤ fuel) :
    ∃ s', destroy_all c fuel s = some s' ∧ Pool_base.size s' = 0 ∧
      ∀ fuel2, destroy_all c fuel2 s' = some s' := by
  obtain ⟨fl, hi, hb⟩ := reachable_inv h
  obtain ⟨sf, fl', e, i, -, -, -, -, -, -, idem⟩ := hi.destroy_all_exact hb h1 h2 hf
  exact ⟨sf, e, i.size, idem⟩

end claims_destroy_all

section destroy_iter_exact
variable {T : Type}

theorem BitsInv.of_dlist {c : Cfg} (hd : c.impl.is_dlist = true) (s : State T)
    (ul : List Nat) : BitsInv c s ul := by
  intro hc
  rw [hc] at hd
  cases hd

theorem erase_middle {l1 l2 : List Nat} {a : Nat} (h : (l1 ++ a :: l2).Nodup) :
    (l1 ++ a :: l2).erase a = l1 ++ l2 := by
  have ha : a ∉ l1 := fun hx =>
    (List.nodup_append.1 h).2.2 hx (List.mem_cons_self _ _)
  rw [List.erase_append_right _ ha, List.erase_cons_head]

/-- Method `Pool_dlist_base::destroy(const_iterator)` at the member `a` of the used
ring: it returns the iterator to the member after `a`, or `end()`, and destroys `a`. -/
theorem Inv.dlist_destroy_pos {c : Cfg} (hd : c.impl.is_dlist = true) {s : State T}
    {fl l1 l2 : List Nat} {a : Nat} (h : Inv c s fl (l1 ++ a :: l2)) :
    ∃ s', Pool_dlist_base.destroy_pos s (some a) =
        some ((l2 ++ [s.m_used_nodes])[0]?, s') ∧
      Inv c s' (a :: fl) (l1 ++ l2) ∧ dt s'.mem = Function.update (dt s.mem) a none ∧
      s'.m_size + 1 = s.m_size ∧ s'.m_capacity = s.m_capacity ∧
      s'.m_used_nodes = s.m_used_nodes := by
  have hnd := (List.nodup_append.1 h.core.nodup).2.1
  have ha : a ∈ l1 ++ a :: l2 := List.mem_append_right _ (List.mem_cons_self _ _)
  obtain ⟨hr, -, -⟩ := h.core.ring hd
  obtain ⟨-, h2⟩ := Seg.append.1 hr
  have hnx : nx s.mem a = (l2 ++ [s.m_used_nodes])[0]? := by
    rw [Seg.nx_head h2, List.head?_eq_getElem?]
  obtain ⟨s', e, i, -, -, d, z, cp, n, -⟩ := h.of_destroy (BitsInv.of_dlist hd s _) ha
  rw [erase_middle hnd] at i
  have hal : al s.mem a = true := h.core.al_ul a ha
  obtain ⟨nd, hn⟩ := al_eq_true_iff.1 hal
  have hnn : nd.next = nx s.mem a := by simp [nx, hn]
  have hpos : 0 < s.m_size := by
    rw [h.size]
    exact List.length_pos_of_mem ha
  refine ⟨s', ?_, i, d, by omega, cp, n⟩
  rw [← dlist_destroy_eq hd] at e
  simp only [Pool_dlist_base.destroy_pos, Option.bind_eq_bind, Option.some_bind, hn, e, hnn,
    hnx]

/-- The loop of `Pool_dlist_base::destroy(first, last)` over the stretch `l2` of the used
ring `l1 ++ l2 ++ l3`: it takes one iteration for each member of `l2` and destroys
exactly these. -/
theorem Inv.dlist_destroy_range_exact {c : Cfg} (hd : c.impl.is_dlist = true)
    (l1 l3 : List Nat) :
    ∀ (l2 : List Nat) (s : State T) (fl : List Nat), Inv c s fl (l1 ++ l2 ++ l3) →
      ∃ s', (∀ fuel, Pool_dlist_base.destroy_range_loop ((l3 ++ [s.m_used_nodes])[0]?) fuel s
            ((l2 ++ l3 ++ [s.m_used_nodes])[0]?) =
          if l2.length ≤ fuel then some s' else none) ∧
        Inv c s' (l2.reverse ++ fl) (l1 ++ l3) ∧
        (∀ b, dt s'.mem b = if b ∈ l2 then none else dt s.mem b) ∧
        s'.m_size + l2.length = s.m_size ∧ s'.m_capacity = s.m_capacity ∧
        s'.m_used_nodes = s.m_used_nodes := by
  intro l2
  induction l2 with
  | nil =>
    intro s fl h
    refine ⟨s, fun fuel => ?_, by simpa using h, by simp, rfl, rfl, rfl⟩
    cases fuel <;> simp [Pool_dlist_base.destroy_range_loop]
  | cons a l2 ih =>
    intro s fl h
    have h' : Inv c s fl (l1 ++ a :: (l2 ++ l3)) := by simpa using h
    have hnd := (List.nodup_append.1 h'.core.nodup).2.1
    obtain ⟨-, hs, -⟩ := h'.core.ring hd
    obtain ⟨s1, e1, i1, d1, z1, c1, n1⟩ := h'.dlist_destroy_pos hd
    have i1' : Inv c s1 (a :: fl) (l1 ++ l2 ++ l3) := by simpa using i1
    obtain ⟨s', e2, i2, d2, z2, c2, n2⟩ := ih s1 (a :: fl) i1'
    have hne : ¬ (some a = (l3 ++ [s.m_used_nodes])[0]?) := by
      intro he
      have hmem : a ∈ l3 ++ [s.m_used_nodes] := List.getElem?_mem he.symm
      rcases List.mem_append.1 hmem with hx | hx
      · have := (List.nodup_append.1 hnd).2.1
        have h3 := (List.nodup_cons.1 this).1
        exact h3 (List.mem_append_right _ hx)
      · simp only [List.mem_singleton] at hx
        exact hs (List.mem_append_right _ (hx ▸ List.mem_append_right _
          (List.mem_cons_self _ _)))
    refine ⟨s', fun fuel => ?_, ?_, fun b => ?_, ?_, by rw [c2, c1], by rw [n2, n1]⟩
    · cases fuel with
      | zero =>
        simp only [List.cons_append, List.getElem?_cons_zero,
          Pool_dlist_base.destroy_range_loop, hne, if_false, List.length_cons]
        simp
      | succ fuel =>
        have := e2 fuel
        rw [n1] at this
        simp only [List.cons_append, List.getElem?_cons_zero,
          Pool_dlist_base.destroy_range_loop, hne, if_false, e1, Option.bind_eq_bind,
          Option.some_bind, List.length_cons, Nat.add_le_add_iff_right]
        simpa using this
    · have : (a :: l2).reverse ++ fl = l2.reverse ++ a :: fl := by simp
      rw [this]
      exact i2
    · rw [d2 b, d1]
      by_cases hba : b = a
      · subst hba
        simp
      · simp [hba, Function.update_noteq hba]
    · simp only [List.length_cons]
      omega

end destroy_iter_exact

section destroy_iter_bitset
variable {T : Type}

/-- Method `SPool_list_bitset::destroy(const_iterator)` at the set bit `a`: when a set
bit follows, it returns the position of the next one and destroys the element of slot
`a`; when `a` is the last set bit, the increment of `ret` is undefined. -/
theorem Inv.bitset_destroy_pos {c : Cfg} (hc : c.impl = Impl.SPool_list_bitset)
    {s : State T} {fl ul l1 l2 : List Nat} {a : Nat} (h : Inv c s fl ul)
    (hb : BitsInv c s ul) (hE : set_bits c s = l1 ++ a :: l2) :
    ∃ s', SPool_list_bitset.destroy s (some a) = some s' ∧
      SPool_list_bitset.destroy_pos c s a = (l2[0]?).map (fun ret => (ret, s')) ∧
      Inv c s' (a :: fl) (ul.erase a) ∧
      BitsInv c s' (ul.erase a) ∧ set_bits c s' = l1 ++ l2 ∧
      dt s'.mem = Function.update (dt s.mem) a none ∧ s'.m_size + 1 = s.m_size := by
  obtain ⟨hnd, hlen, hmem, -, hlt⟩ := h.set_bits_spec hb hc
  obtain ⟨-, ⟨b0, hbeg, -⟩, hnext, -⟩ := h.bitset_walk hb hc
  have haB : a ∈ set_bits c s := by
    rw [hE]
    exact List.mem_append_right _ (List.mem_cons_self _ _)
  have ha : a ∈ ul := (hmem a).1 haB
  obtain ⟨s', e, i, b, -, d, z, -⟩ := h.of_destroy hb ha
  have hpos : 0 < s.m_size := by
    rw [h.size]
    exact List.length_pos_of_mem ha
  have hne : set_bits c s ≠ [] := List.ne_nil_of_mem haB
  have h1 := hnext b0 hbeg hne l1.length
  have h2 := hnext b0 hbeg hne (l1.length + 1)
  rw [hE] at h1 h2
  have e1 : (l1 ++ a :: l2)[l1.length]? = some a := by
    rw [List.getElem?_append_right (le_refl _)]
    simp
  have e2 : (l1 ++ a :: l2)[l1.length + 1]? = l2[0]? := by
    rw [List.getElem?_append_right (by omega)]
    simp
  rw [e1] at h1
  rw [e2, bitset_advance_succ, h1, Option.some_bind] at h2
  rw [← bitset_destroy_eq hc] at e
  refine ⟨s', e, ?_, i, b, ?_, d, by omega⟩
  · simp only [SPool_list_bitset.destroy_pos, h2, e, Option.bind_eq_bind]
    cases l2[0]? <;> rfl
  · have hB' : set_bits c s' = (set_bits c s).erase a := by
      rw [hnd.erase_eq_filter, set_bits, set_bits, List.filter_filter]
      refine List.filter_congr fun j hj => ?_
      have hjN : j < c.N := List.mem_range.1 hj
      have b1 := b hc j hjN
      have b0 := hb hc j hjN
      rw [Bool.eq_iff_iff, b1]
      simp only [Bool.and_eq_true, bne_iff_ne, ne_eq, b0]
      constructor
      · intro hx
        exact ⟨fun e => (List.Nodup.mem_erase_iff
          (List.nodup_append.1 h.core.nodup).2.1).1 hx |>.1 e, List.mem_of_mem_erase hx⟩
      · rintro ⟨h3, h4⟩
        exact (List.mem_erase_of_ne h3).2 h4
    rw [hB', hE, erase_middle (hE ▸ hnd)]

/-- The loop of `SPool_list_bitset::destroy(first, last)` over the stretch `l2` of the
set bits `l1 ++ l2 ++ l3`, where `last` stands on the first bit of `l3`: it takes one
iteration for each bit of `l2` and destroys exactly the elements of these slots. -/
theorem Inv.bitset_destroy_range_exact {c : Cfg} (hc : c.impl = Impl.SPool_list_bitset)
    (l1 l3 : List Nat) (last : Nat) (hlast : l3[0]? = some last) :
    ∀ (l2 : List Nat) (s : State T) (fl ul : List Nat) (first : Nat), Inv c s fl ul →
      BitsInv c s ul → set_bits c s = l1 ++ l2 ++ l3 →
      (l2 ++ l3)[0]? = some first →
      ∃ s', (∀ fuel, SPool_list_bitset.destroy_range_loop c last fuel s first =
          if l2.length ≤ fuel then some s' else none) ∧
        (∃ fl' ul', Inv c s' fl' ul' ∧ BitsInv c s' ul') ∧ set_bits c s' = l1 ++ l3 ∧
        (∀ b, dt s'.mem b = if b ∈ l2 then none else dt s.mem b) ∧
        s'.m_size + l2.length = s.m_size := by
  intro l2
  induction l2 with
  | nil =>
    intro s fl ul first h hb hE hfirst
    have hfl : first = last := by
      simp only [List.nil_append] at hfirst
      rw [hlast] at hfirst
      exact (Option.some.inj hfirst).symm
    refine ⟨s, fun fuel => ?_, ⟨fl, ul, h, hb⟩, by simpa using hE, by simp, rfl⟩
    cases fuel <;> simp [SPool_list_bitset.destroy_range_loop, hfl]
  | cons a l2 ih =>
    intro s fl ul first h hb hE hfirst
    obtain ⟨hnd, -, -, -, hlt⟩ := h.set_bits_spec hb hc
    have hfa : a = first := by
      simp only [List.cons_append, List.getElem?_cons_zero] at hfirst
      exact Option.some.inj hfirst
    subst hfa
    have hE' : set_bits c s = l1 ++ a :: (l2 ++ l3) := by simpa using hE
    obtain ⟨s1, -, e1, i1, b1, B1, d1, z1⟩ := h.bitset_destroy_pos hc hb hE'
    have hmem3 : last ∈ l3 := List.getElem?_mem hlast
    obtain ⟨ret, r1⟩ : ∃ ret, (l2 ++ l3)[0]? = some ret := by
      cases hx : l2 ++ l3 with
      | nil =>
        have : l3 = [] := (List.append_eq_nil.1 hx).2
        rw [this] at hmem3
        cases hmem3
      | cons q l => exact ⟨q, by simp⟩
    rw [r1, Option.map_some'] at e1
    obtain ⟨s', e2, i2, B2, d2, z2⟩ := ih s1 _ _ ret i1 b1 (by simpa using B1) r1
    have hne : a ≠ last := by
      intro he
      rw [hE'] at hnd
      have := (List.nodup_append.1 hnd).2.1
      exact (List.nodup_cons.1 this).1 (List.mem_append_right _ (he ▸ hmem3))
    refine ⟨s', fun fuel => ?_, i2, B2, fun b => ?_, ?_⟩
    · cases fuel with
      | zero => simp [SPool_list_bitset.destroy_range_loop, hne]
      | succ fuel =>
        simp only [SPool_list_bitset.destroy_range_loop, hne, if_false, e1,
          Option.bind_eq_bind, Option.some_bind, List.length_cons,
          Nat.add_le_add_iff_right]
        exact e2 fuel
    · rw [d2 b, d1]
      by_cases hba : b = a
      · subst hba
        simp
      · simp [hba, Function.update_noteq hba]
    · simp only [List.length_cons]
      omega

/-- The loop of `SPool_list_bitset::destroy(first, last)` with `last == end()` over a
stretch `l2` of set bits that is not empty: the call of `destroy(first)` on the last set
bit increments its iterator past it, which is undefined. -/
theorem Inv.bitset_destroy_range_to_end {c : Cfg} (hc : c.impl = Impl.SPool_list_bitset)
    (l1 : List Nat) :
    ∀ (l2 : List Nat) (s : State T) (fl ul : List Nat) (first : Nat), Inv c s fl ul →
      BitsInv c s ul → set_bits c s = l1 ++ l2 → l2[0]? = some first →
      ∀ fuel, SPool_list_bitset.destroy_range_loop c c.N fuel s first = none := by
  intro l2
  induction l2 with
  | nil =>
    intro s fl ul first _ _ _ hfirst
    simp at hfirst
  | cons a l2 ih =>
    intro s fl ul first h hb hE hfirst fuel
    obtain ⟨-, -, -, -, hlt⟩ := h.set_bits_spec hb hc
    have hfa : a = first := by
      simp only [List.getElem?_cons_zero] at hfirst
      exact Option.some.inj hfirst
    subst hfa
    have haN : a < c.N := hlt a (by rw [hE]; exact List.mem_append_right _ (List.mem_cons_self _ _))
    have hne : a ≠ c.N := Nat.ne_of_lt haN
    obtain ⟨s1, -, e1, i1, b1, B1, -, -⟩ := h.bitset_destroy_pos hc hb hE
    cases fuel with
    | zero => simp [SPool_list_bitset.destroy_range_loop, hne]
    | succ fuel =>
      simp only [SPool_list_bitset.destroy_range_loop, hne, if_false, e1,
        Option.bind_eq_bind]
      cases l2 with
      | nil => rfl
      | cons q l =>
        simp only [List.getElem?_cons_zero, Option.map_some', Option.some_bind]
        exact ih s1 _ _ q i1 b1 B1 (by simp) fuel

end destroy_iter_bitset

section claims_destroy_iter
variable {T : Type}

/-- Method `destroy(pos)`: in every reachable state of a doubly-linked pool or an
`SPool_list_bitset`, for an iterator on the live element `a` (with `l1` before it and
`l2` after it in iteration order) the element `a` and no other is destroyed (the size
drops by one, the iteration order of the others is `l1 ++ l2`).  In a doubly-linked pool
`destroy(pos)` returns the iterator to the head of `l2`, or `end()` when `l2` is empty,
and the loop `it = destroy(it)` from `begin()` until `end()` takes exactly `size()`
iterations and leaves the pool empty.  In an `SPool_list_bitset` `destroy(pos)` returns
the iterator to the head of `l2` when there is one and is undefined on the last element
(the increment of the returned iterator reads `m_used[N]`), so the loop
`it = destroy(it)` from `begin()` until `end()` is undefined unless the pool is empty. -/
theorem destroy_at_iterator {c : Cfg} {s : State T} {ul : List Nat} (h : Reachable c s ul) :
    (c.impl.is_dlist = true →
      (∀ (l1 l2 : List Nat) (a : Nat), ul = l1 ++ a :: l2 →
        ∃ s', Pool_dlist_base.destroy_pos s (some a) =
            some ((l2 ++ [s.m_used_nodes])[0]?, s') ∧
          Pool_base.size s' + 1 = Pool_base.size s ∧ live s' a = false ∧
          (∀ q, q ≠ a → value s' q = value s q) ∧ UsedRing s' (l1 ++ l2) ∧
          s'.m_used_nodes = s.m_used_nodes) ∧
      ∃ b sf, Pool_dlist_base.begin s = some b ∧
        (∀ fuel, Pool_dlist_base.destroy_range_loop (Pool_dlist_base.end s) fuel s b =
          if Pool_base.size s ≤ fuel then some sf else none) ∧
        Pool_base.size sf = 0 ∧ UsedRing sf []) ∧
    (c.impl = Impl.SPool_list_bitset →
      (∀ (l1 l2 : List Nat) (a : Nat), set_bits c s = l1 ++ a :: l2 →
        ∃ s', SPool_list_bitset.destroy s (some a) = some s' ∧
          SPool_list_bitset.destroy_pos c s a = (l2[0]?).map (fun ret => (ret, s')) ∧
          Pool_base.size s' + 1 = Pool_base.size s ∧ live s' a = false ∧
          (∀ q, q ≠ a → value s' q = value s q) ∧ set_bits c s' = l1 ++ l2) ∧
      ∃ b, SPool_list_bitset.begin c s = some b ∧
        ∀ fuel, SPool_list_bitset.destroy_range_loop c (SPool_list_bitset.end c s) fuel s b =
          if Pool_base.size s = 0 then some s else none) := by
  obtain ⟨fl, hi, hb⟩ := reachable_inv h
  refine ⟨fun hd => ⟨fun l1 l2 a hul => ?_, ?_⟩, fun hc => ⟨fun l1 l2 a hE => ?_, ?_⟩⟩
  · subst hul
    obtain ⟨s', e, i, d, z, -, n⟩ := hi.dlist_destroy_pos hd
    refine ⟨s', e, z, ?_, fun q hq => ?_, (i.core.ring hd).1, n⟩
    · simp only [live, value, d, Function.update_same, Option.isSome_none]
    · simp only [value, d, Function.update_noteq hq]
  · obtain ⟨hbeg, -, -⟩ := hi.dlist_walk hd
    have hi' : Inv c s fl ([] ++ ul ++ []) := by simpa using hi
    obtain ⟨sf, e, i, -, z, -, -⟩ := Inv.dlist_destroy_range_exact hd [] [] ul s fl hi'
    refine ⟨_, sf, hbeg, fun fuel => ?_, i.size, (i.core.ring hd).1⟩
    have := e fuel
    simp only [List.nil_append, List.append_nil] at this
    rw [Pool_base.size, hi.size]
    simpa [Pool_dlist_base.end] using this
  · obtain ⟨s', e0, e, i, b, B, d, z⟩ := hi.bitset_destroy_pos hc hb hE
    refine ⟨s', e0, e, z, ?_, fun q hq => ?_, B⟩
    · simp only [live, value, d, Function.update_same, Option.isSome_none]
    · simp only [value, d, Function.update_noteq hq]
  · obtain ⟨hend, ⟨b, hbeg, hb0⟩, -, -⟩ := hi.bitset_walk hb hc
    obtain ⟨-, hlen, -, -, -⟩ := hi.set_bits_spec hb hc
    refine ⟨b, hbeg, fun fuel => ?_⟩
    rw [hend, Pool_base.size, ← hlen]
    cases hB : set_bits c s with
    | nil =>
      rw [hB] at hb0
      simp only [List.nil_append, List.getElem?_cons_zero, Option.some.injEq] at hb0
      subst hb0
      cases fuel <;> simp [SPool_list_bitset.destroy_range_loop]
    | cons q l =>
      rw [hB] at hb0
      simp only [List.cons_append, List.getElem?_cons_zero, Option.some.injEq] at hb0
      subst hb0
      simp only [List.length_cons, Nat.add_one_ne_zero, if_false]
      exact Inv.bitset_destroy_range_to_end hc [] (b :: l) s fl ul b hi hb (by simpa using hB)
        (by simp) fuel

/-- Method `destroy(first, last)`: in every reachable state of a doubly-linked pool or
an `SPool_list_bitset`, over the stretch `l2` of the iteration order `l1 ++ l2 ++ l3`
with `last` on a live element (the head of `l3`), `destroy(first, last)` returns `last`,
destroys exactly the elements of `l2`, leaves every other element live with its value,
and lowers the size by the length of `l2`; an empty range changes nothing.  In a
doubly-linked pool the same holds for `last == end()`, and `destroy(begin(), end())`
leaves `size() == 0`.  In an `SPool_list_bitset` a range that is not empty and ends at
`end()` is undefined (the call of `destroy(first)` on the last element reads
`m_used[N]`); `destroy(begin(), end())` changes nothing on an empty pool and is
undefined on any other. -/
theorem destroy_iterator_range {c : Cfg} {s : State T} {ul : List Nat}
    (h : Reachable c s ul) :
    (c.impl.is_dlist = true →
      (∀ l1 l2 l3 : List Nat, ul = l1 ++ l2 ++ l3 →
        ∃ s', (∀ fuel, l2.length ≤ fuel →
            Pool_dlist_base.destroy_range fuel s ((l2 ++ l3 ++ [s.m_used_nodes])[0]?)
                ((l3 ++ [s.m_used_nodes])[0]?) =
              some ((l3 ++ [s.m_used_nodes])[0]?, s')) ∧
          (∀ b, value s' b = if b ∈ l2 then none else value s b) ∧
          Pool_base.size s' + l2.length = Pool_base.size s ∧
          capacity c s' = capacity c s ∧ UsedRing s' (l1 ++ l3)) ∧
      ∃ b s', Pool_dlist_base.begin s = some b ∧
        (∀ fuel, Pool_base.size s ≤ fuel →
          Pool_dlist_base.destroy_range fuel s b (Pool_dlist_base.end s) =
            some (Pool_dlist_base.end s, s')) ∧
        Pool_base.size s' = 0 ∧ (Pool_base.empty s = true → s' = s)) ∧
    (c.impl = Impl.SPool_list_bitset →
      (∀ (l1 l2 l3 : List Nat) (first last : Nat), set_bits c s = l1 ++ l2 ++ l3 →
        (l2 ++ l3)[0]? = some first → l3[0]? = some last →
        ∃ s', (∀ fuel, l2.length ≤ fuel →
            SPool_list_bitset.destroy_range c fuel s first last = some (last, s')) ∧
          (∀ b, value s' b = if b ∈ l2 then none else value s b) ∧
          Pool_base.size s' + l2.length = Pool_base.size s ∧
          capacity c s' = capacity c s ∧ set_bits c s' = l1 ++ l3) ∧
      (∀ p fuel, SPool_list_bitset.destroy_range c fuel s p p = some (p, s)) ∧
      (∀ (l1 l2 : List Nat) (first : Nat), set_bits c s = l1 ++ l2 →
        l2[0]? = some first →
        ∀ fuel, SPool_list_bitset.destroy_range c fuel s first (SPool_list_bitset.end c s) =
          none) ∧
      ∃ b, SPool_list_bitset.begin c s = some b ∧
        ∀ fuel, SPool_list_bitset.destroy_range c fuel s b (SPool_list_bitset.end c s) =
          if Pool_base.empty s then some (SPool_list_bitset.end c s, s) else none) := by
  obtain ⟨fl, hi, hb⟩ := reachable_inv h
  have hsz := hi.size
  refine ⟨fun hd => ⟨fun l1 l2 l3 hul => ?_, ?_⟩,
    fun hc => ⟨fun l1 l2 l3 first last hE hfirst hlast => ?_, fun p fuel => ?_,
      fun l1 l2 first hE hfirst fuel => ?_, ?_⟩⟩
  · subst hul
    obtain ⟨s', e, i, d, z, cp, -⟩ := Inv.dlist_destroy_range_exact hd l1 l3 l2 s fl hi
    refine ⟨s', fun fuel hf => ?_, fun b => d b, z, by simp only [capacity, cp],
      (i.core.ring hd).1⟩
    simp only [Pool_dlist_base.destroy_range, e fuel, if_pos hf, Option.map_some']
  · obtain ⟨hbeg, -, -⟩ := hi.dlist_walk hd
    have hi' : Inv c s fl ([] ++ ul ++ []) := by simpa using hi
    obtain ⟨sf, e, i, -, z, -, -⟩ := Inv.dlist_destroy_range_exact hd [] [] ul s fl hi'
    simp only [List.nil_append, List.append_nil] at e
    refine ⟨_, sf, hbeg, fun fuel hf => ?_, i.size, fun hem => ?_⟩
    · have hf' : ul.length ≤ fuel := by simpa [Pool_base.size, hsz] using hf
      have e' := e fuel
      rw [if_pos hf'] at e'
      simp only [Pool_dlist_base.destroy_range, Pool_dlist_base.end]
      have : ([s.m_used_nodes] : List Nat)[0]? = some s.m_used_nodes := rfl
      rw [this] at e'
      rw [e', Option.map_some']
    · have h0 : s.m_size = 0 := by simpa [Pool_base.empty, Pool_base.size] using hem
      have hul : ul = [] := List.length_eq_zero.1 (by omega)
      subst hul
      have e' := e 0
      simp only [List.length_nil, le_refl, if_true, List.nil_append,
        Pool_dlist_base.destroy_range_loop] at e'
      exact (Option.some.inj e').symm
  · obtain ⟨s', e, -, B, d, z⟩ :=
      Inv.bitset_destroy_range_exact hc l1 l3 last hlast l2 s fl ul first hi hb hE hfirst
    have hst : c.impl.is_static = true := (bitset_is_static hc).1
    refine ⟨s', fun fuel hf => ?_, fun b => d b, z, by simp [capacity, hst], B⟩
    simp only [SPool_list_bitset.destroy_range, e fuel, if_pos hf, Option.map_some']
  · cases fuel <;> simp [SPool_list_bitset.destroy_range, SPool_list_bitset.destroy_range_loop]
  · simp only [SPool_list_bitset.destroy_range, SPool_list_bitset.end,
      Inv.bitset_destroy_range_to_end hc l1 l2 s fl ul first hi hb hE hfirst fuel,
      Option.map_none']
  · obtain ⟨hend, ⟨b, hbeg, hb0⟩, -, -⟩ := hi.bitset_walk hb hc
    obtain ⟨-, hlen, -, -, -⟩ := hi.set_bits_spec hb hc
    refine ⟨b, hbeg, fun fuel => ?_⟩
    simp only [SPool_list_bitset.destroy_range, hend, Pool_base.empty, Pool_base.size,
      ← hlen, beq_iff_eq]
    cases hB : set_bits c s with
    | nil =>
      rw [hB] at hb0
      simp only [List.nil_append, List.getElem?_cons_zero, Option.some.injEq] at hb0
      subst hb0
      cases fuel <;> simp [SPool_list_bitset.destroy_range_loop]
    | cons q l =>
      rw [hB] at hb0
      simp only [List.cons_append, List.getElem?_cons_zero, Option.some.injEq] at hb0
      subst hb0
      simp only [List.length_cons, Nat.add_one_ne_zero, if_false]
      rw [Inv.bitset_destroy_range_to_end hc [] (b :: l) s fl ul b hi hb (by simpa using hB)
        (by simp) fuel]
      rfl

end claims_destroy_iter

section claims_growth
variable {T : Type}

theorem unit_size_eq (c : Cfg) (x : Nat) : (grown c (some x)).length = unit_size c :=
  length_grown c x

theorem grows_iff {c : Cfg} {s : State T} (hdyn : c.impl.is_static = false)
    (hfix : flag_set c.Flags POOL_FIXED_CAPACITY = false) :
    grows c s = Pool_base.full c s := by
  simp [grows, hdyn, hfix]

/-- Claim C18, amended: in a reachable state of a dynamic pool without
`POOL_FIXED_CAPACITY` that is full, when `operator new` succeeds and one allocation unit
holds at least one slot (always for the single-slot allocator, `N >= 1` for the block
allocator), `create` returns a non-null reference to a slot holding the value, the size
grows by one and the capacity by exactly one unit; when the pool is not full, `create`
returns a non-null reference and leaves the capacity unchanged. -/
theorem create_grows_by_unit {c : Cfg} {s : State T} {ul : List Nat} (h : Reachable c s ul)
    (hdyn : c.impl.is_static = false)
    (hfix : flag_set c.Flags POOL_FIXED_CAPACITY = false) (v : T) :
    (∀ x : Nat, Pool_base.full c s = true → fresh c s (some x) → 0 < unit_size c →
      ∃ p s', create c s v (some x) = some (some p, s') ∧ value s' p = some v ∧
        Pool_base.size s' = Pool_base.size s + 1 ∧
        capacity c s' = capacity c s + unit_size c) ∧
    (∀ a : Option Nat, Pool_base.full c s = false →
      ∃ p s', create c s v a = some (some p, s') ∧ value s' p = some v ∧
        Pool_base.size s' = Pool_base.size s + 1 ∧ capacity c s' = capacity c s) := by
  obtain ⟨fl, hi, hb⟩ := reachable_inv h
  have hsz := hi.size
  have hcap := hi.cap
  refine ⟨fun x hfull hf hU => ?_, fun a hfull => ?_⟩
  · have hg : grows c s = true := by rw [grows_iff hdyn hfix, hfull]
    have hfl : fl = [] := hi.grows_nil hg
    subst hfl
    obtain ⟨s1, g, -, hg2, -, -, -, -, c1, -, hcons⟩ := hi.of_create hb v hf
    simp only [hg, if_true] at hg2
    have hlen : g.length = unit_size c := by rw [hg2, unit_size_eq]
    cases hgr : g.reverse ++ [] with
    | nil =>
      have : g.length = 0 := by
        have := congrArg List.length hgr
        simpa using this
      omega
    | cons p fl2 =>
      obtain ⟨s', e, -, -, d, z, c2, -⟩ := hcons p fl2 hgr
      refine ⟨p, s', e, ?_, z, ?_⟩
      · simp only [value, d, Function.update_same]
      · simp only [capacity, hdyn, Bool.false_eq_true, if_false, c2, c1, hlen]
  · have hg : grows c s = false := by rw [grows_iff hdyn hfix, hfull]
    have hne : Pool_base.size s ≠ capacity c s := by
      simpa [Pool_base.full] using hfull
    cases fl with
    | nil =>
      simp only [Pool_base.size, List.length_nil, Nat.zero_add] at hne hcap
      omega
    | cons x fl2 =>
      obtain ⟨s', e, -, -, d, z, c2, -⟩ :=
        (hi.create_no_growth hb v (a := a) (Or.inl hg)).2 x fl2 rfl
      refine ⟨x, s', e, ?_, z, ?_⟩
      · simp only [value, d, Function.update_same]
      · simp only [capacity, c2]

/-- Counterexample to claim C18 as stated: a full `Pool_list_block<T, 0>` without
`POOL_FIXED_CAPACITY`; `operator new` succeeds (the block at address `0` is added to
`m_blocks`), yet `create` returns `nullptr` and the size stays `0`. -/
theorem create_grows_counterexample :
    Reachable ex_block0 ex_block0_s0 [] ∧ ex_block0.impl.is_static = false ∧
      flag_set ex_block0.Flags POOL_FIXED_CAPACITY = false ∧
      Pool_base.full ex_block0 ex_block0_s0 = true ∧
      create ex_block0 ex_block0_s0 7 (some 0) = some (none, ex_block0_s1) ∧
      ex_block0_s0.m_blocks = [] ∧ ex_block0_s1.m_blocks = [0] ∧
      Pool_base.size ex_block0_s1 = Pool_base.size ex_block0_s0 :=
  ⟨Reachable.construct 0 (fun _ => false) ex_block0_s0 rfl, rfl, rfl, rfl, rfl, rfl, rfl, rfl⟩

end claims_growth

section claims_reserve
variable {T : Type}

theorem all_fresh_cons {c : Cfg} {s : State T} {x : Nat} {xs : List Nat}
    (h : all_fresh c s (x :: xs)) :
    fresh c s (some x) ∧ (xs.flatMap (unit_nodes c)).Nodup ∧
      (∀ b ∈ xs.flatMap (unit_nodes c), al s.mem b = false ∧ b ∉ unit_nodes c x) := by
  obtain ⟨h1, h2⟩ := h
  simp only [List.flatMap_cons] at h1 h2
  obtain ⟨-, n2, n3⟩ := List.nodup_append.1 h1
  refine ⟨fun b hb => h2 b (List.mem_append_left _ hb), n2, fun b hb => ⟨?_, fun hx => ?_⟩⟩
  · exact h2 b (List.mem_append_right _ hb)
  · exact n3 hx hb

/-- Storage that is not in use and not among the nodes `add_node` has just obtained is
not in use afterwards. -/
theorem Inv.al_after_add_node {c : Cfg} {s s' : State T} {fl ul : List Nat} {g : List Nat}
    (h : Inv c s fl ul) (h' : Inv c s' (g ++ fl) ul) (hn : s'.m_used_nodes = s.m_used_nodes)
    {b : Nat} (hb : al s.mem b = false) (hg : b ∉ g) : al s'.mem b = false := by
  cases hal : al s'.mem b with
  | false => rfl
  | true =>
    obtain ⟨hnm, hsent⟩ := h.fresh_not_mem hb
    rcases h'.owned b hal with hx | hx | ⟨hd, hx⟩
    · rcases List.mem_append.1 hx with hx | hx
      · exact absurd hx hg
      · exact absurd (List.mem_append_left _ hx) hnm
    · exact absurd (List.mem_append_right _ hx) hnm
    · rw [hn] at hx
      exact absurd hx (hsent hd)

/-- The loop of `DPool_base::reserve` when every call of `operator new` succeeds and one
unit holds at least one slot: it stops at the first capacity `old + m * unit` that
reaches `new_cap`. -/
theorem Inv.reserve_loop_exact {c : Cfg} (hdyn : c.impl.is_static = false)
    (hU : 0 < unit_size c) {ul : List Nat} (new_cap : Nat) :
    ∀ (k i : Nat) (xs : List Nat) (s : State T) (fl : List Nat), Inv c s fl ul →
      all_fresh c s xs → k ≤ xs.length → i ≤ s.m_capacity → new_cap ≤ i + k →
      ∃ s' fl' m, DPool_base.reserve_loop c new_cap k i s (xs.map some) = some s' ∧
        Inv c s' fl' ul ∧ s'.m_capacity = s.m_capacity + m * unit_size c ∧
        new_cap ≤ s'.m_capacity ∧ (∀ j, j < m → s.m_capacity + j * unit_size c < new_cap) ∧
        dt s'.mem = dt s.mem ∧ s'.m_size = s.m_size ∧
        s'.m_used_nodes = s.m_used_nodes := by
  intro k
  induction k with
  | zero =>
    intro i xs s fl h _ _ hi hk
    exact ⟨s, fl, 0, rfl, h, by simp, by omega, fun j hj => absurd hj (Nat.not_lt_zero _),
      rfl, rfl, rfl⟩
  | succ k ih =>
    intro i xs s fl h hfr hlen hi hk
    by_cases hcond : capacity c s < new_cap ∧ i < new_cap
    · cases xs with
      | nil => simp at hlen
      | cons x xs =>
        obtain ⟨f1, f2, f3⟩ := all_fresh_cons hfr
        obtain ⟨s1, e1, d1, z1, n1, -, c1, -, i1⟩ := h.of_add_node hdyn f1
        rw [unit_size_eq] at c1
        have hfr1 : all_fresh c s1 xs := by
          refine ⟨f2, fun b hb => ?_⟩
          obtain ⟨g1, g2⟩ := f3 b hb
          exact h.al_after_add_node i1 n1 g1 (by simpa [grown] using g2)
        obtain ⟨s', fl', m, e2, i2, c2, k2, j2, d2, z2, n2⟩ :=
          ih (i + 1) xs s1 _ i1 hfr1 (by simpa using hlen) (by omega) (by omega)
        refine ⟨s', fl', m + 1, ?_, i2, ?_, k2, fun j hj => ?_, by rw [d2, d1],
          by rw [z2, z1], by rw [n2, n1]⟩
        · simp only [DPool_base.reserve_loop, hcond, and_self, if_true, List.map_cons,
            List.head?_cons, Option.join, Option.bind_eq_bind, Option.some_bind, id_eq, e1,
            List.tail_cons]
          exact e2
        · rw [c2, c1, Nat.add_mul]
          omega
        · cases j with
          | zero =>
            have := hcond.1
            simp only [capacity, hdyn, Bool.false_eq_true, if_false] at this
            simpa using this
          | succ j =>
            have := j2 j (by omega)
            rw [c1] at this
            rw [Nat.add_mul]
            omega
    · refine ⟨s, fl, 0, ?_, h, by simp, ?_, fun j hj => absurd hj (Nat.not_lt_zero _),
        rfl, rfl, rfl⟩
      · simp only [DPool_base.reserve_loop, hcond, if_false]
      · simp only [capacity, hdyn, Bool.false_eq_true, if_false, not_and, not_lt] at hcond
        by_cases hc : s.m_capacity < new_cap
        · have := hcond hc
          omega
        · omega

/-- Method `DPool_base::reserve` when every call of `operator new` succeeds and one unit
holds at least one slot. -/
theorem Inv.reserve_exact {c : Cfg} (hdyn : c.impl.is_static = false)
    (hU : 0 < unit_size c) {s : State T} {fl ul : List Nat} (h : Inv c s fl ul)
    {xs : List Nat} (new_cap : Nat) (hfr : all_fresh c s xs)
    (hlen : new_cap - capacity c s ≤ xs.length) :
    ∃ s' fl' m, DPool_base.reserve c s new_cap (xs.map some) = some (s', false) ∧
      Inv c s' fl' ul ∧ capacity c s' = capacity c s + m * unit_size c ∧
      new_cap ≤ capacity c s' ∧ (∀ j, j < m → capacity c s + j * unit_size c < new_cap) ∧
      dt s'.mem = dt s.mem ∧ s'.m_size = s.m_size := by
  have hc : ∀ x : State T, capacity c x = x.m_capacity := fun x => by simp [capacity, hdyn]
  obtain ⟨s', fl', m, e, i, c1, k1, j1, d, z, -⟩ :=
    Inv.reserve_loop_exact hdyn hU new_cap (new_cap - capacity c s) (capacity c s) xs s fl h
      hfr hlen (by rw [hc]) (by omega)
  refine ⟨s', fl', m, ?_, i, by rw [hc, hc, c1], by rw [hc]; exact k1,
    fun j hj => by rw [hc]; exact j1 j hj, d, z⟩
  have hlt : ¬ (capacity c s' < new_cap) := by
    rw [hc]
    omega
  simp [DPool_base.reserve, e, hlt]

/-- Method `shrink_to_fit` of a dynamic class never raises the capacity. -/
theorem Inv.shrink_to_fit_capacity {c : Cfg} {s : State T} {fl ul : List Nat}
    (h : Inv c s fl ul) (hdyn : c.impl.is_static = false) (new_cap : Nat) :
    ∃ s', shrink_to_fit c s new_cap = some s' ∧ s'.m_capacity ≤ s.m_capacity := by
  unfold pool_impl.shrink_to_fit
  cases hblk : c.impl.is_block with
  | false =>
    obtain ⟨s', e, -, -, -, -, cp, -⟩ := h.node_shrink_to_fit hdyn hblk new_cap
    refine ⟨s', by simpa using e, ?_⟩
    rw [cp]
    exact Nat.min_le_left _ _
  | true =>
    simp only [if_true]
    by_cases hem : Pool_base.empty s = true
    · have hul : ul = [] := by
        have : s.m_size = 0 := by simpa [Pool_base.empty, Pool_base.size] using hem
        rw [h.size] at this
        exact List.length_eq_zero.1 this
      subst hul
      have hb := h.to_block_inv hdyn hblk
      obtain ⟨s1, j, e1, i1, b1, -, -⟩ :=
        BlockInv.shrink_loop hdyn new_cap (capacity c s) s hb
      obtain ⟨s2, fl2, e2, -, -, -, -, -, -, c2, -⟩ := i1.readd_blocks hdyn
      refine ⟨s2, by simp [Pool_block_allocator.shrink_to_fit, hem, e1, e2], ?_⟩
      rw [c2, i1.cap, hb.cap, b1, List.length_drop]
      exact Nat.mul_le_mul_left _ (Nat.sub_le _ _)
    · exact ⟨s, by simp [Pool_block_allocator.shrink_to_fit, hem], le_refl _⟩

/-- Claim C19: in every reachable state of a dynamic pool with `POOL_FIXED_CAPACITY`,
`create` asks `operator new` for nothing (its result does not depend on the answer) and
never changes the capacity; on a full pool it returns `nullptr` and changes nothing;
`destroy`, `destroy_all`, `shrink_to_fit` and a move never raise the capacity either,
so it grows through `reserve` only, which never lowers it and reaches the requested
capacity when `operator new` succeeds. -/
theorem fixed_capacity_no_growth {c : Cfg} {s : State T} {ul : List Nat}
    (h : Reachable c s ul) (hdyn : c.impl.is_static = false)
    (hfix : flag_set c.Flags POOL_FIXED_CAPACITY = true) :
    (∀ (v : T) (a : Option Nat), create c s v a = create c s v none) ∧
    (∀ (v : T) (a r : Option Nat) (s' : State T), create c s v a = some (r, s') →
      capacity c s' = capacity c s) ∧
    (∀ (v : T) (a : Option Nat), Pool_base.full c s = true →
      create c s v a = some (none, s)) ∧
    (∀ p ∈ ul, ∀ s' : State T, destroy c s (some p) = some s' →
      capacity c s' = capacity c s) ∧
    (∀ (fuel : Nat) (s' : State T), destroy_all c fuel s = some s' →
      capacity c s' = capacity c s) ∧
    (∀ (new_cap : Nat) (s' : State T), shrink_to_fit c s new_cap = some s' →
      capacity c s' ≤ capacity c s) ∧
    (∀ (self : Nat) (oob : Nat → Bool) (s' o' : State T),
      Pool_xxx.move_ctor c self oob s = some (s', o') →
      capacity c s' = capacity c s ∧ capacity c o' = 0) ∧
    (∀ (new_cap : Nat) (allocs : List (Option Nat)) (thrown : Bool) (s' : State T),
      DPool_base.reserve c s new_cap allocs = some (s', thrown) →
      capacity c s ≤ capacity c s') ∧
    (∀ (new_cap : Nat) (xs : List Nat), 0 < unit_size c → all_fresh c s xs →
      new_cap - capacity c s ≤ xs.length →
      ∃ s', DPool_base.reserve c s new_cap (xs.map some) = some (s', false) ∧
        new_cap ≤ capacity c s') := by
  obtain ⟨fl, hi, hb⟩ := reachable_inv h
  have hc : ∀ x : State T, capacity c x = x.m_capacity := fun x => by simp [capacity, hdyn]
  have hg : grows c s = false := grows_false_of_fixed s (Or.inr hfix)
  refine ⟨fun v a => create_irrel hg v a, fun v a r s' e => ?_, fun v a hfull => ?_,
    fun p hp s' e => ?_, fun fuel s' e => ?_, fun k s' e => ?_, fun self oob s' o' e => ?_,
    fun k allocs thrown s' e => ?_, fun k xs hU hfr hlen => ?_⟩
  · obtain ⟨q1, q2⟩ := hi.create_no_growth hb v (a := a) (Or.inl hg)
    cases fl with
    | nil =>
      rw [q1 rfl] at e
      simp only [Option.some.injEq, Prod.mk.injEq] at e
      rw [← e.2]
    | cons x fl2 =>
      obtain ⟨s2, e2, -, -, -, -, c2, -⟩ := q2 x fl2 rfl
      rw [e2] at e
      simp only [Option.some.injEq, Prod.mk.injEq] at e
      rw [← e.2, hc, hc, c2]
  · have hfl : fl = [] := by
      have h1 := hi.size
      have h2 := hi.cap
      simp only [Pool_base.full, Pool_base.size, beq_iff_eq] at hfull
      exact List.length_eq_zero.1 (by omega)
    exact (hi.create_no_growth hb v (a := a) (Or.inl hg)).1 hfl
  · obtain ⟨s2, e2, -, -, -, -, -, c2, -⟩ := hi.of_destroy hb hp
    rw [e] at e2
    cases e2
    rw [hc, hc, c2]
  · by_cases hd : c.impl.is_dlist = true
    · obtain ⟨sf, -, -, -, -, cp, -, -, e2⟩ := hi.dlist_destroy_all hd
      rw [destroy_all_dlist_eq hd, e2 fuel] at e
      split at e
      · cases e
        rw [hc, hc, cp]
      · cases e
    · have : destroy_all c fuel s = some s := by
        cases hi' : c.impl <;> simp_all [destroy_all, Impl.is_dlist, Impl.is_static,
          Pool_list_base.destroy_all]
      rw [this] at e
      cases e
      rfl
  · obtain ⟨s2, e2, c2⟩ := hi.shrink_to_fit_capacity hdyn k
    rw [e] at e2
    cases e2
    rw [hc, hc]
    exact c2
  · obtain ⟨-, i2, -, c2, -⟩ := hi.of_move_ctor hdyn e
    refine ⟨by rw [hc, hc, c2], ?_⟩
    have := i2.cap
    simpa using this
  · obtain ⟨fl', -, -, -, -, c2⟩ := hi.of_reserve hdyn e
    rw [hc, hc]
    exact c2
  · obtain ⟨s', fl', m, e, -, -, k1, -⟩ := hi.reserve_exact hdyn hU k hfr hlen
    exact ⟨s', e, k1⟩

/-- Claim C20, amended: in a reachable state of a dynamic pool whose allocation unit
holds at least one slot (`U = 1` for the single-slot allocator, `U = N >= 1` for the
block allocator), when every call of `operator new` succeeds, `reserve(k)` returns
without throwing and leaves the capacity at the least value `old + m * U` that is at
least `k` (that is `max(old, k)` when `U = 1`); the size and every stored element are
unchanged. -/
theorem reserve_reaches_capacity {c : Cfg} {s : State T} {ul : List Nat}
    (h : Reachable c s ul) (hdyn : c.impl.is_static = false) (hU : 0 < unit_size c)
    (new_cap : Nat) {xs : List Nat} (hfr : all_fresh c s xs)
    (hlen : new_cap - capacity c s ≤ xs.length) :
    ∃ s' m, DPool_base.reserve c s new_cap (xs.map some) = some (s', false) ∧
      capacity c s' = capacity c s + m * unit_size c ∧ new_cap ≤ capacity c s' ∧
      (∀ j, new_cap ≤ capacity c s + j * unit_size c →
        capacity c s' ≤ capacity c s + j * unit_size c) ∧
      (unit_size c = 1 → capacity c s' = max (capacity c s) new_cap) ∧
      Pool_base.size s' = Pool_base.size s ∧ (∀ q, value s' q = value s q) ∧
      Reachable c s' ul := by
  obtain ⟨fl, hi, hb⟩ := reachable_inv h
  obtain ⟨s', fl', m, e, -, c1, k1, j1, d, z⟩ := hi.reserve_exact hdyn hU new_cap hfr hlen
  refine ⟨s', m, e, c1, k1, fun j hj => ?_, fun h1 => ?_, z, fun q => by rw [value, value, d],
    Reachable.reserve new_cap _ false s' h hdyn e⟩
  · rw [c1]
    by_cases hmj : m ≤ j
    · exact Nat.add_le_add_left (Nat.mul_le_mul_right _ hmj) _
    · have := j1 j (by omega)
      omega
  · rw [h1] at c1 j1
    simp only [Nat.mul_one] at c1 j1
    cases m with
    | zero =>
      simp only [Nat.add_zero] at c1
      rw [c1] at k1 ⊢
      omega
    | succ m =>
      have := j1 m (by omega)
      have := j1 0 (by omega)
      omega

/-- Counterexample to claim C20 as stated: `reserve(1)` on a new `Pool_list_block<T, 0>`
whose allocation succeeds (the block at address `0` is added to `m_blocks`) leaves the
capacity at `0`, below the requested `1`. -/
theorem reserve_counterexample :
    Reachable ex_block0 ex_block0_s0 [] ∧ ex_block0.impl.is_static = false ∧
      DPool_base.reserve ex_block0 ex_block0_s0 1 [some 0] = some (ex_block0_r1, false) ∧
      ex_block0_s0.m_blocks = [] ∧ ex_block0_r1.m_blocks = [0] ∧
      capacity ex_block0 ex_block0_s0 = 0 ∧ capacity ex_block0 ex_block0_r1 = 0 ∧
      capacity ex_block0 ex_block0_r1 < 1 :=
  ⟨Reachable.construct 0 (fun _ => false) ex_block0_s0 rfl, rfl, rfl, rfl, rfl, rfl, rfl,
    by decide⟩

end claims_reserve

section witnesses_two

theorem ex_slist_reach0 : Reachable ex_slist ex_slist_s0 [] :=
  Reachable.construct 0 (fun _ => false) ex_slist_s0 rfl

theorem ex_slist_create1 : create ex_slist ex_slist_s0 7 none = some (some 1, ex_slist_s1) :=
  rfl

theorem ex_slist_reach1 : Reachable ex_slist ex_slist_s1 [1] :=
  Reachable.create 7 none (some 1) ex_slist_s1 ex_slist_reach0 ex_slist_create1

theorem ex_fixed_reach0 : Reachable ex_fixed ex_fixed_s0 [] :=
  Reachable.construct 100 (fun _ => false) ex_fixed_s0 rfl

theorem ex_fixed_reserve1 :
    DPool_base.reserve ex_fixed ex_fixed_s0 3 [some 0, some 10] = some (ex_fixed_s1, false) :=
  rfl

theorem ex_fixed_reach1 : Reachable ex_fixed ex_fixed_s1 [] :=
  Reachable.reserve 3 [some 0, some 10] false ex_fixed_s1 ex_fixed_reach0 rfl
    ex_fixed_reserve1

theorem ex_fixed_fresh : all_fresh ex_fixed ex_fixed_s0 [0, 10, 20] :=
  ⟨by decide, by decide⟩

theorem ex_list_fresh : fresh ex_list ex_list_s0 (some 5) := by
  unfold fresh
  decide

theorem ex_bitset_create2 :
    create ex_bitset ex_bitset_s1 8 none = some (some 0, ex_bitset_s2) := rfl

theorem ex_bitset_reach2 : Reachable ex_bitset ex_bitset_s2 [1, 0] :=
  Reachable.create 8 none (some 0) ex_bitset_s2 ex_bitset_reach1 ex_bitset_create2

/-- Claim C11, the code evaluated at the failing input: in a full `SPool_list_bitset<T, 2>`
(`size() == 2`) `begin()` stands at position `0`, the first increment leads to position
`1`, and the second one, which should lead to `end()` (position `2`), is undefined:
`next()` raises `m_cur_pos` to `2 == N` and then reads `m_used[2]`.  The doubly-linked
pool with the same two elements reaches `end()` by its second increment. -/
theorem bitset_increment_to_end_undefined :
    Reachable ex_bitset ex_bitset_s2 [1, 0] ∧ Pool_base.size ex_bitset_s2 = 2 ∧
      ex_bitset.N = 2 ∧ SPool_list_bitset.end ex_bitset ex_bitset_s2 = 2 ∧
      SPool_list_bitset.begin ex_bitset ex_bitset_s2 = some 0 ∧
      SPool_list_bitset.Iterator_t.next ex_bitset ex_bitset_s2 0 = some 1 ∧
      bitset_test ex_bitset.N ex_bitset_s2.m_used 2 = none ∧
      SPool_list_bitset.Iterator_t.next ex_bitset ex_bitset_s2 1 = none ∧
      SPool_list_bitset.Iterator_t.advance ex_bitset ex_bitset_s2 2 0 = none ∧
      Pool_dlist_base.Iterator_t.advance ex_dlist_s2 2 (some 1) =
        some (Pool_dlist_base.end ex_dlist_s2) :=
  ⟨ex_bitset_reach2, rfl, rfl, rfl, rfl, rfl, rfl, rfl, rfl, rfl⟩

/-- Claim C16, the code evaluated at the failing input: in an `SPool_list_bitset<T, 2>`
whose only element is in slot `1`, `destroy(pos)` with `pos == begin()` (position `1`,
a live element) is undefined: `++ret` runs `next()` from position `1`, which reads
`m_used[2]`; so is the loop `it = destroy(it)` from `begin()` to `end()`.  The call
`destroy(&*pos)` by reference is defined and leaves the pool empty. -/
theorem bitset_destroy_last_undefined :
    Reachable ex_bitset ex_bitset_s1 [1] ∧ ex_bitset.N = 2 ∧
      SPool_list_bitset.begin ex_bitset ex_bitset_s1 = some 1 ∧
      live ex_bitset_s1 1 = true ∧
      SPool_list_bitset.Iterator_t.next ex_bitset ex_bitset_s1 1 = none ∧
      SPool_list_bitset.destroy_pos ex_bitset ex_bitset_s1 1 = none ∧
      SPool_list_bitset.destroy_range_loop ex_bitset
        (SPool_list_bitset.end ex_bitset ex_bitset_s1) 2 ex_bitset_s1 1 = none ∧
      (SPool_list_bitset.destroy ex_bitset_s1 (some 1)).map Pool_base.size = some 0 :=
  ⟨ex_bitset_reach1, rfl, rfl, rfl, rfl, rfl, rfl, rfl⟩

/-- Claim C17, the code evaluated at the failing input: in a full `SPool_list_bitset<T, 2>`
`destroy(begin(), end())` is undefined, whatever the fuel of the loop: the first
iteration destroys slot `0` and moves to position `1`, the second calls `destroy(first)`
on the last element, whose `++ret` reads `m_used[2]`.  The range that ends at the live
element of position `1` is destroyed as the claim says. -/
theorem bitset_destroy_range_to_end_undefined :
    Reachable ex_bitset ex_bitset_s2 [1, 0] ∧ ex_bitset.N = 2 ∧
      SPool_list_bitset.begin ex_bitset ex_bitset_s2 = some 0 ∧
      SPool_list_bitset.end ex_bitset ex_bitset_s2 = 2 ∧
      SPool_list_bitset.destroy_range ex_bitset 2 ex_bitset_s2 0 2 = none ∧
      SPool_list_bitset.destroy_range ex_bitset 5 ex_bitset_s2 0 2 = none ∧
      (SPool_list_bitset.destroy_range ex_bitset 2 ex_bitset_s2 0 1).map
          (fun r => (r.1, Pool_base.size r.2, live r.2 0, live r.2 1)) =
        some (1, 1, false, true) :=
  ⟨ex_bitset_reach2, rfl, rfl, rfl, rfl, rfl, rfl⟩

/-- Claim C37, the code evaluated at the failing input: in an `SPool_list_bitset<T, 2>`
whose only element is in slot `1`, `next()` from position `1 < N`, above which no bit is
set, does not yield `N`: it is undefined, because it reads `m_used[2]`; so is `next()`
from position `0` of the empty pool.  From position `0` of the pool with the element
`next()` yields position `1`, and `prev()` from there yields `N` (no bit below is
set). -/
theorem bitset_next_at_last_undefined :
    Reachable ex_bitset ex_bitset_s1 [1] ∧ Reachable ex_bitset ex_bitset_s0 [] ∧
      ex_bitset.N = 2 ∧ live ex_bitset_s1 1 = true ∧
      SPool_list_bitset.Iterator_t.next ex_bitset ex_bitset_s1 0 = some 1 ∧
      bitset_test ex_bitset.N ex_bitset_s1.m_used 2 = none ∧
      SPool_list_bitset.Iterator_t.next ex_bitset ex_bitset_s1 1 = none ∧
      SPool_list_bitset.Iterator_t.next ex_bitset ex_bitset_s0 0 = none ∧
      SPool_list_bitset.Iterator_t.prev ex_bitset ex_bitset_s1 2 = 1 :=
  ⟨ex_bitset_reach1, ex_bitset_reach0, rfl, rfl, rfl, rfl, rfl, rfl, rfl⟩

theorem iterate_begin_to_end_witness :
    (Reachable ex_dlist ex_dlist_s2 [1, 0] ∧
      ∃ b, Pool_dlist_base.begin ex_dlist_s2 = some b ∧
        (∀ k, k < Pool_base.size ex_dlist_s2 → ∃ a, [1, 0][k]? = some a ∧
          Pool_dlist_base.Iterator_t.advance ex_dlist_s2 k b = some (some a) ∧
          some a ≠ Pool_dlist_base.end ex_dlist_s2 ∧ live ex_dlist_s2 a = true) ∧
        Pool_dlist_base.Iterator_t.advance ex_dlist_s2 (Pool_base.size ex_dlist_s2) b =
          some (Pool_dlist_base.end ex_dlist_s2) ∧
        [1, 0].Nodup ∧
        (b = Pool_dlist_base.end ex_dlist_s2 ↔ Pool_base.empty ex_dlist_s2 = true)) ∧
    (Reachable ex_bitset ex_bitset_s2 [1, 0] ∧
      ∃ b, SPool_list_bitset.begin ex_bitset ex_bitset_s2 = some b ∧
        (∀ k, k < Pool_base.size ex_bitset_s2 → ∃ a,
          (set_bits ex_bitset ex_bitset_s2)[k]? = some a ∧
          SPool_list_bitset.Iterator_t.advance ex_bitset ex_bitset_s2 k b = some a ∧
          a ≠ SPool_list_bitset.end ex_bitset ex_bitset_s2 ∧ live ex_bitset_s2 a = true) ∧
        (0 < Pool_base.size ex_bitset_s2 →
          SPool_list_bitset.Iterator_t.advance ex_bitset ex_bitset_s2
            (Pool_base.size ex_bitset_s2) b = none) ∧
        (set_bits ex_bitset ex_bitset_s2).Nodup ∧
        (b = SPool_list_bitset.end ex_bitset ex_bitset_s2 ↔
          Pool_base.empty ex_bitset_s2 = true)) :=
  ⟨⟨ex_dlist_reach2, (iterate_begin_to_end ex_dlist_reach2).1 rfl⟩,
    ex_bitset_reach2, (iterate_begin_to_end ex_bitset_reach2).2 rfl⟩

theorem reverse_traversal_witness :
    (Reachable ex_dlist ex_dlist_s2 [1, 0] ∧
      ∃ b, Pool_dlist_base.begin ex_dlist_s2 = some b ∧
        (∀ k, k < Pool_base.size ex_dlist_s2 → ∃ a, [1, 0].reverse[k]? = some a ∧
          Pool_dlist_base.Iterator_t.retreat ex_dlist_s2 (k + 1)
            (Pool_dlist_base.end ex_dlist_s2) = some (some a) ∧
          Pool_dlist_base.Iterator_t.advance ex_dlist_s2
            (Pool_base.size ex_dlist_s2 - 1 - k) b = some (some a)) ∧
        Pool_dlist_base.Iterator_t.retreat ex_dlist_s2 (Pool_base.size ex_dlist_s2)
          (Pool_dlist_base.end ex_dlist_s2) = some b ∧
        ∀ k, k < Pool_base.size ex_dlist_s2 →
          Pool_dlist_base.Iterator_t.retreat ex_dlist_s2 k (Pool_dlist_base.end ex_dlist_s2) ≠
            some b) ∧
    (Reachable ex_bitset ex_bitset_s2 [1, 0] ∧
      ∃ b, SPool_list_bitset.begin ex_bitset ex_bitset_s2 = some b ∧
        (∀ k, k < Pool_base.size ex_bitset_s2 → ∃ a,
          (set_bits ex_bitset ex_bitset_s2).reverse[k]? = some a ∧
          Nat.iterate (SPool_list_bitset.Iterator_t.prev ex_bitset ex_bitset_s2) (k + 1)
            (SPool_list_bitset.end ex_bitset ex_bitset_s2) = a ∧
          SPool_list_bitset.Iterator_t.advance ex_bitset ex_bitset_s2
            (Pool_base.size ex_bitset_s2 - 1 - k) b = some a) ∧
        Nat.iterate (SPool_list_bitset.Iterator_t.prev ex_bitset ex_bitset_s2)
          (Pool_base.size ex_bitset_s2) (SPool_list_bitset.end ex_bitset ex_bitset_s2) = b ∧
        ∀ k, k < Pool_base.size ex_bitset_s2 →
          Nat.iterate (SPool_list_bitset.Iterator_t.prev ex_bitset ex_bitset_s2) k
            (SPool_list_bitset.end ex_bitset ex_bitset_s2) ≠ b) :=
  ⟨⟨ex_dlist_reach2, (reverse_traversal ex_dlist_reach2).1 rfl⟩,
    ex_bitset_reach2, (reverse_traversal ex_bitset_reach2).2 rfl⟩

theorem for_each_visits_live_witness :
    Reachable ex_slist ex_slist_s1 [1] ∧ ex_slist.impl ≠ Impl.Pool_list ∧
      ex_slist.impl ≠ Impl.Pool_list_block ∧
      ∃ L : List Nat, L.Perm [1] ∧ L.Nodup ∧ L.length = Pool_base.size ex_slist_s1 ∧
        (∀ a ∈ L, live ex_slist_s1 a = true) ∧
        (∀ fl, FreeChain ex_slist_s1 fl → ∀ a ∈ L, a ∉ fl) ∧
        ∀ (α : Type) (g : α → Nat → α) (acc : α) (fuel : Nat),
          capacity ex_slist ex_slist_s1 ≤ fuel →
          for_each ex_slist fuel (fun s acc a => some (s, g acc a)) ex_slist_s1 acc =
            some (ex_slist_s1, L.foldl g acc) :=
  ⟨ex_slist_reach1, by decide, by decide,
    for_each_visits_live ex_slist_reach1 (by decide) (by decide)⟩

theorem destroy_all_empties_witness :
    Reachable ex_dlist ex_dlist_s2 [1, 0] ∧ ex_dlist.impl ≠ Impl.Pool_list ∧
      ex_dlist.impl ≠ Impl.Pool_list_block ∧ capacity ex_dlist ex_dlist_s2 ≤ 2 ∧
      ∃ s' fl', destroy_all ex_dlist 2 ex_dlist_s2 = some s' ∧ Pool_base.size s' = 0 ∧
        capacity ex_dlist s' = capacity ex_dlist ex_dlist_s2 ∧ (∀ a, live s' a = false) ∧
        (ex_dlist.impl.is_dlist = true →
          UsedRing s' [] ∧ s'.m_used_nodes = ex_dlist_s2.m_used_nodes) ∧
        (ex_dlist.impl = Impl.SPool_list_bitset → ∀ i, i < ex_dlist.N → s'.m_used i = false) ∧
        FreeChain s' fl' ∧ fl'.Nodup ∧ fl'.length = capacity ex_dlist ex_dlist_s2 ∧
        (∀ fl, FreeChain ex_dlist_s2 fl → ∀ a, a ∈ fl' ↔ a ∈ fl ∨ a ∈ [1, 0]) ∧
        ∀ vs : List (Nat × Option Nat), vs.length = capacity ex_dlist ex_dlist_s2 →
          ∃ s'', creates ex_dlist vs s' = some s'' ∧
            Pool_base.size s'' = capacity ex_dlist ex_dlist_s2 ∧
            capacity ex_dlist s'' = capacity ex_dlist ex_dlist_s2 :=
  ⟨ex_dlist_reach2, by decide, by decide, by decide,
    destroy_all_empties ex_dlist_reach2 (by decide) (by decide) (by decide)⟩

theorem destroy_all_idempotent_witness :
    Reachable ex_bitset ex_bitset_s1 [1] ∧ ex_bitset.impl ≠ Impl.Pool_list ∧
      ex_bitset.impl ≠ Impl.Pool_list_block ∧ capacity ex_bitset ex_bitset_s1 ≤ 2 ∧
      ∃ s', destroy_all ex_bitset 2 ex_bitset_s1 = some s' ∧ Pool_base.size s' = 0 ∧
        ∀ fuel2, destroy_all ex_bitset fuel2 s' = some s' :=
  ⟨ex_bitset_reach1, by decide, by decide, by decide,
    destroy_all_idempotent ex_bitset_reach1 (by decide) (by decide) (by decide)⟩

theorem ex_list_reach2 : Reachable ex_list ex_list_s2 [] :=
  Reachable.destroy 5 ex_list_s2 ex_list_reach1 (by decide) rfl

end witnesses_two

section witnesses_three

theorem destroy_at_iterator_witness :
    (Reachable ex_dlist ex_dlist_s2 [1, 0] ∧
      (∀ (l1 l2 : List Nat) (a : Nat), [1, 0] = l1 ++ a :: l2 →
        ∃ s', Pool_dlist_base.destroy_pos ex_dlist_s2 (some a) =
            some ((l2 ++ [ex_dlist_s2.m_used_nodes])[0]?, s') ∧
          Pool_base.size s' + 1 = Pool_base.size ex_dlist_s2 ∧ live s' a = false ∧
          (∀ q, q ≠ a → value s' q = value ex_dlist_s2 q) ∧ UsedRing s' (l1 ++ l2) ∧
          s'.m_used_nodes = ex_dlist_s2.m_used_nodes) ∧
      ∃ b sf, Pool_dlist_base.begin ex_dlist_s2 = some b ∧
        (∀ fuel, Pool_dlist_base.destroy_range_loop (Pool_dlist_base.end ex_dlist_s2) fuel
            ex_dlist_s2 b =
          if Pool_base.size ex_dlist_s2 ≤ fuel then some sf else none) ∧
        Pool_base.size sf = 0 ∧ UsedRing sf []) ∧
    (Reachable ex_bitset ex_bitset_s2 [1, 0] ∧
      (∀ (l1 l2 : List Nat) (a : Nat), set_bits ex_bitset ex_bitset_s2 = l1 ++ a :: l2 →
        ∃ s', SPool_list_bitset.destroy ex_bitset_s2 (some a) = some s' ∧
          SPool_list_bitset.destroy_pos ex_bitset ex_bitset_s2 a =
            (l2[0]?).map (fun ret => (ret, s')) ∧
          Pool_base.size s' + 1 = Pool_base.size ex_bitset_s2 ∧ live s' a = false ∧
          (∀ q, q ≠ a → value s' q = value ex_bitset_s2 q) ∧
          set_bits ex_bitset s' = l1 ++ l2) ∧
      ∃ b, SPool_list_bitset.begin ex_bitset ex_bitset_s2 = some b ∧
        ∀ fuel, SPool_list_bitset.destroy_range_loop ex_bitset
            (SPool_list_bitset.end ex_bitset ex_bitset_s2) fuel ex_bitset_s2 b =
          if Pool_base.size ex_bitset_s2 = 0 then some ex_bitset_s2 else none) :=
  ⟨⟨ex_dlist_reach2, (destroy_at_iterator ex_dlist_reach2).1 rfl⟩,
    ex_bitset_reach2, (destroy_at_iterator ex_bitset_reach2).2 rfl⟩

theorem destroy_iterator_range_witness :
    (Reachable ex_dlist ex_dlist_s2 [1, 0] ∧
      (∀ l1 l2 l3 : List Nat, [1, 0] = l1 ++ l2 ++ l3 →
        ∃ s', (∀ fuel, l2.length ≤ fuel →
            Pool_dlist_base.destroy_range fuel ex_dlist_s2
                ((l2 ++ l3 ++ [ex_dlist_s2.m_used_nodes])[0]?)
                ((l3 ++ [ex_dlist_s2.m_used_nodes])[0]?) =
              some ((l3 ++ [ex_dlist_s2.m_used_nodes])[0]?, s')) ∧
          (∀ b, value s' b = if b ∈ l2 then none else value ex_dlist_s2 b) ∧
          Pool_base.size s' + l2.length = Pool_base.size ex_dlist_s2 ∧
          capacity ex_dlist s' = capacity ex_dlist ex_dlist_s2 ∧ UsedRing s' (l1 ++ l3)) ∧
      ∃ b s', Pool_dlist_base.begin ex_dlist_s2 = some b ∧
        (∀ fuel, Pool_base.size ex_dlist_s2 ≤ fuel →
          Pool_dlist_base.destroy_range fuel ex_dlist_s2 b (Pool_dlist_base.end ex_dlist_s2) =
            some (Pool_dlist_base.end ex_dlist_s2, s')) ∧
        Pool_base.size s' = 0 ∧ (Pool_base.empty ex_dlist_s2 = true → s' = ex_dlist_s2)) ∧
    (Reachable ex_bitset ex_bitset_s2 [1, 0] ∧
      (∀ (l1 l2 l3 : List Nat) (first last : Nat),
        set_bits ex_bitset ex_bitset_s2 = l1 ++ l2 ++ l3 →
        (l2 ++ l3)[0]? = some first → l3[0]? = some last →
        ∃ s', (∀ fuel, l2.length ≤ fuel →
            SPool_list_bitset.destroy_range ex_bitset fuel ex_bitset_s2 first last =
              some (last, s')) ∧
          (∀ b, value s' b = if b ∈ l2 then none else value ex_bitset_s2 b) ∧
          Pool_base.size s' + l2.length = Pool_base.size ex_bitset_s2 ∧
          capacity ex_bitset s' = capacity ex_bitset ex_bitset_s2 ∧
          set_bits ex_bitset s' = l1 ++ l3) ∧
      (∀ p fuel, SPool_list_bitset.destroy_range ex_bitset fuel ex_bitset_s2 p p =
        some (p, ex_bitset_s2)) ∧
      (∀ (l1 l2 : List Nat) (first : Nat), set_bits ex_bitset ex_bitset_s2 = l1 ++ l2 →
        l2[0]? = some first →
        ∀ fuel, SPool_list_bitset.destroy_range ex_bitset fuel ex_bitset_s2 first
          (SPool_list_bitset.end ex_bitset ex_bitset_s2) = none) ∧
      ∃ b, SPool_list_bitset.begin ex_bitset ex_bitset_s2 = some b ∧
        ∀ fuel, SPool_list_bitset.destroy_range ex_bitset fuel ex_bitset_s2 b
            (SPool_list_bitset.end ex_bitset ex_bitset_s2) =
          if Pool_base.empty ex_bitset_s2 then
            some (SPool_list_bitset.end ex_bitset ex_bitset_s2, ex_bitset_s2)
          else none) :=
  ⟨⟨ex_dlist_reach2, (destroy_iterator_range ex_dlist_reach2).1 rfl⟩,
    ex_bitset_reach2, (destroy_iterator_range ex_bitset_reach2).2 rfl⟩

theorem create_grows_by_unit_witness :
    (Reachable ex_list ex_list_s0 [] ∧ ex_list.impl.is_static = false ∧
      flag_set ex_list.Flags POOL_FIXED_CAPACITY = false ∧
      Pool_base.full ex_list ex_list_s0 = true ∧ fresh ex_list ex_list_s0 (some 5) ∧
      0 < unit_size ex_list ∧
      ∃ p s', create ex_list ex_list_s0 7 (some 5) = some (some p, s') ∧
        value s' p = some 7 ∧ Pool_base.size s' = Pool_base.size ex_list_s0 + 1 ∧
        capacity ex_list s' = capacity ex_list ex_list_s0 + unit_size ex_list) ∧
    (Reachable ex_list ex_list_s2 [] ∧ Pool_base.full ex_list ex_list_s2 = false ∧
      ∃ p s', create ex_list ex_list_s2 8 none = some (some p, s') ∧
        value s' p = some 8 ∧ Pool_base.size s' = Pool_base.size ex_list_s2 + 1 ∧
        capacity ex_list s' = capacity ex_list ex_list_s2) :=
  ⟨⟨ex_list_reach0, rfl, rfl, rfl, ex_list_fresh, by decide,
    (create_grows_by_unit ex_list_reach0 rfl rfl 7).1 5 rfl ex_list_fresh (by decide)⟩,
    ex_list_reach2, rfl, (create_grows_by_unit ex_list_reach2 rfl rfl 8).2 none rfl⟩

theorem fixed_capacity_no_growth_witness :
    Reachable ex_fixed ex_fixed_s1 [] ∧ ex_fixed.impl.is_static = false ∧
      flag_set ex_fixed.Flags POOL_FIXED_CAPACITY = true ∧
      (∀ (v : Nat) (a r : Option Nat) (s' : State Nat),
        create ex_fixed ex_fixed_s1 v a = some (r, s') →
        capacity ex_fixed s' = capacity ex_fixed ex_fixed_s1) ∧
      capacity ex_fixed ex_fixed_s0 = 0 ∧ capacity ex_fixed ex_fixed_s1 = 4 :=
  ⟨ex_fixed_reach1, rfl, rfl, (fixed_capacity_no_growth ex_fixed_reach1 rfl rfl).2.1, rfl,
    rfl⟩

theorem reserve_reaches_capacity_witness :
    Reachable ex_fixed ex_fixed_s0 [] ∧ ex_fixed.impl.is_static = false ∧
      0 < unit_size ex_fixed ∧ all_fresh ex_fixed ex_fixed_s0 [0, 10, 20] ∧
      3 - capacity ex_fixed ex_fixed_s0 ≤ [0, 10, 20].length ∧
      ∃ s' m, DPool_base.reserve ex_fixed ex_fixed_s0 3 ([0, 10, 20].map some) =
          some (s', false) ∧
        capacity ex_fixed s' = capacity ex_fixed ex_fixed_s0 + m * unit_size ex_fixed ∧
        3 ≤ capacity ex_fixed s' ∧
        (∀ j, 3 ≤ capacity ex_fixed ex_fixed_s0 + j * unit_size ex_fixed →
          capacity ex_fixed s' ≤ capacity ex_fixed ex_fixed_s0 + j * unit_size ex_fixed) ∧
        (unit_size ex_fixed = 1 →
          capacity ex_fixed s' = max (capacity ex_fixed ex_fixed_s0) 3) ∧
        Pool_base.size s' = Pool_base.size ex_fixed_s0 ∧
        (∀ q, value s' q = value ex_fixed_s0 q) ∧ Reachable ex_fixed s' [] :=
  ⟨ex_fixed_reach0, rfl, by decide, ex_fixed_fresh, by decide,
    reserve_reaches_capacity ex_fixed_reach0 rfl (by decide) 3 ex_fixed_fresh (by decide)⟩

end witnesses_three

section reserve_claims

/-! ## reserve with failing allocations -/

variable {T : Type}

/-- The counted loop of `DPool_base::reserve` returns the state of the loop itself. -/
theorem reserve_loop_calls_fst (c : Cfg) (new_cap : Nat) :
    ∀ (k i : Nat) (s : State T) (allocs : List (Option Nat)),
      (DPool_base.reserve_loop_calls c new_cap k i s allocs).map Prod.fst =
        DPool_base.reserve_loop c new_cap k i s allocs := by
  intro k
  induction k with
  | zero => intro i s allocs; rfl
  | succ k ih =>
    intro i s allocs
    by_cases hcond : capacity c s < new_cap ∧ i < new_cap
    · simp only [DPool_base.reserve_loop_calls, DPool_base.reserve_loop, hcond, and_self,
        if_true]
      cases e : add_node c s allocs.head?.join with
      | none => rfl
      | some s1 =>
        simp only [Option.bind_eq_bind, Option.some_bind]
        rw [← ih (i + 1) s1 allocs.tail]
        cases DPool_base.reserve_loop_calls c new_cap k (i + 1) s1 allocs.tail <;> rfl
    · simp only [DPool_base.reserve_loop_calls, DPool_base.reserve_loop, hcond, if_false,
        Option.map_some']

/-- The answers of `operator new` that a list of fresh answers starts with. -/
theorem all_fresh_head {c : Cfg} {s : State T} {allocs : List (Option Nat)}
    (h : all_fresh c s allocs.reduceOption) : fresh c s allocs.head?.join := by
  cases allocs with
  | nil => intro b hb; simp [grown] at hb
  | cons a t =>
    cases a with
    | none => intro b hb; simp [grown] at hb
    | some x =>
      rw [List.reduceOption_cons_of_some] at h
      exact (all_fresh_cons h).1

/-- After `add_node` the remaining answers are still fresh. -/
theorem Inv.all_fresh_tail {c : Cfg} {s s1 : State T} {fl ul : List Nat}
    {allocs : List (Option Nat)} (h : Inv c s fl ul)
    (h1 : Inv c s1 ((grown c allocs.head?.join).reverse ++ fl) ul)
    (hn : s1.m_used_nodes = s.m_used_nodes)
    (hfr : all_fresh c s allocs.reduceOption) : all_fresh c s1 allocs.tail.reduceOption := by
  cases allocs with
  | nil => simp [all_fresh]
  | cons a t =>
    cases a with
    | none =>
      rw [List.reduceOption_cons_of_none] at hfr
      refine ⟨hfr.1, fun b hb => ?_⟩
      exact h.al_after_add_node h1 hn (hfr.2 b hb) (by simp [grown])
    | some x =>
      rw [List.reduceOption_cons_of_some] at hfr
      obtain ⟨-, f2, f3⟩ := all_fresh_cons hfr
      refine ⟨f2, fun b hb => ?_⟩
      obtain ⟨g1, g2⟩ := f3 b hb
      exact h.al_after_add_node h1 hn g1 (by simpa [grown] using g2)

/-- One more call of `add_node`. -/
theorem add_nodes_succ (c : Cfg) (s : State T) (allocs : List (Option Nat)) (n : Nat) :
    add_nodes c s allocs (n + 1) =
      (add_node c s allocs.head?.join).bind fun s1 => add_nodes c s1 allocs.tail n := by
  simp only [add_nodes, answers, List.foldlM_cons, Option.bind_eq_bind]

/-- No call of `add_node`. -/
theorem add_nodes_zero (c : Cfg) (s : State T) (allocs : List (Option Nat)) :
    add_nodes c s allocs 0 = some s := by
  cases allocs <;> rfl

/-- The loop of `DPool_base::reserve` for any answers of `operator new`, failures
included: it returns, it has made `n ≤ k` calls of `add_node`, each of them with the
capacity and the counter below `new_cap`, and it ends before the `k`-th call only when
the capacity or the counter has reached `new_cap`. -/
theorem Inv.reserve_loop_calls_spec {c : Cfg} (hdyn : c.impl.is_static = false)
    {ul : List Nat} (new_cap : Nat) :
    ∀ (k i : Nat) (allocs : List (Option Nat)) (s : State T) (fl : List Nat),
      Inv c s fl ul → all_fresh c s allocs.reduceOption →
      ∃ s' fl' n, DPool_base.reserve_loop_calls c new_cap k i s allocs = some (s', n) ∧
        Inv c s' fl' ul ∧ n ≤ k ∧ add_nodes c s allocs n = some s' ∧
        (∀ j, j < n → ∃ sj, add_nodes c s allocs j = some sj ∧ capacity c sj < new_cap ∧
          i + j < new_cap) ∧
        (n < k → new_cap ≤ capacity c s' ∨ new_cap ≤ i + n) ∧
        s.m_capacity ≤ s'.m_capacity ∧ dt s'.mem = dt s.mem ∧ s'.m_size = s.m_size ∧
        s'.m_used_nodes = s.m_used_nodes := by
  intro k
  induction k with
  | zero =>
    intro i allocs s fl h _
    exact ⟨s, fl, 0, rfl, h, le_refl _, add_nodes_zero c s allocs,
      fun j hj => absurd hj (Nat.not_lt_zero _), fun hj => absurd hj (Nat.lt_irrefl _),
      le_refl _, rfl, rfl, rfl⟩
  | succ k ih =>
    intro i allocs s fl h hfr
    by_cases hcond : capacity c s < new_cap ∧ i < new_cap
    · obtain ⟨s1, e1, d1, z1, n1, -, c1, -, i1⟩ := h.of_add_node hdyn (all_fresh_head hfr)
      have hfr1 := h.all_fresh_tail i1 n1 hfr
      obtain ⟨s', fl', n, e2, i2, hn, a2, j2, t2, cap2, d2, z2, u2⟩ :=
        ih (i + 1) allocs.tail s1 _ i1 hfr1
      refine ⟨s', fl', n + 1, ?_, i2, by omega, ?_, fun j hj => ?_, fun hj => ?_, by omega,
        by rw [d2, d1], by rw [z2, z1], by rw [u2, n1]⟩
      · simp only [DPool_base.reserve_loop_calls, hcond, and_self, if_true,
          Option.bind_eq_bind, e1, Option.some_bind, e2]
      · rw [add_nodes_succ, e1]
        exact a2
      · cases j with
        | zero => exact ⟨s, add_nodes_zero c s allocs, hcond.1, hcond.2⟩
        | succ j =>
          obtain ⟨sj, g1, g2, g3⟩ := j2 j (by omega)
          refine ⟨sj, ?_, g2, by omega⟩
          rw [add_nodes_succ, e1]
          exact g1
      · rcases t2 (by omega) with t | t
        · exact Or.inl t
        · exact Or.inr (by omega)
    · refine ⟨s, fl, 0, ?_, h, Nat.zero_le _, add_nodes_zero c s allocs,
        fun j hj => absurd hj (Nat.not_lt_zero _), fun _ => ?_, le_refl _, rfl, rfl, rfl⟩
      · simp only [DPool_base.reserve_loop_calls, hcond, if_false]
      · by_cases hc : capacity c s < new_cap
        · exact Or.inr (by have := fun hi => hcond ⟨hc, hi⟩; omega)
        · exact Or.inl (by omega)

/-- Method `DPool_base::reserve` for any answers of `operator new`, failures included. -/
theorem Inv.reserve_spec {c : Cfg} (hdyn : c.impl.is_static = false) {s : State T}
    {fl ul : List Nat} (h : Inv c s fl ul) (new_cap : Nat) {allocs : List (Option Nat)}
    (hfr : all_fresh c s allocs.reduceOption) :
    ∃ s' fl' n,
      DPool_base.reserve_loop c new_cap (new_cap - capacity c s) (capacity c s) s allocs =
        some s' ∧
      DPool_base.reserve c s new_cap allocs =
        some (s', flag_set c.Flags POOL_RESERVE_EXCEPTION && decide (capacity c s' < new_cap)) ∧
      DPool_base.reserve_calls c s new_cap allocs = some n ∧
      Inv c s' fl' ul ∧ n ≤ new_cap - capacity c s ∧ add_nodes c s allocs n = some s' ∧
      (∀ j, j < n → ∃ sj, add_nodes c s allocs j = some sj ∧ capacity c sj < new_cap) ∧
      (n < new_cap - capacity c s → new_cap ≤ capacity c s') ∧
      capacity c s ≤ capacity c s' ∧ dt s'.mem = dt s.mem ∧ s'.m_size = s.m_size ∧
      s'.m_used_nodes = s.m_used_nodes := by
  have hc : ∀ x : State T, capacity c x = x.m_capacity := fun x => by simp [capacity, hdyn]
  obtain ⟨s', fl', n, e, i, hn, a, j, t, cp, d, z, u⟩ :=
    Inv.reserve_loop_calls_spec hdyn new_cap (new_cap - capacity c s) (capacity c s) allocs s
      fl h hfr
  have e' := reserve_loop_calls_fst c new_cap (new_cap - capacity c s) (capacity c s) s allocs
  rw [e] at e'
  refine ⟨s', fl', n, e'.symm, ?_, ?_, i, hn, a, fun x hx => ?_, fun hx => ?_,
    by rw [hc, hc]; exact cp, d, z, u⟩
  · simp only [DPool_base.reserve, ← e', Option.map_some', Option.bind_eq_bind,
      Option.some_bind]
  · simp only [DPool_base.reserve_calls, e, Option.map_some']
  · obtain ⟨sj, g1, g2, -⟩ := j x hx
    exact ⟨sj, g1, g2⟩
  · rcases t hx with t | t
    · exact t
    · omega

/-- The answers to the first `n + 1` calls are those to the first `n` calls and one
more. -/
theorem answers_succ_last :
    ∀ (n : Nat) (allocs : List (Option Nat)),
      answers allocs (n + 1) = answers allocs n ++ [allocs[n]?.join] := by
  intro n
  induction n with
  | zero => intro allocs; cases allocs <;> simp [answers]
  | succ n ih =>
    intro allocs
    rw [answers, ih allocs.tail, answers]
    cases allocs <;> simp

/-- The state after `n + 1` calls of `add_node` is the state after `n` calls and one
more call. -/
theorem add_nodes_succ_last (c : Cfg) (s : State T) (allocs : List (Option Nat)) (n : Nat) :
    add_nodes c s allocs (n + 1) =
      (add_nodes c s allocs n).bind fun sj => add_node c sj allocs[n]?.join := by
  simp only [add_nodes, answers_succ_last, List.foldlM_append, List.foldlM_cons,
    List.foldlM_nil, Option.bind_eq_bind, Option.pure_def, Option.bind_some]

/-- The loop of `DPool_base::reserve` does not look at the flags. -/
theorem reserve_loop_flags {c c' : Cfg} (h1 : c'.impl = c.impl) (h2 : c'.N = c.N)
    (new_cap : Nat) :
    ∀ (k i : Nat) (s : State T) (allocs : List (Option Nat)),
      DPool_base.reserve_loop c' new_cap k i s allocs =
        DPool_base.reserve_loop c new_cap k i s allocs := by
  have hcap : ∀ x : State T, capacity c' x = capacity c x := fun x => by
    simp only [capacity, h1, h2]
  have hadd : ∀ (x : State T) (a : Option Nat), add_node c' x a = add_node c x a :=
    fun x a => by
      cases a <;>
        simp only [add_node, Pool_block_allocator.add_node, h1, h2]
  intro k
  induction k with
  | zero => intro i s allocs; rfl
  | succ k ih =>
    intro i s allocs
    simp only [DPool_base.reserve_loop, hcap, hadd, ih]

/-- Claim C21: for a dynamic pool in any reachable state, any target `new_cap` and any
answers of `operator new` (failures included), `reserve(new_cap)` returns, and whenever
it returns `capacity()` is not below its value before the call; and when
`capacity() >= new_cap` already, `reserve(new_cap)` does not call `add_node` (it performs
no allocation, whatever `operator new` would answer), does not throw and leaves the whole
state unchanged. -/
theorem reserve_never_decreases {c : Cfg} {s : State T} {ul : List Nat}
    (h : Reachable c s ul) (hdyn : c.impl.is_static = false) (new_cap : Nat)
    (allocs : List (Option Nat)) :
    (all_fresh c s allocs.reduceOption →
      ∃ s' thrown, DPool_base.reserve c s new_cap allocs = some (s', thrown) ∧
        capacity c s ≤ capacity c s') ∧
    (∀ s' thrown, DPool_base.reserve c s new_cap allocs = some (s', thrown) →
      capacity c s ≤ capacity c s') ∧
    (new_cap ≤ capacity c s →
      DPool_base.reserve c s new_cap allocs = some (s, false) ∧
        DPool_base.reserve_calls c s new_cap allocs = some 0) := by
  obtain ⟨fl, hi, -⟩ := reachable_inv h
  have hc : ∀ x : State T, capacity c x = x.m_capacity := fun x => by simp [capacity, hdyn]
  refine ⟨fun hfr => ?_, fun s' thrown e => ?_, fun hle => ?_⟩
  · obtain ⟨s', fl', n, -, e, -, -, -, -, -, -, cp, -⟩ := hi.reserve_spec hdyn new_cap hfr
    exact ⟨s', _, e, cp⟩
  · obtain ⟨fl', -, -, -, -, cp⟩ := Inv.of_reserve hdyn hi e
    rw [hc, hc]
    exact cp
  · have h0 : new_cap - capacity c s = 0 := Nat.sub_eq_zero_of_le hle
    have hlt : ¬ capacity c s < new_cap := by omega
    simp [DPool_base.reserve, DPool_base.reserve_calls, h0, DPool_base.reserve_loop,
      DPool_base.reserve_loop_calls, hlt]

/-- Claim C22 (amended): for a dynamic pool in any reachable state and any answers of
`operator new`, `reserve(new_cap)` calls `add_node` only while `capacity() < new_cap`
and at most `new_cap - capacity()` times in all (the capacity at entry); it ends before
that many calls only when the capacity has reached `new_cap`.  A failed allocation does
not end the loop: the next call of `add_node` follows it as long as fewer than
`new_cap - capacity()` calls have been made. -/
theorem reserve_attempts {c : Cfg} {s : State T} {ul : List Nat}
    (h : Reachable c s ul) (hdyn : c.impl.is_static = false) (new_cap : Nat)
    (allocs : List (Option Nat)) (hfr : all_fresh c s allocs.reduceOption) :
    ∃ s' thrown n, DPool_base.reserve c s new_cap allocs = some (s', thrown) ∧
      DPool_base.reserve_calls c s new_cap allocs = some n ∧
      n ≤ new_cap - capacity c s ∧ add_nodes c s allocs n = some s' ∧
      (∀ j, j < n → ∃ sj, add_nodes c s allocs j = some sj ∧ capacity c sj < new_cap) ∧
      (n < new_cap - capacity c s → new_cap ≤ capacity c s') ∧
      (∀ j, j < n → allocs[j]?.join = none → j + 1 < new_cap - capacity c s → j + 1 < n) := by
  obtain ⟨fl, hi, -⟩ := reachable_inv h
  obtain ⟨s', fl', n, -, e, ec, -, hn, a, j, t, -⟩ := hi.reserve_spec hdyn new_cap hfr
  refine ⟨s', _, n, e, ec, hn, a, j, t, fun x hx hnone hb => ?_⟩
  by_contra hlt
  have hx1 : n = x + 1 := by omega
  obtain ⟨sj, g1, g2⟩ := j x hx
  have a' := a
  rw [hx1, add_nodes_succ_last, g1, hnone] at a'
  simp only [Option.bind_eq_bind, Option.some_bind, add_node_none, Option.some.injEq] at a'
  have := t (by omega)
  rw [← a'] at this
  omega

/-- Claim C23: for a dynamic pool in any reachable state and any answers of
`operator new`, `reserve(new_cap)` with `POOL_RESERVE_EXCEPTION` throws `std::bad_alloc`
exactly when `capacity() < new_cap` after its calls of `add_node`; the state it leaves is
in both cases the state that the same call leaves without the flag, so the capacity
gained is kept; without the flag `reserve` never throws.  The size and the elements are
unchanged. -/
theorem reserve_raises_iff_short {c : Cfg} {s : State T} {ul : List Nat}
    (h : Reachable c s ul) (hdyn : c.impl.is_static = false) (new_cap : Nat)
    (allocs : List (Option Nat)) (hfr : all_fresh c s allocs.reduceOption) :
    ∃ s' thrown, DPool_base.reserve c s new_cap allocs = some (s', thrown) ∧
      (thrown = true ↔
        flag_set c.Flags POOL_RESERVE_EXCEPTION = true ∧ capacity c s' < new_cap) ∧
      (flag_set c.Flags POOL_RESERVE_EXCEPTION = false → thrown = false) ∧
      capacity c s ≤ capacity c s' ∧
      (∀ c' : Cfg, c'.impl = c.impl → c'.N = c.N →
        flag_set c'.Flags POOL_RESERVE_EXCEPTION = false →
        DPool_base.reserve c' s new_cap allocs = some (s', false)) ∧
      Pool_base.size s' = Pool_base.size s ∧ (∀ q, value s' q = value s q) ∧
      Reachable c s' ul := by
  obtain ⟨fl, hi, -⟩ := reachable_inv h
  obtain ⟨s', fl', n, el, e, -, -, -, -, -, -, cp, d, z, -⟩ := hi.reserve_spec hdyn new_cap hfr
  refine ⟨s', _, e, by simp, fun hf => by simp [hf], cp, fun c' h1 h2 hf => ?_, z,
    fun q => by simp only [value, d], Reachable.reserve new_cap allocs _ s' h hdyn e⟩
  have hcap : ∀ x : State T, capacity c' x = capacity c x := fun x => by
    simp only [capacity, h1, h2]
  simp only [DPool_base.reserve, hcap, reserve_loop_flags h1 h2, el, hf, Bool.false_and,
    Option.bind_eq_bind, Option.some_bind]

theorem ex_rsv_reach0 : Reachable ex_rsv ex_rsv_s0 [] :=
  Reachable.construct 0 (fun _ => false) ex_rsv_s0 rfl

theorem ex_rsv_fresh : all_fresh ex_rsv ex_rsv_s0 [some 5, none].reduceOption :=
  ⟨by decide, by decide⟩

theorem ex_list_fresh_retry : all_fresh ex_list ex_list_s0 [none, some 5].reduceOption :=
  ⟨by decide, by decide⟩

theorem reserve_never_decreases_witness :
    Reachable ex_fixed ex_fixed_s1 [] ∧ ex_fixed.impl.is_static = false ∧
      3 ≤ capacity ex_fixed ex_fixed_s1 ∧
      DPool_base.reserve ex_fixed ex_fixed_s1 3 [some 20] = some (ex_fixed_s1, false) ∧
      DPool_base.reserve_calls ex_fixed ex_fixed_s1 3 [some 20] = some 0 :=
  ⟨ex_fixed_reach1, rfl, by decide,
    (reserve_never_decreases ex_fixed_reach1 rfl 3 [some 20]).2.2 (by decide)⟩

/-- Counterexample to claim C22 as stated: on the empty `Pool_list` with capacity 0,
`reserve(2)` calls `add_node` twice although the first allocation fails (the state after
the first call is the state before it); the second call obtains the node at address `5`,
and the pool ends with capacity 1. -/
theorem reserve_retries_counterexample :
    Reachable ex_list ex_list_s0 [] ∧ ex_list.impl.is_static = false ∧
      capacity ex_list ex_list_s0 = 0 ∧
      add_nodes ex_list ex_list_s0 [none, some 5] 1 = some ex_list_s0 ∧
      DPool_base.reserve ex_list ex_list_s0 2 [none, some 5] = some (ex_list_r2, false) ∧
      DPool_base.reserve_calls ex_list ex_list_s0 2 [none, some 5] = some 2 ∧
      capacity ex_list ex_list_r2 = 1 ∧ al ex_list_r2.mem 5 = true ∧
      al ex_list_s0.mem 5 = false :=
  ⟨ex_list_reach0, rfl, rfl, rfl, rfl, rfl, rfl, rfl, rfl⟩

theorem reserve_attempts_witness :
    Reachable ex_list ex_list_s0 [] ∧ ex_list.impl.is_static = false ∧
      all_fresh ex_list ex_list_s0 [none, some 5].reduceOption ∧
      ∃ s' thrown n, DPool_base.reserve ex_list ex_list_s0 2 [none, some 5] =
          some (s', thrown) ∧
        DPool_base.reserve_calls ex_list ex_list_s0 2 [none, some 5] = some n ∧
        n ≤ 2 - capacity ex_list ex_list_s0 ∧
        add_nodes ex_list ex_list_s0 [none, some 5] n = some s' ∧
        (∀ j, j < n → ∃ sj, add_nodes ex_list ex_list_s0 [none, some 5] j = some sj ∧
          capacity ex_list sj < 2) ∧
        (n < 2 - capacity ex_list ex_list_s0 → 2 ≤ capacity ex_list s') ∧
        (∀ j, j < n → [none, some 5][j]?.join = none →
          j + 1 < 2 - capacity ex_list ex_list_s0 → j + 1 < n) :=
  ⟨ex_list_reach0, rfl, ex_list_fresh_retry,
    reserve_attempts ex_list_reach0 rfl 2 [none, some 5] ex_list_fresh_retry⟩

theorem reserve_raises_iff_short_witness :
    Reachable ex_rsv ex_rsv_s0 [] ∧ ex_rsv.impl.is_static = false ∧
      all_fresh ex_rsv ex_rsv_s0 [some 5, none].reduceOption ∧
      DPool_base.reserve ex_rsv ex_rsv_s0 2 [some 5, none] = some (ex_rsv_s1, true) ∧
      capacity ex_rsv ex_rsv_s1 = 1 ∧
      ∃ s' thrown, DPool_base.reserve ex_rsv ex_rsv_s0 2 [some 5, none] = some (s', thrown) ∧
        (thrown = true ↔
          flag_set ex_rsv.Flags POOL_RESERVE_EXCEPTION = true ∧ capacity ex_rsv s' < 2) ∧
        (flag_set ex_rsv.Flags POOL_RESERVE_EXCEPTION = false → thrown = false) ∧
        capacity ex_rsv ex_rsv_s0 ≤ capacity ex_rsv s' ∧
        (∀ c' : Cfg, c'.impl = ex_rsv.impl → c'.N = ex_rsv.N →
          flag_set c'.Flags POOL_RESERVE_EXCEPTION = false →
          DPool_base.reserve c' ex_rsv_s0 2 [some 5, none] = some (s', false)) ∧
        Pool_base.size s' = Pool_base.size ex_rsv_s0 ∧
        (∀ q, value s' q = value ex_rsv_s0 q) ∧ Reachable ex_rsv s' [] :=
  ⟨ex_rsv_reach0, rfl, ex_rsv_fresh, rfl, rfl,
    reserve_raises_iff_short ex_rsv_reach0 rfl 2 [some 5, none] ex_rsv_fresh⟩

end reserve_claims

section pool_create
variable {T : Type}

/-- Method `create` of the class looks at no flag but `POOL_FIXED_CAPACITY`. -/
theorem create_flags {c c' : Cfg} (h1 : c'.impl = c.impl) (h2 : c'.N = c.N)
    (h3 : flag_set c'.Flags POOL_FIXED_CAPACITY = flag_set c.Flags POOL_FIXED_CAPACITY)
    (s : State T) (v : T) (a : Option Nat) : create c' s v a = create c s v a := by
  cases a <;>
    simp only [create, DPool_base.create, Pool_base.full, capacity, add_node, create_obj,
      Pool_block_allocator.add_node, h1, h2, h3]

/-- Method `create` of the class returns in every state that satisfies the invariant:
`nullptr` exactly when the free chain is empty after the growth (if any). -/
theorem Inv.create_total {c : Cfg} {s : State T} {fl ul : List Nat} (h : Inv c s fl ul)
    (hb : BitsInv c s ul) (v : T) {a : Option Nat} (hf : grows c s = true → fresh c s a) :
    ∃ r s' g, create c s v a = some (r, s') ∧ g = (if grows c s then grown c a else []) ∧
      (r = none ↔ g = [] ∧ fl = []) ∧ s'.m_capacity = s.m_capacity + g.length ∧
      (∀ p, r = some p → value s' p = some v ∧ s'.m_size = s.m_size + 1) ∧
      (r = none → s'.m_size = s.m_size) := by
  have key : ∀ a0, fresh c s a0 → create c s v a0 = create c s v a →
      (if grows c s then grown c a0 else []) = (if grows c s then grown c a else []) →
      ∃ r s' g, create c s v a = some (r, s') ∧ g = (if grows c s then grown c a else []) ∧
        (r = none ↔ g = [] ∧ fl = []) ∧ s'.m_capacity = s.m_capacity + g.length ∧
        (∀ p, r = some p → value s' p = some v ∧ s'.m_size = s.m_size + 1) ∧
        (r = none → s'.m_size = s.m_size) := by
    intro a0 hf0 hc hg
    obtain ⟨s1, g, -, eg, -, -, -, z1, c1, hnull, hsome⟩ := h.of_create hb v hf0
    rw [hg] at eg
    rw [hc] at hnull hsome
    cases hl : g.reverse ++ fl with
    | nil =>
      have hl' : g = [] ∧ fl = [] := by simpa using hl
      exact ⟨none, s1, g, hnull hl, eg, by simp [hl'], c1, fun p hp => (by cases hp),
        fun _ => z1⟩
    | cons x fl2 =>
      obtain ⟨s', e, -, -, d, z, cp, -, -⟩ := hsome x fl2 hl
      refine ⟨some x, s', g, e, eg, ?_, by rw [cp, c1], fun p hp => ?_, fun hp => (by cases hp)⟩
      · constructor
        · intro hx; cases hx
        · rintro ⟨h1, h2⟩
          rw [h1, h2] at hl
          cases hl
      · cases hp
        exact ⟨by simp [value, d], z⟩
  rcases Bool.eq_false_or_eq_true (grows c s) with hg | hg
  · exact key a (hf hg) rfl rfl
  · refine key none (fresh_none c s) ((create_irrel hg v a).symm) ?_
    simp [hg]

/-- Claim C24: in every reachable state of every pool class, `Pool::create` returns or
throws (it is defined), and it leaves the state that the underlying `create` leaves.
With `POOL_CREATE_EXCEPTION` it throws `std::bad_alloc` exactly when the underlying
`create` returns `nullptr`, and otherwise returns the reference the underlying `create`
returns; without the flag it never throws and returns what the underlying `create`
returns, `nullptr` included, which is also what the same call returns with the flag
whenever that call does not throw.  The underlying `create` returns `nullptr` exactly
when the pool is full and the capacity has not grown: `add_node` is not called (static
pool or `POOL_FIXED_CAPACITY`), or the allocation fails, or the unit holds no slot. -/
theorem pool_create_raises_iff_null {c : Cfg} {s : State T} {ul : List Nat}
    (h : Reachable c s ul) (v : T) (a : Option Nat) (hf : grows c s = true → fresh c s a) :
    ∃ r s' res, create c s v a = some (r, s') ∧ Pool.create c s v a = some (res, s') ∧
      (res = Except.error bad_alloc.mk ↔
        flag_set c.Flags POOL_CREATE_EXCEPTION = true ∧ r = none) ∧
      (res ≠ Except.error bad_alloc.mk → res = Except.ok r) ∧
      (flag_set c.Flags POOL_CREATE_EXCEPTION = false → res = Except.ok r) ∧
      (∀ c' : Cfg, c'.impl = c.impl → c'.N = c.N →
        flag_set c'.Flags POOL_FIXED_CAPACITY = flag_set c.Flags POOL_FIXED_CAPACITY →
        flag_set c'.Flags POOL_CREATE_EXCEPTION = false →
        Pool.create c' s v a = some (Except.ok r, s')) ∧
      (r = none ↔ Pool_base.full c s = true ∧ capacity c s' = capacity c s) ∧
      (r = none ↔ Pool_base.full c s = true ∧
        (grows c s = false ∨ a = none ∨ unit_size c = 0)) ∧
      (∀ p, r = some p → value s' p = some v ∧ Pool_base.size s' = Pool_base.size s + 1) ∧
      (r = none → Pool_base.size s' = Pool_base.size s) := by
  obtain ⟨fl, hi, hb⟩ := reachable_inv h
  obtain ⟨r, s', g, e, eg, hnull, cp, hsome, hz⟩ := hi.create_total hb v hf
  have hfull : Pool_base.full c s = true ↔ fl = [] := by
    have h1 := hi.size
    have h2 := hi.cap
    simp only [Pool_base.full, Pool_base.size, beq_iff_eq]
    rw [h2, h1]
    constructor
    · intro h3
      exact List.length_eq_zero.1 (by omega)
    · intro h3
      simp [h3]
  have hgrow : g = [] ↔ (grows c s = false ∨ a = none ∨ unit_size c = 0) := by
    rw [eg]
    cases hg : grows c s with
    | false => simp
    | true =>
      cases a with
      | none => simp [grown]
      | some x =>
        simp only [if_true, Bool.true_eq_false, false_or, reduceCtorEq]
        rw [← unit_size_eq c x]
        exact List.length_eq_zero.symm
  have hcap : capacity c s' = capacity c s ↔ (c.impl.is_static = true ∨ g = []) := by
    cases hs : c.impl.is_static with
    | true => simp [capacity, hs]
    | false =>
      simp only [capacity, hs, Bool.false_eq_true, if_false, false_or, cp]
      constructor
      · intro h3
        exact List.length_eq_zero.1 (by omega)
      · intro h3
        simp [h3]
  have hstat : c.impl.is_static = true → g = [] := by
    intro hs
    rw [eg, grows_false_of_fixed s (Or.inl hs)]
    rfl
  have hP : ∀ c' : Cfg, create c' s v a = some (r, s') →
      Pool.create c' s v a =
        some (if flag_set c'.Flags POOL_CREATE_EXCEPTION = true ∧ r = none
          then Except.error bad_alloc.mk else Except.ok r, s') := by
    intro c' e'
    simp only [Pool.create, e', Option.bind_eq_bind, Option.some_bind]
    cases hfl : flag_set c'.Flags POOL_CREATE_EXCEPTION <;> cases r <;> simp
  refine ⟨r, s', _, e, hP c e, ?_, ?_, ?_, ?_, ?_, ?_, hsome, hz⟩
  · split <;> simp_all
  · split <;> simp_all
  · intro hfl
    simp [hfl]
  · intro c' h1 h2 h3 h4
    rw [hP c' (by rw [create_flags h1 h2 h3]; exact e)]
    simp [h4]
  · rw [hnull, hfull, hcap]
    constructor
    · rintro ⟨h1, h2⟩
      exact ⟨h2, Or.inr h1⟩
    · rintro ⟨h1, h2 | h2⟩
      · exact ⟨hstat h2, h1⟩
      · exact ⟨h2, h1⟩
  · rw [hnull, hfull, hgrow]
    exact And.comm

theorem ex_cex_reach0 : Reachable ex_cex ex_cex_s0 [] :=
  Reachable.construct 0 (fun _ => false) ex_cex_s0 rfl

theorem ex_cex_reach1 : Reachable ex_cex ex_cex_s1 [] :=
  Reachable.reserve 1 [some 5] false ex_cex_s1 ex_cex_reach0 rfl rfl

theorem pool_create_raises_iff_null_witness :
    (Reachable ex_cex ex_cex_s0 [] ∧ grows ex_cex ex_cex_s0 = false ∧
      Pool.create ex_cex ex_cex_s0 7 none = some (Except.error bad_alloc.mk, ex_cex_s0) ∧
      ∃ r s' res, create ex_cex ex_cex_s0 7 none = some (r, s') ∧
        Pool.create ex_cex ex_cex_s0 7 none = some (res, s') ∧
        (res = Except.error bad_alloc.mk ↔
          flag_set ex_cex.Flags POOL_CREATE_EXCEPTION = true ∧ r = none) ∧
        (r = none ↔ Pool_base.full ex_cex ex_cex_s0 = true ∧
          capacity ex_cex s' = capacity ex_cex ex_cex_s0)) ∧
    (Reachable ex_cex ex_cex_s1 [] ∧ grows ex_cex ex_cex_s1 = false ∧
      ∃ s', Pool.create ex_cex ex_cex_s1 7 none = some (Except.ok (some 5), s') ∧
        value s' 5 = some 7 ∧
        ∃ r s'' res, create ex_cex ex_cex_s1 7 none = some (r, s'') ∧
          Pool.create ex_cex ex_cex_s1 7 none = some (res, s'') ∧
          (res ≠ Except.error bad_alloc.mk → res = Except.ok r)) :=
  ⟨⟨ex_cex_reach0, rfl, rfl, by
      obtain ⟨r, s', res, h1, h2, h3, -, -, -, h7, -⟩ :=
        pool_create_raises_iff_null ex_cex_reach0 7 none (fun hg => by cases hg)
      exact ⟨r, s', res, h1, h2, h3, h7⟩⟩,
    ex_cex_reach1, rfl, ⟨_, rfl, rfl, by
      obtain ⟨r, s', res, h1, h2, -, h4, -⟩ :=
        pool_create_raises_iff_null ex_cex_reach1 7 none (fun hg => by cases hg)
      exact ⟨r, s', res, h1, h2, h4⟩⟩⟩

end pool_create

section shrink_claims
variable {T : Type}

/-- Claim C25: for the single-slot allocator (`Pool_list`, `Pool_dlist`), in any
reachable state, empty or not, `shrink_to_fit(new_cap)` returns and leaves
`capacity() == min(old capacity, max(size(), new_cap))`.  The nodes it releases are the
first `capacity() - max(size(), new_cap)` nodes of the free chain and nothing else: the
rest of the free chain stays, in its order, and `size()`, the values of all elements
and the list of live elements are unchanged. -/
theorem node_shrink_to_fit_exact {c : Cfg} {s : State T} {ul : List Nat}
    (h : Reachable c s ul) (hdyn : c.impl.is_static = false)
    (hblk : c.impl.is_block = false) (new_cap : Nat) :
    ∃ s' fl, shrink_to_fit c s new_cap = some s' ∧
      capacity c s' = min (capacity c s) (max (Pool_base.size s) new_cap) ∧
      FreeChain s fl ∧
      FreeChain s' (fl.drop (capacity c s - max (Pool_base.size s) new_cap)) ∧
      (∀ a ∈ fl.take (capacity c s - max (Pool_base.size s) new_cap),
        al s.mem a = true ∧ al s'.mem a = false) ∧
      (∀ a, al s.mem a = true → al s'.mem a = false →
        a ∈ fl.take (capacity c s - max (Pool_base.size s) new_cap)) ∧
      (∀ a, al s'.mem a = true → al s.mem a = true) ∧
      Pool_base.size s' = Pool_base.size s ∧ (∀ q, value s' q = value s q) ∧
      (∀ a ∈ ul, live s' a = true) ∧ (c.impl.is_dlist = true → UsedRing s' ul) ∧
      Reachable c s' ul := by
  obtain ⟨fl, hi, -⟩ := reachable_inv h
  have hc : ∀ x : State T, capacity c x = x.m_capacity := fun x => by simp [capacity, hdyn]
  obtain ⟨s', e, i', d, z, u, cp, -, -⟩ := hi.node_shrink_to_fit hdyn hblk new_cap
  have e' : shrink_to_fit c s new_cap = some s' := by
    simp only [shrink_to_fit, hblk, Bool.false_eq_true, if_false]
    exact e
  have hsplit : fl.take (s.m_capacity - max s.m_size new_cap) ++
      fl.drop (s.m_capacity - max s.m_size new_cap) = fl := List.take_append_drop _ _
  have hnd := hi.core.nodup
  simp only [hc, Pool_base.size]
  refine ⟨s', fl, e', cp, hi.core.chain, i'.core.chain,
    fun a ha => ⟨hi.core.al_fl a (List.mem_of_mem_take ha), ?_⟩, fun a h1 h2 => ?_,
    fun a h1 => ?_, z, fun q => by simp only [value, d], fun a ha => i'.core.ul_live a ha,
    fun hd => ?_, Reachable.shrink_to_fit new_cap s' h hdyn e'⟩
  · cases hx : al s'.mem a with
    | false => rfl
    | true =>
      exfalso
      rw [← hsplit, List.append_assoc] at hnd
      have hnd2 := (List.nodup_append.1 hnd).2.2
      rcases i'.owned a hx with hm | hm | ⟨hd, hm⟩
      · exact hnd2 ha (List.mem_append_left _ hm)
      · exact hnd2 ha (List.mem_append_right _ hm)
      · obtain ⟨-, hs, -⟩ := hi.core.ring hd
        rw [u] at hm
        exact hs (hm ▸ List.mem_append_left _
          (List.mem_of_mem_take ha))
  · rcases hi.owned a h1 with hm | hm | ⟨hd, hm⟩
    · rw [← hsplit] at hm
      rcases List.mem_append.1 hm with hm | hm
      · exact hm
      · rw [i'.core.al_fl a hm] at h2
        cases h2
    · rw [i'.core.al_ul a hm] at h2
      cases h2
    · have hcx := i'.core
      rw [hd] at hcx
      rw [hm, ← u, hcx.al_sentinel] at h2
      cases h2
  · rcases i'.owned a h1 with hm | hm | ⟨hd, hm⟩
    · exact hi.core.al_fl a (List.mem_of_mem_drop hm)
    · exact hi.core.al_ul a hm
    · have hcx := hi.core
      rw [hd] at hcx
      rw [hm, u]
      exact hcx.al_sentinel
  · have hcx := i'.core
    rw [hd] at hcx
    exact (hcx.ring rfl).1

theorem ex_list_reach_r3 : Reachable ex_list ex_list_r3 [] :=
  Reachable.reserve 3 [some 5, some 6, some 7] false ex_list_r3 ex_list_reach0 rfl rfl

theorem ex_list_create_r4 : create ex_list ex_list_r3 9 none = some (some 7, ex_list_r4) :=
  rfl

theorem ex_list_reach_r4 : Reachable ex_list ex_list_r4 [7] :=
  Reachable.create 9 none (some 7) ex_list_r4 ex_list_reach_r3 ex_list_create_r4

theorem node_shrink_to_fit_exact_witness :
    Reachable ex_list ex_list_r4 [7] ∧ ex_list.impl.is_static = false ∧
      ex_list.impl.is_block = false ∧ capacity ex_list ex_list_r4 = 3 ∧
      Pool_base.size ex_list_r4 = 1 ∧
      shrink_to_fit ex_list ex_list_r4 2 = some ex_list_r5 ∧
      capacity ex_list ex_list_r5 = 2 ∧
      ∃ s' fl, shrink_to_fit ex_list ex_list_r4 2 = some s' ∧
        capacity ex_list s' =
          min (capacity ex_list ex_list_r4) (max (Pool_base.size ex_list_r4) 2) ∧
        FreeChain ex_list_r4 fl ∧
        FreeChain s' (fl.drop (capacity ex_list ex_list_r4 -
          max (Pool_base.size ex_list_r4) 2)) ∧
        (∀ a ∈ fl.take (capacity ex_list ex_list_r4 - max (Pool_base.size ex_list_r4) 2),
          al ex_list_r4.mem a = true ∧ al s'.mem a = false) ∧
        (∀ a, al ex_list_r4.mem a = true → al s'.mem a = false →
          a ∈ fl.take (capacity ex_list ex_list_r4 - max (Pool_base.size ex_list_r4) 2)) ∧
        (∀ a, al s'.mem a = true → al ex_list_r4.mem a = true) ∧
        Pool_base.size s' = Pool_base.size ex_list_r4 ∧
        (∀ q, value s' q = value ex_list_r4 q) ∧
        (∀ a ∈ [7], live s' a = true) ∧
        (ex_list.impl.is_dlist = true → UsedRing s' [7]) ∧ Reachable ex_list s' [7] :=
  ⟨ex_list_reach_r4, rfl, rfl, rfl, rfl, rfl, rfl,
    node_shrink_to_fit_exact ex_list_reach_r4 rfl rfl 2⟩

end shrink_claims

section block_shrink
variable {T : Type}

/-- The loop of `Pool_block_allocator::shrink_to_fit` on a pool without elements: it
releases the first `j` blocks; a block is released only while the capacity is above
`new_cap`, and when a block holds at least one node the capacity ends at or below
`new_cap` (it was at most the counter `i` at entry). -/
theorem BlockInv.shrink_loop_exact {c : Cfg} (hdyn : c.impl.is_static = false)
    (new_cap : Nat) :
    ∀ (i : Nat) (s : State T), BlockInv c s →
      ∃ s' j, Pool_block_allocator.shrink_to_fit_loop c new_cap i s = some s' ∧
        BlockInv c s' ∧ s'.m_blocks = s.m_blocks.drop j ∧ j ≤ s.m_blocks.length ∧
        s'.m_used_nodes = s.m_used_nodes ∧ s'.m_used = s.m_used ∧
        (0 < j → new_cap < s'.m_capacity + c.N) ∧
        (j = 0 → s' = s) ∧
        (0 < c.N → s.m_capacity ≤ i → s'.m_capacity ≤ new_cap) := by
  intro i
  induction i with
  | zero =>
    intro s h
    exact ⟨s, 0, rfl, h, by simp, Nat.zero_le _, rfl, rfl,
      fun hj => absurd hj (Nat.lt_irrefl _), fun _ => rfl, fun _ hc => by omega⟩
  | succ i ih =>
    intro s h
    by_cases hgt : capacity c s > new_cap ∧ i + 1 > new_cap
    · have hgt1 : new_cap < s.m_capacity := by
        have := hgt.1
        simpa only [capacity, hdyn, Bool.false_eq_true, if_false] using this
      have hne : s.m_blocks ≠ [] := by
        intro e
        have := h.cap
        rw [e] at this
        simp at this
        omega
      obtain ⟨b, bs, hb⟩ := List.exists_cons_of_ne_nil hne
      obtain ⟨s1, e1, i1, b1, u1, m1, c1, -⟩ := h.del_node hdyn hb
      have hcs : s.m_capacity = s1.m_capacity + c.N := by
        have := h.cap
        rw [hb, List.length_cons, Nat.mul_succ] at this
        omega
      obtain ⟨s', j, e2, i2, b2, hj, u2, m2, q2, z2, p2⟩ := ih s1 i1
      refine ⟨s', j + 1, ?_, i2, ?_, ?_, u2.trans u1, m2.trans m1, fun _ => ?_,
        fun hj0 => absurd hj0 (Nat.succ_ne_zero _), fun hN hc => p2 hN (by omega)⟩
      · simp only [Pool_block_allocator.shrink_to_fit_loop]
        rw [if_pos hgt]
        simp [e1, e2]
      · rw [b2, b1, hb, List.drop_succ_cons]
      · rw [hb, List.length_cons]
        rw [b1] at hj
        omega
      · rcases Nat.eq_zero_or_pos j with hj0 | hj0
        · rw [z2 hj0]
          omega
        · exact q2 hj0
    · refine ⟨s, 0, ?_, h, by simp, Nat.zero_le _, rfl, rfl,
        fun hj => absurd hj (Nat.lt_irrefl _), fun _ => rfl, fun _ hc => ?_⟩
      · simp only [Pool_block_allocator.shrink_to_fit_loop]
        rw [if_neg hgt]
      · simp only [capacity, hdyn, Bool.false_eq_true, if_false, gt_iff_lt, not_and,
          not_lt] at hgt
        by_cases hx : new_cap < s.m_capacity
        · have := hgt hx
          omega
        · omega

/-- Method `Pool_block_allocator::shrink_to_fit` on a pool without elements: the first
`j` blocks are released, the free chain is rebuilt from the nodes of the blocks that
stay. -/
theorem Inv.block_shrink_empty {c : Cfg} {s : State T} {fl : List Nat} (h : Inv c s fl [])
    (hdyn : c.impl.is_static = false) (hblk : c.impl.is_block = true) (new_cap : Nat) :
    ∃ s' fl' j, Pool_block_allocator.shrink_to_fit c s new_cap = some s' ∧
      Inv c s' fl' [] ∧ s'.m_blocks = s.m_blocks.drop j ∧ j ≤ s.m_blocks.length ∧
      (slots c s).Nodup ∧ s'.m_capacity = c.N * s'.m_blocks.length ∧
      s'.m_used_nodes = s.m_used_nodes ∧ s'.m_size = 0 ∧
      (c.impl.is_dlist = true → s.m_used_nodes ∉ slots c s) ∧
      (0 < j → new_cap < s'.m_capacity + c.N) ∧ (j = 0 → s'.m_capacity = s.m_capacity) ∧
      (0 < c.N → s'.m_capacity ≤ new_cap) := by
  have hem : Pool_base.empty s = true := by
    simp [Pool_base.empty, Pool_base.size, h.size]
  have hb := h.to_block_inv hdyn hblk
  obtain ⟨s1, j, e1, i1, b1, hj, u1, -, q1, z1, p1⟩ :=
    BlockInv.shrink_loop_exact hdyn new_cap (capacity c s) s hb
  obtain ⟨s2, fl2, e2, i2, -, -, z2, u2, b2, c2, -⟩ := i1.readd_blocks hdyn
  refine ⟨s2, fl2, j, ?_, i2, by rw [b2, b1], hj, hb.nodup, by rw [c2, b2]; exact i1.cap,
    u2.trans u1, by rw [z2]; exact i1.size, fun hd => (hb.ring hd).2,
    fun hj0 => by rw [c2]; exact q1 hj0, fun hj0 => by rw [c2, z1 hj0],
    fun hN => by rw [c2]; exact p1 hN (by simp [capacity, hdyn])⟩
  simp [Pool_block_allocator.shrink_to_fit, hem, e1, e2]

end block_shrink

section block_claims
variable {T : Type}

theorem ex_blk_reach0 : Reachable ex_blk ex_blk_s0 [] :=
  Reachable.construct 100 (fun _ => false) ex_blk_s0 rfl

theorem ex_blk_reach1 : Reachable ex_blk ex_blk_s1 [] :=
  Reachable.reserve 4 [some 0, some 10] false ex_blk_s1 ex_blk_reach0 rfl rfl

theorem ex_blk_create3 : create ex_blk ex_blk_s1 7 none = some (some 11, ex_blk_s3) := rfl

theorem ex_blk_reach3 : Reachable ex_blk ex_blk_s3 [11] :=
  Reachable.create 7 none (some 11) ex_blk_s3 ex_blk_reach1 ex_blk_create3

/-- Claim C26, the code evaluated at the failing input: a `Pool_dlist_block<T, 2>` that is
empty and has capacity 4 (two blocks, after `reserve(4)`) satisfies
`capacity() >= max(size(), 1)`; `shrink_to_fit(1)` releases both blocks and leaves
`capacity() == 0`, which is below `max(size(), 1) == 1`. -/
theorem block_shrink_below_target :
    Reachable ex_blk ex_blk_s1 [] ∧ ex_blk.impl.is_static = false ∧
      ex_blk.impl.is_block = true ∧ Pool_base.size ex_blk_s1 = 0 ∧
      capacity ex_blk ex_blk_s1 = 4 ∧ ex_blk_s1.m_blocks = [10, 0] ∧
      max (Pool_base.size ex_blk_s1) 1 ≤ capacity ex_blk ex_blk_s1 ∧
      shrink_to_fit ex_blk ex_blk_s1 1 = some ex_blk_s2 ∧ ex_blk_s2.m_blocks = [] ∧
      capacity ex_blk ex_blk_s2 = 0 ∧
      capacity ex_blk ex_blk_s2 < max (Pool_base.size ex_blk_s2) 1 :=
  ⟨ex_blk_reach1, rfl, rfl, rfl, rfl, rfl, by decide, rfl, rfl, rfl, by decide⟩

/-- Claim C27: for the block allocator (`Pool_list_block`, `Pool_dlist_block`),
`shrink_to_fit(new_cap)` on a pool that is not empty returns the state it was called in,
for every `new_cap`: no block is released, and the capacity, the size, the free chain
and all elements are unchanged. -/
theorem block_shrink_nonempty_noop (c : Cfg) (s : State T)
    (hblk : c.impl.is_block = true) (hne : 0 < Pool_base.size s) (new_cap : Nat) :
    shrink_to_fit c s new_cap = some s := by
  have hem : Pool_base.empty s = false := by
    simp only [Pool_base.empty, beq_eq_false_iff_ne, ne_eq]
    omega
  simp [shrink_to_fit, hblk, Pool_block_allocator.shrink_to_fit, hem]

/-- Claim C28: for the block allocator, `shrink_to_fit(new_cap)` on an empty pool in
any reachable state returns; it releases the first `j` blocks of the chain of blocks, and
afterwards the free chain holds every node of every block that stays exactly once and
no node of a released block (those nodes are no longer allocated), so its length is the
new `capacity()`, and `capacity()` is `N` times the number of blocks that stay. -/
theorem block_shrink_rebuilds_free_chain {c : Cfg} {s : State T} {ul : List Nat}
    (h : Reachable c s ul) (hdyn : c.impl.is_static = false)
    (hblk : c.impl.is_block = true) (hem : Pool_base.size s = 0) (new_cap : Nat) :
    ∃ s' fl' j, shrink_to_fit c s new_cap = some s' ∧ j ≤ s.m_blocks.length ∧
      s'.m_blocks = s.m_blocks.drop j ∧ FreeChain s' fl' ∧ fl'.Nodup ∧
      fl'.Perm (s'.m_blocks.flatMap fun b => array_nodes b c.N) ∧
      (∀ b ∈ s.m_blocks.take j, ∀ a ∈ array_nodes b c.N, a ∉ fl' ∧ al s'.mem a = false) ∧
      fl'.length = capacity c s' ∧ capacity c s' = c.N * s'.m_blocks.length ∧
      Pool_base.size s' = 0 := by
  obtain ⟨fl, hi, -⟩ := reachable_inv h
  have hul : ul = [] := by
    have := hi.size
    simp only [Pool_base.size] at hem
    rw [hem] at this
    exact List.length_eq_zero.1 this.symm
  subst hul
  have hc : ∀ x : State T, capacity c x = x.m_capacity := fun x => by simp [capacity, hdyn]
  obtain ⟨s', fl', j, e, i', b', hj, hnd, cp, u, z, hs, -, -, -⟩ :=
    hi.block_shrink_empty hdyn hblk new_cap
  have hperm : fl'.Perm (s'.m_blocks.flatMap fun b => array_nodes b c.N) := by
    have := i'.slots_perm (Or.inr hblk)
    rw [slots_dynamic hdyn, List.append_nil] at this
    exact this
  have hndfl : fl'.Nodup := by
    have := i'.core.nodup
    rwa [List.append_nil] at this
  have hsplit : slots c s = (s.m_blocks.take j).flatMap (fun b => array_nodes b c.N) ++
      (s.m_blocks.drop j).flatMap fun b => array_nodes b c.N := by
    rw [slots_dynamic hdyn, ← List.flatMap_append, List.take_append_drop]
  have hnot : ∀ b ∈ s.m_blocks.take j, ∀ a ∈ array_nodes b c.N, a ∉ fl' := by
    intro b hb a ha hm
    rw [hsplit] at hnd
    have hm' := hperm.mem_iff.1 hm
    rw [b'] at hm'
    exact (List.nodup_append.1 hnd).2.2 (List.mem_flatMap.2 ⟨b, hb, ha⟩) hm'
  refine ⟨s', fl', j, ?_, hj, b', i'.core.chain, hndfl, hperm, fun b hb a ha => ?_, ?_,
    by rw [hc]; exact cp, z⟩
  · simp only [shrink_to_fit, hblk, if_true]
    exact e
  · refine ⟨hnot b hb a ha, ?_⟩
    cases hx : al s'.mem a with
    | false => rfl
    | true =>
      exfalso
      rcases i'.owned a hx with hm | hm | ⟨hd, hm⟩
      · exact hnot b hb a ha hm
      · cases hm
      · rw [u] at hm
        refine hs hd ?_
        rw [← hm, hsplit]
        exact List.mem_append_left _ (List.mem_flatMap.2 ⟨b, hb, ha⟩)
  · have := i'.cap
    simp only [List.length_nil, Nat.add_zero] at this
    exact this.symm

/-- Claim C29: for the block allocator with `N >= 1` and without `POOL_FIXED_CAPACITY`,
`shrink_to_fit(0)` on an empty pool of any capacity, in any reachable state, leaves
`capacity() == 0`, no block and an empty free chain; a `create` that follows, for which
`operator new` answers a block `b`, returns a reference to a node of that block that
holds the value, and leaves `capacity() == N`, `size() == 1` and the one block `b`. -/
theorem block_shrink_zero_then_create {c : Cfg} {s : State T} {ul : List Nat}
    (h : Reachable c s ul) (hdyn : c.impl.is_static = false)
    (hblk : c.impl.is_block = true) (hN : 0 < c.N)
    (hfix : flag_set c.Flags POOL_FIXED_CAPACITY = false) (hem : Pool_base.size s = 0) :
    ∃ s', shrink_to_fit c s 0 = some s' ∧ capacity c s' = 0 ∧ s'.m_blocks = [] ∧
      FreeChain s' [] ∧ Pool_base.size s' = 0 ∧
      ∀ (v : T) (b : Nat), fresh c s' (some b) →
        ∃ p s'', create c s' v (some b) = some (some p, s'') ∧ p ∈ array_nodes b c.N ∧
          value s'' p = some v ∧ capacity c s'' = c.N ∧ Pool_base.size s'' = 1 ∧
          s''.m_blocks = [b] := by
  obtain ⟨fl, hi, -⟩ := reachable_inv h
  have hul : ul = [] := by
    have := hi.size
    simp only [Pool_base.size] at hem
    rw [hem] at this
    exact List.length_eq_zero.1 this.symm
  subst hul
  have hc : ∀ x : State T, capacity c x = x.m_capacity := fun x => by simp [capacity, hdyn]
  obtain ⟨s', fl', j, e, i', -, -, -, cp, -, z, -, -, -, p0⟩ :=
    hi.block_shrink_empty hdyn hblk 0
  have hcap0 : s'.m_capacity = 0 := Nat.le_zero.1 (p0 hN)
  have hblocks : s'.m_blocks = [] := by
    rw [hcap0] at cp
    rcases Nat.mul_eq_zero.1 cp.symm with h1 | h1
    · omega
    · exact List.length_eq_zero.1 h1
  have hfl : fl' = [] := by
    have := i'.cap
    rw [hc, hcap0] at this
    exact List.length_eq_zero.1 (by simp only [List.length_nil] at this; omega)
  subst hfl
  refine ⟨s', by simp only [shrink_to_fit, hblk, if_true]; exact e, by rw [hc]; exact hcap0,
    hblocks, i'.core.chain, z, fun v b hf => ?_⟩
  have hg : grows c s' = true := by
    simp [grows, hdyn, hfix, Pool_base.full, Pool_base.size, hc, z, hcap0]
  obtain ⟨s1, g, e1, eg, -, -, -, -, c1, -, hsome⟩ :=
    i'.of_create (BitsInv.of_dynamic hdyn s' []) v hf
  rw [hg] at eg e1
  simp only [if_true, grown, unit_nodes, hblk] at eg
  have hb1 : s1.m_blocks = b :: s'.m_blocks := by
    obtain ⟨s1', e1', -, -, -, -, b1', -⟩ := i'.block_add_node hdyn hblk (x := b)
      (fun a ha => hf a (by simpa [grown, unit_nodes, hblk] using ha))
    simp only [if_true, add_node, hblk] at e1
    rw [e1, Option.some.injEq] at e1'
    rw [e1']
    exact b1'
  have hlen : g.length = c.N := by rw [eg]; simp [array_nodes]
  have hgne : g.reverse ++ [] ≠ [] := by
    intro hx
    have : g.length = 0 := by
      have := congrArg List.length hx
      simpa using this
    omega
  obtain ⟨x, fl2, hx⟩ := List.exists_cons_of_ne_nil hgne
  obtain ⟨s'', e2, -, -, d2, z2, c2, -, b2⟩ := hsome x fl2 hx
  refine ⟨x, s'', e2, ?_, by simp [value, d2], by rw [hc, c2, c1, hcap0, hlen]; omega,
    by simp [Pool_base.size, z2, z], by rw [b2, hb1, hblocks]⟩
  have hxm : x ∈ g.reverse ++ [] := by rw [hx]; exact List.mem_cons_self _ _
  rw [eg] at hxm
  simpa using hxm

theorem block_shrink_nonempty_noop_witness :
    ex_blk.impl.is_block = true ∧ 0 < Pool_base.size ex_blk_s3 ∧
      Reachable ex_blk ex_blk_s3 [11] ∧ capacity ex_blk ex_blk_s3 = 4 ∧
      shrink_to_fit ex_blk ex_blk_s3 0 = some ex_blk_s3 :=
  ⟨rfl, by decide, ex_blk_reach3, rfl, block_shrink_nonempty_noop ex_blk ex_blk_s3 rfl (by decide) 0⟩

theorem block_shrink_rebuilds_free_chain_witness :
    Reachable ex_blk ex_blk_s1 [] ∧ ex_blk.impl.is_static = false ∧
      ex_blk.impl.is_block = true ∧ Pool_base.size ex_blk_s1 = 0 ∧
      ex_blk_s1.m_blocks = [10, 0] ∧
      shrink_to_fit ex_blk ex_blk_s1 2 = some ex_blk_s4 ∧ ex_blk_s4.m_blocks = [0] ∧
      FreeChain ex_blk_s4 [1, 0] ∧ capacity ex_blk ex_blk_s4 = 2 ∧
      ∃ s' fl' j, shrink_to_fit ex_blk ex_blk_s1 2 = some s' ∧
        j ≤ ex_blk_s1.m_blocks.length ∧ s'.m_blocks = ex_blk_s1.m_blocks.drop j ∧
        FreeChain s' fl' ∧ fl'.Nodup ∧
        fl'.Perm (s'.m_blocks.flatMap fun b => array_nodes b ex_blk.N) ∧
        (∀ b ∈ ex_blk_s1.m_blocks.take j, ∀ a ∈ array_nodes b ex_blk.N,
          a ∉ fl' ∧ al s'.mem a = false) ∧
        fl'.length = capacity ex_blk s' ∧
        capacity ex_blk s' = ex_blk.N * s'.m_blocks.length ∧ Pool_base.size s' = 0 :=
  ⟨ex_blk_reach1, rfl, rfl, rfl, rfl, rfl, rfl, ⟨rfl, rfl, rfl, rfl, rfl⟩, rfl,
    block_shrink_rebuilds_free_chain ex_blk_reach1 rfl rfl rfl 2⟩

theorem block_shrink_zero_then_create_witness :
    Reachable ex_blk ex_blk_s1 [] ∧ ex_blk.impl.is_static = false ∧
      ex_blk.impl.is_block = true ∧ 0 < ex_blk.N ∧
      flag_set ex_blk.Flags POOL_FIXED_CAPACITY = false ∧ Pool_base.size ex_blk_s1 = 0 ∧
      capacity ex_blk ex_blk_s1 = 4 ∧
      ∃ s', shrink_to_fit ex_blk ex_blk_s1 0 = some s' ∧ capacity ex_blk s' = 0 ∧
        s'.m_blocks = [] ∧ FreeChain s' [] ∧ Pool_base.size s' = 0 ∧
        ∀ (v : Nat) (b : Nat), fresh ex_blk s' (some b) →
          ∃ p s'', create ex_blk s' v (some b) = some (some p, s'') ∧
            p ∈ array_nodes b ex_blk.N ∧ value s'' p = some v ∧
            capacity ex_blk s'' = ex_blk.N ∧ Pool_base.size s'' = 1 ∧ s''.m_blocks = [b] :=
  ⟨ex_blk_reach1, rfl, rfl, by decide, rfl, rfl, rfl,
    block_shrink_zero_then_create ex_blk_reach1 rfl rfl (by decide) rfl rfl⟩

end block_claims

section move_defined
variable {T : Type}

/-- Method `Pool_dlist_base::move_from` for two distinct pools returns when the source
satisfies the invariant, the ring of the target is empty and the sentinel of the target
is not storage of the source. -/
theorem Inv.dlist_move_from_defined {c : Cfg} {self other : State T} {fl ul : List Nat}
    (h : Inv c other fl ul) (hd : c.impl.is_dlist = true) (hr : RingEmpty self)
    (hfresh : al other.mem self.m_used_nodes = false) :
    ∃ r, Pool_dlist_base.move_from self other = some r := by
  have hc := h.core
  rw [hd] at hc
  obtain ⟨hring, hsent, -⟩ := hc.ring rfl
  obtain ⟨hn, hn1, hn2⟩ := nx_eq_some.1 hr.1.1
  obtain ⟨hn', hn1', hn3⟩ := pv_eq_some.1 hr.1.2
  have : hn' = hn := by rw [hn1] at hn1'; exact (Option.some.inj hn1').symm
  subst this
  have hx : (other.mem self.m_used_nodes).isSome = false := hfresh
  obtain ⟨hf1, hf2⟩ := h.fresh_not_mem hfresh
  have hso : self.m_used_nodes ≠ other.m_used_nodes := hf2 hd
  have hsul : self.m_used_nodes ∉ ul := fun hm => hf1 (List.mem_append_right _ hm)
  have houl : other.m_used_nodes ∉ ul := fun hm => hsent (List.mem_append_right _ hm)
  have hnd : (other.m_used_nodes :: ul).Nodup :=
    List.nodup_cons.2 ⟨houl, (List.nodup_append.1 hc.nodup).2.1⟩
  have onx := nx_update other.mem self.m_used_nodes hn'
  have opv := pv_update other.mem self.m_used_nodes hn'
  rw [hn2] at onx; rw [hn3] at opv
  have hseg : Seg (Function.update other.mem self.m_used_nodes (some hn'))
      other.m_used_nodes ul other.m_used_nodes := by
    refine Seg.frame_seg hring ?_ ?_
    · intro z hz
      have : z ≠ self.m_used_nodes := by
        rintro rfl
        rcases List.mem_cons.1 hz with e' | e'
        · exact hso e'
        · exact hsul e'
      rw [onx, Function.update_noteq this]
    · intro z hz
      have : z ≠ self.m_used_nodes := by
        rintro rfl
        rcases List.mem_append.1 hz with e' | e'
        · exact hsul e'
        · simp at e'; exact hso e'
      rw [opv, Function.update_noteq this]
  obtain ⟨m'', e1, -⟩ := @splice_front_spec T _ self.m_used_nodes _ _ hseg hnd
    ⟨by rw [onx]; simp, by rw [opv]; simp⟩
    (by simp only [List.mem_cons, not_or]; exact ⟨hso, hsul⟩)
  unfold Pool_dlist_base.move_from
  simp only [hn1, Option.bind_eq_bind, Option.some_bind, hx, Bool.false_eq_true, if_false, e1]
  exact ⟨_, rfl⟩

/-- Method `Pool_xxx::move_from` for two distinct pools returns. -/
theorem Inv.move_from_defined {c : Cfg} {self other : State T} {fl ul : List Nat}
    (h : Inv c other fl ul) (hr : c.impl.is_dlist = true → RingEmpty self)
    (hf : c.impl.is_dlist = true → al other.mem self.m_used_nodes = false) :
    ∃ r, Pool_xxx.move_from c self other = some r := by
  unfold Pool_xxx.move_from
  rcases Bool.eq_false_or_eq_true c.impl.is_dlist with hd | hd
  · obtain ⟨r, e⟩ := h.dlist_move_from_defined hd (hr hd) (hf hd)
    simp only [hd, if_true, e, Option.bind_eq_bind, Option.some_bind]
    exact ⟨_, rfl⟩
  · simp only [hd, Bool.false_eq_true, if_false, Option.bind_eq_bind, Option.some_bind]
    exact ⟨_, rfl⟩

/-- Method `Pool_block_allocator::dtor` returns once the fuel covers the blocks. -/
theorem block_dtor_defined (c : Cfg) :
    ∀ (fuel : Nat) (s : State T), s.m_blocks.length ≤ fuel →
      ∃ sf, Pool_block_allocator.dtor c fuel s = some sf := by
  intro fuel
  induction fuel with
  | zero =>
    intro s hs
    have : s.m_blocks = [] := List.length_eq_zero.1 (by omega)
    exact ⟨s, by simp [Pool_block_allocator.dtor, this]⟩
  | succ fuel ih =>
    intro s hs
    cases hb : s.m_blocks with
    | nil => exact ⟨s, by simp [Pool_block_allocator.dtor, hb]⟩
    | cons b bs =>
      rw [hb, List.length_cons] at hs
      obtain ⟨sf, e⟩ := ih { s with m_blocks := bs, m_capacity := s.m_capacity - c.N,
                                    mem := free_block s.mem b c.N } (by simpa using hs)
      exact ⟨sf, by simpa [Pool_block_allocator.dtor, hb, Pool_block_allocator.del_node]
        using e⟩

/-- Method `Pool_xxx::dtor` of a dynamic class returns once the fuel covers the capacity
and the blocks. -/
theorem Inv.dtor_defined {c : Cfg} {s : State T} {fl ul : List Nat} (h : Inv c s fl ul)
    (hdyn : c.impl.is_static = false) {fuel : Nat}
    (hfuel : capacity c s + s.m_blocks.length ≤ fuel) :
    ∃ s1, Pool_xxx.dtor c fuel s = some s1 := by
  have hcap := h.cap
  simp only [capacity, hdyn, Bool.false_eq_true, if_false] at hcap hfuel
  have key : ∀ (s0 : State T) (fl0 ul0 : List Nat), Inv c s0 fl0 ul0 →
      fl0.length ≤ fuel → s0.m_blocks.length ≤ fuel → ∃ s1, AlocBase.dtor c fuel s0 = some s1 := by
    intro s0 fl0 ul0 h0 hl hb
    unfold AlocBase.dtor
    rcases Bool.eq_false_or_eq_true c.impl.is_block with hblk | hblk
    · simp only [hblk, if_true]
      exact block_dtor_defined c fuel s0 hb
    · simp only [hblk, Bool.false_eq_true, if_false]
      obtain ⟨sf, -, -, -, -, -, -, hf⟩ := Inv.node_dtor hdyn hblk fl0 s0 h0
      exact ⟨sf, by rw [hf fuel, if_pos hl]⟩
  unfold Pool_xxx.dtor
  rcases Bool.eq_false_or_eq_true c.impl.is_dlist with hd | hd
  · obtain ⟨sf, i, -, -, -, -, b, -, hf⟩ := Inv.dlist_destroy_all hd h
    obtain ⟨s1, e1⟩ := key sf _ _ i (by simp only [List.length_append, List.length_reverse]; omega)
      (by rw [b]; omega)
    refine ⟨s1, ?_⟩
    rw [destroy_all_dlist_eq hd, hf fuel, if_pos (by omega)]
    simpa using e1
  · obtain ⟨s1, e1⟩ := key s fl ul h (by omega) (by omega)
    have e0 : destroy_all c fuel s = some s := by
      cases hc : c.impl <;> simp_all [destroy_all, Impl.is_dlist, Impl.is_static,
        Pool_list_base.destroy_all]
    refine ⟨s1, ?_⟩
    rw [e0]
    simpa using e1

/-- The move constructor of a dynamic class returns; the new pool takes over the source
and the source is left empty with capacity zero and no block. -/
theorem Inv.move_ctor_total {c : Cfg} {other : State T} {fl ul : List Nat}
    (h : Inv c other fl ul) (hdyn : c.impl.is_static = false) (self : Nat)
    (oob : Nat → Bool) (hf : c.impl.is_dlist = true → al other.mem self = false) :
    ∃ s' o', Pool_xxx.move_ctor c self oob other = some (s', o') ∧
      Inv c s' fl ul ∧ Inv c o' [] [] ∧ s'.m_used_nodes = self ∧
      s'.m_size = other.m_size ∧ s'.m_capacity = other.m_capacity ∧
      s'.m_free_nodes = other.m_free_nodes ∧
      (∀ b ∈ ul, dt s'.mem b = dt other.mem b) ∧ o'.m_used_nodes = other.m_used_nodes ∧
      o'.m_size = 0 ∧ o'.m_capacity = 0 ∧ o'.m_free_nodes = none ∧
      (c.impl.is_block = true → o'.m_blocks = [] ∧ s'.m_blocks = other.m_blocks) := by
  obtain ⟨s0, e0, i0, -, u0, -⟩ := construct_spec (T := T) c self oob
    (fun _ hs => by rw [hdyn] at hs; cases hs)
  simp only [hdyn, Bool.false_eq_true, if_false] at i0
  have hr : c.impl.is_dlist = true → RingEmpty s0 := fun hd => i0.ring_empty hd
  obtain ⟨⟨s', o'⟩, e1⟩ := h.move_from_defined hr (fun hd => by rw [u0]; exact hf hd)
  have e : Pool_xxx.move_ctor c self oob other = some (s', o') := by
    simp only [Pool_xxx.move_ctor, e0, Option.bind_eq_bind, Option.some_bind, e1]
  obtain ⟨a1, a2, a3, a4⟩ := h.of_move_from hdyn hr e1
  exact ⟨s', o', e, a1, a2, a3.trans u0, a4⟩

/-- The move assignment of a dynamic class between two distinct pools returns once the
fuel covers the capacity and the blocks of the target; the target takes over the source
and the source is left empty with capacity zero and no block. -/
theorem Inv.move_assign_total {c : Cfg} {s other : State T} {fl ul fl2 ul2 : List Nat}
    (hs : Inv c s fl ul) (h : Inv c other fl2 ul2) (hdyn : c.impl.is_static = false)
    {fuel : Nat} (hfuel : capacity c s + s.m_blocks.length ≤ fuel)
    (hf : c.impl.is_dlist = true → al other.mem s.m_used_nodes = false) :
    ∃ s' o', DPool_base.move_assign_operator c fuel s other = some (s', o') ∧
      Inv c s' fl2 ul2 ∧ Inv c o' [] [] ∧
      (c.impl.is_dlist = true → s'.m_used_nodes = s.m_used_nodes) ∧
      s'.m_size = other.m_size ∧ s'.m_capacity = other.m_capacity ∧
      s'.m_free_nodes = other.m_free_nodes ∧
      (∀ b ∈ ul2, dt s'.mem b = dt other.mem b) ∧ o'.m_used_nodes = other.m_used_nodes ∧
      o'.m_size = 0 ∧ o'.m_capacity = 0 ∧ o'.m_free_nodes = none ∧
      (c.impl.is_block = true → o'.m_blocks = [] ∧ s'.m_blocks = other.m_blocks) := by
  obtain ⟨s1, e0⟩ := hs.dtor_defined hdyn hfuel
  have hr : c.impl.is_dlist = true → RingEmpty s1 ∧ s1.m_used_nodes = s.m_used_nodes :=
    fun hd => by
      obtain ⟨r1, -, r3, -⟩ := hs.dtor_dlist hdyn hd e0
      exact ⟨r1, r3⟩
  obtain ⟨⟨s', o'⟩, e1⟩ := h.move_from_defined (fun hd => (hr hd).1)
    (fun hd => by rw [(hr hd).2]; exact hf hd)
  have e : DPool_base.move_assign_operator c fuel s other = some (s', o') := by
    simp only [DPool_base.move_assign_operator, e0, Option.bind_eq_bind, Option.some_bind, e1]
  obtain ⟨a1, a2, a3, a4⟩ := h.of_move_from hdyn (fun hd => (hr hd).1) e1
  exact ⟨s', o', e, a1, a2, fun hd => a3.trans (hr hd).2, a4⟩

end move_defined

section move_claims
variable {T : Type}

/-- Claim C30: move construction from a dynamic pool `other` in any reachable state, and
move assignment from `other` into a distinct pool `s` in any reachable state (elements
alive or not), return; afterwards the source has `size() == 0`, `capacity() == 0`, an
empty free chain, an empty used ring (doubly-linked classes) and no block (block
classes), and the target has exactly the `size()` and the `capacity()` that `other` had.
The two pools are distinct objects: for the doubly-linked classes the sentinel of the
target is not storage of the source. -/
theorem move_leaves_source_empty {c : Cfg} {other : State T} {ul2 : List Nat}
    (h : Reachable c other ul2) (hdyn : c.impl.is_static = false) :
    (∀ (self : Nat) (oob : Nat → Bool),
      (c.impl.is_dlist = true → al other.mem self = false) →
      ∃ s' o', Pool_xxx.move_ctor c self oob other = some (s', o') ∧
        Pool_base.size o' = 0 ∧ capacity c o' = 0 ∧ FreeChain o' [] ∧
        (c.impl.is_dlist = true → UsedRing o' []) ∧
        (c.impl.is_block = true → o'.m_blocks = []) ∧
        Pool_base.size s' = Pool_base.size other ∧ capacity c s' = capacity c other) ∧
    (∀ (s : State T) (ul : List Nat) (fuel : Nat), Reachable c s ul →
      capacity c s + s.m_blocks.length ≤ fuel →
      (c.impl.is_dlist = true → al other.mem s.m_used_nodes = false) →
      ∃ s' o', DPool_base.move_assign_operator c fuel s other = some (s', o') ∧
        Pool_base.size o' = 0 ∧ capacity c o' = 0 ∧ FreeChain o' [] ∧
        (c.impl.is_dlist = true → UsedRing o' []) ∧
        (c.impl.is_block = true → o'.m_blocks = []) ∧
        Pool_base.size s' = Pool_base.size other ∧ capacity c s' = capacity c other) := by
  obtain ⟨fl2, hi, -⟩ := reachable_inv h
  have hc : ∀ x : State T, capacity c x = x.m_capacity := fun x => by simp [capacity, hdyn]
  have hring : ∀ o' : State T, Inv c o' [] [] → c.impl.is_dlist = true → UsedRing o' [] := by
    intro o' io hd
    have hcx := io.core
    rw [hd] at hcx
    exact (hcx.ring rfl).1
  refine ⟨fun self oob hf => ?_, fun s ul fuel hs hfuel hf => ?_⟩
  · obtain ⟨s', o', e, -, io, -, z, cp, -, -, -, oz, oc, -, ob⟩ :=
      hi.move_ctor_total hdyn self oob hf
    exact ⟨s', o', e, oz, by rw [hc]; exact oc, io.core.chain, hring o' io,
      fun hb => (ob hb).1, z, by rw [hc, hc]; exact cp⟩
  · obtain ⟨fl, his, -⟩ := reachable_inv hs
    obtain ⟨s', o', e, -, io, -, z, cp, -, -, -, oz, oc, -, ob⟩ :=
      his.move_assign_total hi hdyn hfuel hf
    exact ⟨s', o', e, oz, by rw [hc]; exact oc, io.core.chain, hring o' io,
      fun hb => (ob hb).1, z, by rw [hc, hc]; exact cp⟩

theorem ex_blk_reach_t0 : Reachable ex_blk ex_blk_t0 [] :=
  Reachable.construct 300 (fun _ => false) ex_blk_t0 rfl

theorem ex_blk_create_t1 :
    create ex_blk ex_blk_t0 9 (some 400) = some (some 401, ex_blk_t1) := rfl

theorem ex_blk_reach_t1 : Reachable ex_blk ex_blk_t1 [401] :=
  Reachable.create 9 (some 400) (some 401) ex_blk_t1 ex_blk_reach_t0 ex_blk_create_t1

theorem move_leaves_source_empty_witness :
    Reachable ex_blk ex_blk_s3 [11] ∧ ex_blk.impl.is_static = false ∧
      Pool_base.size ex_blk_s3 = 1 ∧ capacity ex_blk ex_blk_s3 = 4 ∧
      (al ex_blk_s3.mem 200 = false ∧
        ∃ s' o', Pool_xxx.move_ctor ex_blk 200 (fun _ => false) ex_blk_s3 = some (s', o') ∧
          Pool_base.size o' = 0 ∧ capacity ex_blk o' = 0 ∧ FreeChain o' [] ∧
          (ex_blk.impl.is_dlist = true → UsedRing o' []) ∧
          (ex_blk.impl.is_block = true → o'.m_blocks = []) ∧
          Pool_base.size s' = Pool_base.size ex_blk_s3 ∧
          capacity ex_blk s' = capacity ex_blk ex_blk_s3) ∧
      (Reachable ex_blk ex_blk_t1 [401] ∧ Pool_base.size ex_blk_t1 = 1 ∧
        capacity ex_blk ex_blk_t1 + ex_blk_t1.m_blocks.length ≤ 3 ∧
        al ex_blk_s3.mem ex_blk_t1.m_used_nodes = false ∧
        ∃ s' o', DPool_base.move_assign_operator ex_blk 3 ex_blk_t1 ex_blk_s3 =
            some (s', o') ∧
          Pool_base.size o' = 0 ∧ capacity ex_blk o' = 0 ∧ FreeChain o' [] ∧
          (ex_blk.impl.is_dlist = true → UsedRing o' []) ∧
          (ex_blk.impl.is_block = true → o'.m_blocks = []) ∧
          Pool_base.size s' = Pool_base.size ex_blk_s3 ∧
          capacity ex_blk s' = capacity ex_blk ex_blk_s3) :=
  ⟨ex_blk_reach3, rfl, rfl, rfl,
    ⟨rfl, (move_leaves_source_empty ex_blk_reach3 rfl).1 200 (fun _ => false) fun _ => rfl⟩,
    ex_blk_reach_t1, rfl, by decide, rfl,
    (move_leaves_source_empty ex_blk_reach3 rfl).2 ex_blk_t1 [401] 3 ex_blk_reach_t1
      (by decide) fun _ => rfl⟩

end move_claims

section move_self
variable {T : Type}

/-- Method `Pool_xxx::dtor` of a dynamic class returns once the fuel covers the capacity
and, for the block allocator, the blocks. -/
theorem Inv.dtor_defined_fuel {c : Cfg} {s : State T} {fl ul : List Nat} (h : Inv c s fl ul)
    (hdyn : c.impl.is_static = false) {fuel : Nat}
    (hfuel : capacity c s + (if c.impl.is_block then s.m_blocks.length else 0) ≤ fuel) :
    ∃ s1, Pool_xxx.dtor c fuel s = some s1 := by
  have hcap := h.cap
  simp only [capacity, hdyn, Bool.false_eq_true, if_false] at hcap hfuel
  have key : ∀ (s0 : State T) (fl0 ul0 : List Nat), Inv c s0 fl0 ul0 →
      fl0.length ≤ fuel → (c.impl.is_block = true → s0.m_blocks.length ≤ fuel) →
      ∃ s1, AlocBase.dtor c fuel s0 = some s1 := by
    intro s0 fl0 ul0 h0 hl hb
    unfold AlocBase.dtor
    rcases Bool.eq_false_or_eq_true c.impl.is_block with hblk | hblk
    · simp only [hblk, if_true]
      exact block_dtor_defined c fuel s0 (hb hblk)
    · simp only [hblk, Bool.false_eq_true, if_false]
      obtain ⟨sf, -, -, -, -, -, -, hf⟩ := Inv.node_dtor hdyn hblk fl0 s0 h0
      exact ⟨sf, by rw [hf fuel, if_pos hl]⟩
  have hbl : c.impl.is_block = true → s.m_blocks.length ≤ fuel := by
    intro hblk
    simp only [hblk, if_true] at hfuel
    omega
  unfold Pool_xxx.dtor
  rcases Bool.eq_false_or_eq_true c.impl.is_dlist with hd | hd
  · obtain ⟨sf, i, -, -, -, -, b, -, hf⟩ := Inv.dlist_destroy_all hd h
    obtain ⟨s1, e1⟩ := key sf _ _ i (by simp only [List.length_append, List.length_reverse]; omega)
      (fun hblk => by rw [b]; exact hbl hblk)
    refine ⟨s1, ?_⟩
    rw [destroy_all_dlist_eq hd, hf fuel, if_pos (by omega)]
    simpa using e1
  · obtain ⟨s1, e1⟩ := key s fl ul h (by omega) hbl
    have e0 : destroy_all c fuel s = some s := by
      cases hc : c.impl <;> simp_all [destroy_all, Impl.is_dlist, Impl.is_static,
        Pool_list_base.destroy_all]
    refine ⟨s1, ?_⟩
    rw [e0]
    simpa using e1

/-- The move assignment of a dynamic class between two distinct pools, with the fuel
that the target needs: its capacity and, for the block allocator, its blocks. -/
theorem Inv.move_assign_total_fuel {c : Cfg} {s other : State T} {fl ul fl2 ul2 : List Nat}
    (hs : Inv c s fl ul) (h : Inv c other fl2 ul2) (hdyn : c.impl.is_static = false)
    {fuel : Nat}
    (hfuel : capacity c s + (if c.impl.is_block then s.m_blocks.length else 0) ≤ fuel)
    (hf : c.impl.is_dlist = true → al other.mem s.m_used_nodes = false) :
    ∃ s' o', DPool_base.move_assign_operator c fuel s other = some (s', o') ∧
      Inv c s' fl2 ul2 ∧ Inv c o' [] [] ∧
      (c.impl.is_dlist = true → s'.m_used_nodes = s.m_used_nodes) ∧
      s'.m_size = other.m_size ∧ s'.m_capacity = other.m_capacity ∧
      s'.m_free_nodes = other.m_free_nodes ∧
      (∀ b ∈ ul2, dt s'.mem b = dt other.mem b) ∧ o'.m_used_nodes = other.m_used_nodes ∧
      o'.m_size = 0 ∧ o'.m_capacity = 0 ∧ o'.m_free_nodes = none ∧
      (c.impl.is_block = true → o'.m_blocks = [] ∧ s'.m_blocks = other.m_blocks) := by
  obtain ⟨s1, e0⟩ := hs.dtor_defined_fuel hdyn hfuel
  have hr : c.impl.is_dlist = true → RingEmpty s1 ∧ s1.m_used_nodes = s.m_used_nodes :=
    fun hd => by
      obtain ⟨r1, -, r3, -⟩ := hs.dtor_dlist hdyn hd e0
      exact ⟨r1, r3⟩
  obtain ⟨⟨s', o'⟩, e1⟩ := h.move_from_defined (fun hd => (hr hd).1)
    (fun hd => by rw [(hr hd).2]; exact hf hd)
  have e : DPool_base.move_assign_operator c fuel s other = some (s', o') := by
    simp only [DPool_base.move_assign_operator, e0, Option.bind_eq_bind, Option.some_bind, e1]
  obtain ⟨a1, a2, a3, a4⟩ := h.of_move_from hdyn (fun hd => (hr hd).1) e1
  exact ⟨s', o', e, a1, a2, fun hd => a3.trans (hr hd).2, a4⟩

/-- Method `Pool_xxx::dtor` of a doubly-linked dynamic class: every element is destroyed
and every node or block released; the pool is left with its sentinel only, size 0 and
capacity 0. -/
theorem Inv.dlist_dtor_total {c : Cfg} {s : State T} {fl ul : List Nat} (h : Inv c s fl ul)
    (hdyn : c.impl.is_static = false) (hd : c.impl.is_dlist = true) {fuel : Nat}
    (hfuel : capacity c s + (if c.impl.is_block then s.m_blocks.length else 0) ≤ fuel) :
    ∃ s1, Pool_xxx.dtor c fuel s = some s1 ∧ RingEmpty s1 ∧
      (∀ a, al s1.mem a = true → a = s1.m_used_nodes) ∧
      s1.m_used_nodes = s.m_used_nodes ∧ (∀ a, dt s1.mem a = none) ∧ s1.m_size = 0 ∧
      s1.m_capacity = 0 ∧ (c.impl.is_block = true → s1.m_blocks = []) ∧
      (c.impl.is_block = false → s1.m_free_nodes = none) := by
  have hcap := h.cap
  simp only [capacity, hdyn, Bool.false_eq_true, if_false] at hcap hfuel
  obtain ⟨sf, i, -, df, uf, cf, bf, -, hf⟩ := Inv.dlist_destroy_all hd h
  have hdead : ∀ a, dt sf.mem a = none := by
    intro a
    rw [df a]
    split
    · rfl
    · rename_i hnot
      cases hx : dt s.mem a with
      | none => rfl
      | some v => exact absurd (h.mem_ul_of_live (by rw [hx]; rfl)) hnot
  have e0 : destroy_all c fuel s = some sf := by
    rw [destroy_all_dlist_eq hd, hf fuel, if_pos (by omega)]
  rcases Bool.eq_false_or_eq_true c.impl.is_block with hblk | hblk
  · have hb := Inv.to_block_inv (by simpa using i) hdyn hblk
    obtain ⟨s2, i2, b2, u2, -, hf2⟩ := BlockInv.dtor hdyn sf.m_blocks sf hb rfl
    have hlen : sf.m_blocks.length ≤ fuel := by
      simp only [hblk, if_true] at hfuel
      rw [bf]
      omega
    refine ⟨s2, ?_, (i2.ring hd).1, ?_, u2.trans uf, i2.dead, i2.size, ?_, fun _ => b2,
      fun hx => by rw [hblk] at hx; cases hx⟩
    · simp only [Pool_xxx.dtor, e0, Option.bind_eq_bind, Option.some_bind, AlocBase.dtor, hblk,
        if_true, hf2 fuel, if_pos hlen]
    · intro a ha
      rcases i2.owned a ha with e' | e'
      · simp [slots, hdyn, b2] at e'
      · exact e'.2
    · rw [i2.cap, b2]
      simp
  · obtain ⟨s2, i2, d2, -, u2, -, -, hf2⟩ := Inv.node_dtor hdyn hblk _ sf i
    have hlen : (ul.reverse ++ fl).length ≤ fuel := by
      simp only [List.length_append, List.length_reverse]
      omega
    have hc2 := i2.cap
    simp only [capacity, hdyn, Bool.false_eq_true, if_false, List.length_nil] at hc2
    refine ⟨s2, ?_, i2.ring_empty hd, ?_, u2.trans uf, fun a => by rw [d2]; exact hdead a,
      by rw [i2.size]; rfl, by omega, fun hx => (by rw [hblk] at hx; cases hx),
      fun _ => i2.core.chain⟩
    · simp only [Pool_xxx.dtor, e0, Option.bind_eq_bind, Option.some_bind, AlocBase.dtor, hblk,
        Bool.false_eq_true, if_false, hf2 fuel, if_pos hlen]
    · intro a ha
      rcases i2.owned a ha with e' | e' | e'
      · cases e'
      · cases e'
      · exact e'.2

end move_self

section self_move_claims
variable {T : Type}

/-- Claim C32: with `POOL_SELF_MOVE_GUARD`, the move assignment of a dynamic pool to
itself returns the state it was called in: size, capacity, free chain, used ring, blocks
and all elements are unchanged. -/
theorem self_move_guard_noop (c : Cfg) (s : State T)
    (hg : flag_set c.Flags POOL_SELF_MOVE_GUARD = true) (fuel : Nat) :
    DPool_base.move_assign_operator_self c fuel s = some s := by
  simp [DPool_base.move_assign_operator_self, hg]

/-- Claim C40: without `POOL_SELF_MOVE_GUARD`, the move assignment of a doubly-linked
dynamic pool (`Pool_dlist`, `Pool_dlist_block`) in any reachable state to itself returns
(it is defined) and leaves an empty pool: no element is alive any more, no storage but
the sentinel is allocated, `size() == 0`, `capacity() == 0`, the free chain and the used
ring are empty and there is no block. -/
theorem self_move_unguarded_empties {c : Cfg} {s : State T} {ul : List Nat}
    (h : Reachable c s ul) (hdyn : c.impl.is_static = false)
    (hd : c.impl.is_dlist = true) (hg : flag_set c.Flags POOL_SELF_MOVE_GUARD = false)
    {fuel : Nat}
    (hfuel : capacity c s + (if c.impl.is_block then s.m_blocks.length else 0) ≤ fuel) :
    ∃ s', DPool_base.move_assign_operator_self c fuel s = some s' ∧
      Pool_base.size s' = 0 ∧ capacity c s' = 0 ∧ FreeChain s' [] ∧ UsedRing s' [] ∧
      (∀ a, live s' a = false) ∧ (∀ a, al s'.mem a = true → a = s'.m_used_nodes) ∧
      s'.m_used_nodes = s.m_used_nodes ∧ (c.impl.is_block = true → s'.m_blocks = []) ∧
      Reachable c s' [] := by
  obtain ⟨fl, hi, -⟩ := reachable_inv h
  obtain ⟨s1, e1, r1, o1, u1, d1, -, -, b1, -⟩ := hi.dlist_dtor_total hdyn hd hfuel
  obtain ⟨n, hn, hnn⟩ := nx_eq_some.1 r1.1.1
  have hemp : dlist_head.empty s1.mem s1.m_used_nodes = some true := by
    simp [dlist_head.empty, hn, hnn]
  have e2 : Pool_dlist_base.move_from_self s1 =
      some { s1 with m_size := 0, m_capacity := 0, m_free_nodes := none,
                     mem := fun a => if a = s1.m_used_nodes then s1.mem a else none } := by
    simp [Pool_dlist_base.move_from_self, dlist_head.splice_front, hemp]
  have e : DPool_base.move_assign_operator_self c fuel s =
      some (AlocBase.move_from_self c
        { s1 with m_size := 0, m_capacity := 0, m_free_nodes := none,
                  mem := fun a => if a = s1.m_used_nodes then s1.mem a else none }) := by
    simp [DPool_base.move_assign_operator_self, hg, e1, Pool_xxx.move_from_self, hd, e2]
  obtain ⟨i', -, -⟩ := (hi.of_move_assign_self hdyn e).2 hg
  have hcore := i'.core
  rw [hd] at hcore
  have hmem : ∀ s2 : State T, s2 = AlocBase.move_from_self c
      { s1 with m_size := 0, m_capacity := 0, m_free_nodes := none,
                mem := fun a => if a = s1.m_used_nodes then s1.mem a else none } →
      s2.mem = (fun a => if a = s1.m_used_nodes then s1.mem a else none) ∧
      s2.m_used_nodes = s1.m_used_nodes ∧ (c.impl.is_block = true → s2.m_blocks = []) := by
    intro s2 hs2
    subst hs2
    unfold AlocBase.move_from_self
    split
    · exact ⟨rfl, rfl, fun _ => rfl⟩
    · rename_i hx
      exact ⟨rfl, rfl, fun hb => absurd hb hx⟩
  obtain ⟨m', u', b'⟩ := hmem _ rfl
  have hr := Reachable.move_assign_self fuel _ h hdyn e
  simp only [hg, Bool.false_eq_true, if_false] at hr
  refine ⟨_, e, i'.size, ?_, i'.core.chain, (hcore.ring rfl).1, fun a => ?_, fun a ha => ?_,
    u'.trans u1, b', hr⟩
  · have := i'.cap
    simpa using this
  · simp only [live, value, dt, m']
    split
    · rename_i hx
      have := d1 a
      simp only [dt] at this
      rw [this]
      rfl
    · rfl
  · rw [u']
    by_contra hne
    simp [al, m', hne] at ha

end self_move_claims

section self_move_witnesses

theorem ex_guard_reach0 : Reachable ex_guard ex_guard_s0 [] :=
  Reachable.construct 100 (fun _ => false) ex_guard_s0 rfl

theorem ex_guard_create1 :
    create ex_guard ex_guard_s0 7 (some 5) = some (some 5, ex_guard_s1) := rfl

theorem ex_guard_reach1 : Reachable ex_guard ex_guard_s1 [5] :=
  Reachable.create 7 (some 5) (some 5) ex_guard_s1 ex_guard_reach0 ex_guard_create1

theorem self_move_guard_noop_witness :
    flag_set ex_guard.Flags POOL_SELF_MOVE_GUARD = true ∧ Reachable ex_guard ex_guard_s1 [5] ∧
      Pool_base.size ex_guard_s1 = 1 ∧
      DPool_base.move_assign_operator_self ex_guard 0 ex_guard_s1 = some ex_guard_s1 :=
  ⟨rfl, ex_guard_reach1, rfl, self_move_guard_noop ex_guard ex_guard_s1 rfl 0⟩

theorem self_move_unguarded_empties_witness :
    Reachable ex_blk ex_blk_s3 [11] ∧ ex_blk.impl.is_static = false ∧
      ex_blk.impl.is_dlist = true ∧ flag_set ex_blk.Flags POOL_SELF_MOVE_GUARD = false ∧
      Pool_base.size ex_blk_s3 = 1 ∧ capacity ex_blk ex_blk_s3 = 4 ∧
      capacity ex_blk ex_blk_s3 +
        (if ex_blk.impl.is_block then ex_blk_s3.m_blocks.length else 0) ≤ 6 ∧
      ∃ s', DPool_base.move_assign_operator_self ex_blk 6 ex_blk_s3 = some s' ∧
        Pool_base.size s' = 0 ∧ capacity ex_blk s' = 0 ∧ FreeChain s' [] ∧ UsedRing s' [] ∧
        (∀ a, live s' a = false) ∧ (∀ a, al s'.mem a = true → a = s'.m_used_nodes) ∧
        s'.m_used_nodes = ex_blk_s3.m_used_nodes ∧
        (ex_blk.impl.is_block = true → s'.m_blocks = []) ∧ Reachable ex_blk s' [] :=
  ⟨ex_blk_reach3, rfl, rfl, rfl, rfl, rfl, by decide,
    self_move_unguarded_empties ex_blk_reach3 rfl rfl rfl (by decide)⟩

end self_move_witnesses

section move_sequence
variable {T : Type}

/-- In a doubly-linked segment, `next` of a member is a later member or the end. -/
theorem Seg.nx_mem {m : Mem T} {y : Nat} :
    ∀ (l : List Nat) {x : Nat}, Seg m x l y → ∀ a ∈ l, ∃ b ∈ l ++ [y], nx m a = some b := by
  intro l
  induction l with
  | nil => intro x _ a ha; cases ha
  | cons z l ih =>
    intro x h a ha
    rcases List.mem_cons.1 ha with rfl | ha
    · cases l with
      | nil => exact ⟨y, by simp, h.2.1⟩
      | cons w l => exact ⟨w, by simp, h.2.1.1⟩
    · obtain ⟨b, hb, e⟩ := ih h.2 a ha
      exact ⟨b, List.mem_cons_of_mem _ hb, e⟩

/-- In a doubly-linked segment, `prev` of a member is the start or an earlier member. -/
theorem Seg.pv_mem {m : Mem T} {y : Nat} :
    ∀ (l : List Nat) {x : Nat}, Seg m x l y → ∀ a ∈ l, ∃ b ∈ x :: l, pv m a = some b := by
  intro l
  induction l with
  | nil => intro x _ a ha; cases ha
  | cons z l ih =>
    intro x h a ha
    rcases List.mem_cons.1 ha with rfl | ha
    · exact ⟨x, by simp, h.1.2⟩
    · obtain ⟨b, hb, e⟩ := ih h.2 a ha
      exact ⟨b, List.mem_cons_of_mem _ hb, e⟩

/-- What a pool `s'` that has taken over the lists of `other` shows to an iteration. -/
theorem Inv.moved_sequence {c : Cfg} {other s' : State T} {fl ul : List Nat}
    (h : Inv c other fl ul) (h' : Inv c s' fl ul) (hd : c.impl.is_dlist = true)
    (hv : ∀ b ∈ ul, dt s'.mem b = dt other.mem b)
    (hne : s'.m_used_nodes ≠ other.m_used_nodes) :
    UsedRing other ul ∧ UsedRing s' ul ∧
      (∃ b b', Pool_dlist_base.begin other = some b ∧ Pool_dlist_base.begin s' = some b' ∧
        (∀ k, k < ul.length → ∃ a, ul[k]? = some a ∧
          Pool_dlist_base.Iterator_t.advance other k b = some (some a) ∧
          Pool_dlist_base.Iterator_t.advance s' k b' = some (some a) ∧
          value s' a = value other a ∧ live s' a = true) ∧
        Pool_dlist_base.Iterator_t.advance other ul.length b =
          some (Pool_dlist_base.end other) ∧
        Pool_dlist_base.Iterator_t.advance s' ul.length b' = some (Pool_dlist_base.end s')) ∧
      (∀ a ∈ ul, nx s'.mem a ≠ some other.m_used_nodes ∧
        pv s'.mem a ≠ some other.m_used_nodes) ∧
      al s'.mem other.m_used_nodes = false ∧
      (∀ l, FreeChain other l → FreeChain s' l) := by
  have hc := h.core
  have hc' := h'.core
  rw [hd] at hc hc'
  obtain ⟨r, ns, -⟩ := hc.ring rfl
  obtain ⟨r', -, -⟩ := hc'.ring rfl
  obtain ⟨w1, w2, -⟩ := h.dlist_walk hd
  obtain ⟨w1', w2', -⟩ := h'.dlist_walk hd
  have hnu : other.m_used_nodes ∉ ul := fun hm => ns (List.mem_append_right _ hm)
  have hnf : other.m_used_nodes ∉ fl := fun hm => ns (List.mem_append_left _ hm)
  refine ⟨r, r', ⟨_, _, w1, w1', fun k hk => ?_, ?_, ?_⟩, fun a ha => ⟨fun e => ?_, fun e => ?_⟩,
    ?_, fun l hl => ?_⟩
  · have hk1 : (ul ++ [other.m_used_nodes])[k]? = ul[k]? := List.getElem?_append_left hk
    have hk2 : (ul ++ [s'.m_used_nodes])[k]? = ul[k]? := List.getElem?_append_left hk
    have hk3 : ul[k]? = some ul[k] := List.getElem?_eq_getElem hk
    have hm : ul[k] ∈ ul := List.getElem_mem hk
    refine ⟨ul[k], hk3, ?_, ?_, ?_, ?_⟩
    · rw [w2 k (by omega), hk1, hk3]
    · rw [w2' k (by omega), hk2, hk3]
    · simp only [value]
      exact hv _ hm
    · simp only [live, value]
      exact hc'.ul_live _ hm
  · rw [w2 _ (le_refl _)]
    simp [Pool_dlist_base.end]
  · rw [w2' _ (le_refl _)]
    simp [Pool_dlist_base.end]
  · obtain ⟨b, hb, e'⟩ := Seg.nx_mem ul r' a ha
    rw [e'] at e
    cases e
    rcases List.mem_append.1 hb with hb | hb
    · exact hnu hb
    · simp only [List.mem_singleton] at hb
      exact hne hb.symm
  · obtain ⟨b, hb, e'⟩ := Seg.pv_mem ul r' a ha
    rw [e'] at e
    cases e
    rcases List.mem_cons.1 hb with hb | hb
    · exact hne hb.symm
    · exact hnu hb
  · cases hx : al s'.mem other.m_used_nodes with
    | false => rfl
    | true =>
      exfalso
      rcases h'.owned _ hx with e | e | ⟨-, e⟩
      · exact hnf e
      · exact hnu e
      · exact hne e.symm
  · have := Chain.unique hl h.core.chain
    subst this
    exact h'.core.chain

/-- Claim C31: after the move construction or the move assignment of a doubly-linked
dynamic pool `other` (in any reachable state, into a distinct pool), the sequence
`begin()..end()` of the target consists of the same slots in the same order as that of
`other` before the move, with the same values; the ring of the target is closed by the
sentinel of the target, no member links to the sentinel of `other` (which is no storage
of the target), and the free chain of the target is the free chain `other` had. -/
theorem move_keeps_sequence {c : Cfg} {other : State T} {ul : List Nat}
    (h : Reachable c other ul) (hdyn : c.impl.is_static = false)
    (hd : c.impl.is_dlist = true) :
    (∀ (self : Nat) (oob : Nat → Bool), al other.mem self = false →
      ∃ s' o', Pool_xxx.move_ctor c self oob other = some (s', o') ∧
        s'.m_used_nodes = self ∧ UsedRing other ul ∧ UsedRing s' ul ∧
        (∃ b b', Pool_dlist_base.begin other = some b ∧
          Pool_dlist_base.begin s' = some b' ∧
          (∀ k, k < ul.length → ∃ a, ul[k]? = some a ∧
            Pool_dlist_base.Iterator_t.advance other k b = some (some a) ∧
            Pool_dlist_base.Iterator_t.advance s' k b' = some (some a) ∧
            value s' a = value other a ∧ live s' a = true) ∧
          Pool_dlist_base.Iterator_t.advance other ul.length b =
            some (Pool_dlist_base.end other) ∧
          Pool_dlist_base.Iterator_t.advance s' ul.length b' =
            some (Pool_dlist_base.end s')) ∧
        (∀ a ∈ ul, nx s'.mem a ≠ some other.m_used_nodes ∧
          pv s'.mem a ≠ some other.m_used_nodes) ∧
        al s'.mem other.m_used_nodes = false ∧
        (∀ l, FreeChain other l → FreeChain s' l)) ∧
    (∀ (s : State T) (ul0 : List Nat) (fuel : Nat), Reachable c s ul0 →
      capacity c s + (if c.impl.is_block then s.m_blocks.length else 0) ≤ fuel →
      al other.mem s.m_used_nodes = false →
      ∃ s' o', DPool_base.move_assign_operator c fuel s other = some (s', o') ∧
        s'.m_used_nodes = s.m_used_nodes ∧ UsedRing other ul ∧ UsedRing s' ul ∧
        (∃ b b', Pool_dlist_base.begin other = some b ∧
          Pool_dlist_base.begin s' = some b' ∧
          (∀ k, k < ul.length → ∃ a, ul[k]? = some a ∧
            Pool_dlist_base.Iterator_t.advance other k b = some (some a) ∧
            Pool_dlist_base.Iterator_t.advance s' k b' = some (some a) ∧
            value s' a = value other a ∧ live s' a = true) ∧
          Pool_dlist_base.Iterator_t.advance other ul.length b =
            some (Pool_dlist_base.end other) ∧
          Pool_dlist_base.Iterator_t.advance s' ul.length b' =
            some (Pool_dlist_base.end s')) ∧
        (∀ a ∈ ul, nx s'.mem a ≠ some other.m_used_nodes ∧
          pv s'.mem a ≠ some other.m_used_nodes) ∧
        al s'.mem other.m_used_nodes = false ∧
        (∀ l, FreeChain other l → FreeChain s' l)) := by
  obtain ⟨fl, hi, -⟩ := reachable_inv h
  have hsent : ∀ x, al other.mem x = false → x ≠ other.m_used_nodes := by
    intro x hx e
    have hc := hi.core
    rw [hd] at hc
    rw [e, hc.al_sentinel] at hx
    cases hx
  refine ⟨fun self oob hf => ?_, fun s ul0 fuel hs hfuel hf => ?_⟩
  · obtain ⟨s', o', e, i', -, u, -, -, -, hv, -⟩ := hi.move_ctor_total hdyn self oob fun _ => hf
    exact ⟨s', o', e, u, hi.moved_sequence i' hd hv (by rw [u]; exact hsent _ hf)⟩
  · obtain ⟨fl0, his, -⟩ := reachable_inv hs
    obtain ⟨s', o', e, i', -, u, -, -, -, hv, -⟩ :=
      his.move_assign_total_fuel hi hdyn hfuel fun _ => hf
    exact ⟨s', o', e, u hd, hi.moved_sequence i' hd hv (by rw [u hd]; exact hsent _ hf)⟩

theorem move_keeps_sequence_witness :
    Reachable ex_blk ex_blk_s3 [11] ∧ ex_blk.impl.is_static = false ∧
      ex_blk.impl.is_dlist = true ∧ al ex_blk_s3.mem 200 = false ∧
      ∃ s' o', Pool_xxx.move_ctor ex_blk 200 (fun _ => false) ex_blk_s3 = some (s', o') ∧
        s'.m_used_nodes = 200 ∧ UsedRing ex_blk_s3 [11] ∧ UsedRing s' [11] ∧
        (∃ b b', Pool_dlist_base.begin ex_blk_s3 = some b ∧
          Pool_dlist_base.begin s' = some b' ∧
          (∀ k, k < [11].length → ∃ a, [11][k]? = some a ∧
            Pool_dlist_base.Iterator_t.advance ex_blk_s3 k b = some (some a) ∧
            Pool_dlist_base.Iterator_t.advance s' k b' = some (some a) ∧
            value s' a = value ex_blk_s3 a ∧ live s' a = true) ∧
          Pool_dlist_base.Iterator_t.advance ex_blk_s3 [11].length b =
            some (Pool_dlist_base.end ex_blk_s3) ∧
          Pool_dlist_base.Iterator_t.advance s' [11].length b' =
            some (Pool_dlist_base.end s')) ∧
        (∀ a ∈ [11], nx s'.mem a ≠ some ex_blk_s3.m_used_nodes ∧
          pv s'.mem a ≠ some ex_blk_s3.m_used_nodes) ∧
        al s'.mem ex_blk_s3.m_used_nodes = false ∧
        (∀ l, FreeChain ex_blk_s3 l → FreeChain s' l) :=
  ⟨ex_blk_reach3, rfl, rfl, rfl,
    (move_keeps_sequence ex_blk_reach3 rfl rfl).1 200 (fun _ => false) rfl⟩

end move_sequence

section swap
variable {T : Type}

/-- The destructor `~Pool_dtor` of a dynamic pool that is empty with capacity 0 returns,
whatever the fuel. -/
theorem Inv.pool_dtor_empty {c : Cfg} {s : State T} (h : Inv c s [] [])
    (hdyn : c.impl.is_static = false) (hb : c.impl.is_block = true → s.m_blocks = [])
    (trivial : Bool) (fuel : Nat) : ∃ s1, Pool_dtor.dtor c trivial fuel s = some s1 := by
  unfold Pool_dtor.dtor
  split
  · exact ⟨s, rfl⟩
  · simp only [hdyn, Bool.false_eq_true, if_false]
    refine h.dtor_defined_fuel hdyn ?_
    have := h.cap
    simp only [List.length_nil] at this
    rw [this]
    split
    · rename_i hx
      rw [hb hx]
      simp
    · simp

/-- The call `std::swap(a, b)` on two distinct pools of a dynamic class that satisfy the
invariant: every step returns, `a` ends with the lists and the elements of `b` and `b`
with those of `a`; each pool keeps its own sentinel, and the two pools and the address
`tmp` stay apart. -/
theorem Inv.swap_spec {c : Cfg} {a b : State T} {fla ula flb ulb : List Nat}
    (ha : Inv c a fla ula) (hb : Inv c b flb ulb) (hdyn : c.impl.is_static = false)
    (trivial : Bool) (fuel : Nat) (tmp : Nat) (oob : Nat → Bool)
    (h1 : c.impl.is_dlist = true → al a.mem tmp = false)
    (h2 : c.impl.is_dlist = true → al b.mem a.m_used_nodes = false)
    (h3 : c.impl.is_dlist = true → al a.mem b.m_used_nodes = false)
    (h4 : c.impl.is_dlist = true → al b.mem tmp = false) :
    ∃ t a1 a' b1 b' t2, Pool_xxx.move_ctor c tmp oob a = some (t, a1) ∧
      DPool_base.move_assign_operator c fuel a1 b = some (a', b1) ∧
      DPool_base.move_assign_operator c fuel b1 t = some (b', t2) ∧
      std_swap c trivial fuel tmp oob a b = some (a', b') ∧
      Inv c a' flb ulb ∧ Inv c b' fla ula ∧
      (c.impl.is_dlist = true → a'.m_used_nodes = a.m_used_nodes ∧
        b'.m_used_nodes = b.m_used_nodes) ∧
      a'.m_size = b.m_size ∧ a'.m_capacity = b.m_capacity ∧ b'.m_size = a.m_size ∧
      b'.m_capacity = a.m_capacity ∧ (∀ p ∈ ulb, dt a'.mem p = dt b.mem p) ∧
      (∀ p ∈ ula, dt b'.mem p = dt a.mem p) ∧
      (c.impl.is_dlist = true → al a'.mem tmp = false ∧ al b'.mem tmp = false ∧
        al b'.mem a'.m_used_nodes = false ∧ al a'.mem b'.m_used_nodes = false) := by
  obtain ⟨t, a1, e1, it, ia1, ut, zt, ct, -, vt, ua1, -, -, -, ba1⟩ :=
    ha.move_ctor_total hdyn tmp oob h1
  have hf1 : capacity c a1 + (if c.impl.is_block then a1.m_blocks.length else 0) ≤ fuel := by
    have := ia1.cap
    simp only [List.length_nil] at this
    rw [this]
    split
    · rename_i hx
      rw [(ba1 hx).1]
      simp
    · simp
  obtain ⟨a', b1, e2, ia', ib1, ua', za', ca', -, va', ub1, -, -, -, bb1⟩ :=
    ia1.move_assign_total_fuel hb hdyn hf1 (fun hd => by rw [ua1]; exact h2 hd)
  have hf2 : capacity c b1 + (if c.impl.is_block then b1.m_blocks.length else 0) ≤ fuel := by
    have := ib1.cap
    simp only [List.length_nil] at this
    rw [this]
    split
    · rename_i hx
      rw [(bb1 hx).1]
      simp
    · simp
  have hsab : c.impl.is_dlist = true → a.m_used_nodes ≠ b.m_used_nodes := by
    intro hd e
    have hc := hb.core
    rw [hd] at hc
    have := h2 hd
    rw [e, hc.al_sentinel] at this
    cases this
  have hnot : ∀ (x : State T) (fl ul : List Nat), Inv c x fl ul → ∀ y, y ∉ fl ++ ul →
      (c.impl.is_dlist = true → y ≠ x.m_used_nodes) → al x.mem y = false := by
    intro x fl ul hx y hy hs
    cases hal : al x.mem y with
    | false => rfl
    | true =>
      exfalso
      rcases hx.owned y hal with e | e | ⟨hd, e⟩
      · exact hy (List.mem_append_left _ e)
      · exact hy (List.mem_append_right _ e)
      · exact hs hd e
  have htb : c.impl.is_dlist = true → al t.mem b1.m_used_nodes = false := by
    intro hd
    rw [ub1]
    obtain ⟨n1, n2⟩ := ha.fresh_not_mem (h3 hd)
    refine hnot t fla ula it _ n1 fun _ e => ?_
    rw [ut] at e
    have hc := hb.core
    rw [hd] at hc
    have := h4 hd
    rw [← e, hc.al_sentinel] at this
    cases this
  obtain ⟨b', t2, e3, ib', it2, ub', zb', cb', -, vb', -, -, -, -, bt2⟩ :=
    ib1.move_assign_total_fuel it hdyn hf2 htb
  obtain ⟨t3, e4⟩ := it2.pool_dtor_empty hdyn (fun hx => (bt2 hx).1) trivial fuel
  refine ⟨t, a1, a', b1, b', t2, e1, e2, e3, ?_, ia', ib', fun hd => ?_, za', ca', zb'.trans zt,
    cb'.trans ct, va', fun p hp => (vb' p hp).trans (vt p hp), fun hd => ?_⟩
  · simp only [std_swap, e1, e2, e3, e4, Option.bind_eq_bind, Option.some_bind]
  · exact ⟨(ua' hd).trans ua1, (ub' hd).trans ub1⟩
  · have hua : a'.m_used_nodes = a.m_used_nodes := (ua' hd).trans ua1
    have hub : b'.m_used_nodes = b.m_used_nodes := (ub' hd).trans ub1
    obtain ⟨na1, na2⟩ := ha.fresh_not_mem (h1 hd)
    obtain ⟨nb1, nb2⟩ := hb.fresh_not_mem (h4 hd)
    have hca := ha.core
    have hcb := hb.core
    rw [hd] at hca hcb
    refine ⟨hnot a' flb ulb ia' _ nb1 fun _ e => ?_, hnot b' fla ula ib' _ na1 fun _ e => ?_,
      hnot b' fla ula ib' _ ?_ fun _ e => ?_, hnot a' flb ulb ia' _ ?_ fun _ e => ?_⟩
    · rw [hua] at e
      exact na2 hd e
    · rw [hub] at e
      exact nb2 hd e
    · rw [hua]
      exact (hca.ring rfl).2.1
    · rw [hua, hub] at e
      exact hsab hd e
    · rw [hub]
      exact (hcb.ring rfl).2.1
    · rw [hua, hub] at e
      exact hsab hd e.symm

end swap

section swap_claim
variable {T : Type}

/-- Claim C33: `std::swap(a, b)` on two distinct dynamic pools in any reachable states
(move construction of a temporary from `a`, move assignment of `b` into `a`, move
assignment of the temporary into `b`) returns and exchanges the pools: `a` ends with the
`size()`, the `capacity()`, the free chain, the sequence of live elements and the values
that `b` had, and `b` with those of `a`; every element that was alive is alive with its
value, so none is destroyed; a second `std::swap` gives both pools back their own size,
capacity, free chain, sequence and values.  The pools and the temporary are distinct
objects: for the doubly-linked classes no sentinel is storage of another pool. -/
theorem swap_exchanges {c : Cfg} {a b : State T} {ula ulb : List Nat}
    (ha : Reachable c a ula) (hb : Reachable c b ulb) (hdyn : c.impl.is_static = false)
    (trivial : Bool) (fuel : Nat) (tmp : Nat) (oob : Nat → Bool)
    (h1 : c.impl.is_dlist = true → al a.mem tmp = false)
    (h2 : c.impl.is_dlist = true → al b.mem a.m_used_nodes = false)
    (h3 : c.impl.is_dlist = true → al a.mem b.m_used_nodes = false)
    (h4 : c.impl.is_dlist = true → al b.mem tmp = false) :
    ∃ a' b', std_swap c trivial fuel tmp oob a b = some (a', b') ∧
      Pool_base.size a' = Pool_base.size b ∧ capacity c a' = capacity c b ∧
      Pool_base.size b' = Pool_base.size a ∧ capacity c b' = capacity c a ∧
      Reachable c a' ulb ∧ Reachable c b' ula ∧
      (c.impl.is_dlist = true → UsedRing a' ulb ∧ UsedRing b' ula) ∧
      (∀ p ∈ ulb, value a' p = value b p ∧ live a' p = true) ∧
      (∀ p ∈ ula, value b' p = value a p ∧ live b' p = true) ∧
      (∀ l, FreeChain b l → FreeChain a' l) ∧ (∀ l, FreeChain a l → FreeChain b' l) ∧
      ∃ a'' b'', std_swap c trivial fuel tmp oob a' b' = some (a'', b'') ∧
        Pool_base.size a'' = Pool_base.size a ∧ capacity c a'' = capacity c a ∧
        Pool_base.size b'' = Pool_base.size b ∧ capacity c b'' = capacity c b ∧
        Reachable c a'' ula ∧ Reachable c b'' ulb ∧
        (c.impl.is_dlist = true → UsedRing a'' ula ∧ UsedRing b'' ulb ∧
          a''.m_used_nodes = a.m_used_nodes ∧ b''.m_used_nodes = b.m_used_nodes) ∧
        (∀ p ∈ ula, value a'' p = value a p ∧ live a'' p = true) ∧
        (∀ p ∈ ulb, value b'' p = value b p ∧ live b'' p = true) ∧
        (∀ l, FreeChain a l → FreeChain a'' l) ∧ (∀ l, FreeChain b l → FreeChain b'' l) := by
  obtain ⟨fla, ia, -⟩ := reachable_inv ha
  obtain ⟨flb, ib, -⟩ := reachable_inv hb
  have hc : ∀ x : State T, capacity c x = x.m_capacity := fun x => by simp [capacity, hdyn]
  have hring : ∀ (x : State T) (fl ul : List Nat), Inv c x fl ul → c.impl.is_dlist = true →
      UsedRing x ul := by
    intro x fl ul hx hd
    have hcx := hx.core
    rw [hd] at hcx
    exact (hcx.ring rfl).1
  have hchain : ∀ (x y : State T) (fl ul ul2 : List Nat), Inv c x fl ul → Inv c y fl ul2 →
      ∀ l, FreeChain x l → FreeChain y l := by
    intro x y fl ul ul2 hx hy l hl
    have := Chain.unique hl hx.core.chain
    subst this
    exact hy.core.chain
  have hreach : ∀ (x y x' y' t x1 y1 t2 : State T) (ux uy : List Nat), Reachable c x ux →
      Reachable c y uy → Pool_xxx.move_ctor c tmp oob x = some (t, x1) →
      DPool_base.move_assign_operator c fuel x1 y = some (x', y1) →
      DPool_base.move_assign_operator c fuel y1 t = some (y', t2) →
      Reachable c x' uy ∧ Reachable c y' ux := by
    intro x y x' y' t x1 y1 t2 ux uy rx ry e1 e2 e3
    have rt := Reachable.move_ctor_target tmp oob t x1 rx hdyn e1
    have rx1 := Reachable.move_ctor_source tmp oob t x1 rx hdyn e1
    have rx' := Reachable.move_assign_target fuel x' y1 rx1 ry hdyn e2
    have ry1 := Reachable.move_assign_source fuel x' y1 rx1 ry hdyn e2
    exact ⟨rx', Reachable.move_assign_target fuel y' t2 ry1 rt hdyn e3⟩
  obtain ⟨t, a1, a', b1, b', t2, e1, e2, e3, e, ia', ib', hu, za, ca, zb, cb, va, vb, hs⟩ :=
    ia.swap_spec ib hdyn trivial fuel tmp oob h1 h2 h3 h4
  obtain ⟨ra', rb'⟩ := hreach a b a' b' t a1 b1 t2 ula ulb ha hb e1 e2 e3
  obtain ⟨t', a1', a'', b1', b'', t2', e1', e2', e3', e', ia'', ib'', hu', za', ca', zb', cb',
      va', vb', -⟩ :=
    ia'.swap_spec ib' hdyn trivial fuel tmp oob (fun hd => (hs hd).1) (fun hd => (hs hd).2.2.1)
      (fun hd => (hs hd).2.2.2) (fun hd => (hs hd).2.1)
  obtain ⟨ra'', rb''⟩ := hreach a' b' a'' b'' t' a1' b1' t2' ulb ula ra' rb' e1' e2' e3'
  refine ⟨a', b', e, za, by rw [hc, hc]; exact ca, zb, by rw [hc, hc]; exact cb, ra', rb',
    fun hd => ⟨hring a' _ _ ia' hd, hring b' _ _ ib' hd⟩,
    fun p hp => ⟨va p hp, ia'.core.ul_live p hp⟩, fun p hp => ⟨vb p hp, ib'.core.ul_live p hp⟩,
    hchain b a' flb ulb ulb ib ia', hchain a b' fla ula ula ia ib',
    a'', b'', e', za'.trans zb, by rw [hc, hc]; exact ca'.trans cb, zb'.trans za,
    by rw [hc, hc]; exact cb'.trans ca, ra'', rb'',
    fun hd => ⟨hring a'' _ _ ia'' hd, hring b'' _ _ ib'' hd, (hu' hd).1.trans (hu hd).1,
      (hu' hd).2.trans (hu hd).2⟩,
    fun p hp => ⟨(va' p hp).trans (vb p hp), ia''.core.ul_live p hp⟩,
    fun p hp => ⟨(vb' p hp).trans (va p hp), ib''.core.ul_live p hp⟩,
    hchain a a'' fla ula ula ia ia'', hchain b b'' flb ulb ulb ib ib''⟩

theorem swap_exchanges_witness :
    Reachable ex_blk ex_blk_s3 [11] ∧ Reachable ex_blk ex_blk_t1 [401] ∧
      ex_blk.impl.is_static = false ∧ al ex_blk_s3.mem 200 = false ∧
      al ex_blk_t1.mem ex_blk_s3.m_used_nodes = false ∧
      al ex_blk_s3.mem ex_blk_t1.m_used_nodes = false ∧ al ex_blk_t1.mem 200 = false ∧
      Pool_base.size ex_blk_s3 = 1 ∧ capacity ex_blk ex_blk_s3 = 4 ∧
      Pool_base.size ex_blk_t1 = 1 ∧ capacity ex_blk ex_blk_t1 = 2 ∧
      ∃ a' b', std_swap ex_blk false 0 200 (fun _ => false) ex_blk_s3 ex_blk_t1 =
          some (a', b') ∧
        Pool_base.size a' = Pool_base.size ex_blk_t1 ∧
        capacity ex_blk a' = capacity ex_blk ex_blk_t1 ∧
        Pool_base.size b' = Pool_base.size ex_blk_s3 ∧
        capacity ex_blk b' = capacity ex_blk ex_blk_s3 ∧
        Reachable ex_blk a' [401] ∧ Reachable ex_blk b' [11] ∧
        (ex_blk.impl.is_dlist = true → UsedRing a' [401] ∧ UsedRing b' [11]) ∧
        (∀ p ∈ [401], value a' p = value ex_blk_t1 p ∧ live a' p = true) ∧
        (∀ p ∈ [11], value b' p = value ex_blk_s3 p ∧ live b' p = true) ∧
        (∀ l, FreeChain ex_blk_t1 l → FreeChain a' l) ∧
        (∀ l, FreeChain ex_blk_s3 l → FreeChain b' l) ∧
        ∃ a'' b'', std_swap ex_blk false 0 200 (fun _ => false) a' b' = some (a'', b'') ∧
          Pool_base.size a'' = Pool_base.size ex_blk_s3 ∧
          capacity ex_blk a'' = capacity ex_blk ex_blk_s3 ∧
          Pool_base.size b'' = Pool_base.size ex_blk_t1 ∧
          capacity ex_blk b'' = capacity ex_blk ex_blk_t1 ∧
          Reachable ex_blk a'' [11] ∧ Reachable ex_blk b'' [401] ∧
          (ex_blk.impl.is_dlist = true → UsedRing a'' [11] ∧ UsedRing b'' [401] ∧
            a''.m_used_nodes = ex_blk_s3.m_used_nodes ∧
            b''.m_used_nodes = ex_blk_t1.m_used_nodes) ∧
          (∀ p ∈ [11], value a'' p = value ex_blk_s3 p ∧ live a'' p = true) ∧
          (∀ p ∈ [401], value b'' p = value ex_blk_t1 p ∧ live b'' p = true) ∧
          (∀ l, FreeChain ex_blk_s3 l → FreeChain a'' l) ∧
          (∀ l, FreeChain ex_blk_t1 l → FreeChain b'' l) :=
  ⟨ex_blk_reach3, ex_blk_reach_t1, rfl, rfl, rfl, rfl, rfl, rfl, rfl, rfl, rfl,
    swap_exchanges ex_blk_reach3 ex_blk_reach_t1 rfl false 0 200 (fun _ => false)
      (fun _ => rfl) (fun _ => rfl) (fun _ => rfl) (fun _ => rfl)⟩

end swap_claim

section bitset_iterators
variable {T : Type}

/-- The loop of `next()` entered below `N`: a position it returns is the first set bit
above the position it started at, and it is undefined (it reads `m_used[N]`) exactly
when no bit above that position is set. -/
theorem next_loop_min (N : Nat) (u : Nat → Bool) :
    ∀ (k p : Nat), p + k = N → 0 < k →
      (∀ q, SPool_list_bitset.Iterator_t.next_loop N u k p = some q →
        p < q ∧ q < N ∧ u q = true ∧ ∀ i, p < i → i < q → u i = false) ∧
      (SPool_list_bitset.Iterator_t.next_loop N u k p = none ↔
        ∀ i, p < i → i < N → u i = false) := by
  intro k
  induction k with
  | zero => intro p _ hk; omega
  | succ k ih =>
    intro p hp _
    have hlt : p < N := by omega
    rcases Nat.eq_zero_or_pos k with hk | hk
    · subst hk
      simp only [SPool_list_bitset.Iterator_t.next_loop, hlt, if_true,
        bitset_test_ge u (show N ≤ p + 1 by omega), Option.bind_eq_bind, Option.none_bind]
      exact ⟨fun q hq => (by cases hq), fun _ => fun i h1 h2 => (by omega), fun _ => trivial⟩
    · simp only [SPool_list_bitset.Iterator_t.next_loop, hlt, if_true,
        bitset_test_lt u (show p + 1 < N by omega), Option.bind_eq_bind, Option.some_bind]
      cases hu : u (p + 1) with
      | true =>
        simp only [if_true]
        refine ⟨fun q hq => ?_, fun hx => (by cases hx), fun hx => ?_⟩
        · have hq' : p + 1 = q := Option.some.inj hq
          subst hq'
          exact ⟨by omega, by omega, hu, fun i h1 h2 => by omega⟩
        · have := hx (p + 1) (by omega) (by omega)
          rw [hu] at this
          cases this
      | false =>
        simp only [Bool.false_eq_true, if_false]
        obtain ⟨a1, a2⟩ := ih (p + 1) (by omega) hk
        refine ⟨fun q hq => ?_, fun hx i h1 h2 => ?_, fun hx => ?_⟩
        · obtain ⟨b1, b2, b3, b4⟩ := a1 q hq
          refine ⟨by omega, b2, b3, fun i h1 h2 => ?_⟩
          rcases Nat.eq_or_lt_of_le (Nat.succ_le_of_lt h1) with e | e
          · rw [← e]
            exact hu
          · exact b4 i e h2
        · rcases Nat.eq_or_lt_of_le (Nat.succ_le_of_lt h1) with e | e
          · rw [← e]
            exact hu
          · exact a2.1 hx i e h2
        · exact a2.2 fun i h1 h2 => hx i (by omega) h2

/-- The loop of `prev()` ends at the last set bit below the position, or at `N`. -/
theorem prev_loop_max (N : Nat) (u : Nat → Bool) :
    ∀ p : Nat,
      (SPool_list_bitset.Iterator_t.prev_loop N u p < p ∧
        u (SPool_list_bitset.Iterator_t.prev_loop N u p) = true ∧
        ∀ i, SPool_list_bitset.Iterator_t.prev_loop N u p < i → i < p → u i = false) ∨
      (SPool_list_bitset.Iterator_t.prev_loop N u p = N ∧ ∀ i, i < p → u i = false) := by
  intro p
  induction p with
  | zero => exact Or.inr ⟨rfl, fun i hi => by omega⟩
  | succ p ih =>
    simp only [SPool_list_bitset.Iterator_t.prev_loop]
    cases hu : u p with
    | true =>
      simp only [if_true]
      exact Or.inl ⟨by omega, hu, fun i h1 h2 => by omega⟩
    | false =>
      simp only [Bool.false_eq_true, if_false]
      rcases ih with ⟨a1, a2, a3⟩ | ⟨a1, a2⟩
      · refine Or.inl ⟨by omega, a2, fun i h1 h2 => ?_⟩
        rcases Nat.eq_or_lt_of_le (Nat.le_of_lt_succ h2) with e | e
        · rw [e]
          exact hu
        · exact a3 i h1 e
      · refine Or.inr ⟨a1, fun i hi => ?_⟩
        rcases Nat.eq_or_lt_of_le (Nat.le_of_lt_succ hi) with e | e
        · rw [e]
          exact hu
        · exact a2 i e

/-- The steps of the iterators of an `SPool_list_bitset` in any reachable state: when
`next()` (increment) from a position `p < N` returns, it yields the smallest index above
`p` whose bit is set; it is undefined exactly when no bit above `p` is set (it then reads
`m_used[N]`); `next()` at `N` stays at `N`; `prev()` (decrement) from a position
`p <= N` yields the largest index below `p` whose bit is set, or `N` if there is none;
and `prev()` after a `next()` that returns is back at `p` for every position `p` on a
live element. -/
theorem bitset_iterator_steps {c : Cfg} {s : State T} {ul : List Nat}
    (h : Reachable c s ul) (hc : c.impl = Impl.SPool_list_bitset) :
    (∀ p, p < c.N → ∀ q, SPool_list_bitset.Iterator_t.next c s p = some q →
      p < q ∧ q < c.N ∧ s.m_used q = true ∧ ∀ i, p < i → i < q → s.m_used i = false) ∧
    (∀ p, p < c.N →
      (SPool_list_bitset.Iterator_t.next c s p = none ↔
        ∀ i, p < i → i < c.N → s.m_used i = false)) ∧
    SPool_list_bitset.Iterator_t.next c s c.N = some c.N ∧
    (∀ p, p ≤ c.N →
      (SPool_list_bitset.Iterator_t.prev c s p < p ∧
        s.m_used (SPool_list_bitset.Iterator_t.prev c s p) = true ∧
        ∀ i, SPool_list_bitset.Iterator_t.prev c s p < i → i < p → s.m_used i = false) ∨
      (SPool_list_bitset.Iterator_t.prev c s p = c.N ∧ ∀ i, i < p → s.m_used i = false)) ∧
    (∀ p, p < c.N → (s.m_used p = true ↔ live s p = true)) ∧
    (∀ p, p < c.N → live s p = true →
      ∀ q, SPool_list_bitset.Iterator_t.next c s p = some q →
        SPool_list_bitset.Iterator_t.prev c s q = p) := by
  obtain ⟨fl, hi, hb⟩ := reachable_inv h
  have hbits : ∀ i, i < c.N → (s.m_used i = true ↔ i ∈ ul) := hb hc
  have hlive : ∀ p, p < c.N → (s.m_used p = true ↔ live s p = true) := by
    intro p hp
    rw [hbits p hp]
    constructor
    · intro hm
      exact hi.core.ul_live p hm
    · intro hl
      exact hi.mem_ul_of_live hl
  have hnext : ∀ p, p < c.N → ∀ q, SPool_list_bitset.Iterator_t.next c s p = some q →
      p < q ∧ q < c.N ∧ s.m_used q = true ∧ ∀ i, p < i → i < q → s.m_used i = false :=
    fun p hp => (next_loop_min c.N s.m_used (c.N - p) p (by omega) (by omega)).1
  have hnone : ∀ p, p < c.N →
      (SPool_list_bitset.Iterator_t.next c s p = none ↔
        ∀ i, p < i → i < c.N → s.m_used i = false) :=
    fun p hp => (next_loop_min c.N s.m_used (c.N - p) p (by omega) (by omega)).2
  have hprev : ∀ p, p ≤ c.N →
      (SPool_list_bitset.Iterator_t.prev c s p < p ∧
        s.m_used (SPool_list_bitset.Iterator_t.prev c s p) = true ∧
        ∀ i, SPool_list_bitset.Iterator_t.prev c s p < i → i < p → s.m_used i = false) ∨
      (SPool_list_bitset.Iterator_t.prev c s p = c.N ∧ ∀ i, i < p → s.m_used i = false) := by
    intro p hp
    unfold SPool_list_bitset.Iterator_t.prev
    split
    · rename_i hem
      refine Or.inr ⟨rfl, fun i hip => ?_⟩
      have hul : ul = [] := by
        have hz : s.m_size = 0 := by simpa [Pool_base.empty, Pool_base.size] using hem
        rw [hi.size] at hz
        exact List.length_eq_zero.1 hz
      cases hx : s.m_used i with
      | false => rfl
      | true =>
        have := (hbits i (by omega)).1 hx
        rw [hul] at this
        cases this
    · exact prev_loop_max c.N s.m_used p
  refine ⟨hnext, hnone, next_at_end c s (le_refl _), hprev, hlive, fun p hp hl q hq => ?_⟩
  have hu : s.m_used p = true := (hlive p hp).2 hl
  obtain ⟨n1, n2, -, n4⟩ := hnext p hp q hq
  rcases hprev q (by omega) with ⟨r1, r2, r3⟩ | ⟨-, r2⟩
  · rcases Nat.lt_trichotomy (SPool_list_bitset.Iterator_t.prev c s q) p with hlt | heq | hgt
    · have := r3 p hlt n1
      rw [hu] at this
      cases this
    · exact heq
    · have := n4 _ hgt r1
      rw [r2] at this
      cases this
  · have := r2 p n1
    rw [hu] at this
    cases this

theorem bitset_iterator_steps_witness :
    Reachable ex_bitset ex_bitset_s2 [1, 0] ∧ ex_bitset.impl = Impl.SPool_list_bitset ∧
      SPool_list_bitset.Iterator_t.next ex_bitset ex_bitset_s2 0 = some 1 ∧
      SPool_list_bitset.Iterator_t.next ex_bitset ex_bitset_s2 1 = none ∧
      SPool_list_bitset.Iterator_t.next ex_bitset ex_bitset_s2 2 = some 2 ∧
      SPool_list_bitset.Iterator_t.prev ex_bitset ex_bitset_s2 2 = 1 ∧
      SPool_list_bitset.Iterator_t.prev ex_bitset ex_bitset_s2 1 = 0 ∧
      SPool_list_bitset.Iterator_t.prev ex_bitset ex_bitset_s2 0 = 2 ∧
      live ex_bitset_s2 0 = true ∧
      (∀ p, p < ex_bitset.N → live ex_bitset_s2 p = true →
        ∀ q, SPool_list_bitset.Iterator_t.next ex_bitset ex_bitset_s2 p = some q →
          SPool_list_bitset.Iterator_t.prev ex_bitset ex_bitset_s2 q = p) :=
  ⟨ex_bitset_reach2, rfl, rfl, rfl, rfl, rfl, rfl, rfl, rfl,
    (bitset_iterator_steps ex_bitset_reach2 rfl).2.2.2.2.2⟩

/-- Claim C38, the code evaluated at the failing input: in an `SPool_list_bitset<T, 2>`
whose only element is in slot `1` (the state after one `create`), `begin()` is at
position `1 < N`, and `next()` from there reads `m_used[2]`: index `2` is `N`, outside
the `N` bits of the vector, so the increment is undefined.  From position `0` it reads
`m_used[1]` only. -/
theorem bitset_next_reads_past_end :
    Reachable ex_bitset ex_bitset_s1 [1] ∧ ex_bitset.N = 2 ∧
      SPool_list_bitset.begin ex_bitset ex_bitset_s1 = some 1 ∧
      SPool_list_bitset.Iterator_t.set_first_pos_reads ex_bitset ex_bitset_s1 = [0, 1] ∧
      SPool_list_bitset.Iterator_t.next_reads ex_bitset ex_bitset_s1 1 = [2] ∧
      ex_bitset.N ∈ SPool_list_bitset.Iterator_t.next_reads ex_bitset ex_bitset_s1 1 ∧
      SPool_list_bitset.Iterator_t.next_reads ex_bitset ex_bitset_s1 0 = [1] ∧
      bitset_test ex_bitset.N ex_bitset_s1.m_used 2 = none ∧
      SPool_list_bitset.Iterator_t.next ex_bitset ex_bitset_s1 1 = none :=
  ⟨ex_bitset_reach1, rfl, rfl, rfl, rfl, by decide, rfl, rfl, rfl⟩

end bitset_iterators

section spool_list_for_each
variable {T : Type}

/-- The reads of `next()` end with the read at the position that `next()` returns, or
with the read of `m_used[N]` when `next()` is undefined. -/
theorem next_loop_reads_last (N : Nat) (u : Nat → Bool) :
    ∀ (k p : Nat), p + k = N → 0 < k →
      (SPool_list_bitset.Iterator_t.next_loop_reads N u k p).getLast? =
        some ((SPool_list_bitset.Iterator_t.next_loop N u k p).getD N) := by
  intro k
  induction k with
  | zero => intro p _ hk; omega
  | succ k ih =>
    intro p hp _
    have hlt : p < N := by omega
    rcases Nat.eq_zero_or_pos k with hk | hk
    · subst hk
      have hN : p + 1 = N := by omega
      simp only [SPool_list_bitset.Iterator_t.next_loop_reads,
        SPool_list_bitset.Iterator_t.next_loop, hlt, if_true,
        bitset_test_ge u (show N ≤ p + 1 by omega), Option.bind_eq_bind, Option.none_bind,
        Option.getD_none]
      cases u (p + 1) <;> simp [hN]
    · simp only [SPool_list_bitset.Iterator_t.next_loop_reads,
        SPool_list_bitset.Iterator_t.next_loop, hlt, if_true,
        bitset_test_lt u (show p + 1 < N by omega), Option.bind_eq_bind, Option.some_bind]
      cases hu : u (p + 1) with
      | true => simp
      | false =>
        simp only [Bool.false_eq_true, if_false]
        have := ih (p + 1) (by omega) hk
        rw [List.getLast?_cons, this]
        rfl

/-- Method `SPool_list::for_each` is made of its two loops. -/
theorem spool_list_for_each_eq {α : Type} (c : Cfg) (fuel : Nat)
    (f : State T → α → Nat → Option (State T × α)) (s : State T) (acc : α) :
    SPool_list.for_each c fuel f s acc =
      if Pool_base.empty s then some (s, acc)
      else if Pool_base.full c s then SPool_list.for_each_full c f s acc
      else SPool_list.for_each_filter c fuel f s acc := rfl

/-- The loop of `SPool_list::for_each` for a full pool, with a callback that does not
change the pool. -/
theorem for_each_full_pure {α : Type} (g : α → Nat → α) (s : State T) :
    ∀ (nodes : List Nat) (acc : α),
      nodes.foldlM (fun (r : State T × α) node => some (r.1, g r.2 node)) (s, acc) =
        some (s, nodes.foldl g acc) := by
  intro nodes
  induction nodes with
  | nil => intro acc; rfl
  | cons a l ih =>
    intro acc
    simp only [List.foldlM_cons, Option.bind_eq_bind, Option.some_bind, List.foldl_cons]
    exact ih (g acc a)

/-- Claim C39: for an `SPool_list` in any reachable state, with the free chain `fl`:
`node_is_used(node)` returns, and it is true exactly when `node` is not on the free
chain, which for a node of `m_pool` is exactly when it holds a live element.  When the
pool is full the free chain is empty, and the loop for a full pool (every node of
`m_pool`) visits the same nodes in the same order as the loop that tests every node with
`node_is_used`.  In every state `for_each` visits exactly the occupied nodes of `m_pool`,
in index order.  The callback does not change the pool. -/
theorem spool_list_for_each_paths {c : Cfg} {s : State T} {ul : List Nat}
    (h : Reachable c s ul) (hc : c.impl = Impl.SPool_list) :
    ∃ fl, FreeChain s fl ∧
      (∀ (node fuel : Nat), fl.length ≤ fuel →
        SPool_list.node_is_used fuel s node = some (decide (node ∉ fl))) ∧
      (∀ node, node < c.N → (node ∉ fl ↔ live s node = true)) ∧
      (Pool_base.full c s = true → fl = [] ∧
        ∀ (α : Type) (g : α → Nat → α) (acc : α) (fuel : Nat),
          SPool_list.for_each_full c (fun s acc a => some (s, g acc a)) s acc =
            some (s, (array_nodes 0 c.N).foldl g acc) ∧
          SPool_list.for_each_filter c fuel (fun s acc a => some (s, g acc a)) s acc =
            some (s, (array_nodes 0 c.N).foldl g acc)) ∧
      ∀ (α : Type) (g : α → Nat → α) (acc : α) (fuel : Nat), fl.length ≤ fuel →
        SPool_list.for_each c fuel (fun s acc a => some (s, g acc a)) s acc =
          some (s, ((array_nodes 0 c.N).filter fun a => live s a).foldl g acc) := by
  obtain ⟨fl, hi, -⟩ := reachable_inv h
  have hs : c.impl.is_static = true := by rw [hc]; rfl
  have hperm := hi.slots_perm (Or.inl hs)
  simp only [slots, hs, if_true] at hperm
  have hnd := hi.core.nodup
  have hused : ∀ (node fuel : Nat), fl.length ≤ fuel →
      SPool_list.node_is_used fuel s node = some (decide (node ∉ fl)) :=
    fun node fuel hf => Chain.node_is_used node fl _ fuel hi.core.chain hf
  have hlive : ∀ node, node < c.N → (node ∉ fl ↔ live s node = true) := by
    intro node hn
    have hm : node ∈ fl ++ ul := hperm.mem_iff.2 (by simp [array_nodes, hn])
    constructor
    · intro hnf
      rcases List.mem_append.1 hm with e | e
      · exact absurd e hnf
      · exact hi.core.ul_live node e
    · intro hl hf
      have := hi.core.fl_free node hf
      simp only [live, value, this] at hl
      cases hl
  have hfilter : (array_nodes 0 c.N).filter (fun a => decide (a ∉ fl)) =
      (array_nodes 0 c.N).filter fun a => live s a := by
    apply List.filter_congr
    intro a ha
    have ha' : a < c.N := by simpa [array_nodes] using ha
    have := hlive a ha'
    by_cases hx : a ∉ fl
    · simp [hx, this.1 hx]
    · have hl : live s a = false := by
        cases hy : live s a with
        | false => rfl
        | true => exact absurd (this.2 hy) hx
      simp [hx, hl]
  refine ⟨fl, hi.core.chain, hused, hlive, fun hfull => ?_, fun α g acc fuel hf => ?_⟩
  · have hfl : fl = [] := by
      have h1 := hi.size
      have h2 := hi.cap
      simp only [Pool_base.full, Pool_base.size, beq_iff_eq] at hfull
      rw [hfull] at h1
      exact List.length_eq_zero.1 (by omega)
    refine ⟨hfl, fun α g acc fuel => ⟨for_each_full_pure g s _ acc, ?_⟩⟩
    unfold SPool_list.for_each_filter
    rw [foldlM_test_pure s g (SPool_list.node_is_used fuel) (fun a => decide (a ∉ fl))
      (array_nodes 0 c.N) acc (fun a _ => hused a fuel (by rw [hfl]; exact Nat.zero_le _))]
    congr 2
    rw [hfl]
    simp
  · rw [hi.spool_list_for_each_pure hc g acc hf, hfilter]

theorem ex_slist_create2 : create ex_slist ex_slist_s1 8 none = some (some 0, ex_slist_s2) :=
  rfl

theorem ex_slist_reach2 : Reachable ex_slist ex_slist_s2 [1, 0] :=
  Reachable.create 8 none (some 0) ex_slist_s2 ex_slist_reach1 ex_slist_create2

theorem spool_list_for_each_paths_witness :
    (Reachable ex_slist ex_slist_s1 [1] ∧ ex_slist.impl = Impl.SPool_list ∧
      Pool_base.full ex_slist ex_slist_s1 = false ∧
      ∃ fl, FreeChain ex_slist_s1 fl ∧
        (∀ (node fuel : Nat), fl.length ≤ fuel →
          SPool_list.node_is_used fuel ex_slist_s1 node = some (decide (node ∉ fl))) ∧
        (∀ node, node < ex_slist.N → (node ∉ fl ↔ live ex_slist_s1 node = true)) ∧
        ∀ (α : Type) (g : α → Nat → α) (acc : α) (fuel : Nat), fl.length ≤ fuel →
          SPool_list.for_each ex_slist fuel (fun s acc a => some (s, g acc a))
              ex_slist_s1 acc =
            some (ex_slist_s1,
              ((array_nodes 0 ex_slist.N).filter fun a => live ex_slist_s1 a).foldl g acc)) ∧
    (Reachable ex_slist ex_slist_s2 [1, 0] ∧ Pool_base.full ex_slist ex_slist_s2 = true ∧
      ∀ (α : Type) (g : α → Nat → α) (acc : α) (fuel : Nat),
        SPool_list.for_each_full ex_slist (fun s acc a => some (s, g acc a))
            ex_slist_s2 acc =
          some (ex_slist_s2, (array_nodes 0 ex_slist.N).foldl g acc) ∧
        SPool_list.for_each_filter ex_slist fuel (fun s acc a => some (s, g acc a))
            ex_slist_s2 acc =
          some (ex_slist_s2, (array_nodes 0 ex_slist.N).foldl g acc)) :=
  ⟨⟨ex_slist_reach1, rfl, rfl, by
      obtain ⟨fl, h1, h2, h3, -, h5⟩ := spool_list_for_each_paths ex_slist_reach1 rfl
      exact ⟨fl, h1, h2, h3, h5⟩⟩,
    ex_slist_reach2, rfl, by
      obtain ⟨fl, -, -, -, h4, -⟩ := spool_list_for_each_paths ex_slist_reach2 rfl
      exact (h4 rfl).2⟩

end spool_list_for_each

section constructor_throws
variable {T : Type}

/-- Writing `junk` over the `next` word of a node and then the value it had gives the
memory back. -/
theorem store_next_restore {m : Mem T} {a : Nat} {n : Node T} (h : m a = some n)
    (junk : Option Nat) :
    ∃ m1, store_next m a junk = some m1 ∧ nx m1 a = junk ∧
      store_next m1 a n.next = some m := by
  refine ⟨Function.update m a (some { n with next := junk }), by simp [store_next, h],
    by simp [nx], ?_⟩
  simp only [store_next, Function.update_same, Option.map_some', Function.update_idem]
  congr 1
  have : ({ { n with next := junk } with next := n.next } : Node T) = n := by
    cases n; rfl
  rw [this, ← h]
  exact Function.update_eq_self a m

/-- Claim C34: in any reachable state, if the constructor of the element throws inside
`create_obj` (with whatever it has written over the storage of the node), the call
leaves exactly the state it was entered in: `m_free_nodes` and every node of the free
chain, `size()`, the used ring and the elements are the same, and for the bitset pool,
whose `create` lets the exception pass, no bit of `m_used` is set.  For the singly-linked
algorithm the word `m_free_nodes->next` is overwritten by the constructor and then
restored from the value that `saver` has cached.  With no free node `create_obj` returns
`nullptr` and the constructor is not called. -/
theorem create_obj_throw_restores {c : Cfg} {s : State T} {ul : List Nat}
    (h : Reachable c s ul) (junk : Option Nat) :
    create_obj_throw c s junk = some (s.m_free_nodes.isSome, s) ∧
    (c.impl = Impl.SPool_list_bitset →
      SPool_list_bitset.create_throw s junk = some (s.m_free_nodes.isSome, s)) ∧
    (c.impl.is_dlist = false → ∀ a, s.m_free_nodes = some a →
      ∃ m1, store_next s.mem a junk = some m1 ∧ nx m1 a = junk ∧
        store_next m1 a (nx s.mem a) = some s.mem) ∧
    ∀ s', create_obj_throw c s junk = some (true, s') →
      s'.m_free_nodes = s.m_free_nodes ∧ (∀ fl, FreeChain s fl → FreeChain s' fl) ∧
      Pool_base.size s' = Pool_base.size s ∧ s'.m_used = s.m_used ∧
      (∀ q, value s' q = value s q) := by
  obtain ⟨fl, hi, -⟩ := reachable_inv h
  have hlist : Pool_list_base.create_obj_throw s junk = some (s.m_free_nodes.isSome, s) := by
    unfold Pool_list_base.create_obj_throw
    cases hf : s.m_free_nodes with
    | none => rfl
    | some a =>
      obtain ⟨fl', rfl⟩ := hi.fl_ne_nil_of_free hf
      obtain ⟨n, hn⟩ := al_eq_true_iff.1 (hi.core.al_fl a (List.mem_cons_self _ _))
      obtain ⟨m1, e1, -, e2⟩ := store_next_restore hn junk
      simp only [hn, Option.bind_eq_bind, Option.some_bind, e1, e2, Option.isSome_some]
      rw [← hf]
  have hmain : create_obj_throw c s junk = some (s.m_free_nodes.isSome, s) := by
    unfold create_obj_throw
    split
    · unfold Pool_dlist_base.create_obj_throw
      cases hf : s.m_free_nodes with
      | none => rfl
      | some a =>
        obtain ⟨fl', rfl⟩ := hi.fl_ne_nil_of_free hf
        obtain ⟨n, hn⟩ := al_eq_true_iff.1 (hi.core.al_fl a (List.mem_cons_self _ _))
        simp only [hn, Option.bind_eq_bind, Option.some_bind, Option.isSome_some]
    · exact hlist
  refine ⟨hmain, fun _ => ?_, fun _ a hf => ?_, fun s' e => ?_⟩
  · unfold SPool_list_bitset.create_throw
    cases hf : s.m_free_nodes with
    | none => rfl
    | some a =>
      rw [hf] at hlist
      simp only [hlist, Option.bind_eq_bind, Option.some_bind, Option.isSome_some, if_true]
  · obtain ⟨fl', rfl⟩ := hi.fl_ne_nil_of_free hf
    obtain ⟨n, hn⟩ := al_eq_true_iff.1 (hi.core.al_fl a (List.mem_cons_self _ _))
    have : nx s.mem a = n.next := by simp [nx, hn]
    rw [this]
    exact store_next_restore hn junk
  · rw [hmain] at e
    simp only [Option.some.injEq, Prod.mk.injEq] at e
    obtain ⟨-, rfl⟩ := e
    exact ⟨rfl, fun _ hfl => hfl, rfl, rfl, fun _ => rfl⟩

theorem create_obj_throw_restores_witness :
    Reachable ex_bitset ex_bitset_s1 [1] ∧ ex_bitset_s1.m_free_nodes = some 0 ∧
      ex_bitset.impl = Impl.SPool_list_bitset ∧
      create_obj_throw ex_bitset ex_bitset_s1 (some 99) = some (true, ex_bitset_s1) ∧
      SPool_list_bitset.create_throw ex_bitset_s1 (some 99) = some (true, ex_bitset_s1) ∧
      ∃ m1, store_next ex_bitset_s1.mem 0 (some 99) = some m1 ∧ nx m1 0 = some 99 ∧
        store_next m1 0 (nx ex_bitset_s1.mem 0) = some ex_bitset_s1.mem :=
  ⟨ex_bitset_reach1, rfl, rfl, (create_obj_throw_restores ex_bitset_reach1 (some 99)).1,
    (create_obj_throw_restores ex_bitset_reach1 (some 99)).2.1 rfl,
    (create_obj_throw_restores ex_bitset_reach1 (some 99)).2.2.1 rfl 0 rfl⟩

end constructor_throws

section teardown_log
variable {T : Type}

/-- The loop of `Pool_dlist_base::for_each` with the recording callback follows the run
with the plain callback, and a property of the state and the record that every
destructor call keeps holds at the end. -/
theorem for_each_loop_log {f : State T → Nat → Option (State T)}
    {P : State T → List (Nat × T) → Prop}
    (hstep : ∀ s log a s', P s log → f s a = some s' →
      ∃ v, value s a = some v ∧ P s' (log ++ [(a, v)])) (used : Nat) :
    ∀ (fuel : Nat) (s : State T) (log : List (Nat × T)) (iter : Option Nat) (sf : State T),
      P s log →
      Pool_dlist_base.for_each_loop (fun s (_ : Unit) obj => (f s obj).map fun s => (s, ()))
        used fuel s () iter = some (sf, ()) →
      ∃ log', Pool_dlist_base.for_each_loop (destroy_obj_log f) used fuel s log iter =
        some (sf, log') ∧ P sf log' := by
  intro fuel
  induction fuel with
  | zero =>
    intro s log iter sf hP e
    simp only [Pool_dlist_base.for_each_loop] at e ⊢
    split at e
    · rename_i hi
      simp only [Option.some.injEq, Prod.mk.injEq, and_true] at e
      subst e
      exact ⟨log, by simp [hi], hP⟩
    · cases e
  | succ fuel ih =>
    intro s log iter sf hP e
    simp only [Pool_dlist_base.for_each_loop] at e ⊢
    split at e
    · rename_i hi
      simp only [Option.some.injEq, Prod.mk.injEq, and_true] at e
      subst e
      exact ⟨log, by simp [hi], hP⟩
    · rename_i hi
      simp only [Option.bind_eq_bind, Option.bind_eq_some, Option.map_eq_some'] at e
      obtain ⟨it, hit, n, hn, r, ⟨s1, e1, hr⟩, e2⟩ := e
      subst hr
      subst hit
      obtain ⟨v, hv, hP1⟩ := hstep s log it s1 hP e1
      obtain ⟨log', e3, hP2⟩ := ih s1 _ n.next sf hP1 e2
      refine ⟨log', ?_, hP2⟩
      simp only [hi, if_false, Option.bind_eq_bind, Option.some_bind, hn,
        destroy_obj_log, hv, e1]
      exact e3

/-- A loop over slots with a recording step that follows the plain step. -/
theorem foldlM_log {P : State T → List (Nat × T) → Prop}
    (stepU : State T × Unit → Nat → Option (State T × Unit))
    (stepL : State T × List (Nat × T) → Nat → Option (State T × List (Nat × T)))
    (h : ∀ s log a r, P s log → stepU (s, ()) a = some r →
      ∃ log', stepL (s, log) a = some (r.1, log') ∧ P r.1 log') :
    ∀ (nodes : List Nat) (s : State T) (log : List (Nat × T)) (sf : State T), P s log →
      nodes.foldlM stepU (s, ()) = some (sf, ()) →
      ∃ log', nodes.foldlM stepL (s, log) = some (sf, log') ∧ P sf log' := by
  intro nodes
  induction nodes with
  | nil =>
    intro s log sf hP e
    simp only [List.foldlM_nil, Option.pure_def, Option.some.injEq, Prod.mk.injEq,
      and_true] at e
    subst e
    exact ⟨log, rfl, hP⟩
  | cons a l ih =>
    intro s log sf hP e
    simp only [List.foldlM_cons, Option.bind_eq_bind, Option.bind_eq_some] at e
    obtain ⟨r, e1, e2⟩ := e
    obtain ⟨log1, e3, hP1⟩ := h s log a r hP e1
    obtain ⟨log', e4, hP2⟩ := ih r.1 log1 sf hP1 e2
    refine ⟨log', ?_, hP2⟩
    simp only [List.foldlM_cons, Option.bind_eq_bind, e3, Option.some_bind]
    exact e4

/-- The state of a teardown in progress: `log` records the elements destroyed so far,
each with the value it had in the state `s0` the teardown began in, no element twice,
and the elements of `s0` that are not recorded are alive in `s` with their values. -/
theorem Inv.log_step {c : Cfg} {s0 : State T} {ul0 : List Nat} {s s' : State T}
    {log : List (Nat × T)} {a : Nat}
    (hP : ∃ fl ul, Inv c s fl ul ∧ (log.map Prod.fst ++ ul).Perm ul0 ∧
      (∀ p ∈ log, value s0 p.1 = some p.2) ∧ ∀ b ∈ ul, value s b = value s0 b)
    (e : destroy_obj c s a = some s') :
    ∃ v, value s a = some v ∧
      ∃ fl ul, Inv c s' fl ul ∧ ((log ++ [(a, v)]).map Prod.fst ++ ul).Perm ul0 ∧
        (∀ p ∈ log ++ [(a, v)], value s0 p.1 = some p.2) ∧
        ∀ b ∈ ul, value s' b = value s0 b := by
  obtain ⟨fl, ul, hi, hperm, hlog, hval⟩ := hP
  have hlive := destroy_obj_live c e
  have ha : a ∈ ul := hi.mem_ul_of_live hlive
  obtain ⟨v, hv⟩ := Option.isSome_iff_exists.1 hlive
  obtain ⟨m', e', -, d, i'⟩ := hi.of_destroy_obj ha
  rw [e] at e'
  have hs' := Option.some.inj e'
  subst hs'
  have hnd : ul.Nodup := (List.nodup_append.1 hi.core.nodup).2.1
  refine ⟨v, hv, a :: fl, ul.erase a, i', ?_, ?_, ?_⟩
  · simp only [List.map_append, List.map_cons, List.map_nil, List.append_assoc,
      List.singleton_append]
    exact (List.Perm.append_left _ (List.perm_cons_erase ha).symm).trans hperm
  · intro p hp
    rcases List.mem_append.1 hp with hp | hp
    · exact hlog p hp
    · simp only [List.mem_singleton] at hp
      subst hp
      show value s0 a = some v
      rw [← hval a ha]
      exact hv
  · intro b hb
    have hb' : b ∈ ul := List.mem_of_mem_erase hb
    have hba : b ≠ a := fun e => (List.Nodup.mem_erase_iff hnd).1 hb |>.1 e
    rw [← hval b hb']
    show dt m' b = dt s.mem b
    rw [d, Function.update_noteq hba]

/-- Method `destroy_all` with the record of the destructor calls returns the state that
`destroy_all` returns, and the record lists the elements that were alive, each once and
with its value. -/
theorem Inv.destroy_all_log_spec {c : Cfg} {s sf : State T} {fl ul : List Nat}
    (h : Inv c s fl ul) (h1 : c.impl ≠ Impl.Pool_list) (h2 : c.impl ≠ Impl.Pool_list_block)
    {fuel : Nat} (e : destroy_all c fuel s = some sf) (hdead : ∀ a, dt sf.mem a = none) :
    ∃ log, destroy_all_log c fuel s = some (sf, log) ∧ (log.map Prod.fst).Perm ul ∧
      ∀ p ∈ log, value s p.1 = some p.2 := by
  let P : State T → List (Nat × T) → Prop := fun s1 log =>
    ∃ fl1 ul1, Inv c s1 fl1 ul1 ∧ (log.map Prod.fst ++ ul1).Perm ul ∧
      (∀ p ∈ log, value s p.1 = some p.2) ∧ ∀ b ∈ ul1, value s1 b = value s b
  have hP0 : P s [] := ⟨fl, ul, h, by simp, by simp, fun _ _ => rfl⟩
  have hfin : ∀ (s1 : State T) (log : List (Nat × T)), (∀ a, dt s1.mem a = none) →
      P s1 log → (log.map Prod.fst).Perm ul ∧ ∀ p ∈ log, value s p.1 = some p.2 := by
    rintro s1 log hd ⟨fl1, ul1, i1, hperm, hlog, -⟩
    have : ul1 = [] := by
      cases ul1 with
      | nil => rfl
      | cons a l =>
        have := i1.core.ul_live a (List.mem_cons_self _ _)
        rw [hd a] at this
        cases this
    subst this
    exact ⟨by simpa using hperm, hlog⟩
  have hstepD : c.impl.is_dlist = true → ∀ s1 log a s', P s1 log →
      Pool_dlist_base.destroy_obj s1 a = some s' →
      ∃ v, value s1 a = some v ∧ P s' (log ++ [(a, v)]) := by
    intro hd s1 log a s' hP e1
    rw [destroy_obj_dlist hd] at e1
    exact Inv.log_step hP e1
  have hstepL : c.impl.is_dlist = false → ∀ s1 log a s', P s1 log →
      Pool_list_base.destroy_obj s1 a = some s' →
      ∃ v, value s1 a = some v ∧ P s' (log ++ [(a, v)]) := by
    intro hd s1 log a s' hP e1
    have e2 : destroy_obj c s1 a = some s' := by simpa [destroy_obj, hd] using e1
    exact Inv.log_step hP e2
  have hdl : c.impl.is_dlist = true →
      Pool_dlist_base.destroy_all fuel s = some sf →
      ∃ log, Pool_dlist_base.destroy_all_log fuel s = some (sf, log) ∧ P sf log := by
    intro hd e1
    simp only [Pool_dlist_base.destroy_all, Pool_dlist_base.for_each, Option.bind_eq_bind,
      Option.map_eq_some', Option.bind_eq_some] at e1
    obtain ⟨⟨s2, u⟩, ⟨n, hn, e2⟩, hs2⟩ := e1
    simp only at hs2
    subst hs2
    obtain ⟨log, e3, hP⟩ := for_each_loop_log (hstepD hd) s.m_used_nodes fuel s [] n.next s2
      hP0 e2
    exact ⟨log, by simp only [Pool_dlist_base.destroy_all_log, Pool_dlist_base.for_each, hn,
      Option.bind_eq_bind, Option.some_bind, e3], hP⟩
  unfold destroy_all at e
  unfold destroy_all_log
  cases hc : c.impl
  · -- SPool_list
    have hd : c.impl.is_dlist = false := by rw [hc]; rfl
    rw [hc] at e
    simp only [SPool_list.destroy_all, SPool_list.for_each, Option.map_eq_some'] at e
    obtain ⟨⟨s2, u⟩, e2, hs2⟩ := e
    simp only at hs2
    subst hs2
    simp only [SPool_list.destroy_all_log, SPool_list.for_each]
    split at e2
    · rename_i hem
      simp only [Option.some.injEq, Prod.mk.injEq, and_true] at e2
      subst e2
      exact ⟨[], by rw [if_pos hem], hfin s [] hdead hP0⟩
    · rename_i hem
      rw [if_neg hem]
      split at e2
      · rename_i hfull
        rw [if_pos hfull]
        obtain ⟨log, e3, hP⟩ := foldlM_log (P := P) _
          (fun r node => destroy_obj_log Pool_list_base.destroy_obj r.1 r.2 node)
          (fun s1 log a r hP e1 => by
            simp only [Option.map_eq_some'] at e1
            obtain ⟨s', e1, rfl⟩ := e1
            obtain ⟨v, hv, hP'⟩ := hstepL hd s1 log a s' hP e1
            exact ⟨_, by simp only [destroy_obj_log, hv, e1, Option.bind_eq_bind,
              Option.some_bind], hP'⟩) _ s [] s2 hP0 e2
        exact ⟨log, e3, hfin s2 log hdead hP⟩
      · rename_i hfull
        rw [if_neg hfull]
        obtain ⟨log, e3, hP⟩ := foldlM_log (P := P) _
          (fun r node => do
            let used ← SPool_list.node_is_used fuel r.1 node
            if used then destroy_obj_log Pool_list_base.destroy_obj r.1 r.2 node else some r)
          (fun s1 log a r hP e1 => by
            simp only [Option.bind_eq_bind, Option.bind_eq_some] at e1
            obtain ⟨used, hu, e1⟩ := e1
            cases used with
            | false =>
              simp only [Bool.false_eq_true, if_false, Option.some.injEq] at e1
              subst e1
              exact ⟨log, by simp [hu], hP⟩
            | true =>
              simp only [if_true, Option.map_eq_some'] at e1
              obtain ⟨s', e1, rfl⟩ := e1
              obtain ⟨v, hv, hP'⟩ := hstepL hd s1 log a s' hP e1
              exact ⟨_, by simp only [hu, destroy_obj_log, hv, e1, Option.bind_eq_bind,
                Option.some_bind, if_true], hP'⟩) _ s [] s2 hP0 e2
        exact ⟨log, e3, hfin s2 log hdead hP⟩
  · -- SPool_list_bitset
    have hd : c.impl.is_dlist = false := by rw [hc]; rfl
    rw [hc] at e
    simp only [SPool_list_bitset.destroy_all, SPool_list_bitset.for_each,
      Option.map_eq_some'] at e
    obtain ⟨⟨s2, u⟩, e2, hs2⟩ := e
    simp only at hs2
    simp only [SPool_list_bitset.destroy_all_log, SPool_list_bitset.for_each]
    have hPreset : ∀ log, P s2 log → P sf log := by
      rintro log ⟨fl1, ul1, i1, r⟩
      subst hs2
      exact ⟨fl1, ul1, i1.congr rfl rfl rfl rfl rfl rfl, r⟩
    split at e2
    · rename_i hem
      simp only [Option.some.injEq, Prod.mk.injEq, and_true] at e2
      subst e2
      refine ⟨[], by rw [if_pos hem]; simp [hs2], hfin sf [] hdead (hPreset [] hP0)⟩
    · rename_i hem
      rw [if_neg hem]
      obtain ⟨log, e3, hP⟩ := foldlM_log (P := P) _
        (fun r i => if r.1.m_used i then
          destroy_obj_log Pool_list_base.destroy_obj r.1 r.2 i else some r)
        (fun s1 log a r hP e1 => by
          split at e1
          · rename_i hu
            have hu' : s1.m_used a = true := hu
            simp only [Option.map_eq_some'] at e1
            obtain ⟨s', e1, rfl⟩ := e1
            obtain ⟨v, hv, hP'⟩ := hstepL hd s1 log a s' hP e1
            exact ⟨_, by simp only [destroy_obj_log, hv, e1, Option.bind_eq_bind,
              Option.some_bind]; rw [if_pos hu'], hP'⟩
          · rename_i hu
            have hu' : ¬ s1.m_used a = true := hu
            simp only [Option.some.injEq] at e1
            subst e1
            exact ⟨log, by simp only []; rw [if_neg hu'], hP⟩) _ s [] s2 hP0 e2
      exact ⟨log, by simp [e3, hs2], hfin sf log hdead (hPreset log hP)⟩
  · have hd : c.impl.is_dlist = true := by rw [hc]; rfl
    rw [hc] at e
    obtain ⟨log, e3, hP⟩ := hdl hd e
    exact ⟨log, e3, hfin sf log hdead hP⟩
  · exact absurd hc h1
  · have hd : c.impl.is_dlist = true := by rw [hc]; rfl
    rw [hc] at e
    obtain ⟨log, e3, hP⟩ := hdl hd e
    exact ⟨log, e3, hfin sf log hdead hP⟩
  · exact absurd hc h2
  · have hd : c.impl.is_dlist = true := by rw [hc]; rfl
    rw [hc] at e
    obtain ⟨log, e3, hP⟩ := hdl hd e
    exact ⟨log, e3, hfin sf log hdead hP⟩

end teardown_log

section teardown
variable {T : Type}

/-- Claim C35: when the destructor of the pool is generated (`POOL_DTOR_OFF` is not set
and, for a static pool, `T` is not trivially destructible), tearing down a pool that
keeps track of its used nodes (every class but `Pool_list` and `Pool_list_block`), in any
reachable state, returns, and the record `log` of the calls of `std::destroy_at` it makes
lists every element that was alive exactly once (its addresses are a permutation of the
used nodes `ul`, so there are `size()` calls), each call made on an element that holds
the value it had before the teardown.  All the calls are made by `destroy_all`, which
leaves every node allocated: the state `s1` it returns has the storage of `s`, and only
then does a dynamic pool release its nodes or blocks.  Afterwards no element is alive,
`size() == 0`, and for a dynamic pool no storage but the sentinel is allocated,
`capacity() == 0` and no block is left. -/
theorem teardown_destroys_all {c : Cfg} {s : State T} {ul : List Nat}
    (h : Reachable c s ul) (trivial : Bool)
    (hflag : flag_set c.Flags POOL_DTOR_OFF = false)
    (htriv : c.impl.is_static = true → trivial = false)
    (h1 : c.impl ≠ Impl.Pool_list) (h2 : c.impl ≠ Impl.Pool_list_block) (fuel : Nat)
    (hfuel : capacity c s + (if c.impl.is_block then s.m_blocks.length else 0) ≤ fuel) :
    ∃ s' log, Pool_dtor.dtor_log c trivial fuel s = some (s', log) ∧
      Pool_dtor.dtor c trivial fuel s = some s' ∧
      (log.map Prod.fst).Perm ul ∧ (log.map Prod.fst).Nodup ∧
      (∀ p ∈ log, value s p.1 = some p.2) ∧ log.length = Pool_base.size s ∧
      (∃ s1, destroy_all_log c fuel s = some (s1, log) ∧ al s1.mem = al s.mem ∧
        (∀ a, live s1 a = false) ∧
        (c.impl.is_static = true → s' = s1) ∧
        (c.impl.is_static = false → AlocBase.dtor c fuel s1 = some s')) ∧
      (∀ a ∈ ul, live s a = true ∧ live s' a = false) ∧ (∀ a, live s' a = false) ∧
      Pool_base.size s' = 0 ∧
      (c.impl.is_static = false →
        capacity c s' = 0 ∧ (∀ a, al s'.mem a = true → a = s'.m_used_nodes) ∧
        (c.impl.is_block = true → s'.m_blocks = [])) := by
  obtain ⟨fl, hi, hb⟩ := reachable_inv h
  have hoff : flag_set (Pool_dtor.flags c trivial) POOL_DTOR_OFF = false := by
    unfold Pool_dtor.flags SPool_base_flags
    split
    · rename_i hs
      rw [htriv hs]
      simpa using hflag
    · exact hflag
  have hall : ∀ s' : State T, (∀ a, dt s'.mem a = none) →
      (∀ a ∈ ul, live s a = true ∧ live s' a = false) ∧ (∀ a, live s' a = false) := by
    intro s' hd
    refine ⟨fun a ha => ⟨hi.core.ul_live a ha, ?_⟩, fun a => ?_⟩ <;>
      simp [live, value, hd a]
  have huln : ul.Nodup := (List.nodup_append.1 hi.core.nodup).2.1
  obtain ⟨sf, fl', e, i', -, -, hsent, d, hfl', -⟩ :=
    hi.destroy_all_exact hb h1 h2 (show capacity c s ≤ fuel by omega)
  have hdead : ∀ a, dt sf.mem a = none := by
    intro a
    rw [d a]
    split
    · rfl
    · rename_i hnot
      cases hx : dt s.mem a with
      | none => rfl
      | some v => exact absurd (hi.mem_ul_of_live (by rw [hx]; rfl)) hnot
  have hal : al sf.mem = al s.mem := by
    funext a
    rw [Bool.eq_iff_iff]
    constructor
    · intro ha
      rcases i'.owned a ha with hx | hx | ⟨hd, rfl⟩
      · rcases (hfl' a).1 hx with hy | hy
        · exact hi.core.al_fl a hy
        · exact hi.core.al_ul a hy
      · cases hx
      · rw [hsent hd]
        have hc := hi.core
        rw [hd] at hc
        exact hc.al_sentinel
    · intro ha
      rcases hi.owned a ha with hx | hx | ⟨hd, rfl⟩
      · exact i'.core.al_fl a ((hfl' a).2 (Or.inl hx))
      · exact i'.core.al_fl a ((hfl' a).2 (Or.inr hx))
      · rw [← hsent hd]
        have hc := i'.core
        rw [hd] at hc
        exact hc.al_sentinel
  obtain ⟨log, elog, hperm, hval⟩ := hi.destroy_all_log_spec h1 h2 e hdead
  have hlen : log.length = Pool_base.size s := by
    rw [Pool_base.size, hi.size, ← hperm.length_eq, List.length_map]
  have hlnd : (log.map Prod.fst).Nodup := hperm.symm.nodup_iff.1 huln
  rcases Bool.eq_false_or_eq_true c.impl.is_static with hs | hs
  · refine ⟨sf, log, ?_, ?_, hperm, hlnd, hval, hlen,
      ⟨sf, elog, hal, (hall sf hdead).2, fun _ => rfl, fun hx => ?_⟩,
      (hall sf hdead).1, (hall sf hdead).2, i'.size, fun hx => ?_⟩
    · simp only [Pool_dtor.dtor_log, hoff, Bool.false_eq_true, if_false, hs, if_true]
      exact elog
    · simp only [Pool_dtor.dtor, hoff, Bool.false_eq_true, if_false, hs, if_true]
      exact e
    · rw [hs] at hx
      cases hx
    · rw [hs] at hx
      cases hx
  · have hd : c.impl.is_dlist = true := by
      cases hc : c.impl <;> simp_all [Impl.is_static, Impl.is_dlist]
    obtain ⟨s1, e1, -, o1, -, d1, z1, c1, b1, -⟩ := hi.dlist_dtor_total hs hd hfuel
    have e2 : AlocBase.dtor c fuel sf = some s1 := by
      simpa only [Pool_xxx.dtor, e, Option.bind_eq_bind, Option.some_bind] using e1
    refine ⟨s1, log, ?_, ?_, hperm, hlnd, hval, hlen,
      ⟨sf, elog, hal, (hall sf hdead).2, fun hx => ?_, fun _ => e2⟩,
      (hall s1 d1).1, (hall s1 d1).2, z1, fun _ => ⟨?_, o1, b1⟩⟩
    · simp only [Pool_dtor.dtor_log, hoff, Bool.false_eq_true, if_false, hs,
        Pool_xxx.dtor_log, elog, Option.bind_eq_bind, Option.some_bind, e2]
    · simp only [Pool_dtor.dtor, hoff, Bool.false_eq_true, if_false, hs]
      exact e1
    · rw [hs] at hx
      cases hx
    · simp only [capacity, hs, Bool.false_eq_true, if_false]
      exact c1

theorem teardown_log_example :
    (Pool_dtor.dtor_log ex_dlist false 2 ex_dlist_s2).map Prod.snd = some [(1, 7), (0, 8)] ∧
    (Pool_dtor.dtor_log ex_bitset false 2 ex_bitset_s1).map Prod.snd = some [(1, 7)] ∧
    (Pool_dtor.dtor_log ex_blk false 6 ex_blk_s3).map Prod.snd = some [(11, 7)] :=
  ⟨rfl, rfl, rfl⟩

theorem teardown_destroys_all_witness :
    (Reachable ex_blk ex_blk_s3 [11] ∧ flag_set ex_blk.Flags POOL_DTOR_OFF = false ∧
      ex_blk.impl ≠ Impl.Pool_list ∧ ex_blk.impl ≠ Impl.Pool_list_block ∧
      capacity ex_blk ex_blk_s3 +
        (if ex_blk.impl.is_block then ex_blk_s3.m_blocks.length else 0) ≤ 6 ∧
      ∃ s' log, Pool_dtor.dtor_log ex_blk false 6 ex_blk_s3 = some (s', log) ∧
        Pool_dtor.dtor ex_blk false 6 ex_blk_s3 = some s' ∧ log = [(11, 7)] ∧
        (log.map Prod.fst).Perm [11] ∧ (∀ p ∈ log, value ex_blk_s3 p.1 = some p.2) ∧
        (∀ a, live s' a = false) ∧ Pool_base.size s' = 0 ∧ capacity ex_blk s' = 0 ∧
        s'.m_blocks = []) ∧
    (Reachable ex_dlist ex_dlist_s2 [1, 0] ∧ flag_set ex_dlist.Flags POOL_DTOR_OFF = false ∧
      capacity ex_dlist ex_dlist_s2 ≤ 2 ∧
      ∃ s' log, Pool_dtor.dtor_log ex_dlist false 2 ex_dlist_s2 = some (s', log) ∧
        Pool_dtor.dtor ex_dlist false 2 ex_dlist_s2 = some s' ∧ log = [(1, 7), (0, 8)] ∧
        (log.map Prod.fst).Perm [1, 0] ∧ (∀ p ∈ log, value ex_dlist_s2 p.1 = some p.2) ∧
        log.length = Pool_base.size ex_dlist_s2 ∧
        (∀ a, live s' a = false) ∧ Pool_base.size s' = 0) :=
  ⟨⟨ex_blk_reach3, rfl, by decide, by decide, by decide, by
      obtain ⟨s', log, e, e', p, -, v, -, -, -, a2, z, dyn⟩ :=
        teardown_destroys_all ex_blk_reach3 false rfl (fun hs => by cases hs) (by decide)
          (by decide) 6 (by decide)
      have hl : log = [(11, 7)] := by
        have := teardown_log_example.2.2
        rw [e] at this
        exact Option.some.inj this
      exact ⟨s', log, e, e', hl, p, v, a2, z, (dyn rfl).1, (dyn rfl).2.2 rfl⟩⟩,
    ex_dlist_reach2, rfl, by decide, by
      obtain ⟨s', log, e, e', p, -, v, n, -, -, a2, z, -⟩ :=
        teardown_destroys_all ex_dlist_reach2 false rfl (fun _ => rfl) (by decide)
          (by decide) 2 (by decide)
      have hl : log = [(1, 7), (0, 8)] := by
        have := teardown_log_example.1
        rw [e] at this
        exact Option.some.inj this
      exact ⟨s', log, e, e', hl, p, v, n, a2, z⟩⟩

end teardown

section counting
variable {T : Type}

theorem counted_result_pure {α : Type} (a : α) : (pure a : Counted α).result = some a := rfl

theorem counted_result_access {α : Type} (k : Nat) (x : Option α) :
    (Counted.access k x).result = x := by
  cases x <;> rfl

theorem counted_result_bind {α β : Type} (x : Counted α) (f : α → Counted β) :
    (x >>= f).result = Option.bind x.result fun a => (f a).result := by
  rcases x with _ | ⟨a, k⟩
  · rfl
  · show Option.map Prod.fst (Option.map _ (f a)) = Option.map Prod.fst (f a)
    cases f a <;> rfl

theorem counted_steps_pure {α : Type} (a : α) (n : Nat) : (pure a : Counted α).steps ≤ n :=
  Nat.zero_le n

theorem counted_steps_access {α : Type} (k : Nat) (x : Option α) :
    (Counted.access k x).steps ≤ k := by
  cases x <;> simp [Counted.access, Counted.steps]

theorem counted_steps_bind {α β : Type} {x : Counted α} {f : α → Counted β} (k j n : Nat)
    (hx : x.steps ≤ k) (hf : ∀ a, (f a).steps ≤ j) (hn : k + j ≤ n) :
    (x >>= f).steps ≤ n := by
  rcases x with _ | ⟨a, i⟩
  · exact Nat.zero_le n
  · have h1 := hf a
    have h2 : i ≤ k := hx
    show (Option.map Prod.snd (Option.map (fun q => (q.1, i + q.2)) (f a))).getD 0 ≤ n
    cases hfa : f a with
    | none => exact Nat.zero_le n
    | some q =>
      rw [hfa] at h1
      have h3 : q.2 ≤ j := h1
      show i + q.2 ≤ n
      omega

theorem counted_result_foldlM {α β : Type} (f : α → β → Counted α) (g : α → β → Option α)
    (hfg : ∀ s a, (f s a).result = g s a) (l : List β) (s : α) :
    (l.foldlM f s).result = l.foldlM g s := by
  induction l generalizing s with
  | nil => rfl
  | cons a l ih =>
    rw [List.foldlM_cons, List.foldlM_cons, counted_result_bind, hfg]
    cases g s a with
    | none => rfl
    | some s1 => exact ih s1

theorem counted_steps_foldlM {α β : Type} (f : α → β → Counted α) (k : Nat)
    (hf : ∀ s a, (f s a).steps ≤ k) (l : List β) (s : α) :
    (l.foldlM f s).steps ≤ k * l.length := by
  induction l generalizing s with
  | nil => exact Nat.zero_le _
  | cons a l ih =>
    rw [List.foldlM_cons]
    refine counted_steps_bind k (k * l.length) _ (hf s a) (fun s1 => ih s1) ?_
    simp [Nat.mul_succ, Nat.add_comm]

theorem insert_steps_spec (m : Mem T) (node prev next : Nat) :
    (dlist_head.insert_steps m node prev next).result = dlist_head.insert m node prev next ∧
    (dlist_head.insert_steps m node prev next).steps ≤ 4 :=
  ⟨by simp only [dlist_head.insert_steps, counted_result_bind, counted_result_access]; rfl,
    counted_steps_bind 1 3 4 (counted_steps_access _ _) (fun _ =>
      counted_steps_bind 1 2 3 (counted_steps_access _ _) (fun _ =>
        counted_steps_bind 1 1 2 (counted_steps_access _ _) (fun _ =>
          counted_steps_access _ _) (by omega)) (by omega)) (by omega)⟩

theorem push_back_steps_spec (m : Mem T) (this node : Nat) :
    (dlist_head.push_back_steps m this node).result = dlist_head.push_back m this node ∧
    (dlist_head.push_back_steps m this node).steps ≤ 5 :=
  ⟨by
    simp only [dlist_head.push_back_steps, counted_result_bind, counted_result_access,
      (insert_steps_spec _ _ _ _).1]
    rfl,
    counted_steps_bind 1 4 5 (counted_steps_access _ _) (fun _ =>
      counted_steps_bind 0 4 4 (counted_steps_access _ _) (fun _ =>
        (insert_steps_spec _ _ _ _).2) (by omega)) (by omega)⟩

theorem del_steps_spec (m : Mem T) (prev next : Nat) :
    (dlist_head.del_steps m prev next).result = dlist_head.del m prev next ∧
    (dlist_head.del_steps m prev next).steps ≤ 2 :=
  ⟨by simp only [dlist_head.del_steps, counted_result_bind, counted_result_access]; rfl,
    counted_steps_bind 1 1 2 (counted_steps_access _ _) (fun _ =>
      counted_steps_access _ _) (by omega)⟩

theorem remove_steps_spec (m : Mem T) (this : Nat) :
    (dlist_head.remove_steps m this).result = dlist_head.remove m this ∧
    (dlist_head.remove_steps m this).steps ≤ 3 :=
  ⟨by
    simp only [dlist_head.remove_steps, dlist_head.del_node_steps, counted_result_bind,
      counted_result_access, (del_steps_spec _ _ _).1]
    rfl,
    counted_steps_bind 1 2 3 (counted_steps_access _ _) (fun _ =>
      counted_steps_bind 0 2 2 (counted_steps_access _ _) (fun _ =>
        counted_steps_bind 0 2 2 (counted_steps_access _ _) (fun _ =>
          (del_steps_spec _ _ _).2) (by omega)) (by omega)) (by omega)⟩

theorem add_to_free_nodes_steps_spec (s : State T) (node : Nat) :
    (add_to_free_nodes_steps s node).result = add_to_free_nodes s node ∧
    (add_to_free_nodes_steps s node).steps ≤ 1 :=
  ⟨by
    simp only [add_to_free_nodes_steps, counted_result_bind, counted_result_access,
      counted_result_pure]
    rfl,
    counted_steps_bind 1 0 1 (counted_steps_access _ _) (fun _ =>
      counted_steps_pure _ _) (by omega)⟩

theorem add_to_free_nodes_array_steps_spec (s : State T) (nodes : List Nat) :
    (add_to_free_nodes_array_steps s nodes).result = add_to_free_nodes_array s nodes ∧
    (add_to_free_nodes_array_steps s nodes).steps ≤ nodes.length := by
  refine ⟨counted_result_foldlM _ _ (fun s a => (add_to_free_nodes_steps_spec s a).1) _ _, ?_⟩
  have := counted_steps_foldlM add_to_free_nodes_steps 1
    (fun s a => (add_to_free_nodes_steps_spec s a).2) nodes s
  simpa [add_to_free_nodes_array_steps] using this

theorem alloc_block_steps_spec (m : Mem T) (b N : Nat) :
    (alloc_block_steps m b N).result = alloc_block m b N ∧
    (alloc_block_steps m b N).steps ≤ N := by
  refine ⟨counted_result_foldlM _ _ (fun m a => counted_result_access 1 (alloc_node m a)) _ _,
    ?_⟩
  have := counted_steps_foldlM (fun (m : Mem T) a => Counted.access 1 (alloc_node m a)) 1
    (fun m a => counted_steps_access 1 (alloc_node m a)) (array_nodes b N) m
  simpa [alloc_block_steps, array_nodes] using this

theorem list_create_obj_steps_spec (s : State T) (v : T) :
    (Pool_list_base.create_obj_steps s v).result = Pool_list_base.create_obj s v ∧
    (Pool_list_base.create_obj_steps s v).steps ≤ 2 := by
  cases hf : s.m_free_nodes with
  | none =>
    simp only [Pool_list_base.create_obj_steps, Pool_list_base.create_obj, hf]
    exact ⟨rfl, Nat.zero_le _⟩
  | some free_node =>
    simp only [Pool_list_base.create_obj_steps, Pool_list_base.create_obj, hf]
    refine ⟨?_, counted_steps_bind 1 1 2 (counted_steps_access _ _) (fun _ =>
      counted_steps_bind 1 0 1 (counted_steps_access _ _) (fun _ =>
        counted_steps_pure _ _) (by omega)) (by omega)⟩
    simp only [counted_result_bind, counted_result_access, counted_result_pure]
    rfl

theorem list_destroy_obj_steps_spec (s : State T) (obj : Nat) :
    (Pool_list_base.destroy_obj_steps s obj).result = Pool_list_base.destroy_obj s obj ∧
    (Pool_list_base.destroy_obj_steps s obj).steps ≤ 3 :=
  ⟨by
    simp only [Pool_list_base.destroy_obj_steps, counted_result_bind, counted_result_access,
      (add_to_free_nodes_steps_spec _ _).1]
    rfl,
    counted_steps_bind 1 2 3 (counted_steps_access _ _) (fun _ =>
      counted_steps_bind 0 2 2 (counted_steps_access _ _) (fun _ =>
        counted_steps_bind 1 1 2 (counted_steps_access _ _) (fun _ =>
          (add_to_free_nodes_steps_spec _ _).2) (by omega)) (by omega)) (by omega)⟩

theorem dlist_create_obj_steps_spec (s : State T) (v : T) :
    (Pool_dlist_base.create_obj_steps s v).result = Pool_dlist_base.create_obj s v ∧
    (Pool_dlist_base.create_obj_steps s v).steps ≤ 7 := by
  cases hf : s.m_free_nodes with
  | none =>
    simp only [Pool_dlist_base.create_obj_steps, Pool_dlist_base.create_obj, hf]
    exact ⟨rfl, Nat.zero_le _⟩
  | some free_node =>
    simp only [Pool_dlist_base.create_obj_steps, Pool_dlist_base.create_obj, hf]
    refine ⟨?_, counted_steps_bind 1 6 7 (counted_steps_access _ _) (fun _ =>
      counted_steps_bind 1 5 6 (counted_steps_access _ _) (fun _ =>
        counted_steps_bind 5 0 5 (push_back_steps_spec _ _ _).2 (fun _ =>
          counted_steps_pure _ _) (by omega)) (by omega)) (by omega)⟩
    simp only [counted_result_bind, counted_result_access, counted_result_pure,
      (push_back_steps_spec _ _ _).1]
    rfl

theorem dlist_destroy_obj_steps_spec (s : State T) (obj : Nat) :
    (Pool_dlist_base.destroy_obj_steps s obj).result = Pool_dlist_base.destroy_obj s obj ∧
    (Pool_dlist_base.destroy_obj_steps s obj).steps ≤ 6 :=
  ⟨by
    simp only [Pool_dlist_base.destroy_obj_steps, counted_result_bind, counted_result_access,
      (add_to_free_nodes_steps_spec _ _).1, (remove_steps_spec _ _).1]
    rfl,
    counted_steps_bind 1 5 6 (counted_steps_access _ _) (fun _ =>
      counted_steps_bind 0 5 5 (counted_steps_access _ _) (fun _ =>
        counted_steps_bind 1 4 5 (counted_steps_access _ _) (fun _ =>
          counted_steps_bind 3 1 4 (remove_steps_spec _ _).2 (fun _ =>
            (add_to_free_nodes_steps_spec _ _).2) (by omega)) (by omega)) (by omega))
      (by omega)⟩

theorem bitset_create_steps_spec (s : State T) (v : T) :
    (SPool_list_bitset.create_steps s v).result = SPool_list_bitset.create s v ∧
    (SPool_list_bitset.create_steps s v).steps ≤ 3 := by
  cases hf : s.m_free_nodes with
  | none =>
    simp only [SPool_list_bitset.create_steps, SPool_list_bitset.create, hf]
    exact ⟨rfl, Nat.zero_le _⟩
  | some free_node =>
    simp only [SPool_list_bitset.create_steps, SPool_list_bitset.create, hf]
    refine ⟨?_, counted_steps_bind 2 1 3 (list_create_obj_steps_spec _ _).2 (fun _ =>
      counted_steps_access _ _) (by omega)⟩
    simp only [counted_result_bind, counted_result_access, (list_create_obj_steps_spec _ _).1]
    rfl

theorem bitset_destroy_steps_spec (s : State T) (obj : Option Nat) :
    (SPool_list_bitset.destroy_steps s obj).result = SPool_list_bitset.destroy s obj ∧
    (SPool_list_bitset.destroy_steps s obj).steps ≤ 4 := by
  cases obj with
  | none => exact ⟨rfl, Nat.zero_le _⟩
  | some a =>
    refine ⟨?_, counted_steps_bind 1 3 4 (counted_steps_access _ _) (fun _ =>
      (list_destroy_obj_steps_spec _ _).2) (by omega)⟩
    simp only [SPool_list_bitset.destroy_steps, counted_result_bind, counted_result_access,
      (list_destroy_obj_steps_spec _ _).1]
    rfl

theorem create_obj_steps_spec (c : Cfg) (s : State T) (v : T) :
    (create_obj_steps c s v).result = create_obj c s v ∧
    (create_obj_steps c s v).steps ≤ 7 := by
  unfold create_obj_steps create_obj
  split
  · exact dlist_create_obj_steps_spec s v
  · exact ⟨(list_create_obj_steps_spec s v).1,
      Nat.le_trans (list_create_obj_steps_spec s v).2 (by omega)⟩

theorem add_node_steps_spec (c : Cfg) (s : State T) (a : Option Nat) :
    (add_node_steps c s a).result = add_node c s a ∧
    (add_node_steps c s a).steps ≤ if c.impl.is_block then 2 * c.N else 2 := by
  unfold add_node_steps add_node
  split
  · cases a with
    | none => exact ⟨rfl, Nat.zero_le _⟩
    | some b =>
      have hA : ∀ s1 : State T,
          (add_to_free_nodes_array_steps s1 (array_nodes b c.N)).steps ≤ c.N := fun s1 => by
        have := (add_to_free_nodes_array_steps_spec s1 (array_nodes b c.N)).2
        simpa [array_nodes] using this
      refine ⟨?_, counted_steps_bind c.N c.N _ (alloc_block_steps_spec _ _ _).2 (fun _ =>
        counted_steps_bind c.N 0 c.N (hA _) (fun _ =>
          counted_steps_pure _ _) (by omega)) (by omega)⟩
      simp only [Pool_block_allocator.add_node_steps, counted_result_bind,
        counted_result_pure, (alloc_block_steps_spec _ _ _).1,
        (add_to_free_nodes_array_steps_spec _ _).1]
      rfl
  · cases a with
    | none => exact ⟨rfl, Nat.zero_le _⟩
    | some b =>
      refine ⟨?_, counted_steps_bind 1 1 2 (counted_steps_access _ _) (fun _ =>
        counted_steps_bind 1 0 1 (add_to_free_nodes_steps_spec _ _).2 (fun _ =>
          counted_steps_pure _ _) (by omega)) (by omega)⟩
      simp only [Pool_node_allocator.add_node_steps, counted_result_bind,
        counted_result_pure, counted_result_access, (add_to_free_nodes_steps_spec _ _).1]
      rfl

theorem dpool_create_steps_spec (c : Cfg) (s : State T) (v : T) (a : Option Nat) :
    (DPool_base.create_steps c s v a).result = DPool_base.create c s v a ∧
    (DPool_base.create_steps c s v a).steps ≤
      7 + (if !flag_set c.Flags POOL_FIXED_CAPACITY && Pool_base.full c s
        then (if c.impl.is_block then 2 * c.N else 2) else 0) := by
  unfold DPool_base.create_steps DPool_base.create
  split
  · refine ⟨?_, counted_steps_bind _ 7 _ (add_node_steps_spec c s a).2 (fun _ =>
      (create_obj_steps_spec _ _ _).2) (by omega)⟩
    simp only [counted_result_bind, (add_node_steps_spec _ _ _).1,
      (create_obj_steps_spec _ _ _).1]
    rfl
  · refine ⟨?_, counted_steps_bind 0 7 _ (counted_steps_pure _ _) (fun _ =>
      (create_obj_steps_spec _ _ _).2) (by omega)⟩
    simp only [counted_result_bind, counted_result_pure, (create_obj_steps_spec _ _ _).1]
    rfl

theorem create_steps_spec (c : Cfg) (s : State T) (v : T) (a : Option Nat) :
    (create_steps c s v a).result = create c s v a ∧
    (create_steps c s v a).steps ≤
      7 + (if grows c s then (if c.impl.is_block then 2 * c.N else 2) else 0) := by
  unfold create_steps create grows
  cases hc : c.impl
  · exact ⟨(create_obj_steps_spec c s v).1, Nat.le_trans (create_obj_steps_spec c s v).2
      (by omega)⟩
  · exact ⟨(bitset_create_steps_spec s v).1, Nat.le_trans (bitset_create_steps_spec s v).2
      (by omega)⟩
  · exact ⟨(create_obj_steps_spec c s v).1, Nat.le_trans (create_obj_steps_spec c s v).2
      (by omega)⟩
  all_goals
    have := dpool_create_steps_spec c s v a
    simpa [hc, Impl.is_static] using this

theorem destroy_steps_spec (c : Cfg) (s : State T) (obj : Option Nat) :
    (destroy_steps c s obj).result = destroy c s obj ∧ (destroy_steps c s obj).steps ≤ 6 := by
  have hl : (Pool_list_base.destroy_steps s obj).result = Pool_list_base.destroy s obj ∧
      (Pool_list_base.destroy_steps s obj).steps ≤ 6 := by
    cases obj with
    | none => exact ⟨rfl, Nat.zero_le _⟩
    | some a => exact ⟨(list_destroy_obj_steps_spec s a).1,
        Nat.le_trans (list_destroy_obj_steps_spec s a).2 (by omega)⟩
  have hd : (Pool_dlist_base.destroy_steps s obj).result = Pool_dlist_base.destroy s obj ∧
      (Pool_dlist_base.destroy_steps s obj).steps ≤ 6 := by
    cases obj with
    | none => exact ⟨rfl, Nat.zero_le _⟩
    | some a => exact dlist_destroy_obj_steps_spec s a
  have hb := bitset_destroy_steps_spec s obj
  unfold destroy_steps destroy
  cases hc : c.impl <;>
    first
    | exact hl
    | exact hd
    | exact ⟨hb.1, Nat.le_trans hb.2 (by omega)⟩

theorem create_steps_example :
    Counted.steps (create_steps ex_dlist ex_dlist_s1 8 none) = 7 ∧
    Counted.steps (create_steps ex_bitset ex_bitset_s0 7 none) = 3 ∧
    Counted.steps (create_steps ex_blk ex_blk_s0 11 (some 10)) = 7 + 2 * ex_blk.N ∧
    Counted.steps (destroy_steps ex_dlist ex_dlist_s2 (some 0)) = 6 ∧
    Counted.steps (destroy_steps ex_bitset ex_bitset_s1 (some 1)) = 4 := by
  refine ⟨?_, ?_, ?_, ?_, ?_⟩ <;> rfl

/-- Claim C36: `create` and `destroy(const T*)` make a number of accesses to nodes and
to bits of `m_used` that is bounded by a constant, whatever the state of the pool (its
size, its capacity, the length of its free chain and of its used ring): with every
access counted, the counted methods compute what `create` and `destroy` compute, `create`
makes no more than 7 accesses when it does not grow the pool, no more than 9 when it
allocates one node, no more than `7 + 2 * N` when it allocates one block of `N` nodes,
and `destroy` makes no more than 6.  The methods `size`, `capacity`, `empty` and `full`
make no access: their answers are functions of the two counters `m_size` and
`m_capacity` of the pool object. -/
theorem create_destroy_constant_steps (c : Cfg) (s : State T) :
    (∀ v a, (create_steps c s v a).result = create c s v a ∧
      (create_steps c s v a).steps ≤
        7 + (if grows c s then (if c.impl.is_block then 2 * c.N else 2) else 0)) ∧
    (∀ obj, (destroy_steps c s obj).result = destroy c s obj ∧
      (destroy_steps c s obj).steps ≤ 6) ∧
    (∀ v a r k, create_steps c s v a = some (r, k) →
      create c s v a = some r ∧
      k ≤ 7 + (if grows c s then (if c.impl.is_block then 2 * c.N else 2) else 0)) ∧
    (∀ obj r k, destroy_steps c s obj = some (r, k) → destroy c s obj = some r ∧ k ≤ 6) ∧
    (∀ s1 : State T, s1.m_size = s.m_size → s1.m_capacity = s.m_capacity →
      Pool_base.size s1 = Pool_base.size s ∧ capacity c s1 = capacity c s ∧
      Pool_base.empty s1 = Pool_base.empty s ∧ Pool_base.full c s1 = Pool_base.full c s) := by
  refine ⟨fun v a => create_steps_spec c s v a, fun obj => destroy_steps_spec c s obj,
    fun v a r k e => ?_, fun obj r k e => ?_, fun s1 h1 h2 => ?_⟩
  · have h := create_steps_spec c s v a
    rw [e] at h
    exact ⟨h.1.symm, h.2⟩
  · have h := destroy_steps_spec c s obj
    rw [e] at h
    exact ⟨h.1.symm, h.2⟩
  · simp [Pool_base.size, capacity, Pool_base.empty, Pool_base.full, h1, h2]

end counting

end pool_impl
